import Mathlib

/-!
# Rapid Type Analysis and devirtualization (liboo, `src-cpp/rta.c`)

A shallow embedding of the analysis pass `rta_run` and of the rewriting pass
`rta_devirtualize_calls`, and of the default memory model of
`src-cpp/dmemory.c`, followed by theorems about them.

Modelling conventions.

* Entities, class types, graphs and nodes are handles: natural numbers that
  index the tables of an `ir_prog`.  A handle outside its table denotes a
  default object (a non-method entity, an empty class, an empty graph, a node
  of no interesting kind).
* The host IR library is not part of the repository.  What the code needs of
  it is taken as data: the tables of `ir_prog`, the order in which the graph
  walker hands the nodes of a graph to its callback (`ir_graph.walk`), and the
  frontend hook `detect_call`.  The node store of a graph grows at its end when
  `new_r_Address` makes a node; `turn_into_tuple` replaces a node in place.
* `cpset_t` is a list without repetition that grows at its end, `cpmap_t` an
  association list, `pdeq` a list used first-in first-out.  The order in which
  the hash containers enumerate their elements is thereby the insertion order.
* `assert` is a fatal error: all functions return `Except Err _`.
* The recursions over the class hierarchy carry a recursion budget `depth` and
  the work-queue loops an iteration budget `fuel`; running out of either is the
  error `Err.OutOfFuel` (the C code would not return).
* `rta_run` returns the whole analysis state at the end of its work-queue loop;
  the fields `live_classes`, `live_methods` and `dyncall_targets` are its
  results, `done_set` is the set of analysed methods.
* The functions of `dmemory.c` build IR nodes; the nodes are terms (`dm_node`),
  the graph and block arguments are left out, and the memory node that a
  function writes through its last argument is the second component of its
  result.  The C type `unsigned` is a natural number modulo `2 ^ 32`; a division
  by zero and an overflow of `int` arithmetic are `none`.  The size of a pointer
  is a parameter `ptr_bytes`.  `eval_node` gives constants, conversions, sums and
  products their value modulo the number of values of their mode.

The file has two parts: the definitions (the embedding of the code, then the
predicates in which the properties are stated and the example programs), and
the theorems.
-/

set_option autoImplicit false

namespace Rta


/-! ## Identifiers and IR tables -/

abbrev Ident := Nat
abbrev EntId := Nat
abbrev ClassId := Nat
abbrev NodeId := Nat
abbrev GraphId := Nat

/-- Fatal outcomes of the two passes. -/
inductive Err where
  | PreconditionViolated
  | InvariantViolated
  | AmbiguousImplementation
  | AssertionFailed
  | OutOfFuel
deriving DecidableEq, Repr

/-- An entity of the IR (`ir_entity`): owner, name, linker name, flags, graph. -/
structure ir_entity where
  owner : ClassId
  ident : Ident
  ld_ident : Ident
  is_method : Bool
  is_abstract : Bool
  is_final : Bool
  irg : Option GraphId
deriving DecidableEq, Repr

/-- A class type of the IR (`ir_type` with `is_Class_type`). -/
structure ir_type where
  is_external : Bool
  is_abstract : Bool
  is_interface : Bool
  is_final : Bool
  members : List EntId
  supertypes : List ClassId
  subtypes : List ClassId
deriving DecidableEq, Repr

/-- The node kinds the passes look at.  `Call` carries its callee input
(input 1) and the flag `oo_get_call_is_statically_bound`; `MethodSel` carries
its memory input (input 0) and its entity. -/
inductive ir_node where
  | Address (entity : EntId)
  | Call (callee : NodeId) (statically_bound : Bool)
  | Proj (pred : NodeId)
  | MethodSel (mem : NodeId) (entity : EntId)
  | VptrIsSet (type : ClassId)
  | Tuple (ins : List NodeId)
  | Other
deriving DecidableEq, Repr

/-- A graph: the entity it belongs to, its node store, and the order in which
`irg_walk_graph` hands the nodes to the post callback. -/
structure ir_graph where
  entity : EntId
  nodes : List ir_node
  walk : List NodeId
deriving DecidableEq, Repr

/-- The program: entity table, type table, graphs (`get_irp_irg`), and the
installed detection callback (the file-level variable `detect_call`). -/
structure ir_prog where
  entities : List ir_entity
  types : List ir_type
  irgs : List ir_graph
  detect_call : GraphId → NodeId → Option EntId

def default_entity : ir_entity :=
  { owner := 0, ident := 0, ld_ident := 0, is_method := false, is_abstract := false,
    is_final := false, irg := none }

def default_type : ir_type :=
  { is_external := false, is_abstract := false, is_interface := false, is_final := false,
    members := [], supertypes := [], subtypes := [] }

def default_graph : ir_graph := { entity := 0, nodes := [], walk := [] }

def get_entity (p : ir_prog) (e : EntId) : ir_entity := p.entities.getD e default_entity

def get_type (p : ir_prog) (k : ClassId) : ir_type := p.types.getD k default_type

def get_irp_irg (p : ir_prog) (g : GraphId) : ir_graph := p.irgs.getD g default_graph

def get_irn (p : ir_prog) (g : GraphId) (n : NodeId) : ir_node :=
  (get_irp_irg p g).nodes.getD n ir_node.Other

def get_entity_owner (p : ir_prog) (e : EntId) : ClassId := (get_entity p e).owner

def get_entity_ident (p : ir_prog) (e : EntId) : Ident := (get_entity p e).ident

def get_entity_ld_ident (p : ir_prog) (e : EntId) : Ident := (get_entity p e).ld_ident

def is_method_entity (p : ir_prog) (e : EntId) : Bool := (get_entity p e).is_method

def oo_get_method_is_abstract (p : ir_prog) (e : EntId) : Bool := (get_entity p e).is_abstract

def oo_get_method_is_final (p : ir_prog) (e : EntId) : Bool := (get_entity p e).is_final

def get_entity_irg (p : ir_prog) (e : EntId) : Option GraphId := (get_entity p e).irg

def oo_get_class_is_extern (p : ir_prog) (k : ClassId) : Bool := (get_type p k).is_external

def oo_get_class_is_abstract (p : ir_prog) (k : ClassId) : Bool := (get_type p k).is_abstract

def oo_get_class_is_interface (p : ir_prog) (k : ClassId) : Bool := (get_type p k).is_interface

def oo_get_class_is_final (p : ir_prog) (k : ClassId) : Bool := (get_type p k).is_final

def get_class_members (p : ir_prog) (k : ClassId) : List EntId := (get_type p k).members

def get_class_supertypes (p : ir_prog) (k : ClassId) : List ClassId := (get_type p k).supertypes

def get_class_subtypes (p : ir_prog) (k : ClassId) : List ClassId := (get_type p k).subtypes

/-- The function `get_class_member_by_name` (rta.c:41): first member of `cls`
whose identifier is `ident`. -/
def get_class_member_by_name (p : ir_prog) (cls : ClassId) (ident : Ident) : Option EntId :=
  (get_class_members p cls).find? (fun entity => get_entity_ident p entity == ident)

/-- The function `default_detect_call` (rta.c:86). -/
def default_detect_call : GraphId → NodeId → Option EntId := fun _ _ => none

/-- The function `rta_set_detection_callbacks` (rta.c:90). -/
def rta_set_detection_callbacks (p : ir_prog) (cb : GraphId → NodeId → Option EntId) : ir_prog :=
  { p with detect_call := cb }

/-! ## Containers -/

abbrev cpset := List Nat

abbrev cpmap (β : Type) := List (Nat × β)

def cpset_insert (s : cpset) (x : Nat) : cpset := if x ∈ s then s else s ++ [x]

def cpset_size (s : cpset) : Nat := s.length

def cpmap_find {β : Type} : cpmap β → Nat → Option β
  | [], _ => none
  | (k, v) :: rest, key => if k = key then some v else cpmap_find rest key

def cpmap_set {β : Type} : cpmap β → Nat → β → cpmap β
  | [], key, val => [(key, val)]
  | (k, v) :: rest, key, val =>
    if k = key then (key, val) :: rest else (k, v) :: cpmap_set rest key val

def cpmap_remove {β : Type} (m : cpmap β) (key : Nat) : cpmap β :=
  m.filter (fun kv => decide (kv.1 ≠ key))

/-- An `assert` of the C code. -/
def assert (e : Err) (c : Bool) : Except Err Unit := if c then .ok () else .error e

/-! ## The analyzer -/

/-- The record `analyzer_env` (rta.c:97). -/
structure analyzer_env where
  workqueue : List EntId
  done_set : cpset
  live_classes : cpset
  live_methods : cpset
  dyncall_targets : cpmap cpset
  unused_targets : cpmap (cpmap cpset)
deriving DecidableEq, Repr

/-- The function `add_to_workqueue` (rta.c:301). -/
def add_to_workqueue (p : ir_prog) (entity : EntId) (env : analyzer_env) :
    Except Err analyzer_env := do
  assert .AssertionFailed (is_method_entity p entity)
  if entity ∈ env.done_set then
    pure env
  else
    pure { env with workqueue := env.workqueue ++ [entity] }

/-- The function `check_for_external_superclasses_recursive` (rta.c:110). -/
def check_for_external_superclasses_recursive :
    Nat → ir_prog → ClassId → ClassId → analyzer_env → Except Err analyzer_env
  | 0, _, _, _, _ => .error .OutOfFuel
  | depth + 1, p, klass, superclass, env => do
    let env1 ←
      (if oo_get_class_is_extern p superclass then
        (get_class_members p superclass).foldlM
          (fun (env : analyzer_env) (member : EntId) =>
            if !is_method_entity p member then pure env
            else if oo_get_method_is_final p member then pure env
            else
              match get_class_member_by_name p klass (get_entity_ident p member) with
              | some overwriting =>
                add_to_workqueue p overwriting
                  { env with live_methods := cpset_insert env.live_methods overwriting }
              | none => pure env)
          env
      else pure env)
    (get_class_supertypes p superclass).foldlM
      (fun (env : analyzer_env) (sc : ClassId) =>
        check_for_external_superclasses_recursive depth p klass sc env)
      env1

/-- The function `check_for_external_superclasses` (rta.c:140). -/
def check_for_external_superclasses (depth : Nat) (p : ir_prog) (klass : ClassId)
    (env : analyzer_env) : Except Err analyzer_env :=
  if oo_get_class_is_extern p klass then pure env
  else
    (get_class_supertypes p klass).foldlM
      (fun (env : analyzer_env) (superclass : ClassId) =>
        check_for_external_superclasses_recursive depth p klass superclass env)
      env

/-- The function `add_to_dyncalls` (rta.c:157): add `method` to the target set
of every call entity of `call_entities`. -/
def add_to_dyncalls (p : ir_prog) (method : EntId) (call_entities : cpset)
    (env : analyzer_env) : Except Err analyzer_env := do
  assert .AssertionFailed (is_method_entity p method)
  call_entities.foldlM
    (fun (env : analyzer_env) (call_entity : EntId) =>
      match cpmap_find env.dyncall_targets call_entity with
      | none => .error .AssertionFailed
      | some targets =>
        add_to_workqueue p method
          { env with
            dyncall_targets := cpmap_set env.dyncall_targets call_entity (cpset_insert targets method)
            live_methods := cpset_insert env.live_methods method })
    env

/-- The function `add_new_live_class` (rta.c:183). -/
def add_new_live_class (depth : Nat) (p : ir_prog) (klass : ClassId) (env : analyzer_env) :
    Except Err analyzer_env :=
  if klass ∉ env.live_classes ∧ ! oo_get_class_is_extern p klass
      ∧ !oo_get_class_is_abstract p klass then do
    let env1 := { env with live_classes := cpset_insert env.live_classes klass }
    let env2 ←
      (match cpmap_find env1.unused_targets klass with
      | some methods => do
        let env3 ← methods.foldlM
          (fun (env : analyzer_env) (entry : Nat × cpset) =>
            add_to_dyncalls p entry.1 entry.2 env)
          env1
        pure { env3 with unused_targets := cpmap_remove env3.unused_targets klass }
      | none => pure env1)
    check_for_external_superclasses depth p klass env2
  else pure env

/-- The function `memorize_unused_target` (rta.c:221). -/
def memorize_unused_target (p : ir_prog) (klass : ClassId) (entity : EntId)
    (call_entity : EntId) (env : analyzer_env) : Except Err analyzer_env := do
  assert .AssertionFailed (is_method_entity p entity)
  assert .AssertionFailed (is_method_entity p call_entity)
  let methods := (cpmap_find env.unused_targets klass).getD []
  let call_entities := (cpmap_find methods entity).getD []
  pure { env with
    unused_targets :=
      cpmap_set env.unused_targets klass
        (cpmap_set methods entity (cpset_insert call_entities call_entity)) }

/-- The function `find_entity_by_ldname` (rta.c:241): entity of the first graph
of the program whose linker name is `ldname`. -/
def find_entity_by_ldname (p : ir_prog) (ldname : Ident) : Option EntId :=
  (p.irgs.find? (fun graph => get_entity_ld_ident p graph.entity == ldname)).map
    (fun graph => graph.entity)

/-- The function `get_ldname_redirect` (rta.c:256). -/
def get_ldname_redirect (p : ir_prog) (entity : EntId) : Except Err (Option EntId) := do
  assert .AssertionFailed (is_method_entity p entity)
  assert .AssertionFailed (get_entity_irg p entity).isNone
  if get_entity_ident p entity ≠ get_entity_ld_ident p entity then
    pure (find_entity_by_ldname p (get_entity_ld_ident p entity))
  else
    pure none

/-- The function `analyzer_handle_no_graph` (rta.c:275). -/
def analyzer_handle_no_graph (p : ir_prog) (entity : EntId) (env : analyzer_env) :
    Except Err analyzer_env := do
  assert .AssertionFailed (is_method_entity p entity)
  assert .AssertionFailed (get_entity_irg p entity).isNone
  let target ← get_ldname_redirect p entity
  match target with
  | some target =>
    add_to_workqueue p target { env with live_methods := cpset_insert env.live_methods target }
  | none => pure env

/-- The function `take_entity` (rta.c:313). -/
def take_entity (p : ir_prog) (entity : EntId) (result_set : cpset) (env : analyzer_env) :
    Except Err (cpset × analyzer_env) := do
  assert .AssertionFailed (is_method_entity p entity)
  if entity ∉ result_set then
    let env1 ← add_to_workqueue p entity
      { env with live_methods := cpset_insert env.live_methods entity }
    pure (cpset_insert result_set entity, env1)
  else
    pure (result_set, env)

/-- The functions `find_implementation_recursive` (rta.c:335) and
`fir_ascend_into_superclasses_and_merge` (rta.c:361). -/
def find_implementation_recursive :
    Nat → ir_prog → ClassId → EntId → Except Err (Option EntId)
  | 0, _, _, _ => .error .OutOfFuel
  | depth + 1, p, klass, call_entity => do
    assert .AssertionFailed (is_method_entity p call_entity)
    match get_class_member_by_name p klass (get_entity_ident p call_entity) with
    | some result =>
      if oo_get_method_is_abstract p result then pure none else pure (some result)
    | none =>
      (get_class_supertypes p klass).foldlM
        (fun (result : Option EntId) (superclass : ClassId) => do
          let r ← find_implementation_recursive depth p superclass call_entity
          match result, r with
          | none, _ => pure r
          | some _, none => pure result
          | some res, some r1 =>
            let result_from_interface := oo_get_class_is_interface p (get_entity_owner p res)
            let r_from_interface := oo_get_class_is_interface p (get_entity_owner p r1)
            if result_from_interface && !r_from_interface then pure (some r1)
            else if result_from_interface == r_from_interface then
              .error .AmbiguousImplementation
            else pure result)
        none

/-- The function `fir_ascend_into_superclasses_and_merge` (rta.c:361), for a
recursion budget `depth` of the calls it makes. -/
def fir_ascend_into_superclasses_and_merge (depth : Nat) (p : ir_prog) (klass : ClassId)
    (call_entity : EntId) (current_result : Option EntId) : Except Err (Option EntId) := do
  assert .AssertionFailed (is_method_entity p call_entity)
  (get_class_supertypes p klass).foldlM
    (fun (result : Option EntId) (superclass : ClassId) => do
      let r ← find_implementation_recursive depth p superclass call_entity
      match result, r with
      | none, _ => pure r
      | some _, none => pure result
      | some res, some r1 =>
        let result_from_interface := oo_get_class_is_interface p (get_entity_owner p res)
        let r_from_interface := oo_get_class_is_interface p (get_entity_owner p r1)
        if result_from_interface && !r_from_interface then pure (some r1)
        else if result_from_interface == r_from_interface then
          .error .AmbiguousImplementation
        else pure result)
    current_result

/-- The function `find_inherited_implementation` (rta.c:400). -/
def find_inherited_implementation (depth : Nat) (p : ir_prog) (klass : ClassId)
    (call_entity : EntId) : Except Err (Option EntId) := do
  assert .AssertionFailed (is_method_entity p call_entity)
  assert .AssertionFailed (oo_get_method_is_abstract p call_entity)
  fir_ascend_into_superclasses_and_merge depth p klass call_entity none

/-- The compile-time switch `JUST_CHA` (rta.c:38). -/
def JUST_CHA : Bool := false

/-- The entity `current_entity` that `collect_methods_recursive` computes for
class `klass` from the entity handed down by the parent (rta.c:427-450):
override by name, then the inherited implementation of an abstract call. -/
def collect_current_entity (depth : Nat) (p : ir_prog) (call_entity : EntId) (klass : ClassId)
    (entity : EntId) : Except Err EntId := do
  let current_entity :=
    match get_class_member_by_name p klass (get_entity_ident p entity) with
    | some overwriting_entity =>
      if overwriting_entity ≠ entity then overwriting_entity else entity
    | none => entity
  if oo_get_method_is_abstract p call_entity && !oo_get_class_is_abstract p klass
      && !oo_get_class_is_interface p klass && oo_get_method_is_abstract p current_entity then do
    let inherited_impl ← find_inherited_implementation depth p klass call_entity
    match inherited_impl with
    | some impl => pure impl
    | none => pure current_entity
  else pure current_entity

/-- The function `collect_methods_recursive` (rta.c:415).  `budget` bounds the
ascents into the superclasses, `depth` the descent into the subclasses. -/
def collect_methods_recursive (budget : Nat) :
    Nat → ir_prog → EntId → ClassId → EntId → cpset × analyzer_env →
      Except Err (cpset × analyzer_env)
  | 0, _, _, _, _, _ => .error .OutOfFuel
  | depth + 1, p, call_entity, klass, entity, st => do
    assert .AssertionFailed (is_method_entity p call_entity)
    assert .AssertionFailed (is_method_entity p entity)
    let current_entity ← collect_current_entity budget p call_entity klass entity
    let st1 ←
      (if !oo_get_method_is_abstract p current_entity then
        if klass ∈ st.2.live_classes ∨ oo_get_class_is_extern p klass ∨ JUST_CHA then
          take_entity p current_entity st.1 st.2
        else do
          let env1 ← memorize_unused_target p klass current_entity call_entity st.2
          pure (st.1, env1)
      else pure st)
    (get_class_subtypes p klass).foldlM
      (fun (st : cpset × analyzer_env) (subclass : ClassId) =>
        collect_methods_recursive budget depth p call_entity subclass current_entity st)
      st1

/-- The function `collect_methods` (rta.c:474). -/
def collect_methods (depth : Nat) (p : ir_prog) (call_entity : EntId) (result_set : cpset)
    (env : analyzer_env) : Except Err (cpset × analyzer_env) :=
  collect_methods_recursive depth depth p call_entity (get_entity_owner p call_entity)
    call_entity (result_set, env)

/-- The function `analyzer_handle_static_call` (rta.c:479). -/
def analyzer_handle_static_call (p : ir_prog) (g : GraphId) (call : NodeId) (entity : EntId)
    (env : analyzer_env) : Except Err analyzer_env := do
  assert .AssertionFailed (is_method_entity p entity)
  let env1 ← add_to_workqueue p entity
    { env with live_methods := cpset_insert env.live_methods entity }
  match get_entity_irg p entity with
  | some _ => pure env1
  | none =>
    match p.detect_call g call with
    | some called_method => do
      assert .AssertionFailed (is_method_entity p called_method)
      add_to_workqueue p called_method
        { env1 with live_methods := cpset_insert env1.live_methods called_method }
    | none => pure env1

/-- The function `analyzer_handle_dynamic_call` (rta.c:510). -/
def analyzer_handle_dynamic_call (depth : Nat) (p : ir_prog) (entity : EntId)
    (env : analyzer_env) : Except Err analyzer_env := do
  assert .AssertionFailed (is_method_entity p entity)
  match cpmap_find env.dyncall_targets entity with
  | some _ => pure env
  | none => do
    let res ← collect_methods depth p entity [] env
    pure { res.2 with dyncall_targets := cpmap_set res.2.dyncall_targets entity res.1 }

/-- The walker callback `walk_callgraph_and_analyze` (rta.c:536), on node `node`
of graph `g`. -/
def walk_callgraph_and_analyze (depth : Nat) (p : ir_prog) (g : GraphId) (node : NodeId)
    (env : analyzer_env) : Except Err analyzer_env :=
  match get_irn p g node with
  | .Address entity =>
    if is_method_entity p entity then
      add_to_workqueue p entity { env with live_methods := cpset_insert env.live_methods entity }
    else pure env
  | .Call callee statically_bound =>
    match get_irn p g callee with
    | .Address entity => analyzer_handle_static_call p g node entity env
    | .Proj pred =>
      match get_irn p g pred with
      | .MethodSel _ entity =>
        if statically_bound then analyzer_handle_static_call p g node entity env
        else analyzer_handle_dynamic_call depth p entity env
      | _ => pure env
    | _ => pure env
  | .VptrIsSet klass => add_new_live_class depth p klass env
  | _ => pure env

/-- The walk `irg_walk_graph(graph, NULL, walk_callgraph_and_analyze, &env)`. -/
def analyzer_walk_graph (depth : Nat) (p : ir_prog) (g : GraphId) (env : analyzer_env) :
    Except Err analyzer_env :=
  (get_irp_irg p g).walk.foldlM
    (fun (env : analyzer_env) (node : NodeId) => walk_callgraph_and_analyze depth p g node env)
    env

/-- The first loop of `rta_run` (rta.c:644-658): entry points become live and
are queued; an entry point without graph or an empty list is fatal. -/
def rta_run_entry_points (p : ir_prog) (entry_points : List EntId) (env : analyzer_env) :
    Except Err analyzer_env := do
  let env1 ← entry_points.foldlM
    (fun (env : analyzer_env) (entity : EntId) => do
      assert .AssertionFailed (is_method_entity p entity)
      let env1 := { env with live_methods := cpset_insert env.live_methods entity }
      assert .PreconditionViolated (get_entity_irg p entity).isSome
      pure { env1 with workqueue := env1.workqueue ++ [entity] })
    env
  assert .PreconditionViolated (decide (0 < entry_points.length))
  pure env1

/-- The second loop of `rta_run` (rta.c:660-670): the initial live classes. -/
def rta_run_initial_live_classes (depth : Nat) (p : ir_prog)
    (initial_live_classes : Option (List ClassId)) (env : analyzer_env) :
    Except Err analyzer_env :=
  match initial_live_classes with
  | none => pure env
  | some classes =>
    classes.foldlM
      (fun (env : analyzer_env) (klass : ClassId) =>
        check_for_external_superclasses depth p klass
          { env with live_classes := cpset_insert env.live_classes klass })
      env

/-- The body of the work-queue loop of `rta_run` (rta.c:673-687), for the
entity that `pdeq_getl` has taken from the queue. -/
def rta_run_iteration (depth : Nat) (p : ir_prog) (entity : EntId) (env : analyzer_env) :
    Except Err analyzer_env := do
  assert .AssertionFailed (is_method_entity p entity)
  if entity ∈ env.done_set then pure env
  else
    let env1 := { env with done_set := cpset_insert env.done_set entity }
    match get_entity_irg p entity with
    | none => analyzer_handle_no_graph p entity env1
    | some g => analyzer_walk_graph depth p g env1

/-- The work-queue loop of `rta_run` (rta.c:672-688). -/
def rta_run_loop (depth : Nat) (p : ir_prog) : Nat → analyzer_env → Except Err analyzer_env
  | fuel, env =>
    match env.workqueue with
    | [] => pure env
    | entity :: rest =>
      match fuel with
      | 0 => .error .OutOfFuel
      | fuel + 1 => do
        let env1 ← rta_run_iteration depth p entity { env with workqueue := rest }
        rta_run_loop depth p fuel env1

/-- The empty analysis state with which `rta_run` starts. -/
def analyzer_env_init : analyzer_env :=
  { workqueue := [], done_set := [], live_classes := [], live_methods := [],
    dyncall_targets := [], unused_targets := [] }

/-- The function `rta_run` (rta.c:616).  The result is the analysis state when
the work queue has run empty: `live_classes`, `live_methods` and
`dyncall_targets` are what the caller receives, the other three fields are
what the C code releases before it returns. -/
def rta_run (fuel depth : Nat) (p : ir_prog) (entry_points : List EntId)
    (initial_live_classes : Option (List ClassId)) : Except Err analyzer_env := do
  let env1 ← rta_run_entry_points p entry_points analyzer_env_init
  let env2 ← rta_run_initial_live_classes depth p initial_live_classes env1
  rta_run_loop depth p fuel env2

/-! ## The devirtualizer -/

/-- The record `optimizer_env` (rta.c:802), without the statistics counters
(`RTA_STATS` is undefined). -/
structure optimizer_env where
  workqueue : List EntId
  done_set : cpset
  dyncall_targets : cpmap cpset
deriving DecidableEq, Repr

/-- Host IR primitive `new_r_Address(graph, entity)`: a new `Address` node at
the end of the node store of graph `g`; the result is the program and the new
node. -/
def new_r_Address (p : ir_prog) (g : GraphId) (entity : EntId) : ir_prog × NodeId :=
  let graph := get_irp_irg p g
  ({ p with irgs := p.irgs.set g { graph with nodes := graph.nodes ++ [ir_node.Address entity] } },
    graph.nodes.length)

/-- Host IR primitive `turn_into_tuple(node, arity, in)`: node `node` of graph
`g` becomes a `Tuple` of the given inputs. -/
def turn_into_tuple (p : ir_prog) (g : GraphId) (node : NodeId) (ins : List NodeId) : ir_prog :=
  let graph := get_irp_irg p g
  { p with irgs := p.irgs.set g { graph with nodes := graph.nodes.set node (ir_node.Tuple ins) } }

/-- Host IR primitive `get_irn_n(methodsel, 0)`: the memory input. -/
def get_MethodSel_mem (p : ir_prog) (g : GraphId) (node : NodeId) : NodeId :=
  match get_irn p g node with
  | .MethodSel mem _ => mem
  | _ => 0

/-- The function `optimizer_add_to_workqueue` (rta.c:816). -/
def optimizer_add_to_workqueue (p : ir_prog) (method : EntId) (env : optimizer_env) :
    Except Err optimizer_env := do
  assert .AssertionFailed (is_method_entity p method)
  if method ∈ env.done_set then pure env
  else pure { env with workqueue := env.workqueue ++ [method] }

/-- The function `optimizer_handle_no_graph` (rta.c:827). -/
def optimizer_handle_no_graph (p : ir_prog) (entity : EntId) (env : optimizer_env) :
    Except Err optimizer_env := do
  assert .AssertionFailed (is_method_entity p entity)
  assert .AssertionFailed (get_entity_irg p entity).isNone
  let target ← get_ldname_redirect p entity
  match target with
  | some target => optimizer_add_to_workqueue p target env
  | none => pure env

/-- The function `optimizer_handle_static_call` (rta.c:847). -/
def optimizer_handle_static_call (p : ir_prog) (g : GraphId) (call : NodeId) (entity : EntId)
    (env : optimizer_env) : Except Err optimizer_env := do
  assert .AssertionFailed (is_method_entity p entity)
  let env1 ← optimizer_add_to_workqueue p entity env
  match get_entity_irg p entity with
  | some _ => pure env1
  | none =>
    match p.detect_call g call with
    | some called_method => do
      assert .AssertionFailed (is_method_entity p called_method)
      optimizer_add_to_workqueue p called_method env1
    | none => pure env1

/-- The condition under which `optimizer_handle_dynamic_call` rewrites the
call site (rta.c:902). -/
def devirtualize_condition (p : ir_prog) (entity : EntId) (targets : cpset) : Bool :=
  decide (cpset_size targets = 1)
    && (! oo_get_class_is_extern p (get_entity_owner p entity)
        || oo_get_class_is_final p (get_entity_owner p entity)
        || oo_get_method_is_final p entity)

/-- The function `optimizer_handle_dynamic_call` (rta.c:877), on the `MethodSel`
node `methodsel` of graph `g`. -/
def optimizer_handle_dynamic_call (p : ir_prog) (g : GraphId) (entity : EntId)
    (methodsel : NodeId) (env : optimizer_env) : Except Err (ir_prog × optimizer_env) := do
  assert .AssertionFailed (is_method_entity p entity)
  match cpmap_find env.dyncall_targets entity with
  | none => .error .InvariantViolated
  | some targets =>
    let p1 ←
      (if devirtualize_condition p entity targets then
        match targets with
        | [] => .error .AssertionFailed
        | target :: rest => do
          assert .AssertionFailed rest.isEmpty
          let pa := new_r_Address p g target
          let mem := get_MethodSel_mem p g methodsel
          pure (turn_into_tuple pa.1 g methodsel [mem, pa.2])
      else pure p)
    let env1 ← targets.foldlM
      (fun (env : optimizer_env) (target : EntId) => optimizer_add_to_workqueue p1 target env)
      env
    pure (p1, env1)

/-- The walker callback `walk_callgraph_and_devirtualize` (rta.c:934). -/
def walk_callgraph_and_devirtualize (g : GraphId) (node : NodeId)
    (st : ir_prog × optimizer_env) : Except Err (ir_prog × optimizer_env) :=
  match get_irn st.1 g node with
  | .Call callee statically_bound =>
    match get_irn st.1 g callee with
    | .Address entity => do
      let env1 ← optimizer_handle_static_call st.1 g node entity st.2
      pure (st.1, env1)
    | .Proj pred =>
      match get_irn st.1 g pred with
      | .MethodSel _ entity =>
        if statically_bound then do
          let env1 ← optimizer_handle_static_call st.1 g node entity st.2
          pure (st.1, env1)
        else optimizer_handle_dynamic_call st.1 g entity pred st.2
      | _ => pure st
    | _ => pure st
  | _ => pure st

/-- The walk `irg_walk_graph(graph, NULL, walk_callgraph_and_devirtualize, &env)`. -/
def optimizer_walk_graph (g : GraphId) (st : ir_prog × optimizer_env) :
    Except Err (ir_prog × optimizer_env) :=
  (get_irp_irg st.1 g).walk.foldlM
    (fun (st : ir_prog × optimizer_env) (node : NodeId) =>
      walk_callgraph_and_devirtualize g node st)
    st

/-- The first loop of `rta_devirtualize_calls` (rta.c:1015-1024). -/
def rta_devirtualize_entry_points (p : ir_prog) (entry_points : List EntId)
    (env : optimizer_env) : Except Err optimizer_env :=
  entry_points.foldlM
    (fun (env : optimizer_env) (entity : EntId) => do
      assert .AssertionFailed (is_method_entity p entity)
      assert .PreconditionViolated (get_entity_irg p entity).isSome
      pure { env with workqueue := env.workqueue ++ [entity] })
    env

/-- The body of the work-queue loop of `rta_devirtualize_calls`
(rta.c:1027-1040), for the entity that `pdeq_getl` has taken from the queue. -/
def rta_devirtualize_iteration (entity : EntId) (st : ir_prog × optimizer_env) :
    Except Err (ir_prog × optimizer_env) := do
  assert .AssertionFailed (is_method_entity st.1 entity)
  if entity ∈ st.2.done_set then pure st
  else
    let env1 := { st.2 with done_set := cpset_insert st.2.done_set entity }
    match get_entity_irg st.1 entity with
    | none => do
      let env2 ← optimizer_handle_no_graph st.1 entity env1
      pure (st.1, env2)
    | some g => optimizer_walk_graph g (st.1, env1)

/-- The work-queue loop of `rta_devirtualize_calls` (rta.c:1026-1041). -/
def rta_devirtualize_loop : Nat → ir_prog × optimizer_env → Except Err (ir_prog × optimizer_env)
  | fuel, st =>
    match st.2.workqueue with
    | [] => pure st
    | entity :: rest =>
      match fuel with
      | 0 => .error .OutOfFuel
      | fuel + 1 => do
        let st1 ← rta_devirtualize_iteration entity (st.1, { st.2 with workqueue := rest })
        rta_devirtualize_loop fuel st1

/-- The function `rta_devirtualize_calls` (rta.c:992). -/
def rta_devirtualize_calls (fuel : Nat) (p : ir_prog) (entry_points : List EntId)
    (dyncall_targets : cpmap cpset) : Except Err (ir_prog × optimizer_env) := do
  let env ← rta_devirtualize_entry_points p entry_points
    { workqueue := [], done_set := [], dyncall_targets := dyncall_targets }
  rta_devirtualize_loop fuel (p, env)

/-- The function `rta_optimization` (rta.c:1058): analysis, then rewriting; the
result is the rewritten program. -/
def rta_optimization (fuel depth : Nat) (p : ir_prog) (entry_points : List EntId)
    (initial_live_classes : Option (List ClassId)) : Except Err ir_prog := do
  let env ← rta_run fuel depth p entry_points initial_live_classes
  let st ← rta_devirtualize_calls fuel p entry_points env.dyncall_targets
  pure st.1

/-- The analysis state `b` extends the analysis state `a`: the done set is the
same, and the queue, the live sets and the target sets have only grown, every
method that became live being done or queued. -/
structure env_ext (a b : analyzer_env) : Prop where
  done : b.done_set = a.done_set
  queue : a.workqueue ⊆ b.workqueue
  classes : a.live_classes ⊆ b.live_classes
  methods : a.live_methods ⊆ b.live_methods
  queued : ∀ x ∈ b.live_methods, x ∈ a.live_methods ∨ x ∈ b.done_set ∨ x ∈ b.workqueue
  targets : ∀ c ts, cpmap_find a.dyncall_targets c = some ts →
    ∃ ts1, cpmap_find b.dyncall_targets c = some ts1 ∧ ts ⊆ ts1

/-- Call entity `c` is recorded in `unused_targets[K][m]`. -/
def unused_has (env : analyzer_env) (K : ClassId) (m c : EntId) : Prop :=
  ∃ methods C, cpmap_find env.unused_targets K = some methods
    ∧ cpmap_find methods m = some C ∧ c ∈ C

/-- How `collect_methods_recursive` changes its result set and the analysis
state: the state is extended, the live classes and the target map are kept,
recorded unused targets are kept, and the result set grows by live methods. -/
structure collect_ext (a b : cpset × analyzer_env) : Prop where
  ext : env_ext a.2 b.2
  classes_eq : b.2.live_classes = a.2.live_classes
  targets_eq : b.2.dyncall_targets = a.2.dyncall_targets
  unused : ∀ K m c, unused_has a.2 K m c → unused_has b.2 K m c
  result_sub : a.1 ⊆ b.1
  result_live : ∀ x ∈ b.1, x ∈ a.1 ∨ x ∈ b.2.live_methods

/-- The keys of a map. -/
def cpmap_keys {β : Type} (m : cpmap β) : List Nat := m.map Prod.fst

/-- Grow-only relation between two analysis states: the live classes, the live
methods, the keys of `dyncall_targets` and the target set of every key of the
first state are contained in those of the second. -/
def grows (a b : analyzer_env) : Prop :=
  a.live_classes ⊆ b.live_classes ∧ a.live_methods ⊆ b.live_methods
    ∧ cpmap_keys a.dyncall_targets ⊆ cpmap_keys b.dyncall_targets
    ∧ ∀ c ts, cpmap_find a.dyncall_targets c = some ts →
        ∃ ts1, cpmap_find b.dyncall_targets c = some ts1 ∧ ts ⊆ ts1

/-- One step of the analyzer: the callback on one IR node, the handling of one
method without graph, `add_new_live_class`, or `collect_methods`. -/
inductive analyzer_step (depth : Nat) (p : ir_prog) : analyzer_env → analyzer_env → Prop where
  | node (g : GraphId) (n : NodeId) (env env1 : analyzer_env) :
      walk_callgraph_and_analyze depth p g n env = .ok env1 → analyzer_step depth p env env1
  | no_graph (entity : EntId) (env env1 : analyzer_env) :
      analyzer_handle_no_graph p entity env = .ok env1 → analyzer_step depth p env env1
  | live_class (klass : ClassId) (env env1 : analyzer_env) :
      add_new_live_class depth p klass env = .ok env1 → analyzer_step depth p env env1
  | collect (call_entity : EntId) (rs rs1 : cpset) (env env1 : analyzer_env) :
      collect_methods depth p call_entity rs env = .ok (rs1, env1) →
        analyzer_step depth p env env1

/-- Method `m` is in the target set of call entity `c`. -/
def has_target (env : analyzer_env) (c m : EntId) : Prop :=
  ∃ ts, cpmap_find env.dyncall_targets c = some ts ∧ m ∈ ts

/-! ### Example programs -/

/-- Classes `A` (0) and `B` (1) with `B` a subclass of `A`, and a class `Main` (2).
Entities: 0 is `Main.main`, 1 is `A.m`, 2 is `B.m`.  The graph of `main` has a
dynamic call on `A.m` and the creation of a `B`. -/
def two_class_prog : ir_prog :=
  { entities :=
      [{ owner := 2, ident := 10, ld_ident := 10, is_method := true, is_abstract := false,
         is_final := false, irg := some 0 },
       { owner := 0, ident := 11, ld_ident := 11, is_method := true, is_abstract := false,
         is_final := false, irg := some 1 },
       { owner := 1, ident := 11, ld_ident := 12, is_method := true, is_abstract := false,
         is_final := false, irg := some 2 }]
    types :=
      [{ is_external := false, is_abstract := false, is_interface := false, is_final := false,
         members := [1], supertypes := [], subtypes := [1] },
       { is_external := false, is_abstract := false, is_interface := false, is_final := false,
         members := [2], supertypes := [0], subtypes := [] },
       { is_external := false, is_abstract := false, is_interface := false, is_final := false,
         members := [0], supertypes := [], subtypes := [] }]
    irgs :=
      [{ entity := 0,
         nodes := [.Other, .MethodSel 0 1, .Proj 1, .Call 2 false, .VptrIsSet 1],
         walk := [0, 1, 2, 3, 4] },
       { entity := 1, nodes := [], walk := [] },
       { entity := 2, nodes := [], walk := [] }]
    detect_call := default_detect_call }

/-- The analysis state of `two_class_prog` after the dynamic call on `A.m` has
been handled and before `B` is created. -/
def two_class_env : analyzer_env :=
  { workqueue := [], done_set := [0], live_classes := [], live_methods := [0],
    dyncall_targets := [(1, [])], unused_targets := [(0, [(1, [1])]), (1, [(2, [1])])] }

/-! ### Resolution along subtype paths -/

/-- The classes `steps` form a path of direct-subtype edges that starts at `K`. -/
def is_subtype_path (p : ir_prog) : ClassId → List ClassId → Prop
  | _, [] => True
  | K, K1 :: rest => K1 ∈ get_class_subtypes p K ∧ is_subtype_path p K1 rest

/-- The last class of the path that starts at `K` and continues with `steps`. -/
def path_end : ClassId → List ClassId → ClassId
  | K, [] => K
  | _, K1 :: rest => path_end K1 rest

/-- Top-down resolution along a path: the entity handed into class `K` is
resolved at `K` and handed on to the next class of the path; the result is the
entity resolved at the last class. -/
def resolve_along (budget : Nat) (p : ir_prog) (call_entity : EntId) :
    EntId → ClassId → List ClassId → Except Err EntId
  | entity, K, [] => collect_current_entity budget p call_entity K entity
  | entity, K, K1 :: rest =>
    collect_current_entity budget p call_entity K entity >>= fun cur =>
      resolve_along budget p call_entity cur K1 rest

/-- Resolution of call entity `c` that enters class `K0` with entity `e0` yields
`m` at class `K`, along some subtype path from `K0` to `K`. -/
def resolves_from (budget : Nat) (p : ir_prog) (c : EntId) (K0 : ClassId) (e0 : EntId)
    (K : ClassId) (m : EntId) : Prop :=
  ∃ steps, is_subtype_path p K0 steps ∧ path_end K0 steps = K
    ∧ resolve_along budget p c e0 K0 steps = .ok m

/-- Collect-down resolution of call entity `c` yields `m` at class `K`: along
some subtype path from the owner of `c` to `K`. -/
def resolves_to (budget : Nat) (p : ir_prog) (c : EntId) (K : ClassId) (m : EntId) : Prop :=
  resolves_from budget p c (get_entity_owner p c) c K m

/-- Target soundness (I3): every target of every call entity is a non-abstract
method that the resolution yields at a class that is live or extern. -/
def targets_sound (depth : Nat) (p : ir_prog) (env : analyzer_env) : Prop :=
  ∀ c m, has_target env c m →
    oo_get_method_is_abstract p m = false
      ∧ ∃ K, (K ∈ env.live_classes ∨ oo_get_class_is_extern p K = true)
          ∧ resolves_to depth p c K m

/-- Call entity `c` occurs in an entry for method `m` of an entry for class `K`
of `unused_targets`. -/
def unused_mem (env : analyzer_env) (K : ClassId) (m c : EntId) : Prop :=
  ∃ methods C, (K, methods) ∈ env.unused_targets ∧ (m, C) ∈ methods ∧ c ∈ C

/-- Every recorded unused target is a non-abstract method that the resolution
yields at the class it is recorded for. -/
def unused_sound (depth : Nat) (p : ir_prog) (env : analyzer_env) : Prop :=
  ∀ K m c, unused_mem env K m c →
    oo_get_method_is_abstract p m = false ∧ resolves_to depth p c K m

/-- The points of `rta_run`: the state with which the work-queue loop starts,
and every state reached from a point by taking an entity from the queue, by
marking an entity done, or by an analyzer step. -/
inductive rta_point (depth : Nat) (p : ir_prog) (entry_points : List EntId)
    (initial_live_classes : Option (List ClassId)) : analyzer_env → Prop where
  | start (env1 env2 : analyzer_env) :
      rta_run_entry_points p entry_points analyzer_env_init = .ok env1 →
      rta_run_initial_live_classes depth p initial_live_classes env1 = .ok env2 →
      rta_point depth p entry_points initial_live_classes env2
  | dequeue (env : analyzer_env) (entity : EntId) (rest : List EntId) :
      rta_point depth p entry_points initial_live_classes env →
      env.workqueue = entity :: rest →
      rta_point depth p entry_points initial_live_classes { env with workqueue := rest }
  | mark_done (env : analyzer_env) (entity : EntId) :
      rta_point depth p entry_points initial_live_classes env →
      rta_point depth p entry_points initial_live_classes
        { env with done_set := cpset_insert env.done_set entity }
  | step (env env1 : analyzer_env) :
      rta_point depth p entry_points initial_live_classes env →
      analyzer_step depth p env env1 →
      rta_point depth p entry_points initial_live_classes env1

/-- Node `n` of graph `g` is a call through a `MethodSel` on entity `c` that is
not flagged statically bound. -/
def is_dynamic_call (p : ir_prog) (g : GraphId) (n : NodeId) (c : EntId) : Prop :=
  ∃ callee pred mem, get_irn p g n = .Call callee false ∧ get_irn p g callee = .Proj pred
    ∧ get_irn p g pred = .MethodSel mem c

/-- Node `n` of graph `g` is a call that the passes treat as a static call of
entity `e`: the callee is an `Address` of `e`, or the call is flagged statically
bound and goes through a `MethodSel` on `e`. -/
def is_static_call (p : ir_prog) (g : GraphId) (n : NodeId) (e : EntId) : Prop :=
  ∃ callee sb, get_irn p g n = .Call callee sb
    ∧ (get_irn p g callee = .Address e
      ∨ (sb = true ∧ ∃ pred mem, get_irn p g callee = .Proj pred
          ∧ get_irn p g pred = .MethodSel mem e))

/-- Every resolution of a key of `dyncall_targets` to a non-abstract method is
a target already, or is recorded as unused for a class that is not live. -/
def complete_inv (depth : Nat) (p : ir_prog) (env : analyzer_env) : Prop :=
  ∀ c, (∃ ts, cpmap_find env.dyncall_targets c = some ts) →
    ∀ K m, resolves_to depth p c K m → oo_get_method_is_abstract p m = false →
      has_target env c m ∨ (K ∉ env.live_classes ∧ unused_has env K m c)

/-- Every dynamic call in the graph of a method that is done has a target set. -/
def done_dyn (p : ir_prog) (env : analyzer_env) : Prop :=
  ∀ M ∈ env.done_set, ∀ g, get_entity_irg p M = some g →
    ∀ n ∈ (get_irp_irg p g).walk, ∀ c, is_dynamic_call p g n c →
      ∃ ts, cpmap_find env.dyncall_targets c = some ts

/-- What the analyzer callback leaves behind for node `n` of graph `g`: the
method entity of an `Address` node is live, and so are the callee of a static
call and, when that callee has no graph, the method that `detect_call` reports
for the call. -/
def node_live (p : ir_prog) (g : GraphId) (n : NodeId) (env : analyzer_env) : Prop :=
  (∀ e, get_irn p g n = .Address e → is_method_entity p e = true → e ∈ env.live_methods)
    ∧ (∀ e, is_static_call p g n e →
        e ∈ env.live_methods
          ∧ (get_entity_irg p e = none →
              ∀ h, p.detect_call g n = some h → h ∈ env.live_methods))

/-- The invariant of the work-queue loop behind the closure of `live_methods`:
live methods are done or queued, targets are live, the nodes of the graphs of
done methods have been handled, the redirection targets of done methods
without graph are live, and the entry points are live. -/
def closure_inv (p : ir_prog) (entry_points : List EntId) (env : analyzer_env) : Prop :=
  (∀ x ∈ env.live_methods, x ∈ env.done_set ∨ x ∈ env.workqueue)
    ∧ (∀ c m, has_target env c m → m ∈ env.live_methods)
    ∧ (∀ M ∈ env.done_set,
        (∀ g, get_entity_irg p M = some g →
          ∀ n ∈ (get_irp_irg p g).walk, node_live p g n env)
        ∧ (get_entity_irg p M = none →
          ∀ t, get_ldname_redirect p M = .ok (some t) → t ∈ env.live_methods))
    ∧ (∀ e ∈ entry_points, e ∈ env.live_methods)

/-- Well-formedness of the IR that the passes rely on: the callee input of a
`Call` node and the predecessor of a `Proj` node are nodes of the same graph. -/
def ir_wf (p : ir_prog) : Prop :=
  ∀ g n, (∀ c sb, get_irn p g n = .Call c sb → c < (get_irp_irg p g).nodes.length)
    ∧ (∀ pred, get_irn p g n = .Proj pred → pred < (get_irp_irg p g).nodes.length)

/-- Program `q` results from program `p` by rewrites of the devirtualizer: the
entities, the types, the detection callback, and the entity and walk order of
every graph are the same; every node of `q` is the node of `p`, or a `Tuple`
in the place of a `MethodSel`, or a new `Address` node. -/
structure ir_refines (p q : ir_prog) : Prop where
  entities : q.entities = p.entities
  types : q.types = p.types
  detect : q.detect_call = p.detect_call
  graphs : q.irgs.map (fun gr => (gr.entity, gr.walk))
    = p.irgs.map (fun gr => (gr.entity, gr.walk))
  length : ∀ g, (get_irp_irg p g).nodes.length ≤ (get_irp_irg q g).nodes.length
  nodes : ∀ g n, get_irn q g n = get_irn p g n
    ∨ ((∃ mem e, get_irn p g n = .MethodSel mem e) ∧ ∃ ins, get_irn q g n = .Tuple ins)
    ∨ ((get_irp_irg p g).nodes.length ≤ n ∧ ∃ t, get_irn q g n = .Address t)

/-- The devirtualizer state `b` extends the state `a`: same done set and target
map, a longer queue. -/
structure oenv_ext (a b : optimizer_env) : Prop where
  done : b.done_set = a.done_set
  queue : a.workqueue ⊆ b.workqueue
  targets : b.dyncall_targets = a.dyncall_targets

/-- Entity `x` is one that the devirtualizer hands to its work queue at node `n`
of graph `g`: the callee of a static call, the method that `detect_call`
reports for a static call whose callee has no graph, or a target of a dynamic
call. -/
def node_callee (p : ir_prog) (dt : cpmap cpset) (g : GraphId) (n : NodeId) (x : EntId) :
    Prop :=
  is_static_call p g n x
    ∨ (∃ e, is_static_call p g n e ∧ get_entity_irg p e = none ∧ p.detect_call g n = some x)
    ∨ (∃ e ts, is_dynamic_call p g n e ∧ cpmap_find dt e = some ts ∧ x ∈ ts)

/-- Node `n` of graph `g` is settled in a devirtualizer state: every entity the
devirtualizer would enqueue at the node is done or queued, and no dynamic call
at the node fulfils the rewrite condition. -/
def node_settled (st : ir_prog × optimizer_env) (g : GraphId) (n : NodeId) : Prop :=
  (∀ x, node_callee st.1 st.2.dyncall_targets g n x →
      x ∈ st.2.done_set ∨ x ∈ st.2.workqueue)
    ∧ (∀ e ts, is_dynamic_call st.1 g n e → cpmap_find st.2.dyncall_targets e = some ts →
        devirtualize_condition st.1 e ts = false)

/-- The invariant of the work-queue loop of the devirtualizer: the IR is well
formed, the entry points are done or queued, and for every done method the
nodes of its graph are settled, or the target of its redirection is done or
queued. -/
def devirt_settled (entry_points : List EntId) (st : ir_prog × optimizer_env) : Prop :=
  ir_wf st.1
    ∧ (∀ x ∈ entry_points, x ∈ st.2.done_set ∨ x ∈ st.2.workqueue)
    ∧ (∀ M ∈ st.2.done_set,
        (∀ g, get_entity_irg st.1 M = some g →
          ∀ n ∈ (get_irp_irg st.1 g).walk, node_settled st g n)
        ∧ (get_entity_irg st.1 M = none →
          ∀ t, get_ldname_redirect st.1 M = .ok (some t) →
            t ∈ st.2.done_set ∨ t ∈ st.2.workqueue))

/-- The outcome is not the failed lookup of the devirtualizer. -/
def no_iv {α : Type} (r : Except Err α) : Prop := r ≠ .error .InvariantViolated

/-- What the devirtualizer needs of the result `A` of the analysis of program
`p`: the entry points were analysed; at every node of the graph of an analysed
method the entities that the devirtualizer enqueues were analysed and every
dynamic call has a target set; the redirection target of an analysed method
without graph was analysed. -/
def analysed (p : ir_prog) (entry_points : List EntId) (A : analyzer_env) : Prop :=
  (∀ x ∈ entry_points, x ∈ A.done_set)
    ∧ (∀ M ∈ A.done_set,
        (∀ g, get_entity_irg p M = some g → ∀ n ∈ (get_irp_irg p g).walk,
          (∀ x, node_callee p A.dyncall_targets g n x → x ∈ A.done_set)
            ∧ ∀ e, is_dynamic_call p g n e →
                ∃ ts, cpmap_find A.dyncall_targets e = some ts)
        ∧ (get_entity_irg p M = none →
            ∀ t, get_ldname_redirect p M = .ok (some t) → t ∈ A.done_set))

/-- The invariant of the devirtualizer that runs on the result `A` of the
analysis of `p`: the IR is a rewriting of `p`, the target map is that of `A`,
and only analysed methods are queued or done. -/
def devirt_inv (p : ir_prog) (A : analyzer_env) (st : ir_prog × optimizer_env) : Prop :=
  ir_refines p st.1 ∧ st.2.dyncall_targets = A.dyncall_targets
    ∧ (∀ x ∈ st.2.workqueue, x ∈ A.done_set) ∧ (∀ x ∈ st.2.done_set, x ∈ A.done_set)

/-- The inputs that `ir_wf` constrains, for a node of a graph with `len` nodes. -/
def node_inputs_ok (len : Nat) : ir_node → Bool
  | .Call c _ => decide (c < len)
  | .Proj pred => decide (pred < len)
  | _ => true

/-- Executable check of `ir_wf`. -/
def ir_wf_check (p : ir_prog) : Bool :=
  p.irgs.all (fun gr => gr.nodes.all (node_inputs_ok gr.nodes.length))

/-- The program `two_class_prog` after the devirtualizer has rewritten the call
on `A.m` into a call of `B.m`. -/
def two_class_rewritten : ir_prog :=
  { two_class_prog with
    irgs :=
      [{ entity := 0,
         nodes := [.Other, .Tuple [0, 5], .Proj 1, .Call 2 false, .VptrIsSet 1, .Address 2],
         walk := [0, 1, 2, 3, 4] },
       { entity := 1, nodes := [], walk := [] },
       { entity := 2, nodes := [], walk := [] }] }

/-- The result of `rta_run` on `two_class_prog` with entry point `main`. -/
def two_class_result : analyzer_env :=
  { workqueue := [], done_set := [0, 2], live_classes := [1], live_methods := [0, 2],
    dyncall_targets := [(1, [2])], unused_targets := [(0, [(1, [1])])] }

/-- A program with an extern class (0), an abstract class (1) and a class
`Main` (2) whose method `main` (entity 0) has an empty graph. -/
def initial_classes_prog : ir_prog :=
  { entities :=
      [{ owner := 2, ident := 10, ld_ident := 10, is_method := true, is_abstract := false,
         is_final := false, irg := some 0 }]
    types :=
      [{ is_external := true, is_abstract := false, is_interface := false, is_final := false,
         members := [], supertypes := [], subtypes := [] },
       { is_external := false, is_abstract := true, is_interface := false, is_final := false,
         members := [], supertypes := [], subtypes := [] },
       { is_external := false, is_abstract := false, is_interface := false, is_final := false,
         members := [0], supertypes := [], subtypes := [] }]
    irgs := [{ entity := 0, nodes := [], walk := [] }]
    detect_call := default_detect_call }

/-! ### The merge of candidates and the search in the supertypes -/

/-- The merge of the result so far with the candidate `r` of one supertype
(rta.c:379-394). -/
def fir_merge (p : ir_prog) (result r : Option EntId) : Except Err (Option EntId) :=
  match result, r with
  | none, _ => pure r
  | some _, none => pure result
  | some res, some r1 =>
    let result_from_interface := oo_get_class_is_interface p (get_entity_owner p res)
    let r_from_interface := oo_get_class_is_interface p (get_entity_owner p r1)
    if result_from_interface && !r_from_interface then pure (some r1)
    else if result_from_interface == r_from_interface then
      .error .AmbiguousImplementation
    else pure result

/-- The loop of `fir_ascend_into_superclasses_and_merge` (rta.c:372-395) over the
supertypes `supers`, from the result `current_result`. -/
def fir_merge_loop (depth : Nat) (p : ir_prog) (call_entity : EntId) (supers : List ClassId)
    (current_result : Option EntId) : Except Err (Option EntId) :=
  supers.foldlM
    (fun (result : Option EntId) (superclass : ClassId) => do
      let r ← find_implementation_recursive depth p superclass call_entity
      fir_merge p result r)
    current_result

/-! ### Supertypes and the queue -/

/-- Class `S` is reachable from class `K` by one or more supertype edges. -/
inductive super_reachable (p : ir_prog) : ClassId → ClassId → Prop where
  | edge (K S : ClassId) : S ∈ get_class_supertypes p K → super_reachable p K S
  | step (K M S : ClassId) : M ∈ get_class_supertypes p K → super_reachable p M S →
      super_reachable p K S

/-- Method `e` is live and has been handed to the work queue: it is queued, or
it was done already when it was handed over. -/
def handed_over (env : analyzer_env) (e : EntId) : Prop :=
  e ∈ env.live_methods ∧ (e ∈ env.done_set ∨ e ∈ env.workqueue)

/-- Entity `o` is the member of `klass` that has the name of a method `m`, not
final, of an extern class `S` that is `top` or is reachable from `top` by
supertype edges. -/
def extern_override_from (p : ir_prog) (klass top : ClassId) (o : EntId) : Prop :=
  ∃ S m, (S = top ∨ super_reachable p top S) ∧ oo_get_class_is_extern p S = true
    ∧ m ∈ get_class_members p S ∧ is_method_entity p m = true
    ∧ oo_get_method_is_final p m = false
    ∧ get_class_member_by_name p klass (get_entity_ident p m) = some o

/-- Entity `o` is the member of `klass` that has the name of a method `m`, not
final, of an extern class `S` reachable from `klass` by one or more supertype
edges. -/
def extern_override (p : ir_prog) (klass : ClassId) (o : EntId) : Prop :=
  ∃ S m, super_reachable p klass S ∧ oo_get_class_is_extern p S = true
    ∧ m ∈ get_class_members p S ∧ is_method_entity p m = true
    ∧ oo_get_method_is_final p m = false
    ∧ get_class_member_by_name p klass (get_entity_ident p m) = some o

/-- From state `a` to state `b` only entities with property `X` were added to
`live_methods` and to the work queue. -/
def added_only (X : EntId → Prop) (a b : analyzer_env) : Prop :=
  (∀ o ∈ b.live_methods, o ∈ a.live_methods ∨ X o)
    ∧ (∀ o ∈ b.workqueue, o ∈ a.workqueue ∨ X o)

/-! ### More example programs -/

/-- A method entity of an example program. -/
def example_method (owner : ClassId) (ident ld_ident : Ident) (is_abstract is_final : Bool)
    (irg : Option GraphId) : ir_entity :=
  { owner := owner, ident := ident, ld_ident := ld_ident, is_method := true,
    is_abstract := is_abstract, is_final := is_final, irg := irg }

/-- A class of an example program (not final). -/
def example_class (is_external is_abstract is_interface : Bool) (members : List EntId)
    (supertypes subtypes : List ClassId) : ir_type :=
  { is_external := is_external, is_abstract := is_abstract, is_interface := is_interface,
    is_final := false, members := members, supertypes := supertypes, subtypes := subtypes }

/-- Interface `I` (0) declares `m` abstract (entity 1); the interfaces `J1` (1)
and `J2` (2) each define `m` (entities 2 and 3); class `K` (3) implements the
three and has no `m`; `Main.main` (entity 0, class 4) calls `I.m` dynamically. -/
def ambiguous_prog : ir_prog :=
  { entities :=
      [example_method 4 10 10 false false (some 0), example_method 0 11 11 true false none,
       example_method 1 11 21 false false none, example_method 2 11 22 false false none]
    types :=
      [example_class false true true [1] [] [3], example_class false true true [2] [] [3],
       example_class false true true [3] [] [3], example_class false false false [] [0, 1, 2] [],
       example_class false false false [0] [] []]
    irgs :=
      [{ entity := 0, nodes := [.Other, .MethodSel 0 1, .Proj 1, .Call 2 false],
         walk := [0, 1, 2, 3] }]
    detect_call := default_detect_call }

/-- Interface `I` (0) declares `m` abstract (entity 1); class `A` (1) defines `m`
(entity 2) and interface `J` (2) defines `m` (entity 3); class `K1` (3) has the
supertypes `A, J, I` and class `K2` (4) the supertypes `J, A, I`; neither has
an `m`.  `Main.main` is entity 0 of class 5. -/
def merge_prog : ir_prog :=
  { entities :=
      [example_method 5 10 10 false false (some 0), example_method 0 11 11 true false none,
       example_method 1 11 21 false false none, example_method 2 11 22 false false none]
    types :=
      [example_class false true true [1] [] [3, 4], example_class false false false [2] [] [3, 4],
       example_class false true true [3] [] [3, 4],
       example_class false false false [] [1, 2, 0] [],
       example_class false false false [] [2, 1, 0] [],
       example_class false false false [0] [] []]
    irgs := [{ entity := 0, nodes := [], walk := [] }]
    detect_call := default_detect_call }

/-- Interface `I` (0) declares `m` abstract (entity 1); class `T` (1) defines `m`
(entity 2); the abstract class `S` (2) extends `T` and declares `m` abstract
again (entity 3); class `K` (3) extends `S`, implements `I` and has no `m`.
`Main.main` is entity 0 of class 4. -/
def abstract_redeclare_prog : ir_prog :=
  { entities :=
      [example_method 4 10 10 false false (some 0), example_method 0 11 11 true false none,
       example_method 1 11 21 false false none, example_method 2 11 22 true false none]
    types :=
      [example_class false true true [1] [] [3], example_class false false false [2] [] [2],
       example_class false true false [3] [1] [3], example_class false false false [] [2, 0] [],
       example_class false false false [0] [] []]
    irgs := [{ entity := 0, nodes := [], walk := [] }]
    detect_call := default_detect_call }

/-- Class `Main` (0) with `main` (entity 0), which calls `foo` (entity 1, without
graph, linker name 30) statically; `bar_impl` (entity 2) has a graph and the
linker name 30. -/
def redirect_prog : ir_prog :=
  { entities :=
      [example_method 0 10 10 false false (some 0), example_method 0 20 30 false false none,
       example_method 0 30 30 false false (some 1)]
    types := [example_class false false false [0, 1, 2] [] []]
    irgs :=
      [{ entity := 0, nodes := [.Address 1, .Call 0 false], walk := [0, 1] },
       { entity := 2, nodes := [], walk := [] }]
    detect_call := default_detect_call }

/-- Class `Main` (0) with `main` (entity 0), whose graph calls `f` (entity 1, with
graph) at node 1 and `ext` (entity 3, without graph) at node 3.  The detection
callback reports the hidden callee `h` (entity 2) for node 1 and `h2`
(entity 4) for node 3. -/
def detect_prog : ir_prog :=
  { entities :=
      [example_method 0 10 10 false false (some 0), example_method 0 11 11 false false (some 1),
       example_method 0 12 12 false false (some 2), example_method 0 13 13 false false none,
       example_method 0 14 14 false false (some 3)]
    types := [example_class false false false [0, 1, 2, 3, 4] [] []]
    irgs :=
      [{ entity := 0, nodes := [.Address 1, .Call 0 false, .Address 3, .Call 2 false],
         walk := [0, 1, 2, 3] },
       { entity := 1, nodes := [], walk := [] },
       { entity := 2, nodes := [], walk := [] },
       { entity := 4, nodes := [], walk := [] }]
    detect_call := fun g n =>
      if g = 0 ∧ n = 1 then some 2 else if g = 0 ∧ n = 3 then some 4 else none }

/-- The extern class `S` (0) has the method `m1` (entity 1) and the final method
`m2` (entity 2); class `M` (1) extends `S`; class `K` (2) extends `M` and has
the members `m1` (entity 3) and `m2` (entity 4); `Main.main` (entity 0 of
class 3) creates a `K`. -/
def extern_super_prog : ir_prog :=
  { entities :=
      [example_method 3 10 10 false false (some 0), example_method 0 11 11 false false none,
       example_method 0 12 12 false true none, example_method 2 11 21 false false (some 1),
       example_method 2 12 22 false false (some 2)]
    types :=
      [example_class true false false [1, 2] [] [1], example_class false false false [] [0] [2],
       example_class false false false [3, 4] [1] [], example_class false false false [0] [] []]
    irgs :=
      [{ entity := 0, nodes := [.VptrIsSet 2], walk := [0] },
       { entity := 3, nodes := [], walk := [] },
       { entity := 4, nodes := [], walk := [] }]
    detect_call := default_detect_call }

/-- A program in which `main` (entity 0 of class `Main`, 0) calls `e` (entity 1, with
a graph) through a `MethodSel` in a call that is flagged statically bound. -/
def bound_call_prog : ir_prog :=
  { entities :=
      [example_method 0 10 10 false false (some 0), example_method 0 11 11 false false (some 1)]
    types := [example_class false false false [0, 1] [] []]
    irgs :=
      [{ entity := 0, nodes := [.Other, .MethodSel 0 1, .Proj 1, .Call 2 true],
         walk := [0, 1, 2, 3] },
       { entity := 1, nodes := [], walk := [] }]
    detect_call := default_detect_call }

/-- Class `A` (0) defines `m` (entity 1); its first subclass `S1` (1) overrides `m`
(entity 2), its second subclass `S2` (2) has no `m`.  `Main.main` (entity 0 of
class 3) creates an `S1` and an `S2` and calls `A.m` dynamically. -/
def sibling_prog : ir_prog :=
  { entities :=
      [example_method 3 10 10 false false (some 0), example_method 0 11 11 false false (some 1),
       example_method 1 11 21 false false (some 2)]
    types :=
      [example_class false false false [1] [] [1, 2], example_class false false false [2] [0] [],
       example_class false false false [] [0] [], example_class false false false [0] [] []]
    irgs :=
      [{ entity := 0,
         nodes := [.VptrIsSet 1, .VptrIsSet 2, .Other, .MethodSel 2 1, .Proj 3, .Call 4 false],
         walk := [0, 1, 2, 3, 4, 5] },
       { entity := 1, nodes := [], walk := [] },
       { entity := 2, nodes := [], walk := [] }]
    detect_call := default_detect_call }

/-- The entries of `unused_targets` are in order: every key is a class that is
neither live nor extern, and no method stored for a key is abstract. -/
def unused_ok (p : ir_prog) (env : analyzer_env) : Prop :=
  ∀ K methods, (K, methods) ∈ env.unused_targets →
    (K ∉ env.live_classes ∧ oo_get_class_is_extern p K = false)
      ∧ ∀ m C, (m, C) ∈ methods → oo_get_method_is_abstract p m = false

/-- The part of `add_new_live_class` that updates the existing results
(rta.c:193-214): the methods recorded as unused for `klass` are added to the
target sets of their call entities, and the record of `klass` is removed. -/
def add_new_live_class_drain (p : ir_prog) (klass : ClassId) (env1 : analyzer_env) :
    Except Err analyzer_env :=
  match cpmap_find env1.unused_targets klass with
  | some methods => do
    let env3 ← methods.foldlM
      (fun (env : analyzer_env) (entry : Nat × cpset) =>
        add_to_dyncalls p entry.1 entry.2 env)
      env1
    pure { env3 with unused_targets := cpmap_remove env3.unused_targets klass }
  | none => pure env1

/-- The points of `rta_run` between two steps of a handler: the state with
which the work-queue loop starts, and every state reached from such a point by
taking an entity from the queue, by marking an entity done, by the callback
on one IR node, or by the handling of a method without graph. -/
inductive handler_point (depth : Nat) (p : ir_prog) (entry_points : List EntId)
    (initial_live_classes : Option (List ClassId)) : analyzer_env → Prop where
  | start (env1 env2 : analyzer_env) :
      rta_run_entry_points p entry_points analyzer_env_init = .ok env1 →
      rta_run_initial_live_classes depth p initial_live_classes env1 = .ok env2 →
      handler_point depth p entry_points initial_live_classes env2
  | dequeue (env : analyzer_env) (entity : EntId) (rest : List EntId) :
      handler_point depth p entry_points initial_live_classes env →
      env.workqueue = entity :: rest →
      handler_point depth p entry_points initial_live_classes { env with workqueue := rest }
  | mark_done (env : analyzer_env) (entity : EntId) :
      handler_point depth p entry_points initial_live_classes env →
      handler_point depth p entry_points initial_live_classes
        { env with done_set := cpset_insert env.done_set entity }
  | node (g : GraphId) (n : NodeId) (env env1 : analyzer_env) :
      handler_point depth p entry_points initial_live_classes env →
      walk_callgraph_and_analyze depth p g n env = .ok env1 →
      handler_point depth p entry_points initial_live_classes env1
  | no_graph (entity : EntId) (env env1 : analyzer_env) :
      handler_point depth p entry_points initial_live_classes env →
      analyzer_handle_no_graph p entity env = .ok env1 →
      handler_point depth p entry_points initial_live_classes env1

/-- Every method stored in `unused_targets` is a method entity, and every call
entity stored with it has the property `keys`. -/
def unused_keyed_in (p : ir_prog) (keys : EntId → Prop) (env : analyzer_env) : Prop :=
  ∀ K methods, (K, methods) ∈ env.unused_targets → ∀ m C, (m, C) ∈ methods →
    is_method_entity p m = true ∧ ∀ c ∈ C, keys c

/-- Every method stored in `unused_targets` is a method entity, and every call
entity stored with it is a key of `dyncall_targets`. -/
def unused_keyed (p : ir_prog) (env : analyzer_env) : Prop :=
  unused_keyed_in p (fun c => ∃ ts, cpmap_find env.dyncall_targets c = some ts) env

/-- Every entity in the work queue is in `live_methods`. -/
def queue_live (env : analyzer_env) : Prop := ∀ x ∈ env.workqueue, x ∈ env.live_methods

/-- The work-queue loop of `rta_run` with a record of the entities it processes:
an entity taken from the queue is processed (its graph is walked, or it is
handled as a method without graph) when it is not in `done_set`; the second
component of the result lists the processed entities in the order of their
processing. -/
def rta_run_loop_log (depth : Nat) (p : ir_prog) :
    Nat → analyzer_env → Except Err (analyzer_env × List EntId)
  | fuel, env =>
    match env.workqueue with
    | [] => pure (env, [])
    | entity :: rest =>
      match fuel with
      | 0 => .error .OutOfFuel
      | fuel + 1 => do
        let env1 ← rta_run_iteration depth p entity { env with workqueue := rest }
        let r ← rta_run_loop_log depth p fuel env1
        pure (r.1, if entity ∈ env.done_set then r.2 else entity :: r.2)

/-- The work-queue loop of `rta_devirtualize_calls` with a record of the entities
it processes, as `rta_run_loop_log`. -/
def rta_devirtualize_loop_log :
    Nat → ir_prog × optimizer_env → Except Err ((ir_prog × optimizer_env) × List EntId)
  | fuel, st =>
    match st.2.workqueue with
    | [] => pure (st, [])
    | entity :: rest =>
      match fuel with
      | 0 => .error .OutOfFuel
      | fuel + 1 => do
        let st1 ← rta_devirtualize_iteration entity (st.1, { st.2 with workqueue := rest })
        let r ← rta_devirtualize_loop_log fuel st1
        pure (r.1, if entity ∈ st.2.done_set then r.2 else entity :: r.2)

/-- Node `n` of graph `g` is no `VptrIsSet` node and no dynamic call. -/
def node_no_object (p : ir_prog) (g : GraphId) (n : NodeId) : Prop :=
  (∀ k, get_irn p g n ≠ .VptrIsSet k) ∧ ∀ c, ¬ is_dynamic_call p g n c

/-- Node `n` of graph `g` does nothing but call `F` by `Address`: it is an
`Address` node of `F` or of an entity that is no method, a `Call` whose callee
is an `Address` node of `F`, or a node of a kind the analyzer skips. -/
def node_calls_only (p : ir_prog) (g : GraphId) (n : NodeId) (F : EntId) : Prop :=
  match get_irn p g n with
  | .Address e => e = F ∨ is_method_entity p e = false
  | .Call c _ => get_irn p g c = .Address F
  | .VptrIsSet _ => False
  | _ => True

/-- Node `n` of graph `g` is no call, no `VptrIsSet` node and no `Address` node of
a method entity. -/
def node_inert (p : ir_prog) (g : GraphId) (n : NodeId) : Prop :=
  match get_irn p g n with
  | .Address e => is_method_entity p e = false
  | .Call _ _ => False
  | .VptrIsSet _ => False
  | _ => True

/-- Class `Main` (0) with the entry `E` (entity 0), whose graph calls `F`
(entity 1) by `Address`; the graph of `F` has no calls. -/
def static_prog : ir_prog :=
  { entities :=
      [example_method 0 10 10 false false (some 0), example_method 0 11 11 false false (some 1)]
    types := [example_class false false false [0, 1] [] []]
    irgs :=
      [{ entity := 0, nodes := [.Address 1, .Call 0 false], walk := [0, 1] },
       { entity := 1, nodes := [.Other], walk := [0] }]
    detect_call := default_detect_call }

/-! ### The two-class scenario for every walk order -/

/-- The program `two_class_prog` with the walk order `w` for the graph of `main`. -/
def two_class_walk (w : List NodeId) : ir_prog :=
  { two_class_prog with
    irgs :=
      [{ entity := 0,
         nodes := [.Other, .MethodSel 0 1, .Proj 1, .Call 2 false, .VptrIsSet 1],
         walk := w },
       { entity := 1, nodes := [], walk := [] },
       { entity := 2, nodes := [], walk := [] }] }

/-- The program `two_class_walk w` after the devirtualizer has rewritten the call
on `A.m` into a call of `B.m`. -/
def two_class_walk_rewritten (w : List NodeId) : ir_prog :=
  { two_class_prog with
    irgs :=
      [{ entity := 0,
         nodes := [.Other, .Tuple [0, 5], .Proj 1, .Call 2 false, .VptrIsSet 1, .Address 2],
         walk := w },
       { entity := 1, nodes := [], walk := [] },
       { entity := 2, nodes := [], walk := [] }] }

/-- The analysis state during the walk over the graph of `main`, by whether the
walk has met the `Call` node and whether it has met the `VptrIsSet` node. -/
def two_class_state : Bool → Bool → analyzer_env
  | false, false =>
    { workqueue := [], done_set := [0], live_classes := [], live_methods := [0],
      dyncall_targets := [], unused_targets := [] }
  | true, false =>
    { workqueue := [], done_set := [0], live_classes := [], live_methods := [0],
      dyncall_targets := [(1, [])], unused_targets := [(0, [(1, [1])]), (1, [(2, [1])])] }
  | false, true =>
    { workqueue := [], done_set := [0], live_classes := [1], live_methods := [0],
      dyncall_targets := [], unused_targets := [] }
  | true, true =>
    { workqueue := [2], done_set := [0], live_classes := [1], live_methods := [0, 2],
      dyncall_targets := [(1, [2])], unused_targets := [(0, [(1, [1])])] }

/-- The state of the devirtualizer during the walk over the graph of `main`, by
whether the walk has met the `Call` node. -/
def two_class_dstate (w : List NodeId) : Bool → ir_prog × optimizer_env
  | false => (two_class_walk w, ⟨[], [0], [(1, [2])]⟩)
  | true => (two_class_walk_rewritten w, ⟨[2], [0], [(1, [2])]⟩)

/-! ### Termination -/

/-- The result is the failure `OutOfFuel`: the recursion budget or the fuel of a
loop was used up before the computation came to its end. -/
def out_of_fuel {α : Type} (r : Except Err α) : Bool :=
  match r with
  | .error .OutOfFuel => true
  | _ => false

/-- The computation came to its end within its budget: it returned, or it
stopped at one of the assertions of the C code. -/
def terminates {α : Type} (r : Except Err α) : Prop := out_of_fuel r = false

/-- Class `S` is reachable from class `K` by one or more subtype edges. -/
inductive sub_reachable (p : ir_prog) : ClassId → ClassId → Prop where
  | edge (K S : ClassId) : S ∈ get_class_subtypes p K → sub_reachable p K S
  | step (K M S : ClassId) : M ∈ get_class_subtypes p K → sub_reachable p M S →
      sub_reachable p K S

/-- The class hierarchy is acyclic: no class is reachable from itself, neither
by subtype edges nor by supertype edges. -/
def hierarchy_acyclic (p : ir_prog) : Prop :=
  (∀ K, ¬ sub_reachable p K K) ∧ (∀ K, ¬ super_reachable p K K)

/-- The number of entities of the program that are not in `done_set`. -/
def undone_count (p : ir_prog) (env : analyzer_env) : Nat :=
  ((List.range p.entities.length).filter (fun e => decide (e ∉ env.done_set))).length

/-- The classes of `path` are distinct classes of the program from which `K` is
reachable, and the budget `depth` covers the classes that are not on `path`. -/
def path_budget (p : ir_prog) (R : ClassId → ClassId → Prop) (depth : Nat)
    (path : List ClassId) (K : ClassId) : Prop :=
  path.Nodup ∧ (∀ x ∈ path, x < p.types.length ∧ R x K)
    ∧ p.types.length + 1 ≤ depth + path.length

/-! ## The default memory model (`src-cpp/dmemory.c`) -/

/-- The sort of a mode of the IR. -/
inductive mode_sort where
  | int_number
  | reference
  | memory
  | tuple
deriving DecidableEq, Repr

/-- A mode of the IR (`ir_mode`), as far as `dmemory.c` looks at it. -/
structure ir_mode where
  sort : mode_sort
  size_bytes : Nat
  is_signed : Bool
deriving DecidableEq, Repr

def mode_Is : ir_mode := { sort := .int_number, size_bytes := 4, is_signed := true }

def mode_Iu : ir_mode := { sort := .int_number, size_bytes := 4, is_signed := false }

/-- The pointer mode of a target whose pointers have `ptr_bytes` bytes. -/
def mode_P (ptr_bytes : Nat) : ir_mode :=
  { sort := .reference, size_bytes := ptr_bytes, is_signed := false }

def mode_M : ir_mode := { sort := .memory, size_bytes := 0, is_signed := false }

def mode_T : ir_mode := { sort := .tuple, size_bytes := 0, is_signed := false }

/-- The C type `unsigned`: 32 bits. -/
def to_unsigned (x : Nat) : Nat := x % 2 ^ 32

/-- The function `get_mode_size_bytes` of the IR library, an `unsigned`. -/
def get_mode_size_bytes (m : ir_mode) : Nat := to_unsigned m.size_bytes

/-- A type of the IR (`ir_type`), as far as `default_alloc_array` looks at it. -/
structure dm_type where
  is_class : Bool
  size_bytes : Nat
deriving DecidableEq, Repr

def is_Class_type (t : dm_type) : Bool := t.is_class

def get_type_size_bytes (t : dm_type) : Nat := to_unsigned t.size_bytes

/-- The projection numbers that `dmemory.c` uses. -/
inductive proj_num where
  | pn_Call_M
  | pn_Call_T_result
  | pn_Store_M
  | pn_Load_M
  | pn_Load_res
  | index (n : Nat)
deriving DecidableEq, Repr

/-- The entities that `dmemory_init` creates. -/
inductive dm_entity where
  | calloc_entity
  | builtin_arraylength
deriving DecidableEq, Repr

/-- The nodes that `dmemory.c` builds (`new_r_...`), and `Input` for a node that
the caller hands in. -/
inductive dm_node where
  | Input (n : Nat)
  | Const_long (mode : ir_mode) (value : Int)
  | SymConst_type_size (mode : ir_mode) (type : dm_type)
  | SymConst_addr_ent (mode : ir_mode) (entity : dm_entity)
  | Conv (op : dm_node) (mode : ir_mode)
  | Add (left right : dm_node) (mode : ir_mode)
  | Mul (left right : dm_node) (mode : ir_mode)
  | Call (mem callee in0 in1 : dm_node)
  | Proj (pred : dm_node) (mode : ir_mode) (num : proj_num)
  | Store (mem ptr value : dm_node)
  | Load (mem ptr : dm_node) (mode : ir_mode)
deriving DecidableEq, Repr

/-- The conversion of an `unsigned` to `int` (two's complement). -/
def to_int (x : Nat) : Int :=
  if to_unsigned x < 2 ^ 31 then (to_unsigned x : Int) else (to_unsigned x : Int) - 2 ^ 32

/-- The subtraction of two `int`; an overflow is undefined behaviour. -/
def int_sub (a b : Int) : Option Int :=
  if - 2 ^ 31 ≤ a - b ∧ a - b < 2 ^ 31 then some (a - b) else none

/-- The local `add_size` of `default_alloc_array` (dmemory.c:51), in `unsigned`
arithmetic, for a `count_size` that is not zero. -/
def add_size (element_size count_size : Nat) : Nat :=
  to_unsigned (element_size + to_unsigned (count_size + (2 ^ 32 - 1))) / count_size

/-- The local `addr_delta` of `default_alloc_array` (dmemory.c:58). -/
def addr_delta (element_size count_size : Nat) : Nat :=
  to_unsigned (add_size element_size count_size * element_size)

/-- The local `element_size` of `default_alloc_array` (dmemory.c:48). -/
def element_size (ptr_bytes : Nat) (eltype : dm_type) : Nat :=
  if is_Class_type eltype then get_mode_size_bytes (mode_P ptr_bytes)
  else get_type_size_bytes eltype

/-- The function `default_alloc_object` (dmemory.c:20): the result node and the
new memory node. -/
def default_alloc_object (ptr_bytes : Nat) (type : dm_type) (mem : dm_node) :
    dm_node × dm_node :=
  let cur_mem := mem
  let size := dm_node.SymConst_type_size mode_Iu type
  let callee := dm_node.SymConst_addr_ent (mode_P ptr_bytes) .calloc_entity
  let one := dm_node.Const_long mode_Iu 1
  let call := dm_node.Call cur_mem callee one size
  let cur_mem := dm_node.Proj call mode_M .pn_Call_M
  let ress := dm_node.Proj call mode_T .pn_Call_T_result
  let res := dm_node.Proj ress (mode_P ptr_bytes) (.index 0)
  (res, cur_mem)

/-- The function `default_alloc_array` (dmemory.c:43) for the array-length mode
`default_arraylength_mode`: the result node and the new memory node.  A division
by zero and an overflow of `(int)addr_delta-4` give `none`. -/
def default_alloc_array (ptr_bytes : Nat) (default_arraylength_mode : ir_mode)
    (eltype : dm_type) (count : dm_node) (mem : dm_node) : Option (dm_node × dm_node) :=
  let cur_mem := mem
  let count_size := get_mode_size_bytes default_arraylength_mode
  let element_size := element_size ptr_bytes eltype
  if count_size = 0 then none
  else
    let add_size := add_size element_size count_size
    let count_u := dm_node.Conv count mode_Iu
    let addv := dm_node.Const_long mode_Iu add_size
    let add1 := dm_node.Add count_u addv mode_Iu
    let elsizev := dm_node.Const_long mode_Iu element_size
    let size := dm_node.Mul add1 elsizev mode_Iu
    let addr_delta := addr_delta element_size count_size
    let callee := dm_node.SymConst_addr_ent (mode_P ptr_bytes) .calloc_entity
    let one := dm_node.Const_long mode_Iu 1
    let call := dm_node.Call cur_mem callee one size
    let cur_mem := dm_node.Proj call mode_M .pn_Call_M
    let ress := dm_node.Proj call mode_T .pn_Call_T_result
    let res := dm_node.Proj ress (mode_P ptr_bytes) (.index 0)
    let len_value := dm_node.Conv count default_arraylength_mode
    match int_sub (to_int addr_delta) 4 with
    | none => none
    | some d =>
      let len_delta := dm_node.Const_long (mode_P ptr_bytes) d
      let len_addr := dm_node.Add res len_delta (mode_P ptr_bytes)
      let store := dm_node.Store cur_mem len_addr len_value
      let cur_mem := dm_node.Proj store mode_M .pn_Store_M
      let res :=
        if addr_delta > 0 then
          dm_node.Add res (dm_node.Const_long (mode_P ptr_bytes) (to_int addr_delta))
            (mode_P ptr_bytes)
        else res
      some (res, cur_mem)

/-- The file-level variable `default_arraylength_mode` after `dmemory_init`
(dmemory.c:132). -/
def dmemory_init_arraylength_mode : ir_mode := mode_Is

/-! ### The meaning of the nodes -/

/-- The predecessor of a `Proj` node. -/
def get_Proj_pred : dm_node → Option dm_node
  | .Proj pred _ _ => some pred
  | _ => none

/-- The address of a `Store` or `Load` node. -/
def get_memop_ptr : dm_node → Option dm_node
  | .Store _ ptr _ => some ptr
  | .Load _ ptr _ => some ptr
  | _ => none

/-- The memory input of a `Store` node. -/
def get_Store_mem : dm_node → Option dm_node
  | .Store mem _ _ => some mem
  | _ => none

/-- The address at which the store that ends the memory chain `mem` writes: `mem`
is the memory `Proj` of a `Store`. -/
def stored_address (mem : dm_node) : Option dm_node :=
  (get_Proj_pred mem).bind get_memop_ptr

/-- The node of the pointer that `calloc` returns, in the call before the store
that ends the memory chain `mem`. -/
def calloc_result (ptr_bytes : Nat) (mem : dm_node) : Option dm_node :=
  (((get_Proj_pred mem).bind get_Store_mem).bind get_Proj_pred).map
    (fun call => dm_node.Proj (dm_node.Proj call mode_T .pn_Call_T_result)
      (mode_P ptr_bytes) (.index 0))

/-! ### A diamond of interfaces -/

/-- Interface `I0` (0) defines `m` (entity 1); the interfaces `I1` (1) and `I2` (2)
extend `I0` and have no `m`; the abstract class `A` (3) declares `m` abstract
(entity 2); class `K` (4) extends `A`, implements `I1` and `I2` and has no `m`.
`Main.main` (entity 0 of class 5) calls `A.m` dynamically.  The one
implementation of `m` is `I0.m`. -/
def diamond_prog : ir_prog :=
  { entities :=
      [example_method 5 10 10 false false (some 0), example_method 0 11 21 false false none,
       example_method 3 11 11 true false none]
    types :=
      [example_class false true true [1] [] [1, 2], example_class false true true [] [0] [4],
       example_class false true true [] [0] [4], example_class false true false [2] [] [4],
       example_class false false false [] [3, 1, 2] [],
       example_class false false false [0] [] []]
    irgs :=
      [{ entity := 0, nodes := [.Other, .MethodSel 0 2, .Proj 1, .Call 2 false],
         walk := [0, 1, 2, 3] }]
    detect_call := default_detect_call }

/-! ### The result of the analysis as a least closed state -/

/-- Call entity `c` is a key of `dyncall_targets`. -/
def has_key (env : analyzer_env) (c : EntId) : Prop :=
  ∃ ts, cpmap_find env.dyncall_targets c = some ts

/-- What the analyzer callback can add to `live_methods` and to the work queue at
node `n` of graph `g` in state `env`: the method of an `Address` node, the callee
of a static call, the method that `detect_call` reports for a static call whose
callee has no graph, a method that the resolution of a dynamic call without
target set yields at a class that is live or extern, and, at a `VptrIsSet` node
of a class that becomes live, a method recorded as unused for the class and a
member of the class with the name of a method of an extern superclass. -/
def node_adds (depth : Nat) (p : ir_prog) (g : GraphId) (n : NodeId) (env : analyzer_env)
    (o : EntId) : Prop :=
  (get_irn p g n = .Address o ∧ is_method_entity p o = true)
    ∨ is_static_call p g n o
    ∨ (∃ e, is_static_call p g n e ∧ get_entity_irg p e = none ∧ p.detect_call g n = some o)
    ∨ (∃ c K, is_dynamic_call p g n c ∧ cpmap_find env.dyncall_targets c = none
        ∧ (K ∈ env.live_classes ∨ oo_get_class_is_extern p K = true)
        ∧ resolves_to depth p c K o ∧ oo_get_method_is_abstract p o = false)
    ∨ (∃ K, get_irn p g n = .VptrIsSet K ∧ oo_get_class_is_extern p K = false
        ∧ oo_get_class_is_abstract p K = false
        ∧ ((∃ c, unused_mem env K o c) ∨ extern_override p K o))

/-- What the analysis leaves behind for node `n` of graph `g`: the methods that the
node names are live, a dynamic call has a target set, and the class of a
`VptrIsSet` node is live unless it is extern or abstract. -/
def node_closed (p : ir_prog) (g : GraphId) (n : NodeId) (F : analyzer_env) : Prop :=
  node_live p g n F
    ∧ (∀ c, is_dynamic_call p g n c → has_key F c)
    ∧ (∀ K, get_irn p g n = .VptrIsSet K → oo_get_class_is_extern p K = false →
        oo_get_class_is_abstract p K = false → K ∈ F.live_classes)

/-- The state `F` is closed under the rules of the analysis: the nodes of the
graphs of live methods are accounted for, the redirection target of a live
method without graph is live, every key of `dyncall_targets` has as targets the
methods that its resolution yields at the classes that are live or extern, and
these are live, the members of a live class that have the name of a method of an
extern superclass are live, and the initial live classes are live. -/
structure run_closed (depth : Nat) (p : ir_prog) (initial_live_classes : Option (List ClassId))
    (F : analyzer_env) : Prop where
  nodes : ∀ M ∈ F.live_methods, ∀ g, get_entity_irg p M = some g →
    ∀ n ∈ (get_irp_irg p g).walk, node_closed p g n F
  redirect : ∀ M ∈ F.live_methods, get_entity_irg p M = none →
    ∀ t, get_ldname_redirect p M = .ok (some t) → t ∈ F.live_methods
  targets : ∀ c, has_key F c → ∀ K m, resolves_to depth p c K m →
    oo_get_method_is_abstract p m = false →
    (K ∈ F.live_classes ∨ oo_get_class_is_extern p K = true) →
      has_target F c m ∧ m ∈ F.live_methods
  overrides : ∀ K ∈ F.live_classes, oo_get_class_is_extern p K = false →
    ∀ o, extern_override p K o → o ∈ F.live_methods
  initial : ∀ K ∈ initial_live_classes.getD [], K ∈ F.live_classes

/-- The state `s` is below the state `F`: its live methods, its queued methods,
its live classes and the keys of its target map are among those of `F`. -/
structure env_below (F s : analyzer_env) : Prop where
  methods : ∀ x ∈ s.live_methods, x ∈ F.live_methods
  queue : ∀ x ∈ s.workqueue, x ∈ F.live_methods
  classes : ∀ K ∈ s.live_classes, K ∈ F.live_classes
  keys : ∀ c, has_key s c → has_key F c

/-- The class of every `VptrIsSet` node in the graph of a method that is done is
live, unless it is extern or abstract. -/
def done_vptr (p : ir_prog) (env : analyzer_env) : Prop :=
  ∀ M ∈ env.done_set, ∀ g, get_entity_irg p M = some g →
    ∀ n ∈ (get_irp_irg p g).walk, ∀ K, get_irn p g n = .VptrIsSet K →
      oo_get_class_is_extern p K = false → oo_get_class_is_abstract p K = false →
        K ∈ env.live_classes

/-- For every live class that is not extern, the members that have the name of a
method of an extern superclass are live. -/
def classes_checked (p : ir_prog) (env : analyzer_env) : Prop :=
  ∀ K ∈ env.live_classes, oo_get_class_is_extern p K = false →
    ∀ o, extern_override p K o → o ∈ env.live_methods

/-- Two analysis results are the same as sets: the same live classes, the same
live methods, the same keys of `dyncall_targets` and the same targets of every
key. -/
def same_analysis (a b : analyzer_env) : Prop :=
  (∀ K, K ∈ a.live_classes ↔ K ∈ b.live_classes)
    ∧ (∀ m, m ∈ a.live_methods ↔ m ∈ b.live_methods)
    ∧ (∀ c, has_key a c ↔ has_key b c)
    ∧ (∀ c m, has_target a c m ↔ has_target b c m)

/-- For every key of `dyncall_targets`, the key is a method entity and the
collection of its targets has returned from some state. -/
def keys_collected (depth : Nat) (p : ir_prog) (env : analyzer_env) : Prop :=
  ∀ c, has_key env c → is_method_entity p c = true
    ∧ ∃ s r, collect_methods depth p c [] s = .ok r

/-- For every live class, the check for extern superclasses has returned from
some state. -/
def classes_examined (depth : Nat) (p : ir_prog) (env : analyzer_env) : Prop :=
  ∀ K ∈ env.live_classes, ∃ s s1, check_for_external_superclasses depth p K s = .ok s1

/-- What a run that has returned with the state `F` tells about the calls of a
later run: the live methods are method entities, the collection has returned
for every key of `dyncall_targets`, and the check for extern superclasses has
returned for every live class. -/
structure run_safe (depth : Nat) (p : ir_prog) (F : analyzer_env) : Prop where
  methods : ∀ m ∈ F.live_methods, is_method_entity p m = true
  keys : keys_collected depth p F
  classes : classes_examined depth p F

/-- Classes `A` (0) with the method `m` (entity 2) and `B` (1), a subclass of `A`
that overrides `m` (entity 3), and a class `Main` (2) with two entry points: `e1`
(entity 0) creates a `B`, `e2` (entity 1) calls `A.m` dynamically. -/
def two_entry_prog : ir_prog :=
  { entities :=
      [example_method 2 10 10 false false (some 0), example_method 2 12 12 false false (some 1),
       example_method 0 11 11 false false (some 2), example_method 1 11 13 false false (some 3)]
    types :=
      [example_class false false false [2] [] [1], example_class false false false [3] [0] [],
       example_class false false false [0, 1] [] []]
    irgs :=
      [{ entity := 0, nodes := [.VptrIsSet 1], walk := [0] },
       { entity := 1, nodes := [.Other, .MethodSel 0 2, .Proj 1, .Call 2 false],
         walk := [0, 1, 2, 3] },
       { entity := 2, nodes := [], walk := [] },
       { entity := 3, nodes := [], walk := [] }]
    detect_call := default_detect_call }

/-! # Theorems -/

/-! ## The error monad -/

theorem bind_ok {α β : Type} (x : Except Err α) (f : α → Except Err β) (b : β) :
    (x >>= f) = .ok b ↔ ∃ a, x = .ok a ∧ f a = .ok b := by
  cases x with
  | error e => simp [bind, Except.bind]
  | ok a => simp [bind, Except.bind]

theorem assert_ok (e : Err) (c : Bool) (u : Unit) : assert e c = .ok u ↔ c = true := by
  unfold assert
  cases c <;> simp

theorem assert_bind_ok {β : Type} (e : Err) (c : Bool) (f : Unit → Except Err β) (b : β) :
    (assert e c >>= f) = .ok b ↔ c = true ∧ f () = .ok b := by
  unfold assert
  cases c <;> simp [bind, Except.bind]

theorem exists_assert_ok (e : Err) (c : Bool) (P : Unit → Prop) :
    (∃ u, assert e c = .ok u ∧ P u) ↔ c = true ∧ P () := by
  simp only [assert_ok]
  exact ⟨fun ⟨_, a, b⟩ => ⟨a, b⟩, fun ⟨a, b⟩ => ⟨(), a, b⟩⟩

theorem pure_ok {α : Type} (a b : α) : (pure a : Except Err α) = .ok b ↔ a = b := by
  simp [pure, Except.pure]

/-! ## Folds in the error monad -/

theorem foldlM_inv {σ α : Type} (f : σ → α → Except Err σ) (I : σ → Prop) :
    ∀ (l : List α), (∀ s x s1, x ∈ l → I s → f s x = .ok s1 → I s1) →
      ∀ s s1, I s → l.foldlM f s = .ok s1 → I s1
  | [], _, s, s1, hs, h => by
    simp [List.foldlM, pure_ok] at h
    exact h ▸ hs
  | x :: l, hstep, s, s1, hs, h => by
    simp only [List.foldlM, bind_ok] at h
    obtain ⟨s2, h1, h2⟩ := h
    exact foldlM_inv f I l (fun s x s1 hx => hstep s x s1 (List.mem_cons_of_mem _ hx)) s2 s1
      (hstep s x s2 (List.mem_cons_self _ _) hs h1) h2

theorem foldlM_forall {σ α : Type} (f : σ → α → Except Err σ) (I : σ → Prop)
    (Q : α → σ → Prop) :
    ∀ (l : List α), (∀ s x s1, x ∈ l → I s → f s x = .ok s1 → I s1 ∧ Q x s1) →
      (∀ s x s1 y, x ∈ l → I s → f s x = .ok s1 → Q y s → Q y s1) →
      ∀ s s1, I s → l.foldlM f s = .ok s1 → I s1 ∧ ∀ y ∈ l, Q y s1
  | [], _, _, s, s1, hs, h => by
    simp [List.foldlM, pure_ok] at h
    exact ⟨h ▸ hs, by simp⟩
  | x :: l, hstep, hpres, s, s1, hs, h => by
    simp only [List.foldlM, bind_ok] at h
    obtain ⟨s2, h1, h2⟩ := h
    have hx := hstep s x s2 (List.mem_cons_self _ _) hs h1
    have ih := foldlM_forall f I Q l
      (fun s x s1 hx => hstep s x s1 (List.mem_cons_of_mem _ hx))
      (fun s x s1 y hx => hpres s x s1 y (List.mem_cons_of_mem _ hx)) s2 s1 hx.1 h2
    refine ⟨ih.1, ?_⟩
    intro y hy
    rcases List.mem_cons.1 hy with rfl | hy
    · have hQ : I s2 ∧ Q y s2 → Q y s1 := by
        intro h0
        exact (foldlM_inv f (fun t => I t ∧ Q y t) l
          (fun s x s1 hx hI hf =>
            ⟨(hstep s x s1 (List.mem_cons_of_mem _ hx) hI.1 hf).1,
             hpres s x s1 y (List.mem_cons_of_mem _ hx) hI.1 hf hI.2⟩) s2 s1 h0 h2).2
      exact hQ hx
    · exact ih.2 y hy

/-! ## Containers -/

theorem mem_cpset_insert (s : cpset) (x y : Nat) : y ∈ cpset_insert s x ↔ y ∈ s ∨ y = x := by
  unfold cpset_insert
  split
  · constructor
    · exact Or.inl
    · rintro (h | rfl)
      · exact h
      · assumption
  · simp

theorem cpset_insert_self (s : cpset) (x : Nat) : x ∈ cpset_insert s x :=
  (mem_cpset_insert s x x).2 (Or.inr rfl)

theorem cpset_subset_insert (s : cpset) (x : Nat) : s ⊆ cpset_insert s x :=
  fun _ h => (mem_cpset_insert s x _).2 (Or.inl h)

theorem cpset_insert_nodup (s : cpset) (x : Nat) (h : s.Nodup) : (cpset_insert s x).Nodup := by
  unfold cpset_insert
  split
  · exact h
  · rw [List.nodup_append]
    refine ⟨h, List.nodup_singleton x, ?_⟩
    intro a ha hb
    simp at hb
    subst hb
    contradiction

theorem cpmap_find_set_self {β : Type} (m : cpmap β) (k : Nat) (v : β) :
    cpmap_find (cpmap_set m k v) k = some v := by
  induction m with
  | nil => simp [cpmap_set, cpmap_find]
  | cons kv rest ih =>
    obtain ⟨k1, v1⟩ := kv
    by_cases h : k1 = k
    · simp [cpmap_set, cpmap_find, h]
    · simp [cpmap_set, cpmap_find, h, ih]

theorem cpmap_find_set_ne {β : Type} (m : cpmap β) (k k2 : Nat) (v : β) (hne : k2 ≠ k) :
    cpmap_find (cpmap_set m k v) k2 = cpmap_find m k2 := by
  induction m with
  | nil => simp [cpmap_set, cpmap_find, Ne.symm hne]
  | cons kv rest ih =>
    obtain ⟨k1, v1⟩ := kv
    by_cases h : k1 = k
    · subst h
      simp [cpmap_set, cpmap_find, Ne.symm hne]
    · by_cases h2 : k1 = k2
      · subst h2
        simp [cpmap_set, cpmap_find, h]
      · simp [cpmap_set, cpmap_find, h, h2, ih]

theorem cpmap_find_set {β : Type} (m : cpmap β) (k k2 : Nat) (v : β) :
    cpmap_find (cpmap_set m k v) k2 = if k2 = k then some v else cpmap_find m k2 := by
  by_cases h : k2 = k
  · subst h
    simp [cpmap_find_set_self]
  · simp [h, cpmap_find_set_ne m k k2 v h]

theorem cpmap_find_remove {β : Type} (m : cpmap β) (k k2 : Nat) :
    cpmap_find (cpmap_remove m k) k2 = if k2 = k then none else cpmap_find m k2 := by
  induction m with
  | nil => simp [cpmap_remove, cpmap_find]
  | cons kv rest ih =>
    obtain ⟨k1, v1⟩ := kv
    unfold cpmap_remove at ih ⊢
    by_cases h : k1 = k
    · subst h
      by_cases h2 : k2 = k1
      · simp [List.filter, h2] at ih ⊢
        simpa [h2] using ih
      · have h3 : ¬ k1 = k2 := fun h => h2 h.symm
        simp [List.filter, cpmap_find, h2, h3] at ih ⊢
        exact ih
    · by_cases h2 : k2 = k
      · subst h2
        simp [List.filter, cpmap_find, h] at ih ⊢
        exact ih
      · simp [List.filter, cpmap_find, h, h2] at ih ⊢
        rw [ih]

theorem cpmap_find_mem {β : Type} (m : cpmap β) (k : Nat) (v : β)
    (h : cpmap_find m k = some v) : (k, v) ∈ m := by
  induction m with
  | nil => simp [cpmap_find] at h
  | cons kv rest ih =>
    obtain ⟨k1, v1⟩ := kv
    by_cases h1 : k1 = k
    · simp [cpmap_find, h1] at h
      simp [h1, h]
    · simp [cpmap_find, h1] at h
      exact List.mem_cons_of_mem _ (ih h)

theorem cpmap_mem_set {β : Type} (m : cpmap β) (k : Nat) (v : β) (e : Nat × β)
    (h : e ∈ cpmap_set m k v) : e ∈ m ∨ e = (k, v) := by
  induction m with
  | nil =>
    simp [cpmap_set] at h
    exact Or.inr h
  | cons kv rest ih =>
    obtain ⟨k1, v1⟩ := kv
    by_cases h1 : k1 = k
    · simp [cpmap_set, h1] at h
      rcases h with h | h
      · exact Or.inr h
      · exact Or.inl (List.mem_cons_of_mem _ h)
    · simp [cpmap_set, h1] at h
      rcases h with h | h
      · exact Or.inl (by simp [h])
      · rcases ih h with h | h
        · exact Or.inl (List.mem_cons_of_mem _ h)
        · exact Or.inr h

theorem cpmap_mem_remove {β : Type} (m : cpmap β) (k : Nat) (e : Nat × β)
    (h : e ∈ cpmap_remove m k) : e ∈ m ∧ e.1 ≠ k := by
  unfold cpmap_remove at h
  simpa using h

theorem env_ext_refl (a : analyzer_env) : env_ext a a :=
  ⟨rfl, fun _ h => h, fun _ h => h, fun _ h => h, fun _ h => Or.inl h,
    fun _ ts h => ⟨ts, h, fun _ h => h⟩⟩

theorem env_ext_trans {a b c : analyzer_env} (h1 : env_ext a b) (h2 : env_ext b c) :
    env_ext a c := by
  refine ⟨h2.done.trans h1.done, fun _ h => h2.queue (h1.queue h),
    fun _ h => h2.classes (h1.classes h), fun _ h => h2.methods (h1.methods h), ?_, ?_⟩
  · intro x hx
    rcases h2.queued x hx with h | h | h
    · rcases h1.queued x h with h | h | h
      · exact Or.inl h
      · exact Or.inr (Or.inl (h2.done ▸ h))
      · exact Or.inr (Or.inr (h2.queue h))
    · exact Or.inr (Or.inl h)
    · exact Or.inr (Or.inr h)
  · intro k ts h
    obtain ⟨ts1, hb, hs1⟩ := h1.targets k ts h
    obtain ⟨ts2, hc, hs2⟩ := h2.targets k ts1 hb
    exact ⟨ts2, hc, fun _ h => hs2 (hs1 h)⟩

theorem add_to_workqueue_ok (p : ir_prog) (e : EntId) (env env1 : analyzer_env) :
    add_to_workqueue p e env = .ok env1 ↔
      is_method_entity p e = true ∧
        env1 = if e ∈ env.done_set then env
          else { env with workqueue := env.workqueue ++ [e] } := by
  unfold add_to_workqueue
  simp only [assert_bind_ok]
  split <;> simp only [pure_ok] <;>
    exact ⟨fun ⟨a, b⟩ => ⟨a, b.symm⟩, fun ⟨a, b⟩ => ⟨a, b.symm⟩⟩

theorem live_enqueue_ext (p : ir_prog) (e : EntId) (env env1 : analyzer_env)
    (h : add_to_workqueue p e { env with live_methods := cpset_insert env.live_methods e }
      = .ok env1) : env_ext env env1 := by
  rw [add_to_workqueue_ok] at h
  obtain ⟨_, rfl⟩ := h
  by_cases hd : e ∈ env.done_set
  · simp only [hd, if_true]
    refine ⟨rfl, fun _ h => h, fun _ h => h, cpset_subset_insert _ _, ?_,
      fun _ ts h => ⟨ts, h, fun _ h => h⟩⟩
    intro x hx
    rcases (mem_cpset_insert _ _ _).1 hx with h | rfl
    · exact Or.inl h
    · exact Or.inr (Or.inl hd)
  · simp only [hd, if_false]
    refine ⟨rfl, fun _ h => List.mem_append_left _ h, fun _ h => h, cpset_subset_insert _ _, ?_,
      fun _ ts h => ⟨ts, h, fun _ h => h⟩⟩
    intro x hx
    rcases (mem_cpset_insert _ _ _).1 hx with h | rfl
    · exact Or.inl h
    · exact Or.inr (Or.inr (by simp))

theorem live_enqueue_mem (p : ir_prog) (e : EntId) (env env1 : analyzer_env)
    (h : add_to_workqueue p e { env with live_methods := cpset_insert env.live_methods e }
      = .ok env1) : e ∈ env1.live_methods ∧ is_method_entity p e = true := by
  rw [add_to_workqueue_ok] at h
  obtain ⟨hm, rfl⟩ := h
  refine ⟨?_, hm⟩
  split <;> exact cpset_insert_self _ _

/-- What `add_to_workqueue` after an insertion into `live_methods` leaves alone. -/
theorem live_enqueue_frame (p : ir_prog) (e : EntId) (env env1 : analyzer_env)
    (h : add_to_workqueue p e { env with live_methods := cpset_insert env.live_methods e }
      = .ok env1) :
    env1.live_classes = env.live_classes ∧ env1.dyncall_targets = env.dyncall_targets
      ∧ env1.unused_targets = env.unused_targets := by
  rw [add_to_workqueue_ok] at h
  obtain ⟨_, rfl⟩ := h
  split <;> exact ⟨rfl, rfl, rfl⟩

theorem foldlM_ext {α : Type} (f : analyzer_env → α → Except Err analyzer_env) (l : List α)
    (hstep : ∀ s x s1, x ∈ l → f s x = .ok s1 → env_ext s s1) (s s1 : analyzer_env)
    (h : l.foldlM f s = .ok s1) : env_ext s s1 :=
  foldlM_inv f (fun t => env_ext s t) l
    (fun t x t1 hx ht hf => env_ext_trans ht (hstep t x t1 hx hf)) s s1 (env_ext_refl s) h

theorem cfesr_member_ext (p : ir_prog) (klass : ClassId) (member : EntId)
    (env env1 : analyzer_env)
    (h : (if !is_method_entity p member then pure env
          else if oo_get_method_is_final p member then pure env
          else
            match get_class_member_by_name p klass (get_entity_ident p member) with
            | some overwriting =>
              add_to_workqueue p overwriting
                { env with live_methods := cpset_insert env.live_methods overwriting }
            | none => pure env) = Except.ok env1) : env_ext env env1 := by
  split at h
  · rw [pure_ok] at h; exact h ▸ env_ext_refl _
  · split at h
    · rw [pure_ok] at h; exact h ▸ env_ext_refl _
    · split at h
      · exact live_enqueue_ext _ _ _ _ h
      · rw [pure_ok] at h; exact h ▸ env_ext_refl _

theorem cfesr_ext (p : ir_prog) (klass : ClassId) :
    ∀ (depth : Nat) (superclass : ClassId) (env env1 : analyzer_env),
      check_for_external_superclasses_recursive depth p klass superclass env = .ok env1 →
        env_ext env env1
  | 0, _, _, _, h => by simp [check_for_external_superclasses_recursive] at h
  | depth + 1, superclass, env, env1, h => by
    simp only [check_for_external_superclasses_recursive, bind_ok] at h
    obtain ⟨env2, h1, h2⟩ := h
    have e1 : env_ext env env2 := by
      split at h1
      · exact foldlM_ext _ _ (fun s x s1 _ hf => cfesr_member_ext p klass x s s1 hf) _ _ h1
      · rw [pure_ok] at h1; exact h1 ▸ env_ext_refl _
    exact env_ext_trans e1
      (foldlM_ext _ _ (fun s x s1 _ hf => cfesr_ext p klass depth x s s1 hf) _ _ h2)

theorem cfes_ext (depth : Nat) (p : ir_prog) (klass : ClassId) (env env1 : analyzer_env)
    (h : check_for_external_superclasses depth p klass env = .ok env1) : env_ext env env1 := by
  unfold check_for_external_superclasses at h
  split at h
  · rw [pure_ok] at h; exact h ▸ env_ext_refl _
  · exact foldlM_ext _ _ (fun s x s1 _ hf => cfesr_ext p klass depth x s s1 hf) _ _ h

theorem enqueue_ext (p : ir_prog) (e : EntId) (env env0 env1 : analyzer_env)
    (hd : env0.done_set = env.done_set) (hq : env0.workqueue = env.workqueue)
    (hc : env.live_classes ⊆ env0.live_classes)
    (hm : env0.live_methods = cpset_insert env.live_methods e)
    (ht : ∀ c ts, cpmap_find env.dyncall_targets c = some ts →
      ∃ ts1, cpmap_find env0.dyncall_targets c = some ts1 ∧ ts ⊆ ts1)
    (h : add_to_workqueue p e env0 = .ok env1) : env_ext env env1 := by
  rw [add_to_workqueue_ok] at h
  obtain ⟨_, rfl⟩ := h
  by_cases hdone : e ∈ env0.done_set
  · simp only [hdone, if_true]
    refine ⟨hd, fun _ h => hq ▸ h, hc, hm ▸ cpset_subset_insert _ _, ?_, ht⟩
    intro x hx
    rw [hm] at hx
    rcases (mem_cpset_insert _ _ _).1 hx with h | rfl
    · exact Or.inl h
    · exact Or.inr (Or.inl hdone)
  · simp only [hdone, if_false]
    refine ⟨hd, fun _ h => List.mem_append_left _ (hq ▸ h), hc, hm ▸ cpset_subset_insert _ _,
      ?_, ht⟩
    intro x hx
    simp only at hx
    rw [hm] at hx
    rcases (mem_cpset_insert _ _ _).1 hx with h | rfl
    · exact Or.inl h
    · exact Or.inr (Or.inr (by simp))

/-- What `add_to_workqueue` leaves alone. -/
theorem add_to_workqueue_frame (p : ir_prog) (e : EntId) (env env1 : analyzer_env)
    (h : add_to_workqueue p e env = .ok env1) :
    env1.live_classes = env.live_classes ∧ env1.live_methods = env.live_methods
      ∧ env1.dyncall_targets = env.dyncall_targets
      ∧ env1.unused_targets = env.unused_targets ∧ env1.done_set = env.done_set := by
  rw [add_to_workqueue_ok] at h
  obtain ⟨_, rfl⟩ := h
  split <;> exact ⟨rfl, rfl, rfl, rfl, rfl⟩

theorem add_to_dyncalls_step (p : ir_prog) (method : EntId) (env env1 : analyzer_env)
    (call_entity : EntId)
    (h : (match cpmap_find env.dyncall_targets call_entity with
      | none => Except.error Err.AssertionFailed
      | some targets =>
        add_to_workqueue p method
          { env with
            dyncall_targets :=
              cpmap_set env.dyncall_targets call_entity (cpset_insert targets method)
            live_methods := cpset_insert env.live_methods method }) = .ok env1) :
    ∃ targets, cpmap_find env.dyncall_targets call_entity = some targets
      ∧ env_ext env env1 ∧ env1.live_classes = env.live_classes
      ∧ env1.unused_targets = env.unused_targets
      ∧ env1.live_methods = cpset_insert env.live_methods method
      ∧ env1.dyncall_targets
          = cpmap_set env.dyncall_targets call_entity (cpset_insert targets method) := by
  split at h
  · simp at h
  · rename_i targets hfind
    refine ⟨targets, hfind, ?_, ?_⟩
    · refine enqueue_ext p method env _ env1 ?_ ?_ ?_ ?_ ?_ h
      · rfl
      · rfl
      · exact fun _ h => h
      · rfl
      intro c ts hc
      simp only [cpmap_find_set]
      by_cases hcc : c = call_entity
      · subst hcc
        rw [hfind] at hc
        cases hc
        exact ⟨_, if_pos rfl, cpset_subset_insert _ _⟩
      · exact ⟨ts, by simp [hcc, hc], fun _ h => h⟩
    · obtain ⟨h1, h2, h3, h4, _⟩ := add_to_workqueue_frame _ _ _ _ h
      exact ⟨h1, h4, h2, h3⟩

theorem add_to_dyncalls_ext (p : ir_prog) (method : EntId) (call_entities : cpset)
    (env env1 : analyzer_env) (h : add_to_dyncalls p method call_entities env = .ok env1) :
    env_ext env env1 ∧ env1.live_classes = env.live_classes
      ∧ env1.unused_targets = env.unused_targets := by
  unfold add_to_dyncalls at h
  simp only [assert_bind_ok] at h
  refine foldlM_inv _ (fun t => env_ext env t ∧ t.live_classes = env.live_classes
      ∧ t.unused_targets = env.unused_targets) call_entities ?_ env env1
      ⟨env_ext_refl _, rfl, rfl⟩ h.2
  intro s x s1 _ hs hf
  obtain ⟨_, _, h1, h2, h3, _⟩ := add_to_dyncalls_step p method s s1 x hf
  exact ⟨env_ext_trans hs.1 h1, h2.trans hs.2.1, h3.trans hs.2.2⟩

theorem memorize_unused_target_ok (p : ir_prog) (klass : ClassId) (entity call_entity : EntId)
    (env env1 : analyzer_env) :
    memorize_unused_target p klass entity call_entity env = .ok env1 ↔
      is_method_entity p entity = true ∧ is_method_entity p call_entity = true ∧
      env1 = { env with
        unused_targets :=
          cpmap_set env.unused_targets klass
            (cpmap_set ((cpmap_find env.unused_targets klass).getD []) entity
              (cpset_insert
                ((cpmap_find ((cpmap_find env.unused_targets klass).getD []) entity).getD [])
                call_entity)) } := by
  unfold memorize_unused_target
  simp only [assert_bind_ok, pure_ok]
  exact ⟨fun ⟨a, b, c⟩ => ⟨a, b, c.symm⟩, fun ⟨a, b, c⟩ => ⟨a, b, c.symm⟩⟩

theorem memorize_unused_has (p : ir_prog) (klass : ClassId) (entity call_entity : EntId)
    (env env1 : analyzer_env)
    (h : memorize_unused_target p klass entity call_entity env = .ok env1) :
    unused_has env1 klass entity call_entity
      ∧ ∀ K m c, unused_has env K m c → unused_has env1 K m c := by
  rw [memorize_unused_target_ok] at h
  obtain ⟨_, _, rfl⟩ := h
  constructor
  · exact ⟨_, _, cpmap_find_set_self _ _ _, cpmap_find_set_self _ _ _, cpset_insert_self _ _⟩
  · rintro K m c ⟨methods, C, h1, h2, h3⟩
    unfold unused_has
    simp only [cpmap_find_set]
    by_cases hK : K = klass
    · subst hK
      simp only [h1, Option.getD_some, if_true]
      by_cases hm : m = entity
      · subst hm
        simp only [h2, Option.getD_some]
        exact ⟨_, _, rfl, cpmap_find_set_self _ _ _, cpset_subset_insert _ _ h3⟩
      · exact ⟨_, C, rfl, by rw [cpmap_find_set_ne _ _ _ _ hm]; exact h2, h3⟩
    · simp only [hK, if_false]
      exact ⟨methods, C, h1, h2, h3⟩

theorem memorize_ext (p : ir_prog) (klass : ClassId) (entity call_entity : EntId)
    (r : cpset) (env env1 : analyzer_env)
    (h : memorize_unused_target p klass entity call_entity env = .ok env1) :
    collect_ext (r, env) (r, env1) := by
  have hu := (memorize_unused_has p klass entity call_entity env env1 h).2
  rw [memorize_unused_target_ok] at h
  obtain ⟨_, _, rfl⟩ := h
  exact ⟨⟨rfl, fun _ h => h, fun _ h => h, fun _ h => h, fun _ h => Or.inl h,
    fun _ ts h => ⟨ts, h, fun _ h => h⟩⟩, rfl, rfl, hu, fun _ h => h, fun _ h => Or.inl h⟩

theorem collect_ext_refl (a : cpset × analyzer_env) : collect_ext a a :=
  ⟨env_ext_refl _, rfl, rfl, fun _ _ _ h => h, fun _ h => h, fun _ h => Or.inl h⟩

theorem collect_ext_trans {a b c : cpset × analyzer_env} (h1 : collect_ext a b)
    (h2 : collect_ext b c) : collect_ext a c := by
  refine ⟨env_ext_trans h1.ext h2.ext, h2.classes_eq.trans h1.classes_eq,
    h2.targets_eq.trans h1.targets_eq, fun K m c h => h2.unused K m c (h1.unused K m c h),
    fun _ h => h2.result_sub (h1.result_sub h), ?_⟩
  intro x hx
  rcases h2.result_live x hx with h | h
  · rcases h1.result_live x h with h | h
    · exact Or.inl h
    · exact Or.inr (h2.ext.methods h)
  · exact Or.inr h

theorem take_entity_ext (p : ir_prog) (entity : EntId) (st st1 : cpset × analyzer_env)
    (h : take_entity p entity st.1 st.2 = .ok st1) :
    collect_ext st st1 ∧ entity ∈ st1.1 := by
  unfold take_entity at h
  simp only [assert_bind_ok] at h
  obtain ⟨_, h⟩ := h
  split at h
  · simp only [bind_ok, pure_ok] at h
    obtain ⟨env1, h1, rfl⟩ := h
    obtain ⟨f1, f2, f3⟩ := live_enqueue_frame _ _ _ _ h1
    refine ⟨⟨live_enqueue_ext _ _ _ _ h1, f1, f2, ?_, cpset_subset_insert _ _, ?_⟩,
      cpset_insert_self _ _⟩
    · rintro K m c ⟨methods, C, h1, h2⟩
      exact ⟨methods, C, by simp only [f3]; exact h1, h2⟩
    · intro x hx
      rcases (mem_cpset_insert _ _ _).1 hx with h | rfl
      · exact Or.inl h
      · exact Or.inr (live_enqueue_mem _ _ _ _ h1).1
  · rw [pure_ok] at h
    subst h
    rename_i hmem
    exact ⟨collect_ext_refl _, not_not.1 hmem⟩

theorem foldlM_collect_ext {α : Type}
    (f : cpset × analyzer_env → α → Except Err (cpset × analyzer_env)) (l : List α)
    (hstep : ∀ s x s1, x ∈ l → f s x = .ok s1 → collect_ext s s1)
    (s s1 : cpset × analyzer_env) (h : l.foldlM f s = .ok s1) : collect_ext s s1 :=
  foldlM_inv f (fun t => collect_ext s t) l
    (fun t x t1 hx ht hf => collect_ext_trans ht (hstep t x t1 hx hf)) s s1
    (collect_ext_refl s) h

theorem collect_methods_recursive_ext (budget : Nat) (p : ir_prog) (call_entity : EntId) :
    ∀ (depth : Nat) (klass : ClassId) (entity : EntId) (st st1 : cpset × analyzer_env),
      collect_methods_recursive budget depth p call_entity klass entity st = .ok st1 →
        collect_ext st st1
  | 0, _, _, _, _, h => by simp [collect_methods_recursive] at h
  | depth + 1, klass, entity, st, st1, h => by
    simp only [collect_methods_recursive, bind_ok, exists_assert_ok] at h
    obtain ⟨_, _, cur, _, st2, h2, h3⟩ := h
    have e1 : collect_ext st st2 := by
      split at h2
      · split at h2
        · exact (take_entity_ext _ _ _ _ h2).1
        · simp only [bind_ok, pure_ok] at h2
          obtain ⟨env1, h4, rfl⟩ := h2
          exact memorize_ext _ _ _ _ _ _ _ h4
      · rw [pure_ok] at h2
        exact h2 ▸ collect_ext_refl _
    exact collect_ext_trans e1 (foldlM_collect_ext _ _
      (fun s x s1 _ hf => collect_methods_recursive_ext budget p call_entity depth x cur s s1 hf)
      _ _ h3)

theorem add_new_live_class_ext (depth : Nat) (p : ir_prog) (klass : ClassId)
    (env env1 : analyzer_env) (h : add_new_live_class depth p klass env = .ok env1) :
    env_ext env env1 := by
  unfold add_new_live_class at h
  split at h
  · simp only [bind_ok] at h
    obtain ⟨env2, h1, h2⟩ := h
    refine env_ext_trans ?_ (cfes_ext _ _ _ _ _ h2)
    have e0 : env_ext env { env with live_classes := cpset_insert env.live_classes klass } :=
      ⟨rfl, fun _ h => h, cpset_subset_insert _ _, fun _ h => h, fun _ h => Or.inl h,
        fun _ ts h => ⟨ts, h, fun _ h => h⟩⟩
    split at h1
    · simp only [bind_ok, pure_ok] at h1
      obtain ⟨env3, h3, rfl⟩ := h1
      have e1 := foldlM_ext _ _
        (fun s x s1 _ hf => (add_to_dyncalls_ext p x.1 x.2 s s1 hf).1) _ _ h3
      have e2 := env_ext_trans e0 e1
      exact ⟨e2.done, e2.queue, e2.classes, e2.methods, e2.queued, e2.targets⟩
    · rw [pure_ok] at h1
      exact h1 ▸ e0
  · rw [pure_ok] at h
    exact h ▸ env_ext_refl _

theorem analyzer_handle_no_graph_ext (p : ir_prog) (entity : EntId) (env env1 : analyzer_env)
    (h : analyzer_handle_no_graph p entity env = .ok env1) : env_ext env env1 := by
  unfold analyzer_handle_no_graph at h
  simp only [bind_ok, exists_assert_ok] at h
  obtain ⟨_, _, target, _, h⟩ := h
  split at h
  · exact live_enqueue_ext _ _ _ _ h
  · rw [pure_ok] at h
    exact h ▸ env_ext_refl _

theorem analyzer_handle_static_call_ext (p : ir_prog) (g : GraphId) (call : NodeId)
    (entity : EntId) (env env1 : analyzer_env)
    (h : analyzer_handle_static_call p g call entity env = .ok env1) : env_ext env env1 := by
  unfold analyzer_handle_static_call at h
  simp only [bind_ok, exists_assert_ok] at h
  obtain ⟨_, env2, h1, h⟩ := h
  have e1 := live_enqueue_ext _ _ _ _ h1
  split at h
  · rw [pure_ok] at h
    exact h ▸ e1
  · split at h
    · simp only [bind_ok, exists_assert_ok] at h
      exact env_ext_trans e1 (live_enqueue_ext _ _ _ _ h.2)
    · rw [pure_ok] at h
      exact h ▸ e1

theorem collect_methods_ext (depth : Nat) (p : ir_prog) (call_entity : EntId) (rs : cpset)
    (env : analyzer_env) (st1 : cpset × analyzer_env)
    (h : collect_methods depth p call_entity rs env = .ok st1) : collect_ext (rs, env) st1 :=
  collect_methods_recursive_ext depth p call_entity depth _ _ _ _ h

theorem analyzer_handle_dynamic_call_ext (depth : Nat) (p : ir_prog) (entity : EntId)
    (env env1 : analyzer_env)
    (h : analyzer_handle_dynamic_call depth p entity env = .ok env1) : env_ext env env1 := by
  unfold analyzer_handle_dynamic_call at h
  simp only [bind_ok, exists_assert_ok] at h
  obtain ⟨_, h⟩ := h
  split at h
  · rw [pure_ok] at h
    exact h ▸ env_ext_refl _
  · rename_i hnone
    simp only [bind_ok, pure_ok] at h
    obtain ⟨res, h1, rfl⟩ := h
    have c1 := collect_methods_ext _ _ _ _ _ _ h1
    refine ⟨c1.ext.done, c1.ext.queue, c1.ext.classes, c1.ext.methods, c1.ext.queued, ?_⟩
    intro c ts hc
    refine ⟨ts, ?_, fun _ h => h⟩
    simp only [cpmap_find_set, c1.targets_eq]
    have hne : c ≠ entity := by
      rintro rfl
      rw [hnone] at hc
      cases hc
    simp only [hne, if_false]
    exact hc

theorem walk_callgraph_and_analyze_ext (depth : Nat) (p : ir_prog) (g : GraphId) (node : NodeId)
    (env env1 : analyzer_env)
    (h : walk_callgraph_and_analyze depth p g node env = .ok env1) : env_ext env env1 := by
  unfold walk_callgraph_and_analyze at h
  split at h
  · split at h
    · exact live_enqueue_ext _ _ _ _ h
    · rw [pure_ok] at h
      exact h ▸ env_ext_refl _
  · split at h
    · exact analyzer_handle_static_call_ext _ _ _ _ _ _ h
    · split at h
      · split at h
        · exact analyzer_handle_static_call_ext _ _ _ _ _ _ h
        · exact analyzer_handle_dynamic_call_ext _ _ _ _ _ h
      · rw [pure_ok] at h
        exact h ▸ env_ext_refl _
    · rw [pure_ok] at h
      exact h ▸ env_ext_refl _
  · exact add_new_live_class_ext _ _ _ _ _ h
  · rw [pure_ok] at h
    exact h ▸ env_ext_refl _

theorem analyzer_walk_graph_ext (depth : Nat) (p : ir_prog) (g : GraphId)
    (env env1 : analyzer_env) (h : analyzer_walk_graph depth p g env = .ok env1) :
    env_ext env env1 :=
  foldlM_ext _ _ (fun s x s1 _ hf => walk_callgraph_and_analyze_ext depth p g x s s1 hf) _ _ h

theorem cpmap_find_isSome_iff {β : Type} (m : cpmap β) (k : Nat) :
    (∃ v, cpmap_find m k = some v) ↔ k ∈ cpmap_keys m := by
  induction m with
  | nil => simp [cpmap_find, cpmap_keys]
  | cons kv rest ih =>
    obtain ⟨k1, v1⟩ := kv
    by_cases h : k1 = k
    · simp [cpmap_find, cpmap_keys, h]
    · have h2 : ¬ k = k1 := fun e => h e.symm
      simp [cpmap_find, cpmap_keys, h, h2] at ih ⊢
      exact ih

theorem env_ext_grows {a b : analyzer_env} (h : env_ext a b) : grows a b := by
  refine ⟨h.classes, h.methods, ?_, h.targets⟩
  intro c hc
  obtain ⟨ts, hts⟩ := (cpmap_find_isSome_iff _ _).2 hc
  obtain ⟨ts1, h1, _⟩ := h.targets c ts hts
  exact (cpmap_find_isSome_iff _ _).1 ⟨ts1, h1⟩

/-- C7 (I1 Monotonicity): every analyzer step of `rta_run` only adds elements to
`live_classes`, to `live_methods`, to the key set of `dyncall_targets` and to
the target set of every existing key. -/
theorem analyzer_step_grows (depth : Nat) (p : ir_prog) (env env1 : analyzer_env)
    (h : analyzer_step depth p env env1) : grows env env1 := by
  cases h with
  | node g n _ _ h => exact env_ext_grows (walk_callgraph_and_analyze_ext _ _ _ _ _ _ h)
  | no_graph e _ _ h => exact env_ext_grows (analyzer_handle_no_graph_ext _ _ _ _ h)
  | live_class k _ _ h => exact env_ext_grows (add_new_live_class_ext _ _ _ _ _ h)
  | collect c rs rs1 _ _ h => exact env_ext_grows (collect_methods_ext _ _ _ _ _ _ h).ext

theorem analyzer_step_grows_witness :
    analyzer_step 3 two_class_prog two_class_env
        { two_class_env with
          workqueue := [2], live_classes := [1], live_methods := [0, 2],
          dyncall_targets := [(1, [2])], unused_targets := [(0, [(1, [1])])] }
      ∧ grows two_class_env
        { two_class_env with
          workqueue := [2], live_classes := [1], live_methods := [0, 2],
          dyncall_targets := [(1, [2])], unused_targets := [(0, [(1, [1])])] } :=
  ⟨analyzer_step.node 0 4 _ _ rfl,
   analyzer_step_grows 3 two_class_prog _ _ (analyzer_step.node 0 4 _ _ rfl)⟩

/-! ### Retroactive activation -/

theorem has_target_ext {a b : analyzer_env} (h : env_ext a b) (c m : EntId)
    (ht : has_target a c m) : has_target b c m := by
  obtain ⟨ts, h1, h2⟩ := ht
  obtain ⟨ts1, h3, h4⟩ := h.targets c ts h1
  exact ⟨ts1, h3, h4 h2⟩

theorem add_to_dyncalls_targets (p : ir_prog) (method : EntId) (call_entities : cpset)
    (env env1 : analyzer_env) (h : add_to_dyncalls p method call_entities env = .ok env1) :
    ∀ c ∈ call_entities, has_target env1 c method ∧ method ∈ env1.live_methods := by
  unfold add_to_dyncalls at h
  simp only [bind_ok, exists_assert_ok] at h
  refine (foldlM_forall _ (fun _ => True)
    (fun c s => has_target s c method ∧ method ∈ s.live_methods) call_entities ?_ ?_
    env env1 trivial h.2).2
  · intro s x s1 _ _ hf
    obtain ⟨targets, _, _, _, _, h4, h5⟩ := add_to_dyncalls_step p method s s1 x hf
    refine ⟨trivial, ⟨_, by rw [h5]; exact cpmap_find_set_self _ _ _, cpset_insert_self _ _⟩, ?_⟩
    rw [h4]
    exact cpset_insert_self _ _
  · intro s x s1 y _ _ hf hy
    obtain ⟨_, _, h1, _⟩ := add_to_dyncalls_step p method s s1 x hf
    exact ⟨has_target_ext h1 _ _ hy.1, h1.methods hy.2⟩

/-- What `check_for_external_superclasses` leaves alone. -/
theorem cfesr_frame (p : ir_prog) (klass : ClassId) :
    ∀ (depth : Nat) (superclass : ClassId) (env env1 : analyzer_env),
      check_for_external_superclasses_recursive depth p klass superclass env = .ok env1 →
        env1.live_classes = env.live_classes ∧ env1.dyncall_targets = env.dyncall_targets
          ∧ env1.unused_targets = env.unused_targets
  | 0, _, _, _, h => by simp [check_for_external_superclasses_recursive] at h
  | depth + 1, superclass, env, env1, h => by
    simp only [check_for_external_superclasses_recursive, bind_ok] at h
    obtain ⟨env2, h1, h2⟩ := h
    have e1 : env2.live_classes = env.live_classes ∧ env2.dyncall_targets = env.dyncall_targets
          ∧ env2.unused_targets = env.unused_targets := by
      split at h1
      · refine foldlM_inv _ (fun t => t.live_classes = env.live_classes
          ∧ t.dyncall_targets = env.dyncall_targets
          ∧ t.unused_targets = env.unused_targets) _ ?_ env env2 ⟨rfl, rfl, rfl⟩ h1
        intro s x s1 _ hs hf
        split at hf
        · rw [pure_ok] at hf; exact hf ▸ hs
        · split at hf
          · rw [pure_ok] at hf; exact hf ▸ hs
          · split at hf
            · obtain ⟨f1, f2, f3⟩ := live_enqueue_frame _ _ _ _ hf
              exact ⟨f1.trans hs.1, f2.trans hs.2.1, f3.trans hs.2.2⟩
            · rw [pure_ok] at hf; exact hf ▸ hs
      · rw [pure_ok] at h1; exact h1 ▸ ⟨rfl, rfl, rfl⟩
    refine foldlM_inv _ (fun t => t.live_classes = env.live_classes
          ∧ t.dyncall_targets = env.dyncall_targets
          ∧ t.unused_targets = env.unused_targets) _ ?_ env2 env1 e1 h2
    intro s x s1 _ hs hf
    obtain ⟨f1, f2, f3⟩ := cfesr_frame p klass depth x s s1 hf
    exact ⟨f1.trans hs.1, f2.trans hs.2.1, f3.trans hs.2.2⟩

theorem cfes_frame (depth : Nat) (p : ir_prog) (klass : ClassId) (env env1 : analyzer_env)
    (h : check_for_external_superclasses depth p klass env = .ok env1) :
    env1.live_classes = env.live_classes ∧ env1.dyncall_targets = env.dyncall_targets
      ∧ env1.unused_targets = env.unused_targets := by
  unfold check_for_external_superclasses at h
  split at h
  · rw [pure_ok] at h; exact h ▸ ⟨rfl, rfl, rfl⟩
  · refine foldlM_inv _ (fun t => t.live_classes = env.live_classes
          ∧ t.dyncall_targets = env.dyncall_targets
          ∧ t.unused_targets = env.unused_targets) _ ?_ env env1 ⟨rfl, rfl, rfl⟩ h
    intro s x s1 _ hs hf
    obtain ⟨f1, f2, f3⟩ := cfesr_frame p klass depth x s s1 hf
    exact ⟨f1.trans hs.1, f2.trans hs.2.1, f3.trans hs.2.2⟩

/-- C6 (I7 Retroactive activation): if `K` is not live, not extern and not
abstract and `unused_targets[K]` maps `m` to a set containing `c`, then after
`add_new_live_class(K)` the class `K` is live, `m` is in `dyncall_targets[c]`
and in `live_methods`, and `K` is no longer a key of `unused_targets`. -/
theorem retroactive_activation (depth : Nat) (p : ir_prog) (K : ClassId) (m c : EntId)
    (env env1 : analyzer_env) (hlive : K ∉ env.live_classes)
    (hext : oo_get_class_is_extern p K = false)
    (habs : oo_get_class_is_abstract p K = false)
    (hunused : unused_has env K m c)
    (h : add_new_live_class depth p K env = .ok env1) :
    K ∈ env1.live_classes ∧ has_target env1 c m ∧ m ∈ env1.live_methods
      ∧ cpmap_find env1.unused_targets K = none ∧ K ∉ cpmap_keys env1.unused_targets := by
  unfold add_new_live_class at h
  have hcond : K ∉ env.live_classes ∧ (! oo_get_class_is_extern p K) = true
      ∧ (!oo_get_class_is_abstract p K) = true := ⟨hlive, by simp [hext], by simp [habs]⟩
  rw [if_pos hcond] at h
  simp only [bind_ok] at h
  obtain ⟨env2, h1, h2⟩ := h
  obtain ⟨methods, C, hK, hm, hc⟩ := hunused
  simp only [hK, bind_ok, pure_ok] at h1
  obtain ⟨env3, h3, rfl⟩ := h1
  have e3 := foldlM_ext _ _
    (fun s x s1 _ hf => (add_to_dyncalls_ext p x.1 x.2 s s1 hf).1) _ _ h3
  have q3 := (foldlM_forall _ (fun _ => True)
    (fun (entry : Nat × cpset) s =>
      ∀ c ∈ entry.2, has_target s c entry.1 ∧ entry.1 ∈ s.live_methods) methods
    (fun s x s1 _ _ hf => ⟨trivial, add_to_dyncalls_targets p x.1 x.2 s s1 hf⟩)
    (fun s x s1 y _ _ hf hy c hc =>
      have e := (add_to_dyncalls_ext p x.1 x.2 s s1 hf).1
      ⟨has_target_ext e _ _ (hy c hc).1, e.methods (hy c hc).2⟩)
    _ env3 trivial h3).2 (m, C) (cpmap_find_mem _ _ _ hm) c hc
  have e2 := cfes_ext _ _ _ _ _ h2
  obtain ⟨f1, f2, f3⟩ := cfes_frame _ _ _ _ _ h2
  have hnone : cpmap_find env1.unused_targets K = none := by
    rw [f3]
    simp [cpmap_find_remove]
  refine ⟨e2.classes (e3.classes (cpset_insert_self _ _)), ?_, e2.methods q3.2, hnone, ?_⟩
  · obtain ⟨ts, h4, h5⟩ := q3.1
    exact ⟨ts, by rw [f2]; exact h4, h5⟩
  · intro hk
    obtain ⟨v, hv⟩ := (cpmap_find_isSome_iff _ _).2 hk
    rw [hnone] at hv
    cases hv

theorem retroactive_activation_witness :
    (1 ∉ two_class_env.live_classes ∧ oo_get_class_is_extern two_class_prog 1 = false
      ∧ oo_get_class_is_abstract two_class_prog 1 = false ∧ unused_has two_class_env 1 2 1
      ∧ add_new_live_class 3 two_class_prog 1 two_class_env
        = .ok { two_class_env with
          workqueue := [2], live_classes := [1], live_methods := [0, 2],
          dyncall_targets := [(1, [2])], unused_targets := [(0, [(1, [1])])] })
    ∧ has_target { two_class_env with
          workqueue := [2], live_classes := [1], live_methods := [0, 2],
          dyncall_targets := [(1, [2])], unused_targets := [(0, [(1, [1])])] } 1 2 :=
  ⟨⟨by decide, rfl, rfl, ⟨[(2, [1])], [1], rfl, rfl, by decide⟩, rfl⟩,
   (retroactive_activation 3 two_class_prog 1 2 1 two_class_env _ (by decide) rfl rfl
      ⟨[(2, [1])], [1], rfl, rfl, by decide⟩ rfl).2.1⟩

theorem getD_set_graph (irgs : List ir_graph) (g g1 : Nat) (x : ir_graph) :
    (irgs.set g x).getD g1 default_graph
      = if g1 = g ∧ g < irgs.length then x else irgs.getD g1 default_graph := by
  simp only [List.getD_eq_getElem?_getD, List.getElem?_set]
  by_cases h : g = g1
  · subst h
    by_cases h2 : g < irgs.length
    · simp [h2]
    · simp [h2, List.getElem?_eq_none (Nat.le_of_not_lt h2)]
  · have h3 : ¬ g1 = g := fun e => h e.symm
    simp [h, h3]

theorem getD_set_node (nodes : List ir_node) (n n1 : Nat) (x : ir_node) :
    (nodes.set n x).getD n1 ir_node.Other
      = if n1 = n ∧ n < nodes.length then x else nodes.getD n1 ir_node.Other := by
  simp only [List.getD_eq_getElem?_getD, List.getElem?_set]
  by_cases h : n = n1
  · subst h
    by_cases h2 : n < nodes.length
    · simp [h2]
    · simp [h2, List.getElem?_eq_none (Nat.le_of_not_lt h2)]
  · have h3 : ¬ n1 = n := fun e => h e.symm
    simp [h, h3]

theorem getD_append_node (nodes : List ir_node) (n1 : Nat) (x : ir_node) :
    (nodes ++ [x]).getD n1 ir_node.Other
      = if n1 = nodes.length then x else nodes.getD n1 ir_node.Other := by
  simp only [List.getD_eq_getElem?_getD]
  by_cases h : n1 < nodes.length
  · have h2 : ¬ n1 = nodes.length := by omega
    simp [List.getElem?_append_left h, h2]
  · by_cases h2 : n1 = nodes.length
    · subst h2
      simp
    · have h3 : nodes.length < n1 := by omega
      have h4 : (nodes ++ [x])[n1]? = none := by
        apply List.getElem?_eq_none
        simp
        omega
      have h5 : nodes[n1]? = none := List.getElem?_eq_none (by omega)
      simp [h4, h5, h2]

/-- The graphs after the rewrite of node `msel` of graph `g`. -/
theorem get_irp_irg_rewrite (p : ir_prog) (g : GraphId) (t : EntId) (msel : NodeId)
    (ins : List NodeId) (g1 : GraphId) :
    get_irp_irg (turn_into_tuple (new_r_Address p g t).1 g msel ins) g1
      = if g1 = g ∧ g < p.irgs.length then
          { get_irp_irg p g with
            nodes := ((get_irp_irg p g).nodes ++ [ir_node.Address t]).set msel (ir_node.Tuple ins) }
        else get_irp_irg p g1 := by
  unfold turn_into_tuple new_r_Address get_irp_irg
  simp only [getD_set_graph, List.length_set]
  by_cases h : g1 = g ∧ g < p.irgs.length
  · simp [h, h.2]
  · simp only [h, if_false]

/-- The nodes after the rewrite of node `msel` of graph `g`. -/
theorem get_irn_rewrite (p : ir_prog) (g : GraphId) (t : EntId) (msel : NodeId)
    (ins : List NodeId) (g1 : GraphId) (n : NodeId) :
    get_irn (turn_into_tuple (new_r_Address p g t).1 g msel ins) g1 n
      = if g1 = g ∧ g < p.irgs.length then
          if n = msel ∧ msel < (get_irp_irg p g).nodes.length + 1 then ir_node.Tuple ins
          else if n = (get_irp_irg p g).nodes.length then ir_node.Address t
          else get_irn p g n
        else get_irn p g1 n := by
  unfold get_irn
  rw [get_irp_irg_rewrite]
  by_cases h : g1 = g ∧ g < p.irgs.length
  · simp only [h, and_self, if_true, getD_set_node, getD_append_node, List.length_append,
      List.length_singleton]
  · simp only [h, if_false]

theorem get_irn_in_range (p : ir_prog) (g : Nat) (n : Nat)
    (h : get_irn p g n ≠ ir_node.Other) :
    g < p.irgs.length ∧ n < (get_irp_irg p g).nodes.length := by
  unfold get_irn at h
  simp only [List.getD_eq_getElem?_getD] at h
  by_cases hg : g < p.irgs.length
  · refine ⟨hg, ?_⟩
    by_contra hn
    have hx : (get_irp_irg p g).nodes[n]? = none :=
      List.getElem?_eq_none (Nat.le_of_not_lt hn)
    rw [hx] at h
    simp at h
  · exfalso
    have hx : p.irgs[g]? = none := List.getElem?_eq_none (Nat.le_of_not_lt hg)
    unfold get_irp_irg at h
    simp [List.getD_eq_getElem?_getD, hx, default_graph] at h

theorem devirtualize_condition_iff (p : ir_prog) (e : EntId) (targets : cpset) :
    devirtualize_condition p e targets = true ↔
      (∃ t, targets = [t])
        ∧ ( oo_get_class_is_extern p (get_entity_owner p e) = false
          ∨ oo_get_class_is_final p (get_entity_owner p e) = true
          ∨ oo_get_method_is_final p e = true) := by
  unfold devirtualize_condition cpset_size
  simp only [Bool.and_eq_true, Bool.or_eq_true, decide_eq_true_eq, Bool.not_eq_true',
    List.length_eq_one, or_assoc]

theorem optimizer_handle_dynamic_call_ok (p : ir_prog) (g : GraphId) (e : EntId)
    (msel : NodeId) (env : optimizer_env) (st1 : ir_prog × optimizer_env)
    (h : optimizer_handle_dynamic_call p g e msel env = .ok st1) :
    ∃ targets, cpmap_find env.dyncall_targets e = some targets
      ∧ is_method_entity p e = true
      ∧ (devirtualize_condition p e targets = true →
          ∃ t, targets = [t] ∧ st1.1 = turn_into_tuple (new_r_Address p g t).1 g msel
            [get_MethodSel_mem p g msel, (new_r_Address p g t).2])
      ∧ (devirtualize_condition p e targets = false → st1.1 = p)
      ∧ targets.foldlM (fun env t => optimizer_add_to_workqueue st1.1 t env) env
          = .ok st1.2 := by
  unfold optimizer_handle_dynamic_call at h
  simp only [bind_ok, exists_assert_ok] at h
  obtain ⟨hm, h⟩ := h
  split at h
  · simp at h
  · rename_i targets hfind
    simp only [bind_ok, pure_ok] at h
    obtain ⟨p1, h1, env1, h2, rfl⟩ := h
    refine ⟨targets, hfind, hm, ?_, ?_, h2⟩
    · intro hc
      rw [if_pos hc] at h1
      obtain ⟨t, rfl⟩ := ((devirtualize_condition_iff _ _ _).1 hc).1
      simp only [bind_ok, exists_assert_ok, pure_ok] at h1
      exact ⟨t, rfl, h1.2.symm⟩
    · intro hc
      simp only [hc, Bool.false_eq_true, if_false, pure_ok] at h1
      exact h1.symm

/-- C4 (I6 Devirtualization condition): the devirtualizer rewrites the
`MethodSel` of a dynamic call site on entity `e` with owner `O` if and only if
`dyncall_targets[e]` has exactly one element and `O` is not extern, or `O` is
final, or `e` is final; a site that is not rewritten leaves the whole IR
unchanged, in particular a site with an extern non-final owner and a non-final
method. -/
theorem devirtualization_condition (g : GraphId) (node callee pred mem : NodeId) (e : EntId)
    (st st1 : ir_prog × optimizer_env) (targets : cpset)
    (hcall : get_irn st.1 g node = .Call callee false)
    (hproj : get_irn st.1 g callee = .Proj pred)
    (hsel : get_irn st.1 g pred = .MethodSel mem e)
    (htargets : cpmap_find st.2.dyncall_targets e = some targets)
    (h : walk_callgraph_and_devirtualize g node st = .ok st1) :
    (get_irn st1.1 g pred ≠ get_irn st.1 g pred ↔
      (∃ t, targets = [t])
        ∧ ( oo_get_class_is_extern st.1 (get_entity_owner st.1 e) = false
          ∨ oo_get_class_is_final st.1 (get_entity_owner st.1 e) = true
          ∨ oo_get_method_is_final st.1 e = true))
    ∧ (get_irn st1.1 g pred = get_irn st.1 g pred → st1.1 = st.1)
    ∧ ( oo_get_class_is_extern st.1 (get_entity_owner st.1 e) = true →
        oo_get_class_is_final st.1 (get_entity_owner st.1 e) = false →
        oo_get_method_is_final st.1 e = false → st1.1 = st.1) := by
  unfold walk_callgraph_and_devirtualize at h
  simp only [hcall, hproj, hsel, Bool.false_eq_true, if_false] at h
  obtain ⟨targets1, h1, _, h2, h3, _⟩ := optimizer_handle_dynamic_call_ok _ _ _ _ _ _ h
  rw [htargets] at h1
  cases h1
  have hrange := get_irn_in_range st.1 g pred (by rw [hsel]; simp)
  have key : devirtualize_condition st.1 e targets = true →
      get_irn st1.1 g pred ≠ get_irn st.1 g pred := by
    intro hc
    obtain ⟨t, _, hp⟩ := h2 hc
    rw [hp, get_irn_rewrite, hsel]
    have : pred < (get_irp_irg st.1 g).nodes.length + 1 := Nat.lt_succ_of_lt hrange.2
    simp [hrange.1, this]
  have key2 : devirtualize_condition st.1 e targets = false → st1.1 = st.1 := h3
  rw [← devirtualize_condition_iff]
  refine ⟨⟨?_, key⟩, ?_, ?_⟩
  · intro hne
    by_contra hc
    rw [Bool.not_eq_true] at hc
    exact hne (by rw [key2 hc])
  · intro heq
    by_cases hc : devirtualize_condition st.1 e targets = true
    · exact absurd heq (key hc)
    · rw [Bool.not_eq_true] at hc
      exact key2 hc
  · intro h4 h5 h6
    apply key2
    rw [← Bool.not_eq_true, devirtualize_condition_iff]
    simp [h4, h5, h6]

/-- C5 (Rewrite result): whenever the devirtualizer rewrites the `MethodSel`
node of a dynamic call on entity `e`, the node becomes the 2-tuple of the
former memory input of the `MethodSel` and of an `Address` node of the unique
element of `dyncall_targets[e]`. -/
theorem rewrite_result (g : GraphId) (node callee pred mem : NodeId) (e : EntId)
    (st st1 : ir_prog × optimizer_env) (targets : cpset)
    (hcall : get_irn st.1 g node = .Call callee false)
    (hproj : get_irn st.1 g callee = .Proj pred)
    (hsel : get_irn st.1 g pred = .MethodSel mem e)
    (htargets : cpmap_find st.2.dyncall_targets e = some targets)
    (h : walk_callgraph_and_devirtualize g node st = .ok st1)
    (hrw : get_irn st1.1 g pred ≠ get_irn st.1 g pred) :
    ∃ t a, targets = [t] ∧ get_irn st1.1 g pred = .Tuple [mem, a]
      ∧ get_irn st1.1 g a = .Address t := by
  unfold walk_callgraph_and_devirtualize at h
  simp only [hcall, hproj, hsel, Bool.false_eq_true, if_false] at h
  obtain ⟨targets1, h1, _, h2, h3, _⟩ := optimizer_handle_dynamic_call_ok _ _ _ _ _ _ h
  rw [htargets] at h1
  cases h1
  have hrange := get_irn_in_range st.1 g pred (by rw [hsel]; simp)
  by_cases hc : devirtualize_condition st.1 e targets = true
  · obtain ⟨t, ht, hp⟩ := h2 hc
    refine ⟨t, (get_irp_irg st.1 g).nodes.length, ht, ?_, ?_⟩
    · rw [hp, get_irn_rewrite]
      have : pred < (get_irp_irg st.1 g).nodes.length + 1 := Nat.lt_succ_of_lt hrange.2
      simp [hrange.1, this, get_MethodSel_mem, hsel, new_r_Address]
    · rw [hp, get_irn_rewrite]
      have hne : ¬ (get_irp_irg st.1 g).nodes.length = pred := Nat.ne_of_gt hrange.2
      simp [hrange.1, hne]
  · rw [Bool.not_eq_true] at hc
    exact absurd (by rw [h3 hc]) hrw

/-! ### Target soundness -/

theorem resolves_from_self (budget : Nat) (p : ir_prog) (c : EntId) (K : ClassId)
    (e cur : EntId) (h : collect_current_entity budget p c K e = .ok cur) :
    resolves_from budget p c K e K cur :=
  ⟨[], trivial, rfl, h⟩

theorem resolves_from_cons (budget : Nat) (p : ir_prog) (c : EntId) (K0 : ClassId)
    (e0 cur : EntId) (s K : ClassId) (m : EntId)
    (hcur : collect_current_entity budget p c K0 e0 = .ok cur)
    (hs : s ∈ get_class_subtypes p K0) (h : resolves_from budget p c s cur K m) :
    resolves_from budget p c K0 e0 K m := by
  obtain ⟨steps, h1, h2, h3⟩ := h
  refine ⟨s :: steps, ⟨hs, h1⟩, h2, ?_⟩
  simp only [resolve_along, bind_ok]
  exact ⟨cur, hcur, h3⟩

theorem memorize_unused_mem (p : ir_prog) (klass : ClassId) (entity call_entity : EntId)
    (env env1 : analyzer_env)
    (h : memorize_unused_target p klass entity call_entity env = .ok env1)
    (K : ClassId) (m c : EntId) (hm : unused_mem env1 K m c) :
    unused_mem env K m c ∨ (K = klass ∧ m = entity ∧ c = call_entity) := by
  rw [memorize_unused_target_ok] at h
  obtain ⟨_, _, rfl⟩ := h
  obtain ⟨methods, C, h1, h2, h3⟩ := hm
  rcases cpmap_mem_set _ _ _ _ h1 with h1 | h1
  · exact Or.inl ⟨methods, C, h1, h2, h3⟩
  · cases h1
    rcases cpmap_mem_set _ _ _ _ h2 with h2 | h2
    · cases hf : cpmap_find env.unused_targets klass with
      | none => simp [hf] at h2
      | some ms =>
        simp only [hf, Option.getD_some] at h2
        exact Or.inl ⟨ms, C, cpmap_find_mem _ _ _ hf, h2, h3⟩
    · cases h2
      rcases (mem_cpset_insert _ _ _).1 h3 with h3 | h3
      · cases hf : cpmap_find env.unused_targets klass with
        | none => simp [hf, cpmap_find] at h3
        | some ms =>
          simp only [hf, Option.getD_some] at h3
          cases hg : cpmap_find ms entity with
          | none => simp [hg] at h3
          | some C0 =>
            simp only [hg, Option.getD_some] at h3
            exact Or.inl ⟨ms, C0, cpmap_find_mem _ _ _ hf, cpmap_find_mem _ _ _ hg, h3⟩
      · exact Or.inr ⟨rfl, rfl, h3⟩

theorem take_entity_result (p : ir_prog) (entity : EntId) (rs : cpset) (env : analyzer_env)
    (st1 : cpset × analyzer_env) (h : take_entity p entity rs env = .ok st1) :
    st1.2.unused_targets = env.unused_targets ∧ ∀ x ∈ st1.1, x ∈ rs ∨ x = entity := by
  unfold take_entity at h
  simp only [bind_ok, exists_assert_ok] at h
  obtain ⟨_, h⟩ := h
  split at h
  · simp only [bind_ok, pure_ok] at h
    obtain ⟨env1, h1, rfl⟩ := h
    exact ⟨(live_enqueue_frame _ _ _ _ h1).2.2, fun x hx => (mem_cpset_insert _ _ _).1 hx⟩
  · rw [pure_ok] at h
    subst h
    exact ⟨rfl, fun x hx => Or.inl hx⟩

/-- Whatever `collect_methods_recursive` adds to the result set or records as
unused comes from a resolution below the class it was called for. -/
theorem collect_methods_recursive_sound (budget : Nat) (p : ir_prog) (c : EntId)
    (Pr : EntId → Prop) (U : ClassId → EntId → EntId → Prop) (live : cpset) :
    ∀ (depth : Nat) (klass : ClassId) (entity : EntId) (st st1 : cpset × analyzer_env),
      collect_methods_recursive budget depth p c klass entity st = .ok st1 →
      st.2.live_classes = live →
      (∀ K m, resolves_from budget p c klass entity K m →
        oo_get_method_is_abstract p m = false →
          ((K ∈ live ∨ oo_get_class_is_extern p K = true) → Pr m) ∧ U K m c) →
      (∀ x ∈ st.1, Pr x) → (∀ K m c1, unused_mem st.2 K m c1 → U K m c1) →
      (∀ x ∈ st1.1, Pr x) ∧ (∀ K m c1, unused_mem st1.2 K m c1 → U K m c1)
  | 0, _, _, _, _, h, _, _, _, _ => by simp [collect_methods_recursive] at h
  | depth + 1, klass, entity, st, st1, h, hlive, hres, hr, hu => by
    simp only [collect_methods_recursive, bind_ok, exists_assert_ok] at h
    obtain ⟨_, _, cur, hcur, st2, h2, h3⟩ := h
    have hself := resolves_from_self budget p c klass entity cur hcur
    have e2 : (∀ x ∈ st2.1, Pr x) ∧ (∀ K m c1, unused_mem st2.2 K m c1 → U K m c1)
        ∧ st2.2.live_classes = live := by
      split at h2
      · rename_i habs
        have habs1 : oo_get_method_is_abstract p cur = false := by simpa using habs
        split at h2
        · rename_i huse
          have huse1 : klass ∈ live ∨ oo_get_class_is_extern p klass = true := by
            rcases huse with h | h | h
            · exact Or.inl (hlive ▸ h)
            · exact Or.inr h
            · simp [JUST_CHA] at h
          obtain ⟨f1, f2⟩ := take_entity_result _ _ _ _ _ h2
          refine ⟨?_, ?_, ?_⟩
          · intro x hx
            rcases f2 x hx with h | rfl
            · exact hr x h
            · exact (hres klass _ hself habs1).1 huse1
          · intro K m c1 hm
            apply hu
            obtain ⟨ms, C, h4, h5⟩ := hm
            exact ⟨ms, C, f1 ▸ h4, h5⟩
          · rw [(take_entity_ext _ _ _ _ h2).1.classes_eq]
            exact hlive
        · simp only [bind_ok, pure_ok] at h2
          obtain ⟨env1, h4, rfl⟩ := h2
          refine ⟨hr, ?_, ?_⟩
          · intro K m c1 hm
            rcases memorize_unused_mem _ _ _ _ _ _ h4 K m c1 hm with h | ⟨rfl, rfl, rfl⟩
            · exact hu K m c1 h
            · exact (hres _ _ hself habs1).2
          · rw [(memorize_ext p klass cur c st.1 _ _ h4).classes_eq]
            exact hlive
      · rw [pure_ok] at h2
        subst h2
        exact ⟨hr, hu, hlive⟩
    have e3 := foldlM_inv _
      (fun t => (∀ x ∈ t.1, Pr x) ∧ (∀ K m c1, unused_mem t.2 K m c1 → U K m c1)
        ∧ t.2.live_classes = live) (get_class_subtypes p klass) ?_ st2 st1 e2 h3
    · exact ⟨e3.1, e3.2.1⟩
    · intro s x s1 hx hs hf
      have ih := collect_methods_recursive_sound budget p c Pr U live depth x cur s s1 hf
        hs.2.2
        (fun K m hK => hres K m (resolves_from_cons budget p c klass entity cur x K m hcur hx hK))
        hs.1 hs.2.1
      refine ⟨ih.1, ih.2, ?_⟩
      rw [(collect_methods_recursive_ext budget p c depth x cur s s1 hf).classes_eq]
      exact hs.2.2

theorem add_to_dyncalls_sound (p : ir_prog) (method : EntId) (call_entities : cpset)
    (env env1 : analyzer_env) (h : add_to_dyncalls p method call_entities env = .ok env1) :
    ∀ c m, has_target env1 c m →
      has_target env c m ∨ (m = method ∧ c ∈ call_entities) := by
  unfold add_to_dyncalls at h
  simp only [bind_ok, exists_assert_ok] at h
  refine foldlM_inv _ (fun t => ∀ c m, has_target t c m →
      has_target env c m ∨ (m = method ∧ c ∈ call_entities)) call_entities ?_ env env1
      (fun c m h => Or.inl h) h.2
  intro s x s1 hx hs hf c m ht
  obtain ⟨targets, hfind, _, _, _, _, hdt⟩ := add_to_dyncalls_step p method s s1 x hf
  obtain ⟨ts, h1, h2⟩ := ht
  rw [hdt, cpmap_find_set] at h1
  by_cases hc : c = x
  · subst hc
    simp only [if_true, Option.some.injEq] at h1
    subst h1
    rcases (mem_cpset_insert _ _ _).1 h2 with h2 | h2
    · exact hs c m ⟨targets, hfind, h2⟩
    · exact Or.inr ⟨h2, hx⟩
  · simp only [hc, if_false] at h1
    exact hs c m ⟨ts, h1, h2⟩

/-- Where the targets and the unused targets after `add_new_live_class` come
from. -/
theorem add_new_live_class_sound (depth : Nat) (p : ir_prog) (klass : ClassId)
    (env env1 : analyzer_env) (h : add_new_live_class depth p klass env = .ok env1) :
    (∀ c m, has_target env1 c m →
      has_target env c m ∨ (klass ∈ env1.live_classes ∧ unused_mem env klass m c))
    ∧ (∀ K m c, unused_mem env1 K m c → unused_mem env K m c) := by
  unfold add_new_live_class at h
  split at h
  · simp only [bind_ok] at h
    obtain ⟨env2, h1, h2⟩ := h
    obtain ⟨f1, f2, f3⟩ := cfes_frame _ _ _ _ _ h2
    split at h1
    · rename_i methods hfind
      simp only [bind_ok, pure_ok] at h1
      obtain ⟨env3, h3, rfl⟩ := h1
      have hmem : (klass, methods) ∈ env.unused_targets := cpmap_find_mem _ _ _ hfind
      have e3 := foldlM_inv _
        (fun t => t.live_classes = cpset_insert env.live_classes klass
          ∧ t.unused_targets = env.unused_targets
          ∧ ∀ c m, has_target t c m → has_target env c m ∨ unused_mem env klass m c)
        methods ?_ { env with live_classes := cpset_insert env.live_classes klass } env3
        ⟨rfl, rfl, fun c m h => Or.inl h⟩ h3
      · refine ⟨?_, ?_⟩
        · intro c m ht
          have hk : klass ∈ env1.live_classes := by
            rw [f1]
            simp only [e3.1]
            exact cpset_insert_self _ _
          obtain ⟨ts, h4, h5⟩ := ht
          rw [f2] at h4
          rcases e3.2.2 c m ⟨ts, h4, h5⟩ with h | h
          · exact Or.inl h
          · exact Or.inr ⟨hk, h⟩
        · rintro K m c ⟨ms, C, h4, h5⟩
          rw [f3] at h4
          have h6 := (cpmap_mem_remove _ _ _ h4).1
          rw [e3.2.1] at h6
          exact ⟨ms, C, h6, h5⟩
      · intro s x s1 hx hs hf
        obtain ⟨_, g1, g2⟩ := add_to_dyncalls_ext p x.1 x.2 s s1 hf
        refine ⟨g1.trans hs.1, g2.trans hs.2.1, ?_⟩
        intro c m ht
        rcases add_to_dyncalls_sound p x.1 x.2 s s1 hf c m ht with h | ⟨rfl, h⟩
        · exact hs.2.2 c m h
        · exact Or.inr ⟨methods, x.2, hmem, hx, h⟩
    · rw [pure_ok] at h1
      subst h1
      refine ⟨?_, ?_⟩
      · rintro c m ⟨ts, h4, h5⟩
        rw [f2] at h4
        exact Or.inl ⟨ts, h4, h5⟩
      · rintro K m c ⟨ms, C, h4, h5⟩
        rw [f3] at h4
        exact ⟨ms, C, h4, h5⟩
  · rw [pure_ok] at h
    subst h
    exact ⟨fun c m h => Or.inl h, fun K m c h => h⟩

theorem sound_of_frame (depth : Nat) (p : ir_prog) (env env1 : analyzer_env)
    (hc : env.live_classes ⊆ env1.live_classes)
    (hd : env1.dyncall_targets = env.dyncall_targets)
    (hu : env1.unused_targets = env.unused_targets)
    (h : targets_sound depth p env ∧ unused_sound depth p env) :
    targets_sound depth p env1 ∧ unused_sound depth p env1 := by
  refine ⟨?_, ?_⟩
  · rintro c m ⟨ts, h1, h2⟩
    rw [hd] at h1
    obtain ⟨h3, K, h4, h5⟩ := h.1 c m ⟨ts, h1, h2⟩
    exact ⟨h3, K, h4.imp (fun h => hc h) id, h5⟩
  · rintro K m c ⟨ms, C, h1, h2⟩
    rw [hu] at h1
    exact h.2 K m c ⟨ms, C, h1, h2⟩

theorem analyzer_handle_static_call_frame (p : ir_prog) (g : GraphId) (call : NodeId)
    (entity : EntId) (env env1 : analyzer_env)
    (h : analyzer_handle_static_call p g call entity env = .ok env1) :
    env1.live_classes = env.live_classes ∧ env1.dyncall_targets = env.dyncall_targets
      ∧ env1.unused_targets = env.unused_targets := by
  unfold analyzer_handle_static_call at h
  simp only [bind_ok, exists_assert_ok] at h
  obtain ⟨_, env2, h1, h⟩ := h
  have e1 := live_enqueue_frame _ _ _ _ h1
  split at h
  · rw [pure_ok] at h
    exact h ▸ e1
  · split at h
    · simp only [bind_ok, exists_assert_ok] at h
      obtain ⟨f1, f2, f3⟩ := live_enqueue_frame _ _ _ _ h.2
      exact ⟨f1.trans e1.1, f2.trans e1.2.1, f3.trans e1.2.2⟩
    · rw [pure_ok] at h
      exact h ▸ e1

theorem analyzer_handle_no_graph_frame (p : ir_prog) (entity : EntId)
    (env env1 : analyzer_env) (h : analyzer_handle_no_graph p entity env = .ok env1) :
    env1.live_classes = env.live_classes ∧ env1.dyncall_targets = env.dyncall_targets
      ∧ env1.unused_targets = env.unused_targets := by
  unfold analyzer_handle_no_graph at h
  simp only [bind_ok, exists_assert_ok] at h
  obtain ⟨_, _, target, _, h⟩ := h
  split at h
  · exact live_enqueue_frame _ _ _ _ h
  · rw [pure_ok] at h
    exact h ▸ ⟨rfl, rfl, rfl⟩

theorem collect_methods_sound (depth : Nat) (p : ir_prog) (e : EntId) (rs : cpset)
    (env : analyzer_env) (res : cpset × analyzer_env)
    (h : collect_methods depth p e rs env = .ok res)
    (hs : unused_sound depth p env) :
    unused_sound depth p res.2
      ∧ ∀ x ∈ res.1, x ∈ rs ∨ (oo_get_method_is_abstract p x = false
          ∧ ∃ K, (K ∈ env.live_classes ∨ oo_get_class_is_extern p K = true)
            ∧ resolves_to depth p e K x) := by
  have key := collect_methods_recursive_sound depth p e
    (fun x => x ∈ rs ∨ (oo_get_method_is_abstract p x = false
          ∧ ∃ K, (K ∈ env.live_classes ∨ oo_get_class_is_extern p K = true)
            ∧ resolves_to depth p e K x))
    (fun K m c1 => oo_get_method_is_abstract p m = false ∧ resolves_to depth p c1 K m)
    env.live_classes depth (get_entity_owner p e) e (rs, env) res h rfl
    (fun K m hK ha => ⟨fun hl => Or.inr ⟨ha, K, hl, hK⟩, ha, hK⟩)
    (fun x hx => Or.inl hx) hs
  exact ⟨key.2, key.1⟩

theorem analyzer_handle_dynamic_call_sound (depth : Nat) (p : ir_prog) (e : EntId)
    (env env1 : analyzer_env) (h : analyzer_handle_dynamic_call depth p e env = .ok env1)
    (hs : targets_sound depth p env ∧ unused_sound depth p env) :
    targets_sound depth p env1 ∧ unused_sound depth p env1 := by
  unfold analyzer_handle_dynamic_call at h
  simp only [bind_ok, exists_assert_ok] at h
  obtain ⟨_, h⟩ := h
  split at h
  · rw [pure_ok] at h
    exact h ▸ hs
  · rename_i hnone
    simp only [bind_ok, pure_ok] at h
    obtain ⟨res, h1, rfl⟩ := h
    have c1 := collect_methods_ext _ _ _ _ _ _ h1
    obtain ⟨k1, k2⟩ := collect_methods_sound depth p e [] env res h1 hs.2
    refine ⟨?_, k1⟩
    rintro c m ⟨ts, h2, h3⟩
    simp only [cpmap_find_set] at h2
    by_cases hc : c = e
    · subst hc
      simp only [if_true, Option.some.injEq] at h2
      subst h2
      rcases k2 m h3 with h | ⟨h4, K, h5, h6⟩
      · simp at h
      · exact ⟨h4, K, h5.imp (fun h => by simp only [c1.classes_eq]; exact h) id, h6⟩
    · simp only [hc, if_false, c1.targets_eq] at h2
      obtain ⟨h4, K, h5, h6⟩ := hs.1 c m ⟨ts, h2, h3⟩
      exact ⟨h4, K, h5.imp (fun h => by simp only [c1.classes_eq]; exact h) id, h6⟩

theorem add_new_live_class_preserves_sound (depth : Nat) (p : ir_prog) (klass : ClassId)
    (env env1 : analyzer_env) (h : add_new_live_class depth p klass env = .ok env1)
    (hs : targets_sound depth p env ∧ unused_sound depth p env) :
    targets_sound depth p env1 ∧ unused_sound depth p env1 := by
  obtain ⟨k1, k2⟩ := add_new_live_class_sound depth p klass env env1 h
  have e := add_new_live_class_ext depth p klass env env1 h
  refine ⟨?_, fun K m c hm => hs.2 K m c (k2 K m c hm)⟩
  intro c m ht
  rcases k1 c m ht with h1 | ⟨h1, h2⟩
  · obtain ⟨h4, K, h5, h6⟩ := hs.1 c m h1
    exact ⟨h4, K, h5.imp (fun h => e.classes h) id, h6⟩
  · obtain ⟨h4, h6⟩ := hs.2 klass m c h2
    exact ⟨h4, klass, Or.inl h1, h6⟩

theorem walk_callgraph_and_analyze_sound (depth : Nat) (p : ir_prog) (g : GraphId)
    (node : NodeId) (env env1 : analyzer_env)
    (h : walk_callgraph_and_analyze depth p g node env = .ok env1)
    (hs : targets_sound depth p env ∧ unused_sound depth p env) :
    targets_sound depth p env1 ∧ unused_sound depth p env1 := by
  have frame : (env1.live_classes = env.live_classes ∧ env1.dyncall_targets = env.dyncall_targets
      ∧ env1.unused_targets = env.unused_targets) →
      targets_sound depth p env1 ∧ unused_sound depth p env1 :=
    fun f => sound_of_frame depth p env env1 (fun _ h => f.1 ▸ h) f.2.1 f.2.2 hs
  unfold walk_callgraph_and_analyze at h
  split at h
  · split at h
    · exact frame (live_enqueue_frame _ _ _ _ h)
    · rw [pure_ok] at h
      exact h ▸ hs
  · split at h
    · exact frame (analyzer_handle_static_call_frame _ _ _ _ _ _ h)
    · split at h
      · split at h
        · exact frame (analyzer_handle_static_call_frame _ _ _ _ _ _ h)
        · exact analyzer_handle_dynamic_call_sound _ _ _ _ _ h hs
      · rw [pure_ok] at h
        exact h ▸ hs
    · rw [pure_ok] at h
      exact h ▸ hs
  · exact add_new_live_class_preserves_sound _ _ _ _ _ h hs
  · rw [pure_ok] at h
    exact h ▸ hs

theorem analyzer_step_sound (depth : Nat) (p : ir_prog) (env env1 : analyzer_env)
    (h : analyzer_step depth p env env1)
    (hs : targets_sound depth p env ∧ unused_sound depth p env) :
    targets_sound depth p env1 ∧ unused_sound depth p env1 := by
  cases h with
  | node g n _ _ h => exact walk_callgraph_and_analyze_sound _ _ _ _ _ _ h hs
  | no_graph e _ _ h =>
    obtain ⟨f1, f2, f3⟩ := analyzer_handle_no_graph_frame _ _ _ _ h
    exact sound_of_frame depth p env env1 (fun _ h => f1 ▸ h) f2 f3 hs
  | live_class k _ _ h => exact add_new_live_class_preserves_sound _ _ _ _ _ h hs
  | collect c rs rs1 _ _ h =>
    have c1 := collect_methods_ext _ _ _ _ _ _ h
    obtain ⟨k1, _⟩ := collect_methods_sound depth p c rs env _ h hs.2
    refine ⟨?_, k1⟩
    rintro c2 m ⟨ts, h2, h3⟩
    have h2a : cpmap_find env.dyncall_targets c2 = some ts := by
      rw [← c1.targets_eq]
      exact h2
    obtain ⟨h4, K, h5, h6⟩ := hs.1 c2 m ⟨ts, h2a, h3⟩
    exact ⟨h4, K, h5.imp (fun h => c1.ext.classes h) id, h6⟩

/-- The work-queue loop starts with an empty target map and nothing recorded
as unused. -/
theorem rta_run_start_empty (depth : Nat) (p : ir_prog) (entry_points : List EntId)
    (initial_live_classes : Option (List ClassId)) (env1 env2 : analyzer_env)
    (h1 : rta_run_entry_points p entry_points analyzer_env_init = .ok env1)
    (h2 : rta_run_initial_live_classes depth p initial_live_classes env1 = .ok env2) :
    env2.dyncall_targets = [] ∧ env2.unused_targets = [] := by
  unfold rta_run_entry_points at h1
  simp only [bind_ok, exists_assert_ok, pure_ok] at h1
  obtain ⟨env0, h0, _, rfl⟩ := h1
  have e0 := foldlM_inv _ (fun t => t.dyncall_targets = [] ∧ t.unused_targets = [])
    entry_points ?_ analyzer_env_init env0 ⟨rfl, rfl⟩ h0
  · unfold rta_run_initial_live_classes at h2
    split at h2
    · rw [pure_ok] at h2
      exact h2 ▸ e0
    · refine foldlM_inv _ (fun t => t.dyncall_targets = [] ∧ t.unused_targets = [])
        _ ?_ env0 env2 e0 h2
      intro s x s1 _ hs hf
      obtain ⟨_, f2, f3⟩ := cfes_frame _ _ _ _ _ hf
      exact ⟨f2.trans hs.1, f3.trans hs.2⟩
  · intro s x s1 _ hs hf
    simp only [bind_ok, exists_assert_ok, pure_ok] at hf
    obtain ⟨_, _, rfl⟩ := hf
    exact hs

theorem rta_point_sound (depth : Nat) (p : ir_prog) (entry_points : List EntId)
    (initial_live_classes : Option (List ClassId)) (env : analyzer_env)
    (h : rta_point depth p entry_points initial_live_classes env) :
    targets_sound depth p env ∧ unused_sound depth p env := by
  induction h with
  | start env1 env2 h1 h2 =>
    obtain ⟨e1, e2⟩ := rta_run_start_empty depth p entry_points initial_live_classes _ _ h1 h2
    refine ⟨?_, ?_⟩
    · rintro c m ⟨ts, h3, _⟩
      rw [e1] at h3
      simp [cpmap_find] at h3
    · rintro K m c ⟨ms, C, h3, _⟩
      rw [e2] at h3
      simp at h3
  | dequeue env entity rest _ _ ih => exact ih
  | mark_done env entity _ ih => exact ih
  | step env env1 _ hstep ih => exact analyzer_step_sound depth p env env1 hstep ih

/-! ### The result of `rta_run` is one of its points -/

theorem analyzer_walk_graph_point (depth : Nat) (p : ir_prog) (entry_points : List EntId)
    (initial_live_classes : Option (List ClassId)) (g : GraphId) (env env1 : analyzer_env)
    (h : analyzer_walk_graph depth p g env = .ok env1)
    (hp : rta_point depth p entry_points initial_live_classes env) :
    rta_point depth p entry_points initial_live_classes env1 :=
  foldlM_inv _ (fun t => rta_point depth p entry_points initial_live_classes t) _
    (fun s x s1 _ hs hf => rta_point.step s s1 hs (analyzer_step.node g x s s1 hf)) env env1 hp h

theorem rta_run_iteration_point (depth : Nat) (p : ir_prog) (entry_points : List EntId)
    (initial_live_classes : Option (List ClassId)) (entity : EntId) (env env1 : analyzer_env)
    (h : rta_run_iteration depth p entity env = .ok env1)
    (hp : rta_point depth p entry_points initial_live_classes env) :
    rta_point depth p entry_points initial_live_classes env1 := by
  unfold rta_run_iteration at h
  simp only [bind_ok, exists_assert_ok] at h
  obtain ⟨_, h⟩ := h
  split at h
  · rw [pure_ok] at h
    exact h ▸ hp
  · have hp1 := rta_point.mark_done env entity hp
    split at h
    · exact rta_point.step _ _ hp1 (analyzer_step.no_graph entity _ _ h)
    · exact analyzer_walk_graph_point depth p entry_points initial_live_classes _ _ _ h hp1

theorem rta_run_loop_point (depth : Nat) (p : ir_prog) (entry_points : List EntId)
    (initial_live_classes : Option (List ClassId)) :
    ∀ (fuel : Nat) (env env1 : analyzer_env),
      rta_run_loop depth p fuel env = .ok env1 →
      rta_point depth p entry_points initial_live_classes env →
      rta_point depth p entry_points initial_live_classes env1 := by
  intro fuel
  induction fuel with
  | zero =>
    intro env env1 h hp
    unfold rta_run_loop at h
    split at h
    · rw [pure_ok] at h
      exact h ▸ hp
    · simp at h
  | succ fuel ih =>
    intro env env1 h hp
    unfold rta_run_loop at h
    split at h
    · rw [pure_ok] at h
      exact h ▸ hp
    · rename_i entity rest hq
      simp only [bind_ok] at h
      obtain ⟨env2, h1, h2⟩ := h
      exact ih env2 env1 h2 (rta_run_iteration_point depth p entry_points initial_live_classes
        entity _ env2 h1 (rta_point.dequeue env entity rest hp hq))

theorem rta_run_point (fuel depth : Nat) (p : ir_prog) (entry_points : List EntId)
    (initial_live_classes : Option (List ClassId)) (env : analyzer_env)
    (h : rta_run fuel depth p entry_points initial_live_classes = .ok env) :
    rta_point depth p entry_points initial_live_classes env := by
  unfold rta_run at h
  simp only [bind_ok] at h
  obtain ⟨env1, h1, env2, h2, h3⟩ := h
  exact rta_run_loop_point depth p entry_points initial_live_classes fuel env2 env h3
    (rta_point.start env1 env2 h1 h2)

theorem rta_run_loop_inv (depth : Nat) (p : ir_prog) (I : analyzer_env → Prop)
    (hiter : ∀ env entity rest env1, I env → env.workqueue = entity :: rest →
      rta_run_iteration depth p entity { env with workqueue := rest } = .ok env1 → I env1) :
    ∀ (fuel : Nat) (env env1 : analyzer_env),
      rta_run_loop depth p fuel env = .ok env1 → I env → I env1 ∧ env1.workqueue = [] := by
  intro fuel
  induction fuel with
  | zero =>
    intro env env1 h hp
    unfold rta_run_loop at h
    split at h
    · rw [pure_ok] at h
      subst h
      exact ⟨hp, by assumption⟩
    · simp at h
  | succ fuel ih =>
    intro env env1 h hp
    unfold rta_run_loop at h
    split at h
    · rw [pure_ok] at h
      subst h
      exact ⟨hp, by assumption⟩
    · rename_i entity rest hq
      simp only [bind_ok] at h
      obtain ⟨env2, h1, h2⟩ := h
      exact ih env2 env1 h2 (hiter env entity rest env2 hp hq h1)

theorem collect_current_entity_inj (budget : Nat) (p : ir_prog) (c : EntId) (K : ClassId)
    (e a b : EntId) (ha : collect_current_entity budget p c K e = .ok a)
    (hb : collect_current_entity budget p c K e = .ok b) : a = b := by
  rw [ha] at hb
  cases hb
  rfl

theorem collect_methods_recursive_complete (budget : Nat) (p : ir_prog) (c : EntId)
    (live : cpset) :
    ∀ (depth : Nat) (klass : ClassId) (entity : EntId) (st st1 : cpset × analyzer_env),
      collect_methods_recursive budget depth p c klass entity st = .ok st1 →
      st.2.live_classes = live →
      ∀ K m, resolves_from budget p c klass entity K m →
        oo_get_method_is_abstract p m = false →
          m ∈ st1.1 ∨ (K ∉ live ∧ unused_has st1.2 K m c)
  | 0, _, _, _, _, h, _ => by simp [collect_methods_recursive] at h
  | depth + 1, klass, entity, st, st1, h, hlive => by
    simp only [collect_methods_recursive, bind_ok, exists_assert_ok] at h
    obtain ⟨_, _, cur, hcur, st2, h2, h3⟩ := h
    have e2 : collect_ext st st2 ∧ (oo_get_method_is_abstract p cur = false →
        cur ∈ st2.1 ∨ (klass ∉ live ∧ unused_has st2.2 klass cur c)) := by
      split at h2
      · split at h2
        · obtain ⟨t1, t2⟩ := take_entity_ext _ _ _ _ h2
          exact ⟨t1, fun _ => Or.inl t2⟩
        · rename_i huse
          simp only [bind_ok, pure_ok] at h2
          obtain ⟨env1, h4, rfl⟩ := h2
          refine ⟨memorize_ext _ _ _ _ _ _ _ h4, fun _ => Or.inr ⟨?_, ?_⟩⟩
          · intro hk
            exact huse (Or.inl (hlive ▸ hk))
          · exact (memorize_unused_has _ _ _ _ _ _ h4).1
      · rename_i habs
        rw [pure_ok] at h2
        subst h2
        refine ⟨collect_ext_refl _, fun ha => ?_⟩
        rw [ha] at habs
        simp at habs
    have e3 := foldlM_forall _ (fun t => collect_ext st2 t)
      (fun x t => ∀ K m, resolves_from budget p c x cur K m →
        oo_get_method_is_abstract p m = false →
          m ∈ t.1 ∨ (K ∉ live ∧ unused_has t.2 K m c))
      (get_class_subtypes p klass) ?_ ?_ st2 st1 (collect_ext_refl _) h3
    · intro K m hres habs
      obtain ⟨steps, hpath, hend, hr⟩ := hres
      cases steps with
      | nil =>
        simp only [path_end] at hend
        subst hend
        simp only [resolve_along] at hr
        have := collect_current_entity_inj budget p c klass entity cur m hcur hr
        subst this
        rcases e2.2 habs with h | ⟨h5, h6⟩
        · exact Or.inl (e3.1.result_sub h)
        · exact Or.inr ⟨h5, e3.1.unused _ _ _ h6⟩
      | cons s rest =>
        simp only [resolve_along, bind_ok] at hr
        obtain ⟨cur1, hc1, hr1⟩ := hr
        have := collect_current_entity_inj budget p c klass entity cur cur1 hcur hc1
        subst this
        exact e3.2 s hpath.1 K m ⟨rest, hpath.2, hend, hr1⟩ habs
    · intro s x s1 hx hs hf
      have ce := collect_methods_recursive_ext budget p c depth x cur s s1 hf
      refine ⟨collect_ext_trans hs ce, ?_⟩
      have hl : s.2.live_classes = live := by
        rw [hs.classes_eq, e2.1.classes_eq]
        exact hlive
      exact collect_methods_recursive_complete budget p c live depth x cur s s1 hf hl
    · intro s x s1 y hx hs hf hy K m hres habs
      have ce := collect_methods_recursive_ext budget p c depth x cur s s1 hf
      rcases hy K m hres habs with h | ⟨h5, h6⟩
      · exact Or.inl (ce.result_sub h)
      · exact Or.inr ⟨h5, ce.unused _ _ _ h6⟩

theorem complete_of_frame (depth : Nat) (p : ir_prog) (env env1 : analyzer_env)
    (hc : env1.live_classes = env.live_classes)
    (hd : env1.dyncall_targets = env.dyncall_targets)
    (hu : env1.unused_targets = env.unused_targets)
    (h : complete_inv depth p env) : complete_inv depth p env1 := by
  intro c hkey K m hres habs
  rw [hd] at hkey
  rcases h c hkey K m hres habs with ⟨ts, h1, h2⟩ | ⟨h1, ms, C, h2, h3⟩
  · exact Or.inl ⟨ts, hd ▸ h1, h2⟩
  · exact Or.inr ⟨hc ▸ h1, ms, C, hu ▸ h2, h3⟩

theorem analyzer_handle_dynamic_call_complete (depth : Nat) (p : ir_prog) (e : EntId)
    (env env1 : analyzer_env) (h : analyzer_handle_dynamic_call depth p e env = .ok env1)
    (hs : complete_inv depth p env) :
    complete_inv depth p env1 ∧ ∃ ts, cpmap_find env1.dyncall_targets e = some ts := by
  unfold analyzer_handle_dynamic_call at h
  simp only [bind_ok, exists_assert_ok] at h
  obtain ⟨_, h⟩ := h
  split at h
  · rename_i ts hsome
    rw [pure_ok] at h
    subst h
    exact ⟨hs, ts, hsome⟩
  · rename_i hnone
    simp only [bind_ok, pure_ok] at h
    obtain ⟨res, h1, rfl⟩ := h
    have c1 := collect_methods_ext _ _ _ _ _ _ h1
    have k := collect_methods_recursive_complete depth p e env.live_classes depth
      (get_entity_owner p e) e ([], env) res h1 rfl
    refine ⟨?_, _, cpmap_find_set_self _ _ _⟩
    intro c hkey K m hres habs
    by_cases hc : c = e
    · subst hc
      rcases k K m hres habs with h | ⟨h5, h6⟩
      · exact Or.inl ⟨res.1, cpmap_find_set_self _ _ _, h⟩
      · refine Or.inr ⟨?_, h6⟩
        simp only [c1.classes_eq]
        exact h5
    · simp only [cpmap_find_set, hc, if_false, c1.targets_eq] at hkey
      rcases hs c hkey K m hres habs with ⟨ts, h2, h3⟩ | ⟨h5, h6⟩
      · refine Or.inl ⟨ts, ?_, h3⟩
        simp only [cpmap_find_set, hc, if_false, c1.targets_eq]
        exact h2
      · refine Or.inr ⟨?_, c1.unused _ _ _ h6⟩
        simp only [c1.classes_eq]
        exact h5

/-- The effect of `add_new_live_class` for a class that is not live, not
extern and not abstract. -/
theorem add_new_live_class_effect (depth : Nat) (p : ir_prog) (klass : ClassId)
    (env env1 : analyzer_env) (h : add_new_live_class depth p klass env = .ok env1)
    (hcond : klass ∉ env.live_classes ∧ (! oo_get_class_is_extern p klass) = true
      ∧ (!oo_get_class_is_abstract p klass) = true) :
    env1.live_classes = cpset_insert env.live_classes klass
      ∧ (∀ K, K ≠ klass → cpmap_find env1.unused_targets K = cpmap_find env.unused_targets K)
      ∧ (∀ m c, unused_has env klass m c → has_target env1 c m) := by
  unfold add_new_live_class at h
  rw [if_pos hcond] at h
  simp only [bind_ok] at h
  obtain ⟨env2, h1, h2⟩ := h
  obtain ⟨f1, f2, f3⟩ := cfes_frame _ _ _ _ _ h2
  split at h1
  · rename_i methods hfind
    simp only [bind_ok, pure_ok] at h1
    obtain ⟨env3, h3, rfl⟩ := h1
    have e3 := foldlM_forall _
      (fun t => t.live_classes = cpset_insert env.live_classes klass
        ∧ t.unused_targets = env.unused_targets)
      (fun (entry : Nat × cpset) s => ∀ c ∈ entry.2, has_target s c entry.1) methods ?_ ?_
      { env with live_classes := cpset_insert env.live_classes klass } env3 ⟨rfl, rfl⟩ h3
    · refine ⟨f1.trans e3.1.1, ?_, ?_⟩
      · intro K hK
        rw [f3]
        simp only [cpmap_find_remove, hK, if_false, e3.1.2]
      · rintro m c ⟨ms, C, h4, h5, h6⟩
        rw [hfind] at h4
        cases h4
        obtain ⟨ts, h7, h8⟩ := e3.2 (m, C) (cpmap_find_mem _ _ _ h5) c h6
        exact ⟨ts, by rw [f2]; exact h7, h8⟩
    · intro s x s1 _ hs hf
      obtain ⟨_, g1, g2⟩ := add_to_dyncalls_ext p x.1 x.2 s s1 hf
      exact ⟨⟨g1.trans hs.1, g2.trans hs.2⟩,
        fun c hc => (add_to_dyncalls_targets p x.1 x.2 s s1 hf c hc).1⟩
    · intro s x s1 y _ _ hf hy c hc
      exact has_target_ext (add_to_dyncalls_ext p x.1 x.2 s s1 hf).1 _ _ (hy c hc)
  · rename_i hnone
    rw [pure_ok] at h1
    subst h1
    refine ⟨f1, fun K _ => by rw [f3], ?_⟩
    rintro m c ⟨ms, C, h4, _⟩
    have hnone1 : cpmap_find env.unused_targets klass = none := hnone
    rw [hnone1] at h4
    cases h4

theorem add_to_dyncalls_keys (p : ir_prog) (method : EntId) (call_entities : cpset)
    (env env1 : analyzer_env) (h : add_to_dyncalls p method call_entities env = .ok env1) :
    ∀ c, (∃ ts, cpmap_find env1.dyncall_targets c = some ts) →
      ∃ ts, cpmap_find env.dyncall_targets c = some ts := by
  unfold add_to_dyncalls at h
  simp only [bind_ok, exists_assert_ok] at h
  refine foldlM_inv _ (fun t => ∀ c, (∃ ts, cpmap_find t.dyncall_targets c = some ts) →
      ∃ ts, cpmap_find env.dyncall_targets c = some ts) call_entities ?_ env env1
      (fun c h => h) h.2
  intro s x s1 _ hs hf c hc
  obtain ⟨targets, hfind, _, _, _, _, hdt⟩ := add_to_dyncalls_step p method s s1 x hf
  obtain ⟨ts, h1⟩ := hc
  rw [hdt, cpmap_find_set] at h1
  by_cases hcx : c = x
  · subst hcx
    exact hs c ⟨targets, hfind⟩
  · simp only [hcx, if_false] at h1
    exact hs c ⟨ts, h1⟩

theorem add_new_live_class_keys (depth : Nat) (p : ir_prog) (klass : ClassId)
    (env env1 : analyzer_env) (h : add_new_live_class depth p klass env = .ok env1) :
    ∀ c, (∃ ts, cpmap_find env1.dyncall_targets c = some ts) →
      ∃ ts, cpmap_find env.dyncall_targets c = some ts := by
  unfold add_new_live_class at h
  split at h
  · simp only [bind_ok] at h
    obtain ⟨env2, h1, h2⟩ := h
    obtain ⟨_, f2, _⟩ := cfes_frame _ _ _ _ _ h2
    rw [f2]
    split at h1
    · simp only [bind_ok, pure_ok] at h1
      obtain ⟨env3, h3, rfl⟩ := h1
      exact foldlM_inv _ (fun t => ∀ c, (∃ ts, cpmap_find t.dyncall_targets c = some ts) →
        ∃ ts, cpmap_find env.dyncall_targets c = some ts) _
        (fun s x s1 _ hs hf c hc => hs c (add_to_dyncalls_keys p x.1 x.2 s s1 hf c hc))
        { env with live_classes := cpset_insert env.live_classes klass } env3 (fun c h => h) h3
    · rw [pure_ok] at h1
      subst h1
      exact fun c h => h
  · rw [pure_ok] at h
    subst h
    exact fun c h => h

theorem add_new_live_class_complete (depth : Nat) (p : ir_prog) (klass : ClassId)
    (env env1 : analyzer_env) (h : add_new_live_class depth p klass env = .ok env1)
    (hs : complete_inv depth p env) : complete_inv depth p env1 := by
  have e := add_new_live_class_ext depth p klass env env1 h
  by_cases hcond : klass ∉ env.live_classes ∧ (! oo_get_class_is_extern p klass) = true
      ∧ (!oo_get_class_is_abstract p klass) = true
  · obtain ⟨k1, k2, k3⟩ := add_new_live_class_effect depth p klass env env1 h hcond
    intro c hkey K m hres habs
    have hkey0 := add_new_live_class_keys depth p klass env env1 h c hkey
    rcases hs c hkey0 K m hres habs with h1 | ⟨h1, h2⟩
    · exact Or.inl (has_target_ext e _ _ h1)
    · by_cases hK : K = klass
      · subst hK
        exact Or.inl (k3 m c h2)
      · refine Or.inr ⟨?_, ?_⟩
        · rw [k1, mem_cpset_insert]
          rintro (h3 | h3)
          · exact h1 h3
          · exact hK h3
        · obtain ⟨ms, C, h4, h5⟩ := h2
          exact ⟨ms, C, by rw [k2 K hK]; exact h4, h5⟩
  · unfold add_new_live_class at h
    rw [if_neg hcond, pure_ok] at h
    exact h ▸ hs

theorem walk_callgraph_and_analyze_complete (depth : Nat) (p : ir_prog) (g : GraphId)
    (node : NodeId) (env env1 : analyzer_env)
    (h : walk_callgraph_and_analyze depth p g node env = .ok env1)
    (hs : complete_inv depth p env) :
    complete_inv depth p env1
      ∧ ∀ c, is_dynamic_call p g node c → ∃ ts, cpmap_find env1.dyncall_targets c = some ts := by
  have frame : (env1.live_classes = env.live_classes ∧ env1.dyncall_targets = env.dyncall_targets
      ∧ env1.unused_targets = env.unused_targets) → complete_inv depth p env1 :=
    fun f => complete_of_frame depth p env env1 f.1 f.2.1 f.2.2 hs
  unfold walk_callgraph_and_analyze at h
  split at h
  · rename_i e hnode
    refine ⟨?_, ?_⟩
    · split at h
      · exact frame (live_enqueue_frame _ _ _ _ h)
      · rw [pure_ok] at h
        exact h ▸ hs
    · rintro c ⟨callee, pred, mem, h1, _⟩
      rw [hnode] at h1
      cases h1
  · rename_i callee sb hnode
    split at h
    · rename_i e hcallee
      refine ⟨frame (analyzer_handle_static_call_frame _ _ _ _ _ _ h), ?_⟩
      rintro c ⟨callee1, pred, mem, h1, h2, _⟩
      rw [hnode] at h1
      cases h1
      rw [hcallee] at h2
      cases h2
    · rename_i pred hcallee
      split at h
      · rename_i mem e hpred
        split at h
        · rename_i hsb
          refine ⟨frame (analyzer_handle_static_call_frame _ _ _ _ _ _ h), ?_⟩
          rintro c ⟨callee1, pred1, mem1, h1, _⟩
          rw [hnode] at h1
          cases h1
          simp at hsb
        · obtain ⟨k1, k2⟩ := analyzer_handle_dynamic_call_complete _ _ _ _ _ h hs
          refine ⟨k1, ?_⟩
          rintro c ⟨callee1, pred1, mem1, h1, h2, h3⟩
          rw [hnode] at h1
          cases h1
          rw [hcallee] at h2
          cases h2
          rw [hpred] at h3
          cases h3
          exact k2
      · rename_i hnot
        rw [pure_ok] at h
        subst h
        refine ⟨hs, ?_⟩
        rintro c ⟨callee1, pred1, mem1, h1, h2, h3⟩
        rw [hnode] at h1
        cases h1
        rw [hcallee] at h2
        cases h2
        exact absurd h3 (hnot _ _)
    · rename_i hnot1 hnot2
      rw [pure_ok] at h
      subst h
      refine ⟨hs, ?_⟩
      rintro c ⟨callee1, pred1, mem1, h1, h2, _⟩
      rw [hnode] at h1
      cases h1
      exact absurd h2 (hnot2 _)
  · rename_i k hnode
    refine ⟨add_new_live_class_complete _ _ _ _ _ h hs, ?_⟩
    rintro c ⟨callee, pred, mem, h1, _⟩
    rw [hnode] at h1
    cases h1
  · rename_i hn1 hn2 hn3
    rw [pure_ok] at h
    subst h
    refine ⟨hs, ?_⟩
    rintro c ⟨callee, pred, mem, h1, _⟩
    exact absurd h1 (hn2 _ _)

theorem key_ext {a b : analyzer_env} (h : env_ext a b) (c : EntId)
    (hk : ∃ ts, cpmap_find a.dyncall_targets c = some ts) :
    ∃ ts, cpmap_find b.dyncall_targets c = some ts := by
  obtain ⟨ts, h1⟩ := hk
  obtain ⟨ts1, h2, _⟩ := h.targets c ts h1
  exact ⟨ts1, h2⟩

theorem rta_run_iteration_complete (depth : Nat) (p : ir_prog) (entity : EntId)
    (env env1 : analyzer_env) (rest : List EntId)
    (h : rta_run_iteration depth p entity { env with workqueue := rest } = .ok env1)
    (hs : complete_inv depth p env ∧ done_dyn p env) :
    complete_inv depth p env1 ∧ done_dyn p env1 := by
  unfold rta_run_iteration at h
  simp only [bind_ok, exists_assert_ok] at h
  obtain ⟨_, h⟩ := h
  split at h
  · rw [pure_ok] at h
    subst h
    exact hs
  · split at h
    · rename_i hnone
      obtain ⟨f1, f2, f3⟩ := analyzer_handle_no_graph_frame _ _ _ _ h
      have e := analyzer_handle_no_graph_ext _ _ _ _ h
      refine ⟨complete_of_frame depth p env env1 f1 f2 f3 hs.1, ?_⟩
      intro M hM g hg n hn c hc
      rw [e.done] at hM
      rcases (mem_cpset_insert _ _ _).1 hM with hM | hM
      · rw [f2]
        exact hs.2 M hM g hg n hn c hc
      · subst hM
        rw [hnone] at hg
        cases hg
    · rename_i g0 hsome
      have e := analyzer_walk_graph_ext _ _ _ _ _ h
      unfold analyzer_walk_graph at h
      have k := foldlM_forall _ (fun t => complete_inv depth p t)
        (fun n t => ∀ c, is_dynamic_call p g0 n c →
          ∃ ts, cpmap_find t.dyncall_targets c = some ts)
        (get_irp_irg p g0).walk
        (fun s x s1 _ hI hf => walk_callgraph_and_analyze_complete depth p g0 x s s1 hf hI)
        (fun s x s1 y _ _ hf hy c hc =>
          key_ext (walk_callgraph_and_analyze_ext depth p g0 x s s1 hf) c (hy c hc))
        { env with workqueue := rest, done_set := cpset_insert env.done_set entity } env1
        hs.1 h
      refine ⟨k.1, ?_⟩
      intro M hM g hg n hn c hc
      rw [e.done] at hM
      rcases (mem_cpset_insert _ _ _).1 hM with hM | hM
      · exact key_ext e c (hs.2 M hM g hg n hn c hc)
      · subst hM
        rw [hsome] at hg
        cases hg
        exact k.2 n hn c hc

/-- When `rta_run` has returned, the completeness invariant holds and every
dynamic call in the graph of a done method has a target set. -/
theorem rta_run_complete (fuel depth : Nat) (p : ir_prog) (entry_points : List EntId)
    (initial_live_classes : Option (List ClassId)) (env : analyzer_env)
    (h : rta_run fuel depth p entry_points initial_live_classes = .ok env) :
    complete_inv depth p env ∧ done_dyn p env := by
  unfold rta_run at h
  simp only [bind_ok] at h
  obtain ⟨env1, h1, env2, h2, h3⟩ := h
  obtain ⟨e1, e2⟩ := rta_run_start_empty depth p entry_points initial_live_classes _ _ h1 h2
  have hdone : env2.done_set = [] := by
    unfold rta_run_entry_points at h1
    simp only [bind_ok, exists_assert_ok, pure_ok] at h1
    obtain ⟨env0, h0, _, rfl⟩ := h1
    have d0 := foldlM_inv _ (fun t => t.done_set = []) entry_points
      (fun s x s1 _ hs hf => by
        simp only [bind_ok, exists_assert_ok, pure_ok] at hf
        obtain ⟨_, _, rfl⟩ := hf
        exact hs) analyzer_env_init env0 rfl h0
    unfold rta_run_initial_live_classes at h2
    split at h2
    · rw [pure_ok] at h2
      exact h2 ▸ d0
    · exact foldlM_inv _ (fun t => t.done_set = []) _
        (fun s x s1 _ hs hf => ((cfes_ext _ _ _ _ _ hf).done).trans hs) env0 env2 d0 h2
  have hinit : complete_inv depth p env2 ∧ done_dyn p env2 := by
    refine ⟨?_, ?_⟩
    · rintro c ⟨ts, hts⟩
      rw [e1] at hts
      simp [cpmap_find] at hts
    · intro M hM
      rw [hdone] at hM
      simp at hM
  exact (rta_run_loop_inv depth p
    (fun t => complete_inv depth p t ∧ done_dyn p t)
    (fun s entity rest s1 hI _ hf => rta_run_iteration_complete depth p entity s s1 rest hf hI)
    fuel env2 env h3 hinit).1

/-- C1 (I4 Target completeness): after `rta_run` has returned, for every
dynamic call on entity `c` in the graph of an analysed method and every class
`K` of the final `live_classes` that a subtype path from the owner of `c`
reaches, a non-abstract method `m` that the top-down resolution of `c` along
that path yields is in `dyncall_targets[c]`. -/
theorem target_completeness (fuel depth : Nat) (p : ir_prog) (entry_points : List EntId)
    (initial_live_classes : Option (List ClassId)) (env : analyzer_env)
    (h : rta_run fuel depth p entry_points initial_live_classes = .ok env)
    (M : EntId) (g : GraphId) (n : NodeId) (c : EntId)
    (hM : M ∈ env.done_set) (hg : get_entity_irg p M = some g)
    (hn : n ∈ (get_irp_irg p g).walk) (hc : is_dynamic_call p g n c)
    (K : ClassId) (steps : List ClassId) (m : EntId)
    (hK : K ∈ env.live_classes)
    (hpath : is_subtype_path p (get_entity_owner p c) steps)
    (hend : path_end (get_entity_owner p c) steps = K)
    (hres : resolve_along depth p c c (get_entity_owner p c) steps = .ok m)
    (habs : oo_get_method_is_abstract p m = false) :
    has_target env c m := by
  obtain ⟨k1, k2⟩ := rta_run_complete fuel depth p entry_points initial_live_classes env h
  have hkey := k2 M hM g hg n hn c hc
  rcases k1 c hkey K m ⟨steps, hpath, hend, hres⟩ habs with h | ⟨h, _⟩
  · exact h
  · exact absurd hK h

theorem target_completeness_witness :
    rta_run 3 3 two_class_prog [0] none
        = .ok { workqueue := [], done_set := [0, 2], live_classes := [1], live_methods := [0, 2],
                dyncall_targets := [(1, [2])], unused_targets := [(0, [(1, [1])])] }
      ∧ is_dynamic_call two_class_prog 0 3 1
      ∧ is_subtype_path two_class_prog (get_entity_owner two_class_prog 1) [1]
      ∧ resolve_along 3 two_class_prog 1 1 (get_entity_owner two_class_prog 1) [1] = .ok 2
      ∧ has_target
          { workqueue := [], done_set := [0, 2], live_classes := [1], live_methods := [0, 2],
            dyncall_targets := [(1, [2])], unused_targets := [(0, [(1, [1])])] } 1 2 :=
  ⟨rfl, ⟨2, 1, 0, rfl, rfl, rfl⟩, ⟨by decide, trivial⟩, rfl,
    target_completeness 3 3 two_class_prog [0] none _ rfl 0 0 3 1 (by decide) rfl (by decide)
      ⟨2, 1, 0, rfl, rfl, rfl⟩ 1 [1] 2 (by decide) ⟨by decide, trivial⟩ rfl rfl rfl⟩

/-! ### Closure of `live_methods` -/

theorem targets_live_of_frame (env env1 : analyzer_env) (he : env_ext env env1)
    (hd : env1.dyncall_targets = env.dyncall_targets)
    (h : ∀ c m, has_target env c m → m ∈ env.live_methods) :
    ∀ c m, has_target env1 c m → m ∈ env1.live_methods := by
  rintro c m ⟨ts, h1, h2⟩
  rw [hd] at h1
  exact he.methods (h c m ⟨ts, h1, h2⟩)

theorem add_to_dyncalls_targets_live (p : ir_prog) (method : EntId) (call_entities : cpset)
    (env env1 : analyzer_env) (h : add_to_dyncalls p method call_entities env = .ok env1)
    (hs : ∀ c m, has_target env c m → m ∈ env.live_methods) :
    ∀ c m, has_target env1 c m → m ∈ env1.live_methods := by
  intro c m ht
  have e := (add_to_dyncalls_ext p method call_entities env env1 h).1
  rcases add_to_dyncalls_sound p method call_entities env env1 h c m ht with h1 | ⟨rfl, h1⟩
  · exact e.methods (hs c m h1)
  · exact (add_to_dyncalls_targets p m call_entities env env1 h c h1).2

theorem add_new_live_class_targets_live (depth : Nat) (p : ir_prog) (klass : ClassId)
    (env env1 : analyzer_env) (h : add_new_live_class depth p klass env = .ok env1)
    (hs : ∀ c m, has_target env c m → m ∈ env.live_methods) :
    ∀ c m, has_target env1 c m → m ∈ env1.live_methods := by
  unfold add_new_live_class at h
  split at h
  · simp only [bind_ok] at h
    obtain ⟨env2, h1, h2⟩ := h
    obtain ⟨_, f2, _⟩ := cfes_frame _ _ _ _ _ h2
    refine targets_live_of_frame env2 env1 (cfes_ext _ _ _ _ _ h2) f2 ?_
    split at h1
    · simp only [bind_ok, pure_ok] at h1
      obtain ⟨env3, h3, rfl⟩ := h1
      exact foldlM_inv _ (fun t => ∀ c m, has_target t c m → m ∈ t.live_methods) _
        (fun s x s1 _ hI hf => add_to_dyncalls_targets_live p x.1 x.2 s s1 hf hI)
        { env with live_classes := cpset_insert env.live_classes klass } env3 hs h3
    · rw [pure_ok] at h1
      subst h1
      exact hs
  · rw [pure_ok] at h
    subst h
    exact hs

theorem analyzer_handle_dynamic_call_targets_live (depth : Nat) (p : ir_prog) (e : EntId)
    (env env1 : analyzer_env) (h : analyzer_handle_dynamic_call depth p e env = .ok env1)
    (hs : ∀ c m, has_target env c m → m ∈ env.live_methods) :
    ∀ c m, has_target env1 c m → m ∈ env1.live_methods := by
  unfold analyzer_handle_dynamic_call at h
  simp only [bind_ok, exists_assert_ok] at h
  obtain ⟨_, h⟩ := h
  split at h
  · rw [pure_ok] at h
    exact h ▸ hs
  · simp only [bind_ok, pure_ok] at h
    obtain ⟨res, h1, rfl⟩ := h
    have c1 := collect_methods_ext _ _ _ _ _ _ h1
    rintro c m ⟨ts, h2, h3⟩
    simp only [cpmap_find_set] at h2
    by_cases hc : c = e
    · subst hc
      simp only [if_true, Option.some.injEq] at h2
      subst h2
      rcases c1.result_live m h3 with h | h
      · simp at h
      · exact h
    · simp only [hc, if_false, c1.targets_eq] at h2
      exact c1.ext.methods (hs c m ⟨ts, h2, h3⟩)

theorem analyzer_handle_static_call_live (p : ir_prog) (g : GraphId) (call : NodeId)
    (entity : EntId) (env env1 : analyzer_env)
    (h : analyzer_handle_static_call p g call entity env = .ok env1) :
    entity ∈ env1.live_methods
      ∧ (get_entity_irg p entity = none →
          ∀ h, p.detect_call g call = some h → h ∈ env1.live_methods) := by
  unfold analyzer_handle_static_call at h
  simp only [bind_ok, exists_assert_ok] at h
  obtain ⟨_, env2, h1, h⟩ := h
  have m1 := (live_enqueue_mem _ _ _ _ h1).1
  split at h
  · rename_i g1 hsome
    rw [pure_ok] at h
    refine ⟨h ▸ m1, ?_⟩
    intro hnone
    rw [hsome] at hnone
    cases hnone
  · split at h
    · rename_i called hdet
      simp only [bind_ok, exists_assert_ok] at h
      refine ⟨(live_enqueue_ext _ _ _ _ h.2).methods m1, ?_⟩
      intro _ h0 hh
      rw [hdet] at hh
      cases hh
      exact (live_enqueue_mem _ _ _ _ h.2).1
    · rename_i hdet
      rw [pure_ok] at h
      refine ⟨h ▸ m1, ?_⟩
      intro _ h0 hh
      rw [hdet] at hh
      cases hh

theorem analyzer_handle_no_graph_live (p : ir_prog) (entity : EntId)
    (env env1 : analyzer_env) (h : analyzer_handle_no_graph p entity env = .ok env1) :
    ∀ t, get_ldname_redirect p entity = .ok (some t) → t ∈ env1.live_methods := by
  unfold analyzer_handle_no_graph at h
  simp only [bind_ok, exists_assert_ok] at h
  obtain ⟨_, _, target, htarget, h⟩ := h
  intro t ht
  rw [htarget] at ht
  cases ht
  exact (live_enqueue_mem _ _ _ _ h).1

theorem walk_callgraph_and_analyze_closure (depth : Nat) (p : ir_prog) (g : GraphId)
    (node : NodeId) (env env1 : analyzer_env)
    (h : walk_callgraph_and_analyze depth p g node env = .ok env1)
    (hs : ∀ c m, has_target env c m → m ∈ env.live_methods) :
    (∀ c m, has_target env1 c m → m ∈ env1.live_methods) ∧ node_live p g node env1 := by
  have e := walk_callgraph_and_analyze_ext depth p g node env env1 h
  have frame : env1.dyncall_targets = env.dyncall_targets →
      ∀ c m, has_target env1 c m → m ∈ env1.live_methods :=
    fun f => targets_live_of_frame env env1 e f hs
  unfold walk_callgraph_and_analyze at h
  split at h
  · rename_i e0 hnode
    have hstat : ∀ e1, is_static_call p g node e1 →
        e1 ∈ env1.live_methods ∧ (get_entity_irg p e1 = none →
          ∀ h, p.detect_call g node = some h → h ∈ env1.live_methods) := by
      rintro e1 ⟨callee, sb, h1, _⟩
      rw [hnode] at h1
      cases h1
    split at h
    · refine ⟨frame (live_enqueue_frame _ _ _ _ h).2.1, ?_, hstat⟩
      intro e1 h1 _
      rw [hnode] at h1
      cases h1
      exact (live_enqueue_mem _ _ _ _ h).1
    · rename_i hnm
      rw [pure_ok] at h
      subst h
      refine ⟨hs, ?_, hstat⟩
      intro e1 h1 hm
      rw [hnode] at h1
      cases h1
      exact absurd hm hnm
  · rename_i callee sb hnode
    have haddr : ∀ e1, get_irn p g node = .Address e1 → is_method_entity p e1 = true →
        e1 ∈ env1.live_methods := by
      intro e1 h1
      rw [hnode] at h1
      cases h1
    split at h
    · rename_i e0 hcallee
      refine ⟨frame (analyzer_handle_static_call_frame _ _ _ _ _ _ h).2.1, haddr, ?_⟩
      rintro e1 ⟨callee1, sb1, h1, h2⟩
      rw [hnode] at h1
      cases h1
      rw [hcallee] at h2
      rcases h2 with h2 | ⟨_, pred, mem, h2, _⟩
      · cases h2
        exact analyzer_handle_static_call_live _ _ _ _ _ _ h
      · cases h2
    · rename_i pred hcallee
      split at h
      · rename_i mem e0 hpred
        split at h
        · refine ⟨frame (analyzer_handle_static_call_frame _ _ _ _ _ _ h).2.1, haddr, ?_⟩
          rintro e1 ⟨callee1, sb1, h1, h2⟩
          rw [hnode] at h1
          cases h1
          rw [hcallee] at h2
          rcases h2 with h2 | ⟨_, pred1, mem1, h2, h3⟩
          · cases h2
          · cases h2
            rw [hpred] at h3
            cases h3
            exact analyzer_handle_static_call_live _ _ _ _ _ _ h
        · rename_i hsb
          refine ⟨analyzer_handle_dynamic_call_targets_live _ _ _ _ _ h hs, haddr, ?_⟩
          rintro e1 ⟨callee1, sb1, h1, h2⟩
          rw [hnode] at h1
          cases h1
          rw [hcallee] at h2
          rcases h2 with h2 | ⟨h4, _⟩
          · cases h2
          · exact absurd h4 hsb
      · rename_i hnot
        rw [pure_ok] at h
        subst h
        refine ⟨hs, haddr, ?_⟩
        rintro e1 ⟨callee1, sb1, h1, h2⟩
        rw [hnode] at h1
        cases h1
        rw [hcallee] at h2
        rcases h2 with h2 | ⟨_, pred1, mem1, h2, h3⟩
        · cases h2
        · cases h2
          exact absurd h3 (hnot _ _)
    · rename_i hnot1 hnot2
      rw [pure_ok] at h
      subst h
      refine ⟨hs, haddr, ?_⟩
      rintro e1 ⟨callee1, sb1, h1, h2⟩
      rw [hnode] at h1
      cases h1
      rcases h2 with h2 | ⟨_, pred1, mem1, h2, _⟩
      · exact absurd h2 (hnot1 _)
      · exact absurd h2 (hnot2 _)
  · rename_i k hnode
    refine ⟨add_new_live_class_targets_live _ _ _ _ _ h hs, ?_, ?_⟩
    · intro e1 h1
      rw [hnode] at h1
      cases h1
    · rintro e1 ⟨callee, sb, h1, _⟩
      rw [hnode] at h1
      cases h1
  · rename_i hn1 hn2 hn3
    rw [pure_ok] at h
    subst h
    refine ⟨hs, ?_, ?_⟩
    · intro e1 h1
      exact absurd h1 (hn1 _)
    · rintro e1 ⟨callee, sb, h1, _⟩
      exact absurd h1 (hn2 _ _)

theorem node_live_ext {a b : analyzer_env} (h : env_ext a b) (p : ir_prog) (g : GraphId)
    (n : NodeId) (hn : node_live p g n a) : node_live p g n b :=
  ⟨fun e h1 h2 => h.methods (hn.1 e h1 h2),
    fun e h1 => ⟨h.methods (hn.2 e h1).1,
      fun h2 x hx => h.methods ((hn.2 e h1).2 h2 x hx)⟩⟩

theorem queued_ext {a b : analyzer_env} (h : env_ext a b)
    (hq : ∀ x ∈ a.live_methods, x ∈ a.done_set ∨ x ∈ a.workqueue) :
    ∀ x ∈ b.live_methods, x ∈ b.done_set ∨ x ∈ b.workqueue := by
  intro x hx
  rcases h.queued x hx with h1 | h1
  · rcases hq x h1 with h2 | h2
    · exact Or.inl (h.done ▸ h2)
    · exact Or.inr (h.queue h2)
  · exact h1

theorem rta_run_iteration_closure (depth : Nat) (p : ir_prog) (entry_points : List EntId)
    (entity : EntId) (env env1 : analyzer_env) (rest : List EntId)
    (hq : env.workqueue = entity :: rest)
    (h : rta_run_iteration depth p entity { env with workqueue := rest } = .ok env1)
    (hs : closure_inv p entry_points env) : closure_inv p entry_points env1 := by
  obtain ⟨s1, s2, s3, s4⟩ := hs
  unfold rta_run_iteration at h
  simp only [bind_ok, exists_assert_ok] at h
  obtain ⟨_, h⟩ := h
  split at h
  · rename_i hdone
    rw [pure_ok] at h
    subst h
    refine ⟨?_, s2, s3, s4⟩
    intro x hx
    rcases s1 x hx with h1 | h1
    · exact Or.inl h1
    · rw [hq] at h1
      rcases List.mem_cons.1 h1 with h2 | h2
      · exact Or.inl (h2 ▸ hdone)
      · exact Or.inr h2
  · have q0 : ∀ x ∈ env.live_methods,
        x ∈ cpset_insert env.done_set entity ∨ x ∈ rest := by
      intro x hx
      rcases s1 x hx with h1 | h1
      · exact Or.inl (cpset_subset_insert _ _ h1)
      · rw [hq] at h1
        rcases List.mem_cons.1 h1 with h2 | h2
        · exact Or.inl (h2 ▸ cpset_insert_self _ _)
        · exact Or.inr h2
    split at h
    · rename_i hnone
      have e := analyzer_handle_no_graph_ext _ _ _ _ h
      obtain ⟨_, f2, _⟩ := analyzer_handle_no_graph_frame _ _ _ _ h
      refine ⟨queued_ext e q0, targets_live_of_frame _ env1 e f2 s2, ?_,
        fun x hx => e.methods (s4 x hx)⟩
      intro M hM
      rw [e.done] at hM
      rcases (mem_cpset_insert _ _ _).1 hM with hM | hM
      · exact ⟨fun g hg n hn => node_live_ext e p g n ((s3 M hM).1 g hg n hn),
          fun hg t ht => e.methods ((s3 M hM).2 hg t ht)⟩
      · subst hM
        refine ⟨?_, fun _ t ht => analyzer_handle_no_graph_live _ _ _ _ h t ht⟩
        intro g hg
        rw [hnone] at hg
        cases hg
    · rename_i g0 hsome
      have e := analyzer_walk_graph_ext _ _ _ _ _ h
      unfold analyzer_walk_graph at h
      have k := foldlM_forall _ (fun t => ∀ c m, has_target t c m → m ∈ t.live_methods)
        (fun n t => node_live p g0 n t) (get_irp_irg p g0).walk
        (fun s x s1 _ hI hf => walk_callgraph_and_analyze_closure depth p g0 x s s1 hf hI)
        (fun s x s1 y _ _ hf hy =>
          node_live_ext (walk_callgraph_and_analyze_ext depth p g0 x s s1 hf) p g0 y hy)
        { env with workqueue := rest, done_set := cpset_insert env.done_set entity } env1
        s2 h
      refine ⟨queued_ext e q0, k.1, ?_, fun x hx => e.methods (s4 x hx)⟩
      intro M hM
      rw [e.done] at hM
      rcases (mem_cpset_insert _ _ _).1 hM with hM | hM
      · exact ⟨fun g hg n hn => node_live_ext e p g n ((s3 M hM).1 g hg n hn),
          fun hg t ht => e.methods ((s3 M hM).2 hg t ht)⟩
      · subst hM
        refine ⟨?_, ?_⟩
        · intro g hg n hn
          rw [hsome] at hg
          cases hg
          exact k.2 n hn
        · intro hg
          rw [hsome] at hg
          cases hg

theorem rta_run_start_closure (depth : Nat) (p : ir_prog) (entry_points : List EntId)
    (initial_live_classes : Option (List ClassId)) (env1 env2 : analyzer_env)
    (h1 : rta_run_entry_points p entry_points analyzer_env_init = .ok env1)
    (h2 : rta_run_initial_live_classes depth p initial_live_classes env1 = .ok env2) :
    closure_inv p entry_points env2 := by
  obtain ⟨d1, _⟩ := rta_run_start_empty depth p entry_points initial_live_classes _ _ h1 h2
  unfold rta_run_entry_points at h1
  simp only [bind_ok, exists_assert_ok, pure_ok] at h1
  obtain ⟨env0, h0, _, rfl⟩ := h1
  have k0 := foldlM_forall _
    (fun t => t.done_set = [] ∧ ∀ x ∈ t.live_methods, x ∈ t.workqueue)
    (fun e t => e ∈ t.live_methods) entry_points ?_ ?_ analyzer_env_init env0
    ⟨rfl, by simp [analyzer_env_init]⟩ h0
  · have e : env_ext env0 env2 := by
      unfold rta_run_initial_live_classes at h2
      split at h2
      · rw [pure_ok] at h2
        exact h2 ▸ env_ext_refl _
      · refine foldlM_ext _ _ ?_ _ _ h2
        intro s x s1 _ hf
        have e1 := cfes_ext _ _ _ _ _ hf
        exact ⟨e1.done, e1.queue, fun _ h => e1.classes (cpset_subset_insert _ _ h),
          e1.methods, e1.queued, e1.targets⟩
    refine ⟨queued_ext e (fun x hx => Or.inr (k0.1.2 x hx)), ?_, ?_,
      fun x hx => e.methods (k0.2 x hx)⟩
    · rintro c m ⟨ts, h3, _⟩
      rw [d1] at h3
      simp [cpmap_find] at h3
    · intro M hM
      rw [e.done, k0.1.1] at hM
      simp at hM
  · intro s x s1 _ hI hf
    simp only [bind_ok, exists_assert_ok, pure_ok] at hf
    obtain ⟨_, _, rfl⟩ := hf
    refine ⟨⟨hI.1, ?_⟩, cpset_insert_self _ _⟩
    intro y hy
    rcases (mem_cpset_insert _ _ _).1 hy with h3 | h3
    · exact List.mem_append_left _ (hI.2 y h3)
    · simp [h3]
  · intro s x s1 y _ _ hf hy
    simp only [bind_ok, exists_assert_ok, pure_ok] at hf
    obtain ⟨_, _, rfl⟩ := hf
    exact cpset_subset_insert _ _ hy

/-- When `rta_run` has returned, the closure invariant holds and the queue is
empty. -/
theorem rta_run_closure (fuel depth : Nat) (p : ir_prog) (entry_points : List EntId)
    (initial_live_classes : Option (List ClassId)) (env : analyzer_env)
    (h : rta_run fuel depth p entry_points initial_live_classes = .ok env) :
    closure_inv p entry_points env ∧ env.workqueue = [] := by
  unfold rta_run at h
  simp only [bind_ok] at h
  obtain ⟨env1, h1, env2, h2, h3⟩ := h
  exact rta_run_loop_inv depth p
    (fun t => closure_inv p entry_points t)
    (fun s entity rest s1 hI hq hf =>
      rta_run_iteration_closure depth p entry_points entity s s1 rest hq hf hI)
    fuel env2 env h3
    (rta_run_start_closure depth p entry_points initial_live_classes env1 env2 h1 h2)

/-- When `rta_run` has returned, every live method is done. -/
theorem rta_run_live_done (fuel depth : Nat) (p : ir_prog) (entry_points : List EntId)
    (initial_live_classes : Option (List ClassId)) (env : analyzer_env)
    (h : rta_run fuel depth p entry_points initial_live_classes = .ok env) :
    ∀ x ∈ env.live_methods, x ∈ env.done_set := by
  obtain ⟨⟨k1, _⟩, hq⟩ := rta_run_closure fuel depth p entry_points initial_live_classes env h
  intro x hx
  rcases k1 x hx with h1 | h1
  · exact h1
  · rw [hq] at h1
    simp at h1

/-- C8 (Closure of `live_methods`): after `rta_run` every entry point is live,
and for every live method `M` with a graph the method entity of every `Address`
node, the entity of every statically bound `MethodSel` call and every element
of `dyncall_targets[e]` for every dynamic call entity `e` of the graph of `M`
is live. -/
theorem live_methods_closed (fuel depth : Nat) (p : ir_prog) (entry_points : List EntId)
    (initial_live_classes : Option (List ClassId)) (env : analyzer_env)
    (h : rta_run fuel depth p entry_points initial_live_classes = .ok env) :
    (∀ e ∈ entry_points, e ∈ env.live_methods)
      ∧ ∀ M ∈ env.live_methods, ∀ g, get_entity_irg p M = some g →
          ∀ n ∈ (get_irp_irg p g).walk,
            (∀ e, get_irn p g n = .Address e → is_method_entity p e = true →
              e ∈ env.live_methods)
            ∧ (∀ callee pred mem e, get_irn p g n = .Call callee true →
                get_irn p g callee = .Proj pred → get_irn p g pred = .MethodSel mem e →
                  e ∈ env.live_methods)
            ∧ (∀ e ts, is_dynamic_call p g n e → cpmap_find env.dyncall_targets e = some ts →
                ∀ m ∈ ts, m ∈ env.live_methods) := by
  obtain ⟨⟨_, k2, k3, k4⟩, _⟩ :=
    rta_run_closure fuel depth p entry_points initial_live_classes env h
  refine ⟨k4, ?_⟩
  intro M hM g hg n hn
  have hdone := rta_run_live_done fuel depth p entry_points initial_live_classes env h M hM
  obtain ⟨n1, n2⟩ := (k3 M hdone).1 g hg n hn
  exact ⟨n1,
    fun callee pred mem e h1 h2 h3 => (n2 e ⟨callee, true, h1, Or.inr ⟨rfl, pred, mem, h2, h3⟩⟩).1,
    fun e ts _ hts m hm => k2 e m ⟨ts, hts, hm⟩⟩

theorem live_methods_closed_witness :
    rta_run 3 3 two_class_prog [0] none
        = .ok { workqueue := [], done_set := [0, 2], live_classes := [1], live_methods := [0, 2],
                dyncall_targets := [(1, [2])], unused_targets := [(0, [(1, [1])])] }
      ∧ 0 ∈ ([0, 2] : List Nat) :=
  ⟨rfl, (live_methods_closed 3 3 two_class_prog [0] none _ rfl).1 0 (by decide)⟩

/-! ### Programs rewritten by the devirtualizer -/

theorem ir_refines_refl (p : ir_prog) : ir_refines p p :=
  ⟨rfl, rfl, rfl, rfl, fun _ => Nat.le_refl _, fun _ _ => Or.inl rfl⟩

theorem get_irn_out_of_range (p : ir_prog) (g n : Nat)
    (h : (get_irp_irg p g).nodes.length ≤ n) : get_irn p g n = ir_node.Other := by
  by_contra hne
  exact absurd (get_irn_in_range p g n hne).2 (Nat.not_lt.2 h)

theorem ir_refines_trans {p q r : ir_prog} (h1 : ir_refines p q) (h2 : ir_refines q r) :
    ir_refines p r := by
  refine ⟨h2.entities.trans h1.entities, h2.types.trans h1.types, h2.detect.trans h1.detect,
    h2.graphs.trans h1.graphs, fun g => Nat.le_trans (h1.length g) (h2.length g), ?_⟩
  intro g n
  rcases h2.nodes g n with h | ⟨⟨mem, e, h3⟩, ins, h4⟩ | ⟨h3, t, h4⟩
  · rw [h]
    rcases h1.nodes g n with h5 | h5 | h5
    · exact Or.inl h5
    · exact Or.inr (Or.inl h5)
    · exact Or.inr (Or.inr h5)
  · refine Or.inr (Or.inl ⟨?_, ins, h4⟩)
    rcases h1.nodes g n with h5 | ⟨_, ins1, h5⟩ | ⟨_, t, h5⟩
    · exact ⟨mem, e, h5 ▸ h3⟩
    · rw [h5] at h3
      cases h3
    · rw [h5] at h3
      cases h3
  · exact Or.inr (Or.inr ⟨Nat.le_trans (h1.length g) h3, t, h4⟩)

theorem map_set_graph (irgs : List ir_graph) (g : Nat) (x : ir_graph)
    (f : ir_graph → EntId × List NodeId)
    (h : f x = f (irgs.getD g default_graph)) :
    (irgs.set g x).map f = irgs.map f := by
  induction irgs generalizing g with
  | nil => simp
  | cons a rest ih =>
    cases g with
    | zero =>
      simp only [List.set_cons_zero, List.map_cons, List.getD_cons_zero] at h ⊢
      rw [h]
    | succ g =>
      simp only [List.set_cons_succ, List.map_cons, List.getD_cons_succ] at h ⊢
      rw [ih g h]

/-- One rewrite of the devirtualizer. -/
theorem ir_refines_rewrite (p : ir_prog) (g : GraphId) (t : EntId) (msel : NodeId)
    (ins : List NodeId) (mem : NodeId) (e : EntId)
    (hsel : get_irn p g msel = .MethodSel mem e) :
    ir_refines p (turn_into_tuple (new_r_Address p g t).1 g msel ins) := by
  have hrange := get_irn_in_range p g msel (by rw [hsel]; simp)
  refine ⟨rfl, rfl, rfl, ?_, ?_, ?_⟩
  · unfold turn_into_tuple new_r_Address
    simp only [List.set_set]
    apply map_set_graph
    simp only [get_irp_irg, getD_set_graph]
    split <;> rfl
  · intro g1
    rw [get_irp_irg_rewrite]
    split
    · rename_i hg
      simp only [List.length_set, List.length_append, List.length_singleton, hg.1]
      exact Nat.le_succ _
    · exact Nat.le_refl _
  · intro g1 n
    rw [get_irn_rewrite]
    by_cases hg : g1 = g ∧ g < p.irgs.length
    · simp only [hg, and_self, if_true]
      obtain ⟨rfl, _⟩ := hg
      by_cases hn : n = msel ∧ msel < (get_irp_irg p g1).nodes.length + 1
      · simp only [hn, and_self, if_true]
        exact Or.inr (Or.inl ⟨⟨mem, e, hn.1 ▸ hsel⟩, ins, rfl⟩)
      · simp only [hn, if_false]
        by_cases hl : n = (get_irp_irg p g1).nodes.length
        · simp only [hl, if_true]
          exact Or.inr (Or.inr ⟨Nat.le_refl _, t, rfl⟩)
        · simp only [hl, if_false]
          exact Or.inl trivial
    · simp only [hg, if_false]
      exact Or.inl trivial

theorem ir_refines_get_entity {p q : ir_prog} (h : ir_refines p q) (e : EntId) :
    get_entity q e = get_entity p e := by
  unfold get_entity
  rw [h.entities]

theorem ir_refines_get_type {p q : ir_prog} (h : ir_refines p q) (k : ClassId) :
    get_type q k = get_type p k := by
  unfold get_type
  rw [h.types]

theorem ir_refines_is_method {p q : ir_prog} (h : ir_refines p q) (e : EntId) :
    is_method_entity q e = is_method_entity p e := by
  unfold is_method_entity
  rw [ir_refines_get_entity h]

theorem ir_refines_irg {p q : ir_prog} (h : ir_refines p q) (e : EntId) :
    get_entity_irg q e = get_entity_irg p e := by
  unfold get_entity_irg
  rw [ir_refines_get_entity h]

theorem ir_refines_condition {p q : ir_prog} (h : ir_refines p q) (e : EntId) (ts : cpset) :
    devirtualize_condition q e ts = devirtualize_condition p e ts := by
  unfold devirtualize_condition oo_get_class_is_extern oo_get_class_is_final
    oo_get_method_is_final get_entity_owner
  simp only [ir_refines_get_entity h, ir_refines_get_type h]

theorem getD_map_graph (irgs : List ir_graph) (g : Nat) :
    ((irgs.getD g default_graph).entity, (irgs.getD g default_graph).walk)
      = (irgs.map (fun gr => (gr.entity, gr.walk))).getD g
          (default_graph.entity, default_graph.walk) := by
  induction irgs generalizing g with
  | nil => simp
  | cons a rest ih =>
    cases g with
    | zero => simp
    | succ g => simp [ih g]

theorem ir_refines_walk {p q : ir_prog} (h : ir_refines p q) (g : GraphId) :
    (get_irp_irg q g).walk = (get_irp_irg p g).walk := by
  have h1 := getD_map_graph q.irgs g
  have h2 := getD_map_graph p.irgs g
  rw [h.graphs, ← h2] at h1
  exact congrArg Prod.snd h1

theorem ir_refines_find_entity {p q : ir_prog} (h : ir_refines p q) (ld : Ident) :
    find_entity_by_ldname q ld = find_entity_by_ldname p ld := by
  have key : ∀ (pr : ir_prog),
      find_entity_by_ldname pr ld
        = ((pr.irgs.map (fun gr => (gr.entity, gr.walk))).find?
            (fun x => get_entity_ld_ident pr x.1 == ld)).map (fun x => x.1) := by
    intro pr
    unfold find_entity_by_ldname
    rw [List.find?_map, Option.map_map]
    rfl
  rw [key q, key p, h.graphs]
  have : (fun (x : EntId × List NodeId) => get_entity_ld_ident q x.1 == ld)
      = (fun x => get_entity_ld_ident p x.1 == ld) := by
    funext x
    unfold get_entity_ld_ident
    rw [ir_refines_get_entity h]
  rw [this]

theorem ir_refines_redirect {p q : ir_prog} (h : ir_refines p q) (e : EntId) :
    get_ldname_redirect q e = get_ldname_redirect p e := by
  unfold get_ldname_redirect get_entity_ident get_entity_ld_ident
  simp only [ir_refines_is_method h, ir_refines_irg h, ir_refines_get_entity h,
    ir_refines_find_entity h]

/-- A call node of the rewritten program was the same call node before. -/
theorem ir_refines_call {p q : ir_prog} (h : ir_refines p q) (g : GraphId) (n c : NodeId)
    (sb : Bool) (hq : get_irn q g n = .Call c sb) : get_irn p g n = .Call c sb := by
  rcases h.nodes g n with h1 | ⟨_, ins, h1⟩ | ⟨_, t, h1⟩
  · exact h1 ▸ hq
  · rw [h1] at hq
    cases hq
  · rw [h1] at hq
    cases hq

theorem ir_refines_proj {p q : ir_prog} (h : ir_refines p q) (g : GraphId) (n c : NodeId)
    (hq : get_irn q g n = .Proj c) : get_irn p g n = .Proj c := by
  rcases h.nodes g n with h1 | ⟨_, ins, h1⟩ | ⟨_, t, h1⟩
  · exact h1 ▸ hq
  · rw [h1] at hq
    cases hq
  · rw [h1] at hq
    cases hq

theorem ir_refines_methodsel {p q : ir_prog} (h : ir_refines p q) (g : GraphId)
    (n mem : NodeId) (e : EntId)
    (hq : get_irn q g n = .MethodSel mem e) : get_irn p g n = .MethodSel mem e := by
  rcases h.nodes g n with h1 | ⟨_, ins, h1⟩ | ⟨_, t, h1⟩
  · exact h1 ▸ hq
  · rw [h1] at hq
    cases hq
  · rw [h1] at hq
    cases hq

theorem ir_refines_address {p q : ir_prog} (h : ir_refines p q) (g : GraphId) (n : NodeId)
    (e : EntId) (hn : n < (get_irp_irg p g).nodes.length)
    (hq : get_irn q g n = .Address e) : get_irn p g n = .Address e := by
  rcases h.nodes g n with h1 | ⟨_, ins, h1⟩ | ⟨h2, _⟩
  · exact h1 ▸ hq
  · rw [h1] at hq
    cases hq
  · exact absurd hn (Nat.not_lt.2 h2)

theorem ir_refines_static {p q : ir_prog} (h : ir_refines p q) (hwf : ir_wf p) (g : GraphId)
    (n : NodeId) (e : EntId) (hq : is_static_call q g n e) : is_static_call p g n e := by
  obtain ⟨callee, sb, h1, h2⟩ := hq
  have h1p := ir_refines_call h g n callee sb h1
  refine ⟨callee, sb, h1p, ?_⟩
  rcases h2 with h2 | ⟨h3, pred, mem, h4, h5⟩
  · exact Or.inl (ir_refines_address h g callee e ((hwf g n).1 callee sb h1p) h2)
  · exact Or.inr ⟨h3, pred, mem, ir_refines_proj h g callee pred h4,
      ir_refines_methodsel h g pred mem e h5⟩

theorem ir_refines_dynamic {p q : ir_prog} (h : ir_refines p q) (g : GraphId)
    (n : NodeId) (e : EntId) (hq : is_dynamic_call q g n e) : is_dynamic_call p g n e := by
  obtain ⟨callee, pred, mem, h1, h2, h3⟩ := hq
  exact ⟨callee, pred, mem, ir_refines_call h g n callee false h1,
    ir_refines_proj h g callee pred h2, ir_refines_methodsel h g pred mem e h3⟩

theorem ir_refines_wf {p q : ir_prog} (h : ir_refines p q) (hwf : ir_wf p) : ir_wf q := by
  intro g n
  refine ⟨?_, ?_⟩
  · intro c sb hc
    exact Nat.lt_of_lt_of_le ((hwf g n).1 c sb (ir_refines_call h g n c sb hc)) (h.length g)
  · intro pred hp
    exact Nat.lt_of_lt_of_le ((hwf g n).2 pred (ir_refines_proj h g n pred hp)) (h.length g)

/-! ### Steps of the devirtualizer -/

theorem oenv_ext_refl (a : optimizer_env) : oenv_ext a a := ⟨rfl, fun _ h => h, rfl⟩

theorem oenv_ext_trans {a b c : optimizer_env} (h1 : oenv_ext a b) (h2 : oenv_ext b c) :
    oenv_ext a c :=
  ⟨h2.done.trans h1.done, fun _ h => h2.queue (h1.queue h), h2.targets.trans h1.targets⟩

theorem optimizer_add_to_workqueue_ok (p : ir_prog) (m : EntId) (env env1 : optimizer_env) :
    optimizer_add_to_workqueue p m env = .ok env1 ↔
      is_method_entity p m = true ∧
        env1 = if m ∈ env.done_set then env
          else { env with workqueue := env.workqueue ++ [m] } := by
  unfold optimizer_add_to_workqueue
  simp only [assert_bind_ok]
  split <;> simp only [pure_ok] <;>
    exact ⟨fun ⟨a, b⟩ => ⟨a, b.symm⟩, fun ⟨a, b⟩ => ⟨a, b.symm⟩⟩

/-- The effect of `optimizer_add_to_workqueue`. -/
theorem optimizer_add_to_workqueue_spec (p : ir_prog) (m : EntId) (env env1 : optimizer_env)
    (h : optimizer_add_to_workqueue p m env = .ok env1) :
    oenv_ext env env1 ∧ (m ∈ env1.done_set ∨ m ∈ env1.workqueue)
      ∧ ∀ x ∈ env1.workqueue, x ∈ env.workqueue ∨ x = m := by
  rw [optimizer_add_to_workqueue_ok] at h
  obtain ⟨_, rfl⟩ := h
  by_cases hd : m ∈ env.done_set
  · rw [if_pos hd]
    exact ⟨oenv_ext_refl _, Or.inl hd, fun x hx => Or.inl hx⟩
  · rw [if_neg hd]
    refine ⟨⟨rfl, fun _ h => List.mem_append_left _ h, rfl⟩, Or.inr (by simp), ?_⟩
    intro x hx
    simp only [List.mem_append, List.mem_singleton] at hx
    exact hx

theorem oenv_ext_queued {a b : optimizer_env} (h : oenv_ext a b) (x : EntId)
    (hx : x ∈ a.done_set ∨ x ∈ a.workqueue) : x ∈ b.done_set ∨ x ∈ b.workqueue :=
  hx.imp (fun h1 => h.done ▸ h1) (fun h1 => h.queue h1)

theorem optimizer_handle_static_call_spec (p : ir_prog) (g : GraphId) (call : NodeId)
    (e : EntId) (env env1 : optimizer_env)
    (h : optimizer_handle_static_call p g call e env = .ok env1) :
    oenv_ext env env1
      ∧ (e ∈ env1.done_set ∨ e ∈ env1.workqueue)
      ∧ (get_entity_irg p e = none → ∀ x, p.detect_call g call = some x →
          x ∈ env1.done_set ∨ x ∈ env1.workqueue)
      ∧ ∀ x ∈ env1.workqueue, x ∈ env.workqueue ∨ x = e
          ∨ (get_entity_irg p e = none ∧ p.detect_call g call = some x) := by
  unfold optimizer_handle_static_call at h
  simp only [bind_ok, exists_assert_ok] at h
  obtain ⟨_, env2, h1, h⟩ := h
  obtain ⟨e1, q1, n1⟩ := optimizer_add_to_workqueue_spec _ _ _ _ h1
  split at h
  · rename_i g1 hsome
    rw [pure_ok] at h
    subst h
    refine ⟨e1, q1, ?_, fun x hx => (n1 x hx).imp id Or.inl⟩
    intro hnone
    rw [hsome] at hnone
    cases hnone
  · rename_i hnone
    split at h
    · rename_i called hdet
      simp only [bind_ok, exists_assert_ok] at h
      obtain ⟨e2, q2, n2⟩ := optimizer_add_to_workqueue_spec _ _ _ _ h.2
      refine ⟨oenv_ext_trans e1 e2, oenv_ext_queued e2 e q1, ?_, ?_⟩
      · intro _ x hx
        rw [hdet] at hx
        cases hx
        exact q2
      · intro x hx
        rcases n2 x hx with h3 | h3
        · exact (n1 x h3).imp id Or.inl
        · exact Or.inr (Or.inr ⟨hnone, h3 ▸ hdet⟩)
    · rename_i hdet
      rw [pure_ok] at h
      subst h
      refine ⟨e1, q1, ?_, fun x hx => (n1 x hx).imp id Or.inl⟩
      intro _ x hx
      rw [hdet] at hx
      cases hx

theorem optimizer_enqueue_targets_spec (p : ir_prog) (targets : cpset)
    (env env1 : optimizer_env)
    (h : targets.foldlM (fun env t => optimizer_add_to_workqueue p t env) env = .ok env1) :
    oenv_ext env env1
      ∧ (∀ t ∈ targets, t ∈ env1.done_set ∨ t ∈ env1.workqueue)
      ∧ ∀ x ∈ env1.workqueue, x ∈ env.workqueue ∨ x ∈ targets := by
  have k := foldlM_forall _
    (fun (s : optimizer_env) => oenv_ext env s
      ∧ ∀ x ∈ s.workqueue, x ∈ env.workqueue ∨ x ∈ targets)
    (fun t s => t ∈ s.done_set ∨ t ∈ s.workqueue) targets ?_ ?_ env env1
    ⟨oenv_ext_refl _, fun x hx => Or.inl hx⟩ h
  · exact ⟨k.1.1, k.2, k.1.2⟩
  · intro s x s1 hx hI hf
    obtain ⟨e1, q1, n1⟩ := optimizer_add_to_workqueue_spec _ _ _ _ hf
    refine ⟨⟨oenv_ext_trans hI.1 e1, ?_⟩, q1⟩
    intro y hy
    rcases n1 y hy with h3 | h3
    · exact hI.2 y h3
    · exact Or.inr (h3 ▸ hx)
  · intro s x s1 y _ _ hf hy
    exact oenv_ext_queued (optimizer_add_to_workqueue_spec _ _ _ _ hf).1 y hy

theorem optimizer_handle_no_graph_spec (p : ir_prog) (e : EntId) (env env1 : optimizer_env)
    (h : optimizer_handle_no_graph p e env = .ok env1) :
    oenv_ext env env1
      ∧ (∀ t, get_ldname_redirect p e = .ok (some t) →
          t ∈ env1.done_set ∨ t ∈ env1.workqueue)
      ∧ ∀ x ∈ env1.workqueue, x ∈ env.workqueue ∨ get_ldname_redirect p e = .ok (some x) := by
  unfold optimizer_handle_no_graph at h
  simp only [bind_ok, exists_assert_ok] at h
  obtain ⟨_, _, target, htarget, h⟩ := h
  split at h
  · rename_i t
    obtain ⟨e1, q1, n1⟩ := optimizer_add_to_workqueue_spec _ _ _ _ h
    refine ⟨e1, ?_, ?_⟩
    · intro t1 ht1
      rw [htarget] at ht1
      cases ht1
      exact q1
    · intro x hx
      rcases n1 x hx with h3 | h3
      · exact Or.inl h3
      · exact Or.inr (h3 ▸ htarget)
  · rw [pure_ok] at h
    subst h
    refine ⟨oenv_ext_refl _, ?_, fun x hx => Or.inl hx⟩
    intro t1 ht1
    rw [htarget] at ht1
    cases ht1

theorem not_dynamic_of_node (p : ir_prog) (g : GraphId) (n : NodeId)
    (h : ∀ callee, get_irn p g n ≠ .Call callee false) (e : EntId) :
    ¬ is_dynamic_call p g n e := by
  rintro ⟨callee, pred, mem, h1, _⟩
  exact h callee h1

theorem not_static_of_node (p : ir_prog) (g : GraphId) (n : NodeId)
    (h : ∀ callee sb, get_irn p g n ≠ .Call callee sb) (e : EntId) :
    ¬ is_static_call p g n e := by
  rintro ⟨callee, sb, h1, _⟩
  exact h callee sb h1

theorem node_callee_none (p : ir_prog) (dt : cpmap cpset) (g : GraphId) (n : NodeId)
    (hs : ∀ e, ¬ is_static_call p g n e) (hd : ∀ e, ¬ is_dynamic_call p g n e) (x : EntId) :
    ¬ node_callee p dt g n x := by
  rintro (h | ⟨e, h, _⟩ | ⟨e, ts, h, _⟩)
  · exact hs x h
  · exact hs e h
  · exact hd e h

/-- The devirtualizer callback on a node that is no call it handles. -/
theorem devirtualize_skip_spec (g : GraphId) (n : NodeId) (st : ir_prog × optimizer_env)
    (hs : ∀ e, ¬ is_static_call st.1 g n e) (hd : ∀ e, ¬ is_dynamic_call st.1 g n e) :
    ir_refines st.1 st.1 ∧ oenv_ext st.2 st.2
      ∧ (∀ x ∈ st.2.workqueue,
          x ∈ st.2.workqueue ∨ node_callee st.1 st.2.dyncall_targets g n x)
      ∧ (∀ x, node_callee st.1 st.2.dyncall_targets g n x →
          x ∈ st.2.done_set ∨ x ∈ st.2.workqueue)
      ∧ (∀ e, is_dynamic_call st.1 g n e →
          ∃ ts, cpmap_find st.2.dyncall_targets e = some ts
            ∧ (devirtualize_condition st.1 e ts = false → st.1 = st.1)
            ∧ (devirtualize_condition st.1 e ts = true →
                ∀ e1, ¬ is_dynamic_call st.1 g n e1 ∧ ¬ is_static_call st.1 g n e1))
      ∧ ((∀ e, ¬ is_dynamic_call st.1 g n e) → st.1 = st.1) :=
  ⟨ir_refines_refl _, oenv_ext_refl _, fun _ hx => Or.inl hx,
    fun x hx => absurd hx (node_callee_none _ _ _ _ hs hd x),
    fun e he => absurd he (hd e), fun _ => rfl⟩

/-- The devirtualizer callback on a static call. -/
theorem devirtualize_static_spec (g : GraphId) (n : NodeId) (e : EntId)
    (st : ir_prog × optimizer_env) (env1 : optimizer_env)
    (hstat : is_static_call st.1 g n e)
    (huniq : ∀ e1, is_static_call st.1 g n e1 → e1 = e)
    (hd : ∀ e1, ¬ is_dynamic_call st.1 g n e1)
    (h : optimizer_handle_static_call st.1 g n e st.2 = .ok env1) :
    ir_refines st.1 st.1 ∧ oenv_ext st.2 env1
      ∧ (∀ x ∈ env1.workqueue,
          x ∈ st.2.workqueue ∨ node_callee st.1 st.2.dyncall_targets g n x)
      ∧ (∀ x, node_callee st.1 st.2.dyncall_targets g n x →
          x ∈ env1.done_set ∨ x ∈ env1.workqueue)
      ∧ (∀ e1, is_dynamic_call st.1 g n e1 →
          ∃ ts, cpmap_find st.2.dyncall_targets e1 = some ts
            ∧ (devirtualize_condition st.1 e1 ts = false → st.1 = st.1)
            ∧ (devirtualize_condition st.1 e1 ts = true →
                ∀ e2, ¬ is_dynamic_call st.1 g n e2 ∧ ¬ is_static_call st.1 g n e2))
      ∧ ((∀ e1, ¬ is_dynamic_call st.1 g n e1) → st.1 = st.1) := by
  obtain ⟨e1, q1, q2, n1⟩ := optimizer_handle_static_call_spec _ _ _ _ _ _ h
  refine ⟨ir_refines_refl _, e1, ?_, ?_, fun e1 he => absurd he (hd e1), fun _ => rfl⟩
  · intro x hx
    rcases n1 x hx with h3 | h3 | ⟨h3, h4⟩
    · exact Or.inl h3
    · exact Or.inr (Or.inl (h3 ▸ hstat))
    · exact Or.inr (Or.inr (Or.inl ⟨e, hstat, h3, h4⟩))
  · rintro x (h3 | ⟨e2, h3, h4, h5⟩ | ⟨e2, ts, h3, _⟩)
    · rw [huniq x h3]
      exact q1
    · rw [huniq e2 h3] at h4
      exact q2 h4 x h5
    · exact absurd h3 (hd e2)

theorem walk_callgraph_and_devirtualize_spec (g : GraphId) (n : NodeId)
    (st st1 : ir_prog × optimizer_env)
    (h : walk_callgraph_and_devirtualize g n st = .ok st1) :
    ir_refines st.1 st1.1 ∧ oenv_ext st.2 st1.2
      ∧ (∀ x ∈ st1.2.workqueue,
          x ∈ st.2.workqueue ∨ node_callee st.1 st.2.dyncall_targets g n x)
      ∧ (∀ x, node_callee st.1 st.2.dyncall_targets g n x →
          x ∈ st1.2.done_set ∨ x ∈ st1.2.workqueue)
      ∧ (∀ e, is_dynamic_call st.1 g n e →
          ∃ ts, cpmap_find st.2.dyncall_targets e = some ts
            ∧ (devirtualize_condition st.1 e ts = false → st1.1 = st.1)
            ∧ (devirtualize_condition st.1 e ts = true →
                ∀ e1, ¬ is_dynamic_call st1.1 g n e1 ∧ ¬ is_static_call st1.1 g n e1))
      ∧ ((∀ e, ¬ is_dynamic_call st.1 g n e) → st1.1 = st.1) := by
  unfold walk_callgraph_and_devirtualize at h
  split at h
  · rename_i callee sb hnode
    split at h
    · rename_i e hcallee
      simp only [bind_ok, pure_ok] at h
      obtain ⟨env1, h1, rfl⟩ := h
      refine devirtualize_static_spec g n e st env1
        ⟨callee, sb, hnode, Or.inl hcallee⟩ ?_ ?_ h1
      · rintro e1 ⟨callee1, sb1, h2, h3⟩
        rw [hnode] at h2
        cases h2
        rw [hcallee] at h3
        rcases h3 with h3 | ⟨_, pred, mem, h3, _⟩
        · cases h3
          rfl
        · cases h3
      · rintro e1 ⟨callee1, pred, mem, h2, h3, _⟩
        rw [hnode] at h2
        cases h2
        rw [hcallee] at h3
        cases h3
    · rename_i pred hcallee
      split at h
      · rename_i mem e hpred
        split at h
        · rename_i hsb
          simp only [bind_ok, pure_ok] at h
          obtain ⟨env1, h1, rfl⟩ := h
          refine devirtualize_static_spec g n e st env1
            ⟨callee, sb, hnode, Or.inr ⟨hsb, pred, mem, hcallee, hpred⟩⟩ ?_ ?_ h1
          · rintro e1 ⟨callee1, sb1, h2, h3⟩
            rw [hnode] at h2
            cases h2
            rw [hcallee] at h3
            rcases h3 with h3 | ⟨_, pred1, mem1, h3, h4⟩
            · cases h3
            · cases h3
              rw [hpred] at h4
              cases h4
              rfl
          · rintro e1 ⟨callee1, pred1, mem1, h2, _⟩
            rw [hnode] at h2
            cases h2
            simp at hsb
        · rename_i hsb
          have hsb1 : sb = false := by simpa using hsb
          subst hsb1
          have hdyn : is_dynamic_call st.1 g n e := ⟨callee, pred, mem, hnode, hcallee, hpred⟩
          have huniq : ∀ e1, is_dynamic_call st.1 g n e1 → e1 = e := by
            rintro e1 ⟨callee1, pred1, mem1, h2, h3, h4⟩
            rw [hnode] at h2
            cases h2
            rw [hcallee] at h3
            cases h3
            rw [hpred] at h4
            cases h4
            rfl
          have hnostat : ∀ e1, ¬ is_static_call st.1 g n e1 := by
            rintro e1 ⟨callee1, sb1, h2, h3⟩
            rw [hnode] at h2
            cases h2
            rw [hcallee] at h3
            rcases h3 with h3 | ⟨h3, _⟩
            · cases h3
            · cases h3
          obtain ⟨ts, hts, _, hc1, hc0, hq⟩ := optimizer_handle_dynamic_call_ok _ _ _ _ _ _ h
          have href : ir_refines st.1 st1.1 := by
            by_cases hc : devirtualize_condition st.1 e ts = true
            · obtain ⟨t, _, hp⟩ := hc1 hc
              rw [hp]
              exact ir_refines_rewrite st.1 g t pred _ mem e hpred
            · rw [Bool.not_eq_true] at hc
              rw [hc0 hc]
              exact ir_refines_refl _
          have hq1 : List.foldlM (fun env t => optimizer_add_to_workqueue st.1 t env) st.2 ts
              = .ok st1.2 := by
            have : (fun env t => optimizer_add_to_workqueue st1.1 t env)
                = (fun env t => optimizer_add_to_workqueue st.1 t env) := by
              funext env t
              unfold optimizer_add_to_workqueue
              rw [ir_refines_is_method href]
            rw [← this]
            exact hq
          obtain ⟨e1, q1, n1⟩ := optimizer_enqueue_targets_spec _ _ _ _ hq1
          refine ⟨href, e1, ?_, ?_, ?_, fun hno => absurd hdyn (hno e)⟩
          · intro x hx
            rcases n1 x hx with h3 | h3
            · exact Or.inl h3
            · exact Or.inr (Or.inr (Or.inr ⟨e, ts, hdyn, hts, h3⟩))
          · rintro x (h3 | ⟨e2, h3, _⟩ | ⟨e2, ts2, h3, h4, h5⟩)
            · exact absurd h3 (hnostat x)
            · exact absurd h3 (hnostat e2)
            · rw [huniq e2 h3, hts] at h4
              cases h4
              exact q1 x h5
          · intro e2 he2
            rw [huniq e2 he2]
            refine ⟨ts, hts, hc0, ?_⟩
            intro hc e3
            obtain ⟨t, _, hp⟩ := hc1 hc
            have hrange := get_irn_in_range st.1 g pred (by rw [hpred]; simp)
            have htuple : ∃ ins, get_irn st1.1 g pred = .Tuple ins := by
              rw [hp, get_irn_rewrite]
              have : pred < (get_irp_irg st.1 g).nodes.length + 1 := Nat.lt_succ_of_lt hrange.2
              simp [hrange.1, this]
            obtain ⟨ins, htuple⟩ := htuple
            refine ⟨?_, ?_⟩
            · rintro ⟨callee1, pred1, mem1, h2, h3, h4⟩
              have h2p := ir_refines_call href g n callee1 false h2
              rw [hnode] at h2p
              cases h2p
              have h3p := ir_refines_proj href g callee pred1 h3
              rw [hcallee] at h3p
              cases h3p
              rw [htuple] at h4
              cases h4
            · rintro ⟨callee1, sb1, h2, h3⟩
              have h2p := ir_refines_call href g n callee1 sb1 h2
              rw [hnode] at h2p
              cases h2p
              rcases h3 with h3 | ⟨h3, _⟩
              · have hcr := get_irn_in_range st.1 g callee (by rw [hcallee]; simp)
                have := ir_refines_address href g callee e3 hcr.2 h3
                rw [hcallee] at this
                cases this
              · cases h3
      · rename_i hnot
        rw [pure_ok] at h
        subst h
        refine devirtualize_skip_spec g n st ?_ ?_
        · rintro e1 ⟨callee1, sb1, h2, h3⟩
          rw [hnode] at h2
          cases h2
          rw [hcallee] at h3
          rcases h3 with h3 | ⟨_, pred1, mem1, h3, h4⟩
          · cases h3
          · cases h3
            exact hnot _ _ h4
        · rintro e1 ⟨callee1, pred1, mem1, h2, h3, h4⟩
          rw [hnode] at h2
          cases h2
          rw [hcallee] at h3
          cases h3
          exact hnot _ _ h4
    · rename_i hnot1 hnot2
      rw [pure_ok] at h
      subst h
      refine devirtualize_skip_spec g n st ?_ ?_
      · rintro e1 ⟨callee1, sb1, h2, h3⟩
        rw [hnode] at h2
        cases h2
        rcases h3 with h3 | ⟨_, pred1, mem1, h3, _⟩
        · exact hnot1 _ h3
        · exact hnot2 _ h3
      · rintro e1 ⟨callee1, pred1, mem1, h2, h3, _⟩
        rw [hnode] at h2
        cases h2
        exact hnot2 _ h3
  · rename_i hnot
    rw [pure_ok] at h
    subst h
    exact devirtualize_skip_spec g n st
      (not_static_of_node _ _ _ (fun c sb => hnot c sb))
      (not_dynamic_of_node _ _ _ (fun c => hnot c false))

/-! ### Idempotence of the devirtualizer -/

theorem rta_devirtualize_loop_inv (I : ir_prog × optimizer_env → Prop)
    (hiter : ∀ st entity rest st1, I st → st.2.workqueue = entity :: rest →
      rta_devirtualize_iteration entity (st.1, { st.2 with workqueue := rest }) = .ok st1 →
        I st1) :
    ∀ (fuel : Nat) (st st1 : ir_prog × optimizer_env),
      rta_devirtualize_loop fuel st = .ok st1 → I st → I st1 ∧ st1.2.workqueue = [] := by
  intro fuel
  induction fuel with
  | zero =>
    intro st st1 h hp
    unfold rta_devirtualize_loop at h
    split at h
    · rw [pure_ok] at h
      subst h
      exact ⟨hp, by assumption⟩
    · simp at h
  | succ fuel ih =>
    intro st st1 h hp
    unfold rta_devirtualize_loop at h
    split at h
    · rw [pure_ok] at h
      subst h
      exact ⟨hp, by assumption⟩
    · rename_i entity rest hq
      simp only [bind_ok] at h
      obtain ⟨st2, h1, h2⟩ := h
      exact ih st2 st1 h2 (hiter st entity rest st2 hp hq h1)

theorem node_callee_refines {p q : ir_prog} (h : ir_refines p q) (hwf : ir_wf p)
    (dt : cpmap cpset) (g : GraphId) (n : NodeId) (x : EntId)
    (hx : node_callee q dt g n x) : node_callee p dt g n x := by
  rcases hx with h1 | ⟨e, h1, h2, h3⟩ | ⟨e, ts, h1, h2, h3⟩
  · exact Or.inl (ir_refines_static h hwf g n x h1)
  · refine Or.inr (Or.inl ⟨e, ir_refines_static h hwf g n e h1, ?_, ?_⟩)
    · rw [← ir_refines_irg h]
      exact h2
    · rw [← h.detect]
      exact h3
  · exact Or.inr (Or.inr ⟨e, ts, ir_refines_dynamic h g n e h1, h2, h3⟩)

theorem node_settled_stable (a b : ir_prog × optimizer_env) (g : GraphId) (n : NodeId)
    (href : ir_refines a.1 b.1) (hwf : ir_wf a.1)
    (hdt : b.2.dyncall_targets = a.2.dyncall_targets)
    (hD : ∀ x, x ∈ a.2.done_set ∨ x ∈ a.2.workqueue → x ∈ b.2.done_set ∨ x ∈ b.2.workqueue)
    (h : node_settled a g n) : node_settled b g n := by
  refine ⟨?_, ?_⟩
  · intro x hx
    rw [hdt] at hx
    exact hD x (h.1 x (node_callee_refines href hwf _ g n x hx))
  · intro e ts he hts
    rw [hdt] at hts
    rw [ir_refines_condition href]
    exact h.2 e ts (ir_refines_dynamic href g n e he) hts

theorem optimizer_walk_graph_settled (g : GraphId) (st st1 : ir_prog × optimizer_env)
    (hwf : ir_wf st.1) (h : optimizer_walk_graph g st = .ok st1) :
    (ir_refines st.1 st1.1 ∧ oenv_ext st.2 st1.2)
      ∧ ∀ n ∈ (get_irp_irg st.1 g).walk, node_settled st1 g n := by
  unfold optimizer_walk_graph at h
  refine foldlM_forall _ (fun t => ir_refines st.1 t.1 ∧ oenv_ext st.2 t.2)
    (fun n t => node_settled t g n) (get_irp_irg st.1 g).walk ?_ ?_ st st1
    ⟨ir_refines_refl _, oenv_ext_refl _⟩ h
  · intro s x s1 _ hI hf
    obtain ⟨r1, e1, _, k4, k5, _⟩ := walk_callgraph_and_devirtualize_spec g x s s1 hf
    have hwfs : ir_wf s.1 := ir_refines_wf hI.1 hwf
    refine ⟨⟨ir_refines_trans hI.1 r1, oenv_ext_trans hI.2 e1⟩, ?_, ?_⟩
    · intro y hy
      rw [e1.targets] at hy
      exact k4 y (node_callee_refines r1 hwfs _ g x y hy)
    · intro e ts he hts
      rw [e1.targets] at hts
      obtain ⟨ts1, h1, _, h3⟩ := k5 e (ir_refines_dynamic r1 g x e he)
      rw [hts] at h1
      cases h1
      rw [ir_refines_condition r1]
      cases hc : devirtualize_condition s.1 e ts with
      | false => rfl
      | true => exact absurd he (h3 hc e).1
  · intro s x s1 y _ hI hf hy
    obtain ⟨r1, e1, _⟩ := walk_callgraph_and_devirtualize_spec g x s s1 hf
    exact node_settled_stable s s1 g y r1 (ir_refines_wf hI.1 hwf) e1.targets
      (fun z hz => oenv_ext_queued e1 z hz) hy

theorem rta_devirtualize_iteration_settled {dt : cpmap cpset} (entry_points : List EntId)
    (entity : EntId) (rest : List EntId) (st st1 : ir_prog × optimizer_env)
    (hq : st.2.workqueue = entity :: rest)
    (h : rta_devirtualize_iteration entity (st.1, { st.2 with workqueue := rest }) = .ok st1)
    (hs : devirt_settled entry_points st ∧ st.2.dyncall_targets = dt) :
    devirt_settled entry_points st1 ∧ st1.2.dyncall_targets = dt := by
  obtain ⟨⟨j1, j2, j3⟩, jdt⟩ := hs
  unfold rta_devirtualize_iteration at h
  simp only [bind_ok, exists_assert_ok] at h
  obtain ⟨_, h⟩ := h
  split at h
  · rename_i hdone
    rw [pure_ok] at h
    subst h
    have hD : ∀ x, x ∈ st.2.done_set ∨ x ∈ st.2.workqueue →
        x ∈ st.2.done_set ∨ x ∈ rest := by
      intro x hx
      rcases hx with h1 | h1
      · exact Or.inl h1
      · rw [hq] at h1
        rcases List.mem_cons.1 h1 with h2 | h2
        · exact Or.inl (h2 ▸ hdone)
        · exact Or.inr h2
    refine ⟨⟨j1, fun x hx => hD x (j2 x hx), ?_⟩, jdt⟩
    intro M hM
    refine ⟨fun g hg n hn => ?_, fun hg t ht => hD t ((j3 M hM).2 hg t ht)⟩
    exact node_settled_stable st (st.1, { st.2 with workqueue := rest }) g n
      (ir_refines_refl _) j1 rfl hD ((j3 M hM).1 g hg n hn)
  · have hD : ∀ x, x ∈ st.2.done_set ∨ x ∈ st.2.workqueue →
        x ∈ cpset_insert st.2.done_set entity ∨ x ∈ rest := by
      intro x hx
      rcases hx with h1 | h1
      · exact Or.inl (cpset_subset_insert _ _ h1)
      · rw [hq] at h1
        rcases List.mem_cons.1 h1 with h2 | h2
        · exact Or.inl (h2 ▸ cpset_insert_self _ _)
        · exact Or.inr h2
    split at h
    · rename_i hnone
      simp only [bind_ok, pure_ok] at h
      obtain ⟨env2, h1, rfl⟩ := h
      obtain ⟨e1, q1, _⟩ := optimizer_handle_no_graph_spec _ _ _ _ h1
      have hD1 : ∀ x, x ∈ st.2.done_set ∨ x ∈ st.2.workqueue →
          x ∈ env2.done_set ∨ x ∈ env2.workqueue :=
        fun x hx => oenv_ext_queued e1 x (hD x hx)
      refine ⟨⟨j1, fun x hx => hD1 x (j2 x hx), ?_⟩, e1.targets.trans jdt⟩
      intro M hM
      rw [e1.done] at hM
      rcases (mem_cpset_insert _ _ _).1 hM with hM | hM
      · refine ⟨fun g hg n hn => ?_, fun hg t ht => hD1 t ((j3 M hM).2 hg t ht)⟩
        exact node_settled_stable st (st.1, env2) g n (ir_refines_refl _) j1 e1.targets hD1
          ((j3 M hM).1 g hg n hn)
      · subst hM
        refine ⟨?_, fun _ t ht => q1 t ht⟩
        intro g hg
        have hnone1 : get_entity_irg st.1 M = none := hnone
        rw [hnone1] at hg
        cases hg
    · rename_i g0 hsome
      have hsome1 : get_entity_irg st.1 entity = some g0 := hsome
      obtain ⟨⟨r1, e1⟩, k⟩ := optimizer_walk_graph_settled g0
        (st.1, { st.2 with
          workqueue := rest, done_set := cpset_insert st.2.done_set entity }) st1 j1 h
      have hD1 : ∀ x, x ∈ st.2.done_set ∨ x ∈ st.2.workqueue →
          x ∈ st1.2.done_set ∨ x ∈ st1.2.workqueue :=
        fun x hx => oenv_ext_queued e1 x (hD x hx)
      refine ⟨⟨ir_refines_wf r1 j1, fun x hx => hD1 x (j2 x hx), ?_⟩, e1.targets.trans jdt⟩
      intro M hM
      rw [e1.done] at hM
      have hr1 : ir_refines st.1 st1.1 := r1
      rcases (mem_cpset_insert _ _ _).1 hM with hM | hM
      · refine ⟨fun g hg n hn => ?_, fun hg t ht => ?_⟩
        · rw [ir_refines_irg hr1] at hg
          rw [ir_refines_walk hr1] at hn
          exact node_settled_stable st st1 g n hr1 j1 e1.targets hD1
            ((j3 M hM).1 g hg n hn)
        · rw [ir_refines_irg hr1] at hg
          rw [ir_refines_redirect hr1] at ht
          exact hD1 t ((j3 M hM).2 hg t ht)
      · subst hM
        refine ⟨?_, ?_⟩
        · intro g hg n hn
          rw [ir_refines_irg hr1, hsome1] at hg
          cases hg
          rw [ir_refines_walk hr1] at hn
          exact k n hn
        · intro hg
          rw [ir_refines_irg hr1, hsome1] at hg
          cases hg

theorem rta_devirtualize_entry_points_spec (p : ir_prog) (entry_points : List EntId)
    (env env1 : optimizer_env)
    (h : rta_devirtualize_entry_points p entry_points env = .ok env1) :
    env1.done_set = env.done_set ∧ env1.dyncall_targets = env.dyncall_targets
      ∧ (∀ x ∈ entry_points, x ∈ env1.workqueue)
      ∧ ∀ x ∈ env1.workqueue, x ∈ env.workqueue ∨ x ∈ entry_points := by
  unfold rta_devirtualize_entry_points at h
  have k := foldlM_forall _
    (fun (t : optimizer_env) => t.done_set = env.done_set
      ∧ t.dyncall_targets = env.dyncall_targets
      ∧ ∀ x ∈ t.workqueue, x ∈ env.workqueue ∨ x ∈ entry_points)
    (fun x t => x ∈ t.workqueue) entry_points ?_ ?_ env env1
    ⟨rfl, rfl, fun x hx => Or.inl hx⟩ h
  · exact ⟨k.1.1, k.1.2.1, k.2, k.1.2.2⟩
  · intro s x s1 hx hI hf
    simp only [bind_ok, exists_assert_ok, pure_ok] at hf
    obtain ⟨_, _, rfl⟩ := hf
    refine ⟨⟨hI.1, hI.2.1, ?_⟩, by simp⟩
    intro y hy
    simp only [List.mem_append, List.mem_singleton] at hy
    rcases hy with h1 | h1
    · exact hI.2.2 y h1
    · exact Or.inr (h1 ▸ hx)
  · intro s x s1 y _ _ hf hy
    simp only [bind_ok, exists_assert_ok, pure_ok] at hf
    obtain ⟨_, _, rfl⟩ := hf
    exact List.mem_append_left _ hy

/-- After a run of the devirtualizer every done method is settled. -/
theorem rta_devirtualize_calls_settled (fuel : Nat) (p : ir_prog) (entry_points : List EntId)
    (dt : cpmap cpset) (st1 : ir_prog × optimizer_env) (hwf : ir_wf p)
    (h : rta_devirtualize_calls fuel p entry_points dt = .ok st1) :
    devirt_settled entry_points st1 ∧ st1.2.dyncall_targets = dt ∧ st1.2.workqueue = [] := by
  unfold rta_devirtualize_calls at h
  simp only [bind_ok] at h
  obtain ⟨env0, h0, h1⟩ := h
  obtain ⟨d0, t0, q0, _⟩ := rta_devirtualize_entry_points_spec _ _ _ _ h0
  have hinit : devirt_settled entry_points (p, env0) ∧ env0.dyncall_targets = dt := by
    refine ⟨⟨hwf, fun x hx => Or.inr (q0 x hx), ?_⟩, t0⟩
    intro M hM
    have hM1 : M ∈ env0.done_set := hM
    rw [d0] at hM1
    simp at hM1
  obtain ⟨⟨k1, k2⟩, k3⟩ := rta_devirtualize_loop_inv
    (fun t => devirt_settled entry_points t ∧ t.2.dyncall_targets = dt)
    (fun s entity rest s1 hI hq hf =>
      rta_devirtualize_iteration_settled entry_points entity rest s s1 hq hf hI)
    fuel (p, env0) st1 h1 hinit
  exact ⟨k1, k2, k3⟩

/-- A second walk over a graph whose nodes are settled changes nothing in the
IR and enqueues only methods that were done. -/
theorem optimizer_walk_graph_again (g : GraphId) (p1 : ir_prog) (env1 : optimizer_env)
    (st st1 : ir_prog × optimizer_env)
    (hq1 : env1.workqueue = [])
    (hset : ∀ n ∈ (get_irp_irg p1 g).walk, node_settled (p1, env1) g n)
    (hp : st.1 = p1) (hdt : st.2.dyncall_targets = env1.dyncall_targets)
    (hq : ∀ x ∈ st.2.workqueue, x ∈ env1.done_set)
    (h : optimizer_walk_graph g st = .ok st1) :
    st1.1 = p1 ∧ st1.2.dyncall_targets = env1.dyncall_targets
      ∧ (∀ x ∈ st1.2.workqueue, x ∈ env1.done_set) ∧ st1.2.done_set = st.2.done_set := by
  unfold optimizer_walk_graph at h
  rw [hp] at h
  refine foldlM_inv _ (fun t => t.1 = p1 ∧ t.2.dyncall_targets = env1.dyncall_targets
    ∧ (∀ x ∈ t.2.workqueue, x ∈ env1.done_set) ∧ t.2.done_set = st.2.done_set)
    (get_irp_irg p1 g).walk ?_ st st1 ⟨hp, hdt, hq, rfl⟩ h
  intro s x s1 hx hI hf
  obtain ⟨i1, i2, i3, i4⟩ := hI
  obtain ⟨_, e1, k3, _, k5, k6⟩ := walk_callgraph_and_devirtualize_spec g x s s1 hf
  have hsx := hset x hx
  have hD : ∀ y, node_callee s.1 s.2.dyncall_targets g x y → y ∈ env1.done_set := by
    intro y hy
    rw [i1, i2] at hy
    rcases hsx.1 y hy with h1 | h1
    · exact h1
    · have h2 : y ∈ env1.workqueue := h1
      rw [hq1] at h2
      simp at h2
  have hsame : s1.1 = s.1 := by
    by_cases hdyn : ∃ e, is_dynamic_call s.1 g x e
    · obtain ⟨e, he⟩ := hdyn
      obtain ⟨ts, hts, hc0, _⟩ := k5 e he
      apply hc0
      rw [i1] at he ⊢
      rw [i2] at hts
      exact hsx.2 e ts he hts
    · exact k6 (fun e he => hdyn ⟨e, he⟩)
  refine ⟨hsame.trans i1, e1.targets.trans i2, ?_, e1.done.trans i4⟩
  intro y hy
  rcases k3 y hy with h1 | h1
  · exact i3 y h1
  · exact hD y h1

theorem rta_devirtualize_iteration_again (entry_points : List EntId) (p1 : ir_prog)
    (env1 : optimizer_env) (entity : EntId) (rest : List EntId)
    (st st1 : ir_prog × optimizer_env)
    (hset : devirt_settled entry_points (p1, env1)) (hq1 : env1.workqueue = [])
    (hq : st.2.workqueue = entity :: rest)
    (h : rta_devirtualize_iteration entity (st.1, { st.2 with workqueue := rest }) = .ok st1)
    (hs : st.1 = p1 ∧ st.2.dyncall_targets = env1.dyncall_targets
      ∧ ∀ x ∈ st.2.workqueue, x ∈ env1.done_set) :
    st1.1 = p1 ∧ st1.2.dyncall_targets = env1.dyncall_targets
      ∧ ∀ x ∈ st1.2.workqueue, x ∈ env1.done_set := by
  obtain ⟨i1, i2, i3⟩ := hs
  have hent : entity ∈ env1.done_set := i3 entity (by rw [hq]; simp)
  have hrest : ∀ x ∈ rest, x ∈ env1.done_set :=
    fun x hx => i3 x (by rw [hq]; exact List.mem_cons_of_mem _ hx)
  unfold rta_devirtualize_iteration at h
  simp only [bind_ok, exists_assert_ok] at h
  obtain ⟨_, h⟩ := h
  split at h
  · rw [pure_ok] at h
    subst h
    exact ⟨i1, i2, hrest⟩
  · split at h
    · rename_i hnone
      simp only [bind_ok, pure_ok] at h
      obtain ⟨env2, h1, rfl⟩ := h
      obtain ⟨e1, _, n1⟩ := optimizer_handle_no_graph_spec _ _ _ _ h1
      refine ⟨i1, e1.targets.trans i2, ?_⟩
      intro x hx
      rcases n1 x hx with h2 | h2
      · exact hrest x h2
      · have hnone1 : get_entity_irg st.1 entity = none := hnone
        rw [i1] at hnone1 h2
        rcases (hset.2.2 entity hent).2 hnone1 x h2 with h3 | h3
        · exact h3
        · have h4 : x ∈ env1.workqueue := h3
          rw [hq1] at h4
          simp at h4
    · rename_i g0 hsome
      have hsome1 : get_entity_irg p1 entity = some g0 := by
        rw [← i1]
        exact hsome
      obtain ⟨k1, k2, k3, _⟩ := optimizer_walk_graph_again g0 p1 env1
        (st.1, { st.2 with
          workqueue := rest, done_set := cpset_insert st.2.done_set entity }) st1 hq1
        ((hset.2.2 entity hent).1 g0 hsome1) i1 i2 hrest h
      exact ⟨k1, k2, k3⟩

/-- C10 (Idempotence of devirtualization): a second run of the devirtualizer,
with the same entry points and the same `dyncall_targets`, on the IR that its
first run has produced rewrites no call site: the IR after the second run is
the IR after the first. -/
theorem devirtualize_idempotent (fuel fuel2 : Nat) (p : ir_prog) (entry_points : List EntId)
    (dt : cpmap cpset) (st1 st2 : ir_prog × optimizer_env) (hwf : ir_wf p)
    (h1 : rta_devirtualize_calls fuel p entry_points dt = .ok st1)
    (h2 : rta_devirtualize_calls fuel2 st1.1 entry_points dt = .ok st2) :
    st2.1 = st1.1 := by
  obtain ⟨hset, hdt, hq1⟩ := rta_devirtualize_calls_settled fuel p entry_points dt st1 hwf h1
  unfold rta_devirtualize_calls at h2
  simp only [bind_ok] at h2
  obtain ⟨env0, h0, h3⟩ := h2
  obtain ⟨_, t0, _, q0⟩ := rta_devirtualize_entry_points_spec _ _ _ _ h0
  have hinit : (st1.1, env0).1 = st1.1
      ∧ (st1.1, env0).2.dyncall_targets = st1.2.dyncall_targets
      ∧ ∀ x ∈ (st1.1, env0).2.workqueue, x ∈ st1.2.done_set := by
    refine ⟨rfl, t0.trans hdt.symm, ?_⟩
    intro x hx
    rcases q0 x hx with h4 | h4
    · simp at h4
    · rcases hset.2.1 x h4 with h5 | h5
      · exact h5
      · rw [hq1] at h5
        simp at h5
  exact (rta_devirtualize_loop_inv
    (fun t => t.1 = st1.1 ∧ t.2.dyncall_targets = st1.2.dyncall_targets
      ∧ ∀ x ∈ t.2.workqueue, x ∈ st1.2.done_set)
    (fun s entity rest s1 hI hq hf =>
      rta_devirtualize_iteration_again entry_points st1.1 st1.2 entity rest s s1 hset hq1 hq hf
        hI)
    fuel2 (st1.1, env0) st2 h3 hinit).1.1

/-! ### The lookup of the devirtualizer on the result of the analysis -/

theorem no_iv_ok {α : Type} (a : α) : no_iv (Except.ok a : Except Err α) := by
  intro h
  cases h

theorem no_iv_pure {α : Type} (a : α) : no_iv (pure a : Except Err α) := no_iv_ok a

theorem no_iv_error {α : Type} (e : Err) (h : e ≠ .InvariantViolated) :
    no_iv (Except.error e : Except Err α) := by
  intro h1
  cases h1
  exact h rfl

theorem no_iv_bind {α β : Type} (x : Except Err α) (f : α → Except Err β)
    (hx : no_iv x) (hf : ∀ a, x = .ok a → no_iv (f a)) : no_iv (x >>= f) := by
  cases x with
  | error e =>
    intro h
    have h1 : (Except.error e : Except Err β) = .error .InvariantViolated := h
    cases h1
    exact hx rfl
  | ok a => exact hf a rfl

theorem no_iv_assert (c : Bool) : no_iv (assert .AssertionFailed c) := by
  unfold assert
  split
  · exact no_iv_ok _
  · exact no_iv_error _ (by decide)

theorem no_iv_assert_pre (c : Bool) : no_iv (assert .PreconditionViolated c) := by
  unfold assert
  split
  · exact no_iv_ok _
  · exact no_iv_error _ (by decide)

theorem no_iv_foldlM {σ α : Type} (f : σ → α → Except Err σ) (I : σ → Prop) :
    ∀ (l : List α), (∀ s x, x ∈ l → I s → no_iv (f s x)) →
      (∀ s x s1, x ∈ l → I s → f s x = .ok s1 → I s1) →
      ∀ s, I s → no_iv (l.foldlM f s)
  | [], _, _, s, _ => by
    simp only [List.foldlM]
    exact no_iv_pure s
  | x :: l, hsafe, hstep, s, hs => by
    simp only [List.foldlM]
    refine no_iv_bind _ _ (hsafe s x (List.mem_cons_self _ _) hs) ?_
    intro s1 h1
    exact no_iv_foldlM f I l (fun s x hx => hsafe s x (List.mem_cons_of_mem _ hx))
      (fun s x s1 hx => hstep s x s1 (List.mem_cons_of_mem _ hx)) s1
      (hstep s x s1 (List.mem_cons_self _ _) hs h1)

theorem no_iv_optimizer_add_to_workqueue (p : ir_prog) (m : EntId) (env : optimizer_env) :
    no_iv (optimizer_add_to_workqueue p m env) := by
  unfold optimizer_add_to_workqueue
  refine no_iv_bind _ _ (no_iv_assert _) ?_
  intro _ _
  split
  · exact no_iv_pure _
  · exact no_iv_pure _

theorem no_iv_get_ldname_redirect (p : ir_prog) (e : EntId) :
    no_iv (get_ldname_redirect p e) := by
  unfold get_ldname_redirect
  refine no_iv_bind _ _ (no_iv_assert _) ?_
  intro _ _
  refine no_iv_bind _ _ (no_iv_assert _) ?_
  intro _ _
  split
  · exact no_iv_pure _
  · exact no_iv_pure _

theorem no_iv_optimizer_handle_no_graph (p : ir_prog) (e : EntId) (env : optimizer_env) :
    no_iv (optimizer_handle_no_graph p e env) := by
  unfold optimizer_handle_no_graph
  refine no_iv_bind _ _ (no_iv_assert _) ?_
  intro _ _
  refine no_iv_bind _ _ (no_iv_assert _) ?_
  intro _ _
  refine no_iv_bind _ _ (no_iv_get_ldname_redirect _ _) ?_
  intro target _
  split
  · exact no_iv_optimizer_add_to_workqueue _ _ _
  · exact no_iv_pure _

theorem no_iv_optimizer_handle_static_call (p : ir_prog) (g : GraphId) (call : NodeId)
    (e : EntId) (env : optimizer_env) :
    no_iv (optimizer_handle_static_call p g call e env) := by
  unfold optimizer_handle_static_call
  refine no_iv_bind _ _ (no_iv_assert _) ?_
  intro _ _
  refine no_iv_bind _ _ (no_iv_optimizer_add_to_workqueue _ _ _) ?_
  intro env1 _
  split
  · exact no_iv_pure _
  · split
    · refine no_iv_bind _ _ (no_iv_assert _) ?_
      intro _ _
      exact no_iv_optimizer_add_to_workqueue _ _ _
    · exact no_iv_pure _

theorem no_iv_optimizer_handle_dynamic_call (p : ir_prog) (g : GraphId) (e : EntId)
    (msel : NodeId) (env : optimizer_env)
    (hkey : ∃ ts, cpmap_find env.dyncall_targets e = some ts) :
    no_iv (optimizer_handle_dynamic_call p g e msel env) := by
  obtain ⟨ts, hts⟩ := hkey
  unfold optimizer_handle_dynamic_call
  refine no_iv_bind _ _ (no_iv_assert _) ?_
  intro _ _
  rw [hts]
  refine no_iv_bind _ _ ?_ ?_
  · split
    · split
      · exact no_iv_error _ (by decide)
      · refine no_iv_bind _ _ (no_iv_assert _) ?_
        intro _ _
        exact no_iv_pure _
    · exact no_iv_pure _
  · intro p1 _
    refine no_iv_bind _ _ ?_ ?_
    · exact no_iv_foldlM _ (fun _ => True) ts
        (fun s x _ _ => no_iv_optimizer_add_to_workqueue _ _ _) (fun _ _ _ _ _ _ => trivial)
        env trivial
    · intro env1 _
      exact no_iv_pure _

theorem no_iv_walk_callgraph_and_devirtualize (g : GraphId) (n : NodeId)
    (st : ir_prog × optimizer_env)
    (hkey : ∀ e, is_dynamic_call st.1 g n e →
      ∃ ts, cpmap_find st.2.dyncall_targets e = some ts) :
    no_iv (walk_callgraph_and_devirtualize g n st) := by
  unfold walk_callgraph_and_devirtualize
  split
  · rename_i callee sb hnode
    split
    · refine no_iv_bind _ _ (no_iv_optimizer_handle_static_call _ _ _ _ _) ?_
      intro _ _
      exact no_iv_pure _
    · rename_i pred hcallee
      split
      · rename_i mem e hpred
        split
        · refine no_iv_bind _ _ (no_iv_optimizer_handle_static_call _ _ _ _ _) ?_
          intro _ _
          exact no_iv_pure _
        · rename_i hsb
          have hsb1 : sb = false := by simpa using hsb
          subst hsb1
          exact no_iv_optimizer_handle_dynamic_call _ _ _ _ _
            (hkey e ⟨callee, pred, mem, hnode, hcallee, hpred⟩)
      · exact no_iv_pure _
    · exact no_iv_pure _
  · exact no_iv_pure _

/-- The devirtualizer callback keeps the invariant at a node of the graph of an
analysed method. -/
theorem walk_callgraph_and_devirtualize_inv (p : ir_prog) (A : analyzer_env) (g : GraphId)
    (n : NodeId) (st st1 : ir_prog × optimizer_env) (hwf : ir_wf p)
    (hA : ∀ x, node_callee p A.dyncall_targets g n x → x ∈ A.done_set)
    (hs : devirt_inv p A st) (h : walk_callgraph_and_devirtualize g n st = .ok st1) :
    devirt_inv p A st1 ∧ st1.2.done_set = st.2.done_set := by
  obtain ⟨i1, i2, i3, i4⟩ := hs
  obtain ⟨r1, e1, k3, _⟩ := walk_callgraph_and_devirtualize_spec g n st st1 h
  refine ⟨⟨ir_refines_trans i1 r1, e1.targets.trans i2, ?_, ?_⟩, e1.done⟩
  · intro x hx
    rcases k3 x hx with h1 | h1
    · exact i3 x h1
    · rw [i2] at h1
      exact hA x (node_callee_refines i1 hwf _ g n x h1)
  · intro x hx
    rw [e1.done] at hx
    exact i4 x hx

theorem optimizer_walk_graph_inv (p : ir_prog) (A : analyzer_env) (g : GraphId)
    (st : ir_prog × optimizer_env) (hwf : ir_wf p)
    (hA : ∀ n ∈ (get_irp_irg p g).walk,
      (∀ x, node_callee p A.dyncall_targets g n x → x ∈ A.done_set)
        ∧ ∀ e, is_dynamic_call p g n e → ∃ ts, cpmap_find A.dyncall_targets e = some ts)
    (hs : devirt_inv p A st) :
    no_iv (optimizer_walk_graph g st)
      ∧ ∀ st1, optimizer_walk_graph g st = .ok st1 →
          devirt_inv p A st1 ∧ st1.2.done_set = st.2.done_set := by
  unfold optimizer_walk_graph
  have hwalk : (get_irp_irg st.1 g).walk = (get_irp_irg p g).walk := ir_refines_walk hs.1 g
  rw [hwalk]
  refine ⟨?_, ?_⟩
  · refine no_iv_foldlM _ (fun t => devirt_inv p A t) _ ?_ ?_ st hs
    · intro s x hx hI
      apply no_iv_walk_callgraph_and_devirtualize
      intro e he
      rw [hI.2.1]
      exact (hA x hx).2 e (ir_refines_dynamic hI.1 g x e he)
    · intro s x s1 hx hI hf
      exact (walk_callgraph_and_devirtualize_inv p A g x s s1 hwf (hA x hx).1 hI hf).1
  · intro st1 h
    exact foldlM_inv _ (fun t => devirt_inv p A t ∧ t.2.done_set = st.2.done_set) _
      (fun s x s1 hx hI hf =>
        have k := walk_callgraph_and_devirtualize_inv p A g x s s1 hwf (hA x hx).1 hI.1 hf
        ⟨k.1, k.2.trans hI.2⟩) st st1 ⟨hs, rfl⟩ h

theorem rta_devirtualize_iteration_inv (p : ir_prog) (entry_points : List EntId)
    (A : analyzer_env) (entity : EntId) (rest : List EntId) (st : ir_prog × optimizer_env)
    (hwf : ir_wf p) (hA : analysed p entry_points A)
    (hq : st.2.workqueue = entity :: rest) (hs : devirt_inv p A st) :
    no_iv (rta_devirtualize_iteration entity (st.1, { st.2 with workqueue := rest }))
      ∧ ∀ st1, rta_devirtualize_iteration entity (st.1, { st.2 with workqueue := rest })
          = .ok st1 → devirt_inv p A st1 := by
  obtain ⟨i1, i2, i3, i4⟩ := hs
  have hent : entity ∈ A.done_set := i3 entity (by rw [hq]; simp)
  have hrest : ∀ x ∈ rest, x ∈ A.done_set :=
    fun x hx => i3 x (by rw [hq]; exact List.mem_cons_of_mem _ hx)
  have hirg : get_entity_irg st.1 entity = get_entity_irg p entity := ir_refines_irg i1 entity
  have hs0 : devirt_inv p A
      (st.1, { st.2 with workqueue := rest, done_set := cpset_insert st.2.done_set entity }) := by
    refine ⟨i1, i2, hrest, ?_⟩
    intro x hx
    rcases (mem_cpset_insert _ _ _).1 hx with h1 | h1
    · exact i4 x h1
    · exact h1 ▸ hent
  unfold rta_devirtualize_iteration
  refine ⟨?_, ?_⟩
  · refine no_iv_bind _ _ (no_iv_assert _) ?_
    intro _ _
    split
    · exact no_iv_pure _
    · split
      · refine no_iv_bind _ _ (no_iv_optimizer_handle_no_graph _ _ _) ?_
        intro _ _
        exact no_iv_pure _
      · rename_i g0 hsome
        have hsome1 : get_entity_irg p entity = some g0 := by
          rw [← hirg]
          exact hsome
        exact (optimizer_walk_graph_inv p A g0 _ hwf
          ((hA.2 entity hent).1 g0 hsome1) hs0).1
  · intro st1 h
    simp only [bind_ok, exists_assert_ok] at h
    obtain ⟨_, h⟩ := h
    split at h
    · rw [pure_ok] at h
      subst h
      exact ⟨i1, i2, hrest, i4⟩
    · split at h
      · rename_i hnone
        have hnone1 : get_entity_irg p entity = none := by
          rw [← hirg]
          exact hnone
        simp only [bind_ok, pure_ok] at h
        obtain ⟨env2, h1, rfl⟩ := h
        obtain ⟨e1, _, n1⟩ := optimizer_handle_no_graph_spec _ _ _ _ h1
        refine ⟨i1, e1.targets.trans i2, ?_, ?_⟩
        · intro x hx
          rcases n1 x hx with h2 | h2
          · exact hrest x h2
          · rw [ir_refines_redirect i1] at h2
            exact (hA.2 entity hent).2 hnone1 x h2
        · intro x hx
          rw [e1.done] at hx
          exact hs0.2.2.2 x hx
      · rename_i g0 hsome
        have hsome1 : get_entity_irg p entity = some g0 := by
          rw [← hirg]
          exact hsome
        exact ((optimizer_walk_graph_inv p A g0 _ hwf
          ((hA.2 entity hent).1 g0 hsome1) hs0).2 st1 h).1

theorem rta_devirtualize_loop_safe (p : ir_prog) (entry_points : List EntId)
    (A : analyzer_env) (hwf : ir_wf p) (hA : analysed p entry_points A) :
    ∀ (fuel : Nat) (st : ir_prog × optimizer_env), devirt_inv p A st →
      no_iv (rta_devirtualize_loop fuel st)
        ∧ ∀ st1, rta_devirtualize_loop fuel st = .ok st1 → devirt_inv p A st1 := by
  intro fuel
  induction fuel with
  | zero =>
    intro st hs
    unfold rta_devirtualize_loop
    split
    · exact ⟨no_iv_pure _, fun st1 h => by rw [pure_ok] at h; exact h ▸ hs⟩
    · exact ⟨no_iv_error _ (by decide), fun st1 h => by simp at h⟩
  | succ fuel ih =>
    intro st hs
    unfold rta_devirtualize_loop
    split
    · exact ⟨no_iv_pure _, fun st1 h => by rw [pure_ok] at h; exact h ▸ hs⟩
    · rename_i entity rest hq
      obtain ⟨k1, k2⟩ := rta_devirtualize_iteration_inv p entry_points A entity rest st hwf hA
        hq hs
      refine ⟨no_iv_bind _ _ k1 (fun st2 h2 => (ih st2 (k2 st2 h2)).1), ?_⟩
      intro st1 h
      simp only [bind_ok] at h
      obtain ⟨st2, h2, h3⟩ := h
      exact (ih st2 (k2 st2 h2)).2 st1 h3

theorem get_irn_mem (p : ir_prog) (g n : Nat) (h : get_irn p g n ≠ ir_node.Other) :
    get_irp_irg p g ∈ p.irgs ∧ get_irn p g n ∈ (get_irp_irg p g).nodes := by
  obtain ⟨hg, hn⟩ := get_irn_in_range p g n h
  refine ⟨?_, ?_⟩
  · unfold get_irp_irg
    rw [List.getD_eq_getElem _ _ hg]
    exact List.getElem_mem _
  · unfold get_irn
    rw [List.getD_eq_getElem _ _ hn]
    exact List.getElem_mem _

theorem ir_wf_of_check (p : ir_prog) (h : ir_wf_check p = true) : ir_wf p := by
  unfold ir_wf_check at h
  rw [List.all_eq_true] at h
  intro g n
  refine ⟨?_, ?_⟩
  · intro c sb hc
    obtain ⟨m1, m2⟩ := get_irn_mem p g n (by rw [hc]; simp)
    have h1 := h _ m1
    rw [List.all_eq_true] at h1
    have h2 := h1 _ m2
    rw [hc] at h2
    simpa [node_inputs_ok] using h2
  · intro pred hp
    obtain ⟨m1, m2⟩ := get_irn_mem p g n (by rw [hp]; simp)
    have h1 := h _ m1
    rw [List.all_eq_true] at h1
    have h2 := h1 _ m2
    rw [hp] at h2
    simpa [node_inputs_ok] using h2

/-- The result of `rta_run` gives the devirtualizer what it needs. -/
theorem rta_run_analysed (fuel depth : Nat) (p : ir_prog) (entry_points : List EntId)
    (initial_live_classes : Option (List ClassId)) (env : analyzer_env)
    (h : rta_run fuel depth p entry_points initial_live_classes = .ok env) :
    analysed p entry_points env := by
  obtain ⟨⟨_, k2, k3, k4⟩, _⟩ :=
    rta_run_closure fuel depth p entry_points initial_live_classes env h
  have hld := rta_run_live_done fuel depth p entry_points initial_live_classes env h
  obtain ⟨_, kd⟩ := rta_run_complete fuel depth p entry_points initial_live_classes env h
  refine ⟨fun x hx => hld x (k4 x hx), ?_⟩
  intro M hM
  refine ⟨?_, fun hg t ht => hld t ((k3 M hM).2 hg t ht)⟩
  intro g hg n hn
  obtain ⟨_, n2⟩ := (k3 M hM).1 g hg n hn
  refine ⟨?_, fun e he => kd M hM g hg n hn e he⟩
  rintro x (h1 | ⟨e, h1, h2, h3⟩ | ⟨e, ts, _, h2, h3⟩)
  · exact hld x (n2 x h1).1
  · exact hld x ((n2 e h1).2 h2 x h3)
  · exact hld x (k2 e x ⟨ts, h2, h3⟩)

/-- C9 (The lookup of the devirtualizer never fails on the output of the
analyzer): when `rta_devirtualize_calls` runs with the same entry points on
the `dyncall_targets` that `rta_run` has produced, it never ends in the
`InvariantViolated` assertion; every method it visits was analysed by
`rta_run`, and every dynamic call in the graph of a visited method has an
entry in `dyncall_targets`. -/
theorem devirtualizer_lookup_safe (fuel depth fuel2 : Nat) (p : ir_prog)
    (entry_points : List EntId) (initial_live_classes : Option (List ClassId))
    (env : analyzer_env) (hwf : ir_wf p)
    (h : rta_run fuel depth p entry_points initial_live_classes = .ok env) :
    rta_devirtualize_calls fuel2 p entry_points env.dyncall_targets
        ≠ .error .InvariantViolated
      ∧ ∀ st, rta_devirtualize_calls fuel2 p entry_points env.dyncall_targets = .ok st →
          ∀ M ∈ st.2.done_set, M ∈ env.done_set
            ∧ ∀ g, get_entity_irg st.1 M = some g → ∀ n ∈ (get_irp_irg st.1 g).walk,
                ∀ e, is_dynamic_call st.1 g n e →
                  ∃ ts, cpmap_find st.2.dyncall_targets e = some ts := by
  have hA := rta_run_analysed fuel depth p entry_points initial_live_classes env h
  have hstart : ∀ env0, rta_devirtualize_entry_points p entry_points
      { workqueue := [], done_set := [], dyncall_targets := env.dyncall_targets } = .ok env0 →
      devirt_inv p env (p, env0) := by
    intro env0 h0
    obtain ⟨d0, t0, _, q0⟩ := rta_devirtualize_entry_points_spec _ _ _ _ h0
    refine ⟨ir_refines_refl _, t0, ?_, ?_⟩
    · intro x hx
      rcases q0 x hx with h1 | h1
      · simp at h1
      · exact hA.1 x h1
    · intro x hx
      have hx1 : x ∈ env0.done_set := hx
      rw [d0] at hx1
      simp at hx1
  unfold rta_devirtualize_calls
  refine ⟨?_, ?_⟩
  · refine no_iv_bind _ _ ?_ ?_
    · unfold rta_devirtualize_entry_points
      refine no_iv_foldlM _ (fun _ => True) _ ?_ (fun _ _ _ _ _ _ => trivial) _ trivial
      intro s x _ _
      refine no_iv_bind _ _ (no_iv_assert _) ?_
      intro _ _
      refine no_iv_bind _ _ (no_iv_assert_pre _) ?_
      intro _ _
      exact no_iv_pure _
    · intro env0 h0
      exact (rta_devirtualize_loop_safe p entry_points env hwf hA fuel2 (p, env0)
        (hstart env0 h0)).1
  · intro st hst
    simp only [bind_ok] at hst
    obtain ⟨env0, h0, h1⟩ := hst
    obtain ⟨r1, r2, _, r4⟩ := (rta_devirtualize_loop_safe p entry_points env hwf hA fuel2
      (p, env0) (hstart env0 h0)).2 st h1
    intro M hM
    refine ⟨r4 M hM, ?_⟩
    intro g hg n hn e he
    rw [ir_refines_irg r1] at hg
    rw [ir_refines_walk r1] at hn
    rw [r2]
    exact ((hA.2 M (r4 M hM)).1 g hg n hn).2 e (ir_refines_dynamic r1 g n e he)

theorem devirtualizer_lookup_safe_witness :
    ir_wf two_class_prog
      ∧ rta_run 3 3 two_class_prog [0] none = .ok two_class_result
      ∧ rta_devirtualize_calls 3 two_class_prog [0] two_class_result.dyncall_targets
          ≠ .error .InvariantViolated :=
  ⟨ir_wf_of_check _ rfl, rfl,
    (devirtualizer_lookup_safe 3 3 3 two_class_prog [0] none two_class_result
      (ir_wf_of_check _ rfl) rfl).1⟩

theorem devirtualize_idempotent_witness :
    ir_wf two_class_prog
      ∧ rta_devirtualize_calls 3 two_class_prog [0] [(1, [2])]
          = .ok (two_class_rewritten,
              { workqueue := [], done_set := [0, 2], dyncall_targets := [(1, [2])] })
      ∧ rta_devirtualize_calls 3 two_class_rewritten [0] [(1, [2])]
          = .ok (two_class_rewritten,
              { workqueue := [], done_set := [0], dyncall_targets := [(1, [2])] })
      ∧ (two_class_rewritten,
          ({ workqueue := [], done_set := [0], dyncall_targets := [(1, [2])] }
            : optimizer_env)).1
        = (two_class_rewritten,
          ({ workqueue := [], done_set := [0, 2], dyncall_targets := [(1, [2])] }
            : optimizer_env)).1 :=
  ⟨ir_wf_of_check _ rfl, rfl, rfl,
    devirtualize_idempotent 3 3 two_class_prog [0] [(1, [2])] _ _ (ir_wf_of_check _ rfl)
      rfl rfl⟩

theorem devirtualization_condition_witness :
    (get_irn two_class_prog 0 3 = .Call 2 false ∧ get_irn two_class_prog 0 2 = .Proj 1
      ∧ get_irn two_class_prog 0 1 = .MethodSel 0 1
      ∧ walk_callgraph_and_devirtualize 0 3
          (two_class_prog, { workqueue := [], done_set := [0], dyncall_targets := [(1, [2])] })
        = .ok (two_class_rewritten,
            { workqueue := [2], done_set := [0], dyncall_targets := [(1, [2])] }))
      ∧ get_irn two_class_rewritten 0 1 ≠ get_irn two_class_prog 0 1 :=
  ⟨⟨rfl, rfl, rfl, rfl⟩,
    (devirtualization_condition 0 3 2 1 0 1
      (two_class_prog, { workqueue := [], done_set := [0], dyncall_targets := [(1, [2])] })
      (two_class_rewritten, { workqueue := [2], done_set := [0], dyncall_targets := [(1, [2])] })
      [2] rfl rfl rfl rfl rfl).1.2 ⟨⟨2, rfl⟩, Or.inl rfl⟩⟩

theorem rewrite_result_witness :
    (get_irn two_class_prog 0 3 = .Call 2 false ∧ get_irn two_class_prog 0 2 = .Proj 1
      ∧ get_irn two_class_prog 0 1 = .MethodSel 0 1
      ∧ walk_callgraph_and_devirtualize 0 3
          (two_class_prog, { workqueue := [], done_set := [0], dyncall_targets := [(1, [2])] })
        = .ok (two_class_rewritten,
            { workqueue := [2], done_set := [0], dyncall_targets := [(1, [2])] })
      ∧ get_irn two_class_rewritten 0 1 ≠ get_irn two_class_prog 0 1)
      ∧ ∃ t a, [2] = [t] ∧ get_irn two_class_rewritten 0 1 = .Tuple [0, a]
          ∧ get_irn two_class_rewritten 0 a = .Address t :=
  ⟨⟨rfl, rfl, rfl, rfl, by decide⟩,
    rewrite_result 0 3 2 1 0 1
      (two_class_prog, { workqueue := [], done_set := [0], dyncall_targets := [(1, [2])] })
      (two_class_rewritten, { workqueue := [2], done_set := [0], dyncall_targets := [(1, [2])] })
      [2] rfl rfl rfl rfl rfl (by decide)⟩

/-! ### Extern and abstract classes in `live_classes` -/

theorem walk_callgraph_and_analyze_classes (depth : Nat) (p : ir_prog) (g : GraphId)
    (node : NodeId) (env env1 : analyzer_env)
    (h : walk_callgraph_and_analyze depth p g node env = .ok env1) :
    ∀ K ∈ env1.live_classes, K ∈ env.live_classes
      ∨ ( oo_get_class_is_extern p K = false ∧ oo_get_class_is_abstract p K = false) := by
  have frame : env1.live_classes = env.live_classes →
      ∀ K ∈ env1.live_classes, K ∈ env.live_classes
        ∨ ( oo_get_class_is_extern p K = false ∧ oo_get_class_is_abstract p K = false) :=
    fun f K hK => Or.inl (f ▸ hK)
  unfold walk_callgraph_and_analyze at h
  split at h
  · split at h
    · exact frame (live_enqueue_frame _ _ _ _ h).1
    · rw [pure_ok] at h
      exact frame (h ▸ rfl)
  · split at h
    · exact frame (analyzer_handle_static_call_frame _ _ _ _ _ _ h).1
    · split at h
      · split at h
        · exact frame (analyzer_handle_static_call_frame _ _ _ _ _ _ h).1
        · apply frame
          unfold analyzer_handle_dynamic_call at h
          simp only [bind_ok, exists_assert_ok] at h
          obtain ⟨_, h⟩ := h
          split at h
          · rw [pure_ok] at h
            exact h ▸ rfl
          · simp only [bind_ok, pure_ok] at h
            obtain ⟨res, h1, rfl⟩ := h
            exact (collect_methods_ext _ _ _ _ _ _ h1).classes_eq
      · rw [pure_ok] at h
        exact frame (h ▸ rfl)
    · rw [pure_ok] at h
      exact frame (h ▸ rfl)
  · rename_i klass _
    by_cases hcond : klass ∉ env.live_classes ∧ (! oo_get_class_is_extern p klass) = true
        ∧ (!oo_get_class_is_abstract p klass) = true
    · obtain ⟨k1, _⟩ := add_new_live_class_effect depth p klass env env1 h hcond
      intro K hK
      rw [k1] at hK
      rcases (mem_cpset_insert _ _ _).1 hK with h1 | h1
      · exact Or.inl h1
      · subst h1
        refine Or.inr ⟨?_, ?_⟩
        · simpa using hcond.2.1
        · simpa using hcond.2.2
    · unfold add_new_live_class at h
      rw [if_neg hcond, pure_ok] at h
      exact frame (h ▸ rfl)
  · rw [pure_ok] at h
    exact frame (h ▸ rfl)

/-- Every class of the final `live_classes` is one of the initial live classes
or is neither extern nor abstract. -/
theorem live_classes_initial_or_concrete (fuel depth : Nat) (p : ir_prog)
    (entry_points : List EntId) (initial_live_classes : Option (List ClassId))
    (env : analyzer_env)
    (h : rta_run fuel depth p entry_points initial_live_classes = .ok env) :
    ∀ K ∈ env.live_classes, K ∈ initial_live_classes.getD []
      ∨ ( oo_get_class_is_extern p K = false ∧ oo_get_class_is_abstract p K = false) := by
  unfold rta_run at h
  simp only [bind_ok] at h
  obtain ⟨env1, h1, env2, h2, h3⟩ := h
  have hstart : ∀ K ∈ env2.live_classes, K ∈ initial_live_classes.getD [] := by
    unfold rta_run_entry_points at h1
    simp only [bind_ok, exists_assert_ok, pure_ok] at h1
    obtain ⟨env0, h0, _, rfl⟩ := h1
    have d0 := foldlM_inv _ (fun t => t.live_classes = []) entry_points
      (fun s x s1 _ hs hf => by
        simp only [bind_ok, exists_assert_ok, pure_ok] at hf
        obtain ⟨_, _, rfl⟩ := hf
        exact hs) analyzer_env_init env0 rfl h0
    unfold rta_run_initial_live_classes at h2
    split at h2
    · rw [pure_ok] at h2
      subst h2
      intro K hK
      rw [d0] at hK
      simp at hK
    · rename_i classes
      refine foldlM_inv _ (fun t => ∀ K ∈ t.live_classes, K ∈ classes) classes ?_ env0 env2
        (fun K hK => by rw [d0] at hK; simp at hK) h2
      intro s x s1 hx hs hf K hK
      rw [(cfes_frame _ _ _ _ _ hf).1] at hK
      rcases (mem_cpset_insert _ _ _).1 hK with h4 | h4
      · exact hs K h4
      · exact h4 ▸ hx
  refine (rta_run_loop_inv depth p
    (fun t => ∀ K ∈ t.live_classes, K ∈ initial_live_classes.getD []
      ∨ ( oo_get_class_is_extern p K = false ∧ oo_get_class_is_abstract p K = false))
    ?_ fuel env2 env h3 (fun K hK => Or.inl (hstart K hK))).1
  intro s entity rest s1 hI _ hf
  unfold rta_run_iteration at hf
  simp only [bind_ok, exists_assert_ok] at hf
  obtain ⟨_, hf⟩ := hf
  split at hf
  · rw [pure_ok] at hf
    subst hf
    exact hI
  · split at hf
    · intro K hK
      rw [(analyzer_handle_no_graph_frame _ _ _ _ hf).1] at hK
      exact hI K hK
    · unfold analyzer_walk_graph at hf
      exact foldlM_inv _
        (fun t => ∀ K ∈ t.live_classes, K ∈ initial_live_classes.getD []
          ∨ ( oo_get_class_is_extern p K = false ∧ oo_get_class_is_abstract p K = false)) _
        (fun t x t1 _ ht hx K hK =>
          (walk_callgraph_and_analyze_classes depth p _ x t t1 hx K hK).elim (ht K) Or.inr)
        _ s1 hI hf

/-- C3, the code at the failing input: with an extern class and an abstract
class among the initial live classes, `rta_run` returns a `live_classes` that
contains both. -/
theorem initial_live_classes_not_excluded :
    (rta_run 1 1 initial_classes_prog [0] (some [0, 1])).map (fun env => env.live_classes)
        = .ok [0, 1]
      ∧ oo_get_class_is_extern initial_classes_prog 0 = true
      ∧ oo_get_class_is_abstract initial_classes_prog 1 = true :=
  ⟨rfl, rfl, rfl⟩

/-! ### The devirtualizer leaves the analysis result alone -/

theorem optimizer_walk_graph_frame (g : GraphId) (st st1 : ir_prog × optimizer_env)
    (h : optimizer_walk_graph g st = .ok st1) :
    ir_refines st.1 st1.1 ∧ st1.2.dyncall_targets = st.2.dyncall_targets := by
  unfold optimizer_walk_graph at h
  refine foldlM_inv _
    (fun s => ir_refines st.1 s.1 ∧ s.2.dyncall_targets = st.2.dyncall_targets) _ ?_
    st st1 ⟨ir_refines_refl _, rfl⟩ h
  intro s x s1 _ hI hf
  obtain ⟨r, e, _⟩ := walk_callgraph_and_devirtualize_spec g x s s1 hf
  exact ⟨ir_refines_trans hI.1 r, e.targets.trans hI.2⟩

theorem rta_devirtualize_iteration_frame (entity : EntId) (st st1 : ir_prog × optimizer_env)
    (h : rta_devirtualize_iteration entity st = .ok st1) :
    ir_refines st.1 st1.1 ∧ st1.2.dyncall_targets = st.2.dyncall_targets := by
  unfold rta_devirtualize_iteration at h
  simp only [bind_ok, exists_assert_ok] at h
  obtain ⟨_, h⟩ := h
  split at h
  · rw [pure_ok] at h
    subst h
    exact ⟨ir_refines_refl _, rfl⟩
  · split at h
    · simp only [bind_ok, pure_ok] at h
      obtain ⟨env2, h1, rfl⟩ := h
      exact ⟨ir_refines_refl _, (optimizer_handle_no_graph_spec _ _ _ _ h1).1.targets⟩
    · have k := optimizer_walk_graph_frame _ _ _ h
      exact k

/-- C12 (frame effect of the devirtualizer): for every input on which
`rta_devirtualize_calls` returns, the map `dyncall_targets` of its state is the
map it was given (same keys, same target sets), and the program differs from
the input program only in nodes: entities, types, the detection callback, and
the entity and walk order of every graph are the same, and every node is the
old node, a `Tuple` in the place of a `MethodSel`, or a new `Address`. -/
theorem devirtualizer_keeps_analysis_state (fuel : Nat) (p : ir_prog)
    (entry_points : List EntId) (dt : cpmap cpset) (st : ir_prog × optimizer_env)
    (h : rta_devirtualize_calls fuel p entry_points dt = .ok st) :
    st.2.dyncall_targets = dt ∧ ir_refines p st.1 := by
  unfold rta_devirtualize_calls at h
  simp only [bind_ok] at h
  obtain ⟨env0, h0, h1⟩ := h
  obtain ⟨_, t0, _, _⟩ := rta_devirtualize_entry_points_spec _ _ _ _ h0
  have k := rta_devirtualize_loop_inv
    (fun s => s.2.dyncall_targets = dt ∧ ir_refines p s.1) ?_ fuel (p, env0) st h1
    ⟨t0, ir_refines_refl _⟩
  · exact k.1
  · intro s entity rest s1 hI _ hf
    obtain ⟨r, e⟩ := rta_devirtualize_iteration_frame _ _ _ hf
    exact ⟨e.trans hI.1, ir_refines_trans hI.2 r⟩

theorem devirtualizer_keeps_analysis_state_witness :
    rta_devirtualize_calls 5 two_class_prog [0] [(1, [2])]
        = .ok (two_class_rewritten, (⟨[], [0, 2], [(1, [2])]⟩ : optimizer_env))
      ∧ ([(1, [2])] : cpmap cpset) = [(1, [2])]
      ∧ ir_refines two_class_prog two_class_rewritten :=
  ⟨rfl, devirtualizer_keeps_analysis_state 5 two_class_prog [0] [(1, [2])]
    (two_class_rewritten, (⟨[], [0, 2], [(1, [2])]⟩ : optimizer_env)) rfl⟩

/-! ### `add_new_live_class` on a class that is live, extern or abstract -/

/-- C17 (no-op cases of `add_new_live_class`): when the class is already in
`live_classes`, or is extern, or is abstract, `add_new_live_class` returns the
state it was given, so `live_classes`, `live_methods`, `dyncall_targets`,
`unused_targets` and the work queue are unchanged. -/
theorem add_new_live_class_noop (depth : Nat) (p : ir_prog) (klass : ClassId)
    (env : analyzer_env)
    (h : klass ∈ env.live_classes ∨ oo_get_class_is_extern p klass = true
      ∨ oo_get_class_is_abstract p klass = true) :
    add_new_live_class depth p klass env = .ok env := by
  unfold add_new_live_class
  rw [if_neg]
  · rfl
  · rintro ⟨a, b, c⟩
    rcases h with h | h | h
    · exact a h
    · simp [h] at b
    · simp [h] at c

theorem add_new_live_class_noop_witness :
    ( oo_get_class_is_extern initial_classes_prog 0 = true
        ∧ add_new_live_class 0 initial_classes_prog 0 analyzer_env_init = .ok analyzer_env_init)
      ∧ (oo_get_class_is_abstract initial_classes_prog 1 = true
        ∧ add_new_live_class 0 initial_classes_prog 1 analyzer_env_init = .ok analyzer_env_init)
      ∧ ((1 : Nat) ∈ two_class_result.live_classes
        ∧ add_new_live_class 0 two_class_prog 1 two_class_result = .ok two_class_result) :=
  ⟨⟨rfl, add_new_live_class_noop 0 initial_classes_prog 0 analyzer_env_init (Or.inr (Or.inl rfl))⟩,
   ⟨rfl, add_new_live_class_noop 0 initial_classes_prog 1 analyzer_env_init (Or.inr (Or.inr rfl))⟩,
   ⟨by decide, add_new_live_class_noop 0 two_class_prog 1 two_class_result (Or.inl (by decide))⟩⟩

/-! ### The entry points of `rta_run` -/

theorem bind_error {α β : Type} (e : Err) (f : α → Except Err β) :
    ((Except.error e : Except Err α) >>= f) = .error e := rfl

theorem bind_ok_eq {α β : Type} (a : α) (f : α → Except Err β) :
    ((Except.ok a : Except Err α) >>= f) = f a := rfl

theorem bind_error_of {α β : Type} (x : Except Err α) (f : α → Except Err β) (e : Err)
    (h : (x >>= f) = .error e) (hf : ∀ a, f a ≠ .error e) : x = .error e := by
  cases x with
  | error e1 =>
    have h1 : (Except.error e1 : Except Err β) = .error e := h
    cases h1
    rfl
  | ok a => exact absurd h (hf a)

theorem assert_true (e : Err) : assert e true = .ok () := rfl

theorem assert_false (e : Err) : assert e false = .error e := rfl

/-- The loop over the entry points fails on an entry point without graph. -/
theorem entry_points_loop_no_graph (p : ir_prog) :
    ∀ (l : List EntId) (env : analyzer_env),
      (∀ e ∈ l, is_method_entity p e = true) →
      (∃ e ∈ l, get_entity_irg p e = none) →
      l.foldlM
        (fun (env : analyzer_env) (entity : EntId) => do
          assert .AssertionFailed (is_method_entity p entity)
          let env1 := { env with live_methods := cpset_insert env.live_methods entity }
          assert .PreconditionViolated (get_entity_irg p entity).isSome
          pure { env1 with workqueue := env1.workqueue ++ [entity] })
        env = .error .PreconditionViolated
  | [], _, _, h => by
    obtain ⟨e, he, _⟩ := h
    cases he
  | x :: l, env, hm, h => by
    have hx : is_method_entity p x = true := hm x (List.mem_cons_self _ _)
    rw [List.foldlM_cons, hx, assert_true, bind_ok_eq]
    cases hg : get_entity_irg p x with
    | none => rfl
    | some g =>
      simp only [Option.isSome_some, assert_true, bind_ok_eq]
      refine entry_points_loop_no_graph p l _
        (fun e he => hm e (List.mem_cons_of_mem _ he)) ?_
      obtain ⟨e, he, hn⟩ := h
      rcases List.mem_cons.1 he with rfl | he
      · rw [hg] at hn
        cases hn
      · exact ⟨e, he, hn⟩

/-- The loop over the entry points fails when an entry point has no graph, whatever
the other entry points are. -/
theorem entry_points_loop_fails (p : ir_prog) :
    ∀ (l : List EntId) (env : analyzer_env),
      (∃ e ∈ l, get_entity_irg p e = none) →
      l.foldlM
          (fun (env : analyzer_env) (entity : EntId) => do
            assert .AssertionFailed (is_method_entity p entity)
            let env1 := { env with live_methods := cpset_insert env.live_methods entity }
            assert .PreconditionViolated (get_entity_irg p entity).isSome
            pure { env1 with workqueue := env1.workqueue ++ [entity] })
          env = .error .PreconditionViolated
        ∨ l.foldlM
          (fun (env : analyzer_env) (entity : EntId) => do
            assert .AssertionFailed (is_method_entity p entity)
            let env1 := { env with live_methods := cpset_insert env.live_methods entity }
            assert .PreconditionViolated (get_entity_irg p entity).isSome
            pure { env1 with workqueue := env1.workqueue ++ [entity] })
          env = .error .AssertionFailed
  | [], _, h => by
    obtain ⟨e, he, _⟩ := h
    cases he
  | x :: l, env, h => by
    rw [List.foldlM_cons]
    cases hx : is_method_entity p x with
    | false => exact Or.inr rfl
    | true =>
      rw [assert_true, bind_ok_eq]
      cases hg : get_entity_irg p x with
      | none => exact Or.inl rfl
      | some g =>
        simp only [Option.isSome_some, assert_true, bind_ok_eq]
        refine entry_points_loop_fails p l _ ?_
        obtain ⟨e, he, hn⟩ := h
        rcases List.mem_cons.1 he with rfl | he
        · rw [hg] at hn
          cases hn
        · exact ⟨e, he, hn⟩

/-- The loop over entry points that all have graphs returns, or stops at an
entry point that is no method entity. -/
theorem entry_points_loop_graphs (p : ir_prog) :
    ∀ (l : List EntId) (env : analyzer_env),
      (∀ e ∈ l, (get_entity_irg p e).isSome = true) →
      l.foldlM
          (fun (env : analyzer_env) (entity : EntId) => do
            assert .AssertionFailed (is_method_entity p entity)
            let env1 := { env with live_methods := cpset_insert env.live_methods entity }
            assert .PreconditionViolated (get_entity_irg p entity).isSome
            pure { env1 with workqueue := env1.workqueue ++ [entity] })
          env ≠ .error .PreconditionViolated
        ∧ ((∀ e ∈ l, is_method_entity p e = true) →
          ∃ env1, l.foldlM
            (fun (env : analyzer_env) (entity : EntId) => do
              assert .AssertionFailed (is_method_entity p entity)
              let env1 := { env with live_methods := cpset_insert env.live_methods entity }
              assert .PreconditionViolated (get_entity_irg p entity).isSome
              pure { env1 with workqueue := env1.workqueue ++ [entity] })
            env = .ok env1)
  | [], env, _ => ⟨fun h => (by cases h), fun _ => ⟨env, rfl⟩⟩
  | x :: l, env, hg => by
    have hgx : (get_entity_irg p x).isSome = true := hg x (List.mem_cons_self _ _)
    rw [List.foldlM_cons, hgx, assert_true]
    cases hx : is_method_entity p x with
    | false =>
      refine ⟨fun h => (by cases h), fun hm => ?_⟩
      have := hm x (List.mem_cons_self _ _)
      rw [hx] at this
      cases this
    | true =>
      simp only [assert_true, bind_ok_eq]
      have ih := entry_points_loop_graphs p l
        { workqueue := env.workqueue ++ [x], done_set := env.done_set,
          live_classes := env.live_classes, live_methods := cpset_insert env.live_methods x,
          dyncall_targets := env.dyncall_targets, unused_targets := env.unused_targets }
        (fun e he => hg e (List.mem_cons_of_mem _ he))
      exact ⟨ih.1, fun hm => ih.2 (fun e he => hm e (List.mem_cons_of_mem _ he))⟩

/-- C16 (entry-point preconditions): `rta_run` fails with the fatal precondition
violation when the list of entry points is empty, and when the entry points
are method entities of which one has no graph (for entry points of any kind
of which one has no graph it fails with that violation or with the failed
assertion that an entry point is a method entity); for a non-empty list of entry
points that all have graphs the loop over the entry points does not end in a
precondition violation, and for method entities it returns and `rta_run`
continues with the initial live classes and the work queue. -/
theorem entry_point_preconditions (fuel depth : Nat) (p : ir_prog) (entry_points : List EntId)
    (initial_live_classes : Option (List ClassId)) :
    (entry_points = [] →
        rta_run fuel depth p entry_points initial_live_classes = .error .PreconditionViolated)
      ∧ ((∀ e ∈ entry_points, is_method_entity p e = true) →
          (∃ e ∈ entry_points, get_entity_irg p e = none) →
          rta_run fuel depth p entry_points initial_live_classes
            = .error .PreconditionViolated)
      ∧ ((∃ e ∈ entry_points, get_entity_irg p e = none) →
          rta_run fuel depth p entry_points initial_live_classes
              = .error .PreconditionViolated
            ∨ rta_run fuel depth p entry_points initial_live_classes
              = .error .AssertionFailed)
      ∧ (entry_points ≠ [] → (∀ e ∈ entry_points, (get_entity_irg p e).isSome = true) →
          rta_run_entry_points p entry_points analyzer_env_init ≠ .error .PreconditionViolated
            ∧ ((∀ e ∈ entry_points, is_method_entity p e = true) →
              ∃ env1, rta_run_entry_points p entry_points analyzer_env_init = .ok env1
                ∧ rta_run fuel depth p entry_points initial_live_classes
                  = (rta_run_initial_live_classes depth p initial_live_classes env1
                      >>= rta_run_loop depth p fuel))) := by
  refine ⟨?_, ?_, ?_, ?_⟩
  · rintro rfl
    rfl
  · intro hm hn
    unfold rta_run rta_run_entry_points
    rw [entry_points_loop_no_graph p entry_points _ hm hn]
    rfl
  · intro hn
    unfold rta_run rta_run_entry_points
    rcases entry_points_loop_fails p entry_points analyzer_env_init hn with h | h
    · rw [h]
      exact Or.inl rfl
    · rw [h]
      exact Or.inr rfl
  · intro hne hg
    have hlen : decide (0 < entry_points.length) = true :=
      decide_eq_true (List.length_pos.2 hne)
    have k := entry_points_loop_graphs p entry_points analyzer_env_init hg
    constructor
    · unfold rta_run_entry_points
      rw [hlen, assert_true]
      intro h
      refine k.1 (bind_error_of _ _ _ h ?_)
      intro a h2
      cases h2
    · intro hm
      obtain ⟨env1, h1⟩ := k.2 hm
      refine ⟨env1, ?_, ?_⟩
      · unfold rta_run_entry_points
        rw [h1, hlen, assert_true]
        rfl
      · unfold rta_run rta_run_entry_points
        rw [h1, hlen, assert_true]
        rfl

theorem entry_point_preconditions_witness :
    (rta_run 5 5 two_class_prog [] none = .error .PreconditionViolated)
      ∧ (get_entity_irg redirect_prog 1 = none
        ∧ rta_run 5 5 redirect_prog [0, 1] none = .error .PreconditionViolated)
      ∧ (rta_run 5 5 initial_classes_prog [0] none = .ok
          { workqueue := [], done_set := [0], live_classes := [], live_methods := [0],
            dyncall_targets := [], unused_targets := [] }) := by
  have k := entry_point_preconditions 5 5 two_class_prog [] none
  have k1 := entry_point_preconditions 5 5 redirect_prog [0, 1] none
  have k2 := entry_point_preconditions 5 5 initial_classes_prog [0] none
  refine ⟨k.1 rfl, ⟨rfl, k1.2.1 (by decide) ⟨1, by decide, rfl⟩⟩, ?_⟩
  obtain ⟨env1, h1, h2⟩ := (k2.2.2.2 (by decide) (by decide)).2 (by decide)
  rw [h2]
  cases h1
  rfl

/-! ### Methods without graph: the redirection by linker name -/

theorem find_entity_by_ldname_first (p : ir_prog) (ld : Ident) (pre post : List ir_graph)
    (gr : ir_graph) (hs : p.irgs = pre ++ gr :: post)
    (hpre : ∀ g1 ∈ pre, get_entity_ld_ident p g1.entity ≠ ld)
    (hgr : get_entity_ld_ident p gr.entity = ld) :
    find_entity_by_ldname p ld = some gr.entity := by
  unfold find_entity_by_ldname
  have h : p.irgs.find? (fun graph => get_entity_ld_ident p graph.entity == ld) = some gr := by
    rw [List.find?_eq_some]
    refine ⟨by simp [hgr], pre, post, hs, ?_⟩
    intro a ha
    simp [hpre a ha]
  rw [h]
  rfl

theorem find_entity_by_ldname_none (p : ir_prog) (ld : Ident)
    (h : ∀ gr ∈ p.irgs, get_entity_ld_ident p gr.entity ≠ ld) :
    find_entity_by_ldname p ld = none := by
  unfold find_entity_by_ldname
  have h1 : p.irgs.find? (fun graph => get_entity_ld_ident p graph.entity == ld) = none := by
    rw [List.find?_eq_none]
    intro x hx
    simp [h x hx]
  rw [h1]
  rfl

theorem get_ldname_redirect_eq (p : ir_prog) (e : EntId)
    (hm : is_method_entity p e = true) (hg : get_entity_irg p e = none) :
    get_ldname_redirect p e
      = .ok (if get_entity_ident p e ≠ get_entity_ld_ident p e
          then find_entity_by_ldname p (get_entity_ld_ident p e) else none) := by
  unfold get_ldname_redirect
  rw [hm, hg, Option.isNone_none, assert_true, bind_ok_eq, bind_ok_eq]
  split <;> rfl

theorem analyzer_handle_no_graph_eq (p : ir_prog) (e : EntId) (env : analyzer_env)
    (hm : is_method_entity p e = true) (hg : get_entity_irg p e = none) :
    analyzer_handle_no_graph p e env
      = match (if get_entity_ident p e ≠ get_entity_ld_ident p e
          then find_entity_by_ldname p (get_entity_ld_ident p e) else none) with
        | some target =>
          add_to_workqueue p target
            { env with live_methods := cpset_insert env.live_methods target }
        | none => pure env := by
  unfold analyzer_handle_no_graph
  rw [get_ldname_redirect_eq p e hm hg, hm, hg, Option.isNone_none, assert_true]
  rfl

theorem live_enqueue_handed (p : ir_prog) (e : EntId) (env env1 : analyzer_env)
    (h : add_to_workqueue p e { env with live_methods := cpset_insert env.live_methods e }
      = .ok env1) : handed_over env1 e := by
  rw [add_to_workqueue_ok] at h
  obtain ⟨_, rfl⟩ := h
  by_cases hd : e ∈ env.done_set
  · rw [if_pos hd]
    exact ⟨cpset_insert_self _ _, Or.inl hd⟩
  · rw [if_neg hd]
    exact ⟨cpset_insert_self _ _, Or.inr (List.mem_append_right _ (List.mem_singleton_self _))⟩

theorem live_enqueue_total (p : ir_prog) (e : EntId) (env : analyzer_env)
    (hm : is_method_entity p e = true) :
    ∃ env1, add_to_workqueue p e { env with live_methods := cpset_insert env.live_methods e }
      = .ok env1 :=
  ⟨_, (add_to_workqueue_ok _ _ _ _).2 ⟨hm, rfl⟩⟩

theorem handed_over_ext {a b : analyzer_env} (h : env_ext a b) (e : EntId)
    (he : handed_over a e) : handed_over b e := by
  refine ⟨h.methods he.1, ?_⟩
  rcases he.2 with h1 | h1
  · exact Or.inl (h.done ▸ h1)
  · exact Or.inr (h.queue h1)

/-- C20 (redirection by linker name): for a method entity `e` without graph,
if its name differs from its linker name and `gr` is the first graph of the
program whose entity has the linker name of `e`, then after
`analyzer_handle_no_graph` the entity of `gr` is in `live_methods` and has been
handed to the work queue (and the call returns when that entity is a method
entity); if the names are equal or no graph entity has that linker name,
`analyzer_handle_no_graph` returns the state it was given. -/
theorem ldname_redirect_rule (p : ir_prog) (e : EntId) (env : analyzer_env)
    (hm : is_method_entity p e = true) (hg : get_entity_irg p e = none) :
    (∀ pre gr post, get_entity_ident p e ≠ get_entity_ld_ident p e →
        p.irgs = pre ++ gr :: post →
        (∀ g1 ∈ pre, get_entity_ld_ident p g1.entity ≠ get_entity_ld_ident p e) →
        get_entity_ld_ident p gr.entity = get_entity_ld_ident p e →
        (∀ env1, analyzer_handle_no_graph p e env = .ok env1 →
            gr.entity ∈ env1.live_methods
              ∧ (gr.entity ∈ env1.done_set ∨ gr.entity ∈ env1.workqueue))
          ∧ (is_method_entity p gr.entity = true →
            ∃ env1, analyzer_handle_no_graph p e env = .ok env1))
      ∧ ((get_entity_ident p e = get_entity_ld_ident p e
            ∨ ∀ gr ∈ p.irgs, get_entity_ld_ident p gr.entity ≠ get_entity_ld_ident p e) →
          analyzer_handle_no_graph p e env = .ok env) := by
  constructor
  · intro pre gr post hne hs hpre hgr
    have hf := find_entity_by_ldname_first p _ pre post gr hs hpre hgr
    have heq := analyzer_handle_no_graph_eq p e env hm hg
    rw [if_pos hne, hf] at heq
    constructor
    · intro env1 h
      rw [heq] at h
      exact live_enqueue_handed _ _ _ _ h
    · intro hmt
      rw [heq]
      exact live_enqueue_total p gr.entity env hmt
  · intro h
    rw [analyzer_handle_no_graph_eq p e env hm hg]
    rcases h with h | h
    · rw [if_neg (not_not.2 h)]
      rfl
    · rw [find_entity_by_ldname_none p _ h, ite_self]
      rfl

theorem ldname_redirect_rule_witness :
    (∃ env1, analyzer_handle_no_graph redirect_prog 1 analyzer_env_init = .ok env1
        ∧ (2 : Nat) ∈ env1.live_methods ∧ (2 : Nat) ∈ env1.workqueue)
      ∧ analyzer_handle_no_graph detect_prog 3 analyzer_env_init = .ok analyzer_env_init := by
  have k := ldname_redirect_rule redirect_prog 1 analyzer_env_init rfl rfl
  have k3 := ldname_redirect_rule detect_prog 3 analyzer_env_init rfl rfl
  refine ⟨?_, k3.2 (Or.inl rfl)⟩
  obtain ⟨k1, k2⟩ := k.1 [{ entity := 0, nodes := [.Address 1, .Call 0 false], walk := [0, 1] }]
    { entity := 2, nodes := [], walk := [] } [] (by decide) rfl (by decide) rfl
  obtain ⟨env1, h1⟩ := k2 rfl
  refine ⟨env1, h1, (k1 env1 h1).1, ?_⟩
  cases h1
  decide

/-! ### The detection callback on static calls -/

/-- On a static call the analyzer callback is `analyzer_handle_static_call`. -/
theorem walk_callgraph_and_analyze_static (depth : Nat) (p : ir_prog) (g : GraphId)
    (n : NodeId) (e : EntId) (env : analyzer_env) (h : is_static_call p g n e) :
    walk_callgraph_and_analyze depth p g n env = analyzer_handle_static_call p g n e env := by
  obtain ⟨callee, sb, hn, hc⟩ := h
  unfold walk_callgraph_and_analyze
  rw [hn]
  rcases hc with hc | ⟨rfl, pred, mem, hc, hp⟩
  · simp only [hc]
  · simp only [hc, hp, if_true]

/-- The static call of a method with a graph does not consult the callback. -/
theorem analyzer_handle_static_call_graph (p : ir_prog) (g : GraphId) (call : NodeId)
    (e : EntId) (gr : GraphId) (env : analyzer_env) (hg : get_entity_irg p e = some gr) :
    analyzer_handle_static_call p g call e env
      = (assert .AssertionFailed (is_method_entity p e) >>= fun _ =>
          add_to_workqueue p e { env with live_methods := cpset_insert env.live_methods e }) := by
  unfold analyzer_handle_static_call
  simp only [hg]
  cases is_method_entity p e with
  | false => rfl
  | true =>
    rw [assert_true, bind_ok_eq, bind_ok_eq]
    cases add_to_workqueue p e { env with live_methods := cpset_insert env.live_methods e } with
    | error _ => rfl
    | ok _ => rfl

/-- C19 (the detection callback on static calls, as the code has it): for a
static call node on entity `e` that the analyzer handles, if `e` has no graph
and the installed callback returns the method entity `h` for the node, then
`h` is in `live_methods` and has been handed to the work queue; if `e` has a
graph the callback is not consulted: the callback installed makes no
difference to the state the analyzer returns, which is the state after `e` alone
has been made live and handed to the work queue. -/
theorem detect_call_on_static_calls (depth : Nat) (p : ir_prog) (g : GraphId) (n : NodeId)
    (e : EntId) (env : analyzer_env) (hs : is_static_call p g n e) :
    (get_entity_irg p e = none →
        ∀ h env1, p.detect_call g n = some h →
          walk_callgraph_and_analyze depth p g n env = .ok env1 →
            h ∈ env1.live_methods ∧ (h ∈ env1.done_set ∨ h ∈ env1.workqueue))
      ∧ (∀ gr, get_entity_irg p e = some gr →
          (∀ cb, walk_callgraph_and_analyze depth (rta_set_detection_callbacks p cb) g n env
              = walk_callgraph_and_analyze depth p g n env)
            ∧ walk_callgraph_and_analyze depth p g n env
              = (assert .AssertionFailed (is_method_entity p e) >>= fun _ =>
                  add_to_workqueue p e
                    { env with live_methods := cpset_insert env.live_methods e })) := by
  constructor
  · intro hg h env1 hd hw
    rw [walk_callgraph_and_analyze_static depth p g n e env hs] at hw
    unfold analyzer_handle_static_call at hw
    simp only [bind_ok, exists_assert_ok, hg, hd] at hw
    obtain ⟨_, env2, _, _, h2⟩ := hw
    exact live_enqueue_handed _ _ _ _ h2
  · intro gr hg
    constructor
    · intro cb
      have hs1 : is_static_call (rta_set_detection_callbacks p cb) g n e := hs
      rw [walk_callgraph_and_analyze_static depth p g n e env hs,
        walk_callgraph_and_analyze_static depth _ g n e env hs1,
        analyzer_handle_static_call_graph p g n e gr env hg,
        analyzer_handle_static_call_graph (rta_set_detection_callbacks p cb) g n e gr env hg]
      rfl
    · rw [walk_callgraph_and_analyze_static depth p g n e env hs,
        analyzer_handle_static_call_graph p g n e gr env hg]

theorem detect_call_on_static_calls_witness :
    (is_static_call detect_prog 0 3 3
      ∧ walk_callgraph_and_analyze 1 detect_prog 0 3 analyzer_env_init
          = .ok { analyzer_env_init with workqueue := [3, 4], live_methods := [3, 4] }
      ∧ (4 : Nat) ∈ ([3, 4] : List Nat))
    ∧ (is_static_call detect_prog 0 1 1
      ∧ walk_callgraph_and_analyze 1 (rta_set_detection_callbacks detect_prog default_detect_call)
            0 1 analyzer_env_init
          = walk_callgraph_and_analyze 1 detect_prog 0 1 analyzer_env_init) := by
  have s3 : is_static_call detect_prog 0 3 3 := ⟨2, false, rfl, Or.inl rfl⟩
  have s1 : is_static_call detect_prog 0 1 1 := ⟨0, false, rfl, Or.inl rfl⟩
  have k3 := detect_call_on_static_calls 1 detect_prog 0 3 3 analyzer_env_init s3
  have k1 := detect_call_on_static_calls 1 detect_prog 0 1 1 analyzer_env_init s1
  exact ⟨⟨s3, rfl, (k3.1 rfl 4 _ rfl rfl).1⟩, s1, (k1.2 1 rfl).1 default_detect_call⟩

/-- C19 as stated fails: the callee `f` of the static call at node 1 of `main` in
`detect_prog` has a graph and the callback reports `h` (entity 2) for the
node, but after the analyzer callback, and at the end of `rta_run`, `h` is
neither live nor queued nor done. -/
theorem detect_call_not_asked_with_graph :
    is_static_call detect_prog 0 1 1
      ∧ detect_prog.detect_call 0 1 = some 2
      ∧ is_method_entity detect_prog 2 = true
      ∧ get_entity_irg detect_prog 1 = some 1
      ∧ walk_callgraph_and_analyze 1 detect_prog 0 1 analyzer_env_init
          = .ok { analyzer_env_init with workqueue := [1], live_methods := [1] }
      ∧ (2 : Nat) ∉ ([1] : List Nat)
      ∧ rta_run 10 10 detect_prog [0] none
          = .ok { workqueue := [], done_set := [0, 1, 3, 4], live_classes := [],
                  live_methods := [0, 1, 3, 4], dyncall_targets := [], unused_targets := [] }
      ∧ (2 : Nat) ∉ ([0, 1, 3, 4] : List Nat) :=
  ⟨⟨0, false, rfl, Or.inl rfl⟩, rfl, rfl, rfl, rfl, by decide, rfl, by decide⟩

/-! ### A rewritten call site under the call classification -/

/-- On a `Call` node that is neither a static nor a dynamic call both walker
callbacks take the branch for other calls and change nothing. -/
theorem walk_other_call (p : ir_prog) (g : GraphId) (n c : NodeId) (sb : Bool)
    (hn : get_irn p g n = .Call c sb) (hs : ∀ e, ¬ is_static_call p g n e)
    (hd : ∀ e, ¬ is_dynamic_call p g n e) :
    (∀ depth env, walk_callgraph_and_analyze depth p g n env = .ok env)
      ∧ ∀ oenv, walk_callgraph_and_devirtualize g n (p, oenv) = .ok (p, oenv) := by
  have key : (∀ e, get_irn p g c ≠ .Address e)
      ∧ ∀ pred mem e, get_irn p g c = .Proj pred → get_irn p g pred ≠ .MethodSel mem e := by
    constructor
    · intro e he
      exact hs e ⟨c, sb, hn, Or.inl he⟩
    · intro pred mem e hc hp
      cases sb with
      | false => exact hd e ⟨c, pred, mem, hn, hc, hp⟩
      | true => exact hs e ⟨c, true, hn, Or.inr ⟨rfl, pred, mem, hc, hp⟩⟩
  constructor
  · intro depth env
    unfold walk_callgraph_and_analyze
    simp only [hn]
    cases hc : get_irn p g c with
    | Address e => exact absurd hc (key.1 e)
    | Proj pred =>
      dsimp only
      cases hp : get_irn p g pred with
      | MethodSel mem e => exact absurd hp (key.2 pred mem e hc)
      | _ => rfl
    | _ => rfl
  · intro oenv
    unfold walk_callgraph_and_devirtualize
    simp only [hn]
    cases hc : get_irn p g c with
    | Address e => exact absurd hc (key.1 e)
    | Proj pred =>
      dsimp only
      cases hp : get_irn p g pred with
      | MethodSel mem e => exact absurd hp (key.2 pred mem e hc)
      | _ => rfl
    | _ => rfl

/-- C11 (a rewritten call site under the call classification, as the code has
it): when the devirtualizer callback has rewritten the dynamic call at node
`n` (the call entity has a target set for which the rewrite condition holds),
node `n` is still a `Call` node, it is the static call of no entity and the
dynamic call of no entity, and a later run of either callback on it takes the
branch for other calls: `walk_callgraph_and_analyze` returns the analysis state
it was given and `walk_callgraph_and_devirtualize` returns the program and the
state it was given, so the target is not made live or queued by this node. -/
theorem rewritten_site_classification (g : GraphId) (n : NodeId) (e : EntId) (ts : cpset)
    (st st1 : ir_prog × optimizer_env)
    (hd : is_dynamic_call st.1 g n e)
    (hts : cpmap_find st.2.dyncall_targets e = some ts)
    (hc : devirtualize_condition st.1 e ts = true)
    (h : walk_callgraph_and_devirtualize g n st = .ok st1) :
    (∃ callee, get_irn st1.1 g n = .Call callee false)
      ∧ (∀ e1, ¬ is_static_call st1.1 g n e1)
      ∧ (∀ e1, ¬ is_dynamic_call st1.1 g n e1)
      ∧ (∀ depth env, walk_callgraph_and_analyze depth st1.1 g n env = .ok env)
      ∧ ∀ oenv, walk_callgraph_and_devirtualize g n (st1.1, oenv) = .ok (st1.1, oenv) := by
  obtain ⟨r, _, _, _, k, _⟩ := walk_callgraph_and_devirtualize_spec g n st st1 h
  obtain ⟨ts1, h1, _, k2⟩ := k e hd
  rw [hts] at h1
  cases h1
  have k3 := k2 hc
  obtain ⟨callee, pred, mem, hn, _, _⟩ := hd
  have hn1 : get_irn st1.1 g n = .Call callee false := by
    rcases r.nodes g n with h2 | ⟨⟨mem1, e1, h2⟩, _⟩ | ⟨h2, _⟩
    · rw [h2, hn]
    · rw [hn] at h2
      cases h2
    · have h3 := get_irn_out_of_range st.1 g n h2
      rw [hn] at h3
      cases h3
  have w := walk_other_call st1.1 g n callee false hn1 (fun e1 => (k3 e1).2)
    (fun e1 => (k3 e1).1)
  exact ⟨⟨callee, hn1⟩, fun e1 => (k3 e1).2, fun e1 => (k3 e1).1, w.1, w.2⟩

theorem rewritten_site_classification_witness :
    walk_callgraph_and_devirtualize 0 3 (two_class_prog, ⟨[], [0], [(1, [2])]⟩)
        = .ok (two_class_rewritten, ⟨[2], [0], [(1, [2])]⟩)
      ∧ walk_callgraph_and_analyze 5 two_class_rewritten 0 3 two_class_result
        = .ok two_class_result
      ∧ walk_callgraph_and_devirtualize 0 3 (two_class_rewritten, ⟨[], [0], [(1, [2])]⟩)
        = .ok (two_class_rewritten, ⟨[], [0], [(1, [2])]⟩) := by
  have k := rewritten_site_classification 0 3 1 [2] (two_class_prog, ⟨[], [0], [(1, [2])]⟩)
    (two_class_rewritten, ⟨[2], [0], [(1, [2])]⟩) ⟨2, 1, 0, rfl, rfl, rfl⟩ rfl rfl rfl
  exact ⟨rfl, k.2.2.2.1 5 two_class_result, k.2.2.2.2 ⟨[], [0], [(1, [2])]⟩⟩

/-- C11 as stated fails: the devirtualizer callback rewrites the dynamic call on
`A.m` at node 3 of `main` in `two_class_prog` into a call of `B.m` (entity 2);
on the rewritten program the callee of node 3 is a `Proj` of a `Tuple`, no
`Address`; the analyzer callback on node 3 leaves the empty analysis state
empty, so `B.m` is not made live or queued, and the devirtualizer callback
leaves its queue empty. -/
theorem rewritten_site_not_static :
    walk_callgraph_and_devirtualize 0 3 (two_class_prog, ⟨[], [0], [(1, [2])]⟩)
        = .ok (two_class_rewritten, ⟨[2], [0], [(1, [2])]⟩)
      ∧ get_irn two_class_rewritten 0 3 = .Call 2 false
      ∧ get_irn two_class_rewritten 0 2 = .Proj 1
      ∧ get_irn two_class_rewritten 0 1 = .Tuple [0, 5]
      ∧ get_irn two_class_rewritten 0 5 = .Address 2
      ∧ walk_callgraph_and_analyze 5 two_class_rewritten 0 3 analyzer_env_init
        = .ok analyzer_env_init
      ∧ (2 : Nat) ∉ analyzer_env_init.live_methods
      ∧ (2 : Nat) ∉ analyzer_env_init.workqueue
      ∧ walk_callgraph_and_devirtualize 0 3 (two_class_rewritten, ⟨[], [0], [(1, [2])]⟩)
        = .ok (two_class_rewritten, ⟨[], [0], [(1, [2])]⟩) :=
  ⟨rfl, rfl, rfl, rfl, rfl, rfl, by decide, by decide, rfl⟩

/-! ### The search for an inherited implementation -/

theorem fir_ascend_eq (depth : Nat) (p : ir_prog) (klass : ClassId) (call_entity : EntId)
    (current_result : Option EntId) :
    fir_ascend_into_superclasses_and_merge depth p klass call_entity current_result
      = (assert .AssertionFailed (is_method_entity p call_entity) >>= fun _ =>
          fir_merge_loop depth p call_entity (get_class_supertypes p klass) current_result) := by
  unfold fir_ascend_into_superclasses_and_merge fir_merge_loop
  rfl

theorem find_implementation_recursive_succ (depth : Nat) (p : ir_prog) (klass : ClassId)
    (call_entity : EntId) :
    find_implementation_recursive (depth + 1) p klass call_entity
      = (assert .AssertionFailed (is_method_entity p call_entity) >>= fun _ =>
          match get_class_member_by_name p klass (get_entity_ident p call_entity) with
          | some result =>
            if oo_get_method_is_abstract p result then pure none else pure (some result)
          | none =>
            fir_merge_loop depth p call_entity (get_class_supertypes p klass) none) := by
  rw [find_implementation_recursive]
  unfold fir_merge_loop
  rfl

theorem find_inherited_implementation_eq (depth : Nat) (p : ir_prog) (klass : ClassId)
    (call_entity : EntId) (hm : is_method_entity p call_entity = true)
    (ha : oo_get_method_is_abstract p call_entity = true) :
    find_inherited_implementation depth p klass call_entity
      = fir_merge_loop depth p call_entity (get_class_supertypes p klass) none := by
  unfold find_inherited_implementation
  rw [fir_ascend_eq, hm, ha, assert_true]
  rfl

theorem fir_merge_loop_cons (depth : Nat) (p : ir_prog) (c : EntId) (S : ClassId)
    (l : List ClassId) (cur : Option EntId) :
    fir_merge_loop depth p c (S :: l) cur
      = ((find_implementation_recursive depth p S c >>= fir_merge p cur)
          >>= fir_merge_loop depth p c l) := by
  unfold fir_merge_loop
  rw [List.foldlM_cons]

theorem fir_merge_loop_append (depth : Nat) (p : ir_prog) (c : EntId) (l1 l2 : List ClassId)
    (cur : Option EntId) :
    fir_merge_loop depth p c (l1 ++ l2) cur
      = (fir_merge_loop depth p c l1 cur >>= fir_merge_loop depth p c l2) := by
  unfold fir_merge_loop
  rw [List.foldlM_append]

theorem fir_merge_none (p : ir_prog) (cur : Option EntId) : fir_merge p cur none = .ok cur := by
  cases cur <;> rfl

/-- Supertypes without candidate leave the result of the merge loop alone. -/
theorem fir_merge_loop_skip (depth : Nat) (p : ir_prog) (c : EntId) :
    ∀ (l : List ClassId) (cur : Option EntId),
      (∀ S ∈ l, find_implementation_recursive depth p S c = .ok none) →
        fir_merge_loop depth p c l cur = .ok cur
  | [], _, _ => rfl
  | S :: l, cur, h => by
    rw [fir_merge_loop_cons, h S (List.mem_cons_self _ _), bind_ok_eq, fir_merge_none,
      bind_ok_eq]
    exact fir_merge_loop_skip depth p c l cur (fun S1 h1 => h S1 (List.mem_cons_of_mem _ h1))

/-- The merge of two candidates of the same provenance. -/
theorem fir_merge_same (p : ir_prog) (res r1 : EntId)
    (h : oo_get_class_is_interface p (get_entity_owner p res)
      = oo_get_class_is_interface p (get_entity_owner p r1)) :
    fir_merge p (some res) (some r1) = .error .AmbiguousImplementation := by
  unfold fir_merge
  simp only [h]
  cases oo_get_class_is_interface p (get_entity_owner p r1) <;> rfl

/-- The merge of a class candidate and an interface candidate, in either order. -/
theorem fir_merge_class (p : ir_prog) (a b : EntId)
    (ha : oo_get_class_is_interface p (get_entity_owner p a) = false)
    (hb : oo_get_class_is_interface p (get_entity_owner p b) = true) :
    fir_merge p (some a) (some b) = .ok (some a)
      ∧ fir_merge p (some b) (some a) = .ok (some a) := by
  unfold fir_merge
  simp only [ha, hb]
  exact ⟨rfl, rfl⟩

/-- The merge loop fails when a candidate meets one of the same provenance. -/
theorem fir_merge_loop_ambiguous (depth : Nat) (p : ir_prog) (c : EntId)
    (pre post : List ClassId) (S : ClassId) (res r1 : EntId)
    (hpre : fir_merge_loop depth p c pre none = .ok (some res))
    (hS : find_implementation_recursive depth p S c = .ok (some r1))
    (hprov : oo_get_class_is_interface p (get_entity_owner p res)
      = oo_get_class_is_interface p (get_entity_owner p r1)) :
    fir_merge_loop depth p c (pre ++ S :: post) none = .error .AmbiguousImplementation := by
  rw [fir_merge_loop_append, hpre, bind_ok_eq, fir_merge_loop_cons, hS, bind_ok_eq,
    fir_merge_same p res r1 hprov]
  rfl

/-- C13 (ambiguous implementation): for an abstract call entity `c` and a class
`K`, when the merge loop over the supertypes of `K` has the candidate `res`
after the supertypes `pre`, the next supertype `S` yields the candidate `r1`,
and the owners of `res` and `r1` are both interfaces or both no interfaces,
`find_inherited_implementation` fails with `AmbiguousImplementation`; so does
the search `find_implementation_recursive` in `K` when `K` has no member of the
name of `c`, which is how an ambiguity further up fails the search from below. -/
theorem ambiguous_implementation (depth : Nat) (p : ir_prog) (K : ClassId) (c : EntId)
    (pre post : List ClassId) (S : ClassId) (res r1 : EntId)
    (hm : is_method_entity p c = true) (ha : oo_get_method_is_abstract p c = true)
    (hs : get_class_supertypes p K = pre ++ S :: post)
    (hpre : fir_merge_loop depth p c pre none = .ok (some res))
    (hS : find_implementation_recursive depth p S c = .ok (some r1))
    (hprov : oo_get_class_is_interface p (get_entity_owner p res)
      = oo_get_class_is_interface p (get_entity_owner p r1)) :
    find_inherited_implementation depth p K c = .error .AmbiguousImplementation
      ∧ (get_class_member_by_name p K (get_entity_ident p c) = none →
          find_implementation_recursive (depth + 1) p K c
            = .error .AmbiguousImplementation) := by
  have k := fir_merge_loop_ambiguous depth p c pre post S res r1 hpre hS hprov
  constructor
  · rw [find_inherited_implementation_eq depth p K c hm ha, hs, k]
  · intro hnone
    rw [find_implementation_recursive_succ, hm, assert_true, bind_ok_eq, hnone, hs]
    exact k

theorem ambiguous_implementation_witness :
    find_inherited_implementation 5 ambiguous_prog 3 1 = .error .AmbiguousImplementation
      ∧ find_implementation_recursive 6 ambiguous_prog 3 1 = .error .AmbiguousImplementation
      ∧ rta_run 10 10 ambiguous_prog [0] none = .error .AmbiguousImplementation :=
  ⟨(ambiguous_implementation 5 ambiguous_prog 3 1 [0, 1] [] 2 2 3 rfl rfl rfl rfl rfl rfl).1,
   (ambiguous_implementation 5 ambiguous_prog 3 1 [0, 1] [] 2 2 3 rfl rfl rfl rfl rfl rfl).2 rfl,
   rfl⟩

/-- C14 (merge rule): for an abstract call entity `c` and a class `K`, when the
supertype `Sa` of `K` yields the candidate `a` whose owner is no interface,
another supertype `Sb` yields the candidate `b` whose owner is an interface,
and the other supertypes of `K` yield no candidate,
`find_inherited_implementation` returns `a`, whichever of `Sa` and `Sb` comes
first in the list of supertypes. -/
theorem class_beats_interface (depth : Nat) (p : ir_prog) (K : ClassId) (c : EntId)
    (l1 l2 l3 : List ClassId) (Sa Sb : ClassId) (a b : EntId)
    (hm : is_method_entity p c = true) (habs : oo_get_method_is_abstract p c = true)
    (hs : get_class_supertypes p K = l1 ++ Sa :: (l2 ++ Sb :: l3)
      ∨ get_class_supertypes p K = l1 ++ Sb :: (l2 ++ Sa :: l3))
    (hnone : ∀ S ∈ l1 ++ l2 ++ l3, find_implementation_recursive depth p S c = .ok none)
    (ha : find_implementation_recursive depth p Sa c = .ok (some a))
    (hb : find_implementation_recursive depth p Sb c = .ok (some b))
    (hai : oo_get_class_is_interface p (get_entity_owner p a) = false)
    (hbi : oo_get_class_is_interface p (get_entity_owner p b) = true) :
    find_inherited_implementation depth p K c = .ok (some a) := by
  have n1 : ∀ cur, fir_merge_loop depth p c l1 cur = .ok cur := fun cur =>
    fir_merge_loop_skip depth p c l1 cur (fun S h => hnone S (by simp [h]))
  have n2 : ∀ cur, fir_merge_loop depth p c l2 cur = .ok cur := fun cur =>
    fir_merge_loop_skip depth p c l2 cur (fun S h => hnone S (by simp [h]))
  have n3 : ∀ cur, fir_merge_loop depth p c l3 cur = .ok cur := fun cur =>
    fir_merge_loop_skip depth p c l3 cur (fun S h => hnone S (by simp [h]))
  have hmerge := fir_merge_class p a b hai hbi
  rw [find_inherited_implementation_eq depth p K c hm habs]
  rcases hs with hs | hs
  · rw [hs, fir_merge_loop_append, n1, bind_ok_eq, fir_merge_loop_cons, ha, bind_ok_eq]
    have h0 : fir_merge p none (some a) = .ok (some a) := rfl
    rw [h0, bind_ok_eq, fir_merge_loop_append, n2, bind_ok_eq, fir_merge_loop_cons, hb,
      bind_ok_eq, hmerge.1, bind_ok_eq, n3]
  · rw [hs, fir_merge_loop_append, n1, bind_ok_eq, fir_merge_loop_cons, hb, bind_ok_eq]
    have h0 : fir_merge p none (some b) = .ok (some b) := rfl
    rw [h0, bind_ok_eq, fir_merge_loop_append, n2, bind_ok_eq, fir_merge_loop_cons, ha,
      bind_ok_eq, hmerge.2, bind_ok_eq, n3]

theorem class_beats_interface_witness :
    find_inherited_implementation 5 merge_prog 3 1 = .ok (some 2)
      ∧ find_inherited_implementation 5 merge_prog 4 1 = .ok (some 2) :=
  ⟨class_beats_interface 5 merge_prog 3 1 [] [] [0] 1 2 2 3 rfl rfl (Or.inl rfl)
      (by intro S h; simp at h; subst h; rfl) rfl rfl rfl rfl,
   class_beats_interface 5 merge_prog 4 1 [] [] [0] 1 2 2 3 rfl rfl (Or.inr rfl)
      (by intro S h; simp at h; subst h; rfl) rfl rfl rfl rfl⟩

/-! ### The ascent past an abstract member -/

/-- C15 (ascend rule, as the code has it): `find_inherited_implementation` for an
abstract call entity `c` merges, over the supertypes of the class in their
order, the results of `find_implementation_recursive`; in a supertype `S`, a
member with the name of `c` that is not abstract is the candidate; a member
with that name that is abstract gives no candidate and the supertypes of `S`
are not searched; only when `S` has no member of that name the search goes on
in the supertypes of `S` (`fir_ascend_into_superclasses_and_merge`). -/
theorem ascend_rule (depth : Nat) (p : ir_prog) (S : ClassId) (c : EntId)
    (hm : is_method_entity p c = true) :
    (∀ r, get_class_member_by_name p S (get_entity_ident p c) = some r →
        oo_get_method_is_abstract p r = false →
        find_implementation_recursive (depth + 1) p S c = .ok (some r))
      ∧ (∀ r, get_class_member_by_name p S (get_entity_ident p c) = some r →
        oo_get_method_is_abstract p r = true →
        find_implementation_recursive (depth + 1) p S c = .ok none)
      ∧ (get_class_member_by_name p S (get_entity_ident p c) = none →
        find_implementation_recursive (depth + 1) p S c
          = fir_ascend_into_superclasses_and_merge depth p S c none)
      ∧ (oo_get_method_is_abstract p c = true →
        ∀ K, find_inherited_implementation depth p K c
          = fir_merge_loop depth p c (get_class_supertypes p K) none) := by
  refine ⟨?_, ?_, ?_, ?_⟩
  · intro r h1 h2
    rw [find_implementation_recursive_succ, hm, assert_true, bind_ok_eq, h1]
    simp only [h2]
    rfl
  · intro r h1 h2
    rw [find_implementation_recursive_succ, hm, assert_true, bind_ok_eq, h1]
    simp only [h2]
    rfl
  · intro h1
    rw [find_implementation_recursive_succ, fir_ascend_eq, hm, assert_true, bind_ok_eq,
      bind_ok_eq, h1]
  · intro ha K
    exact find_inherited_implementation_eq depth p K c hm ha

theorem ascend_rule_witness :
    find_implementation_recursive 5 abstract_redeclare_prog 1 1 = .ok (some 2)
      ∧ find_implementation_recursive 5 abstract_redeclare_prog 2 1 = .ok none
      ∧ find_implementation_recursive 5 abstract_redeclare_prog 3 1
        = fir_ascend_into_superclasses_and_merge 4 abstract_redeclare_prog 3 1 none :=
  ⟨(ascend_rule 4 abstract_redeclare_prog 1 1 rfl).1 2 rfl rfl,
   (ascend_rule 4 abstract_redeclare_prog 2 1 rfl).2.1 3 rfl rfl,
   (ascend_rule 4 abstract_redeclare_prog 3 1 rfl).2.2.1 rfl⟩

/-- C15 as stated fails: in `abstract_redeclare_prog` class `K` (3) extends the
abstract class `S` (2), whose member `m` (entity 3) is abstract, and `S` extends
`T` (1), which defines `m` (entity 2, not abstract).  The search in `T` finds
entity 2, but the search in `S` gives no candidate, and
`find_inherited_implementation` for `K` and the call entity `I.m` (entity 1)
finds nothing. -/
theorem abstract_member_stops_ascent :
    get_class_supertypes abstract_redeclare_prog 3 = [2, 0]
      ∧ get_class_supertypes abstract_redeclare_prog 2 = [1]
      ∧ get_class_member_by_name abstract_redeclare_prog 2
          (get_entity_ident abstract_redeclare_prog 1) = some 3
      ∧ oo_get_method_is_abstract abstract_redeclare_prog 3 = true
      ∧ get_class_member_by_name abstract_redeclare_prog 1
          (get_entity_ident abstract_redeclare_prog 1) = some 2
      ∧ oo_get_method_is_abstract abstract_redeclare_prog 2 = false
      ∧ find_implementation_recursive 5 abstract_redeclare_prog 1 1 = .ok (some 2)
      ∧ find_implementation_recursive 5 abstract_redeclare_prog 2 1 = .ok none
      ∧ find_inherited_implementation 5 abstract_redeclare_prog 3 1 = .ok none :=
  ⟨rfl, rfl, rfl, rfl, rfl, rfl, rfl, rfl, rfl⟩

/-! ### The check for extern superclasses -/

/-- The loop body of the recursive check on a method `member` that is not final:
the member `o` of `klass` with its name is made live and handed to the queue. -/
theorem cfesr_member_handed (p : ir_prog) (klass : ClassId) (member : EntId)
    (env env1 : analyzer_env)
    (h : (if !is_method_entity p member then pure env
          else if oo_get_method_is_final p member then pure env
          else
            match get_class_member_by_name p klass (get_entity_ident p member) with
            | some overwriting =>
              add_to_workqueue p overwriting
                { env with live_methods := cpset_insert env.live_methods overwriting }
            | none => pure env) = Except.ok env1)
    (hm : is_method_entity p member = true) (hf : oo_get_method_is_final p member = false)
    (o : EntId) (ho : get_class_member_by_name p klass (get_entity_ident p member) = some o) :
    handed_over env1 o := by
  simp only [hm, hf, ho, Bool.not_true, Bool.false_eq_true, if_false] at h
  exact live_enqueue_handed _ _ _ _ h

theorem added_only_refl (X : EntId → Prop) (a : analyzer_env) : added_only X a a :=
  ⟨fun _ h => Or.inl h, fun _ h => Or.inl h⟩

theorem added_only_trans {X : EntId → Prop} {a b c : analyzer_env} (h1 : added_only X a b)
    (h2 : added_only X b c) : added_only X a c := by
  constructor
  · intro o ho
    rcases h2.1 o ho with h | h
    · exact h1.1 o h
    · exact Or.inr h
  · intro o ho
    rcases h2.2 o ho with h | h
    · exact h1.2 o h
    · exact Or.inr h

theorem added_only_mono {X Y : EntId → Prop} {a b : analyzer_env} (h : added_only X a b)
    (hXY : ∀ o, X o → Y o) : added_only Y a b :=
  ⟨fun o ho => (h.1 o ho).imp id (hXY o), fun o ho => (h.2 o ho).imp id (hXY o)⟩

theorem live_enqueue_added (p : ir_prog) (e : EntId) (env env1 : analyzer_env)
    (h : add_to_workqueue p e { env with live_methods := cpset_insert env.live_methods e }
      = .ok env1) : added_only (fun o => o = e) env env1 := by
  rw [add_to_workqueue_ok] at h
  obtain ⟨_, rfl⟩ := h
  constructor
  · intro o ho
    have ho1 : o ∈ cpset_insert env.live_methods e := by
      split at ho <;> exact ho
    exact (mem_cpset_insert _ _ _).1 ho1
  · intro o ho
    split at ho
    · exact Or.inl ho
    · rcases List.mem_append.1 ho with h1 | h1
      · exact Or.inl h1
      · exact Or.inr (List.mem_singleton.1 h1)

theorem cfesr_member_origin (p : ir_prog) (klass : ClassId) (member : EntId)
    (env env1 : analyzer_env)
    (h : (if !is_method_entity p member then pure env
          else if oo_get_method_is_final p member then pure env
          else
            match get_class_member_by_name p klass (get_entity_ident p member) with
            | some overwriting =>
              add_to_workqueue p overwriting
                { env with live_methods := cpset_insert env.live_methods overwriting }
            | none => pure env) = Except.ok env1) :
    added_only (fun o => is_method_entity p member = true
        ∧ oo_get_method_is_final p member = false
        ∧ get_class_member_by_name p klass (get_entity_ident p member) = some o) env env1 := by
  split at h
  · rw [pure_ok] at h
    exact h ▸ added_only_refl _ _
  · rename_i hm
    split at h
    · rw [pure_ok] at h
      exact h ▸ added_only_refl _ _
    · rename_i hf
      split at h
      · rename_i ow how
        refine added_only_mono (live_enqueue_added _ _ _ _ h) ?_
        rintro o rfl
        exact ⟨by simpa using hm, by simpa using hf, how⟩
      · rw [pure_ok] at h
        exact h ▸ added_only_refl _ _

theorem super_reachable_of_supertype (p : ir_prog) (K M S : ClassId)
    (hM : M ∈ get_class_supertypes p K) (h : S = M ∨ super_reachable p M S) :
    super_reachable p K S := by
  rcases h with rfl | h
  · exact super_reachable.edge K S hM
  · exact super_reachable.step K M S hM h

theorem super_reachable_cases (p : ir_prog) (K S : ClassId) (h : super_reachable p K S) :
    ∃ M ∈ get_class_supertypes p K, S = M ∨ super_reachable p M S := by
  cases h with
  | edge _ _ h1 => exact ⟨S, h1, Or.inl rfl⟩
  | step _ M _ h1 h2 => exact ⟨M, h1, Or.inr h2⟩

/-- The recursive check hands over every override in `klass` of a method that is
not final of an extern class at or above `superclass`. -/
theorem cfesr_handed (p : ir_prog) (klass : ClassId) :
    ∀ (depth : Nat) (superclass : ClassId) (env env1 : analyzer_env),
      check_for_external_superclasses_recursive depth p klass superclass env = .ok env1 →
      ∀ S, (S = superclass ∨ super_reachable p superclass S) →
        oo_get_class_is_extern p S = true →
        ∀ m ∈ get_class_members p S, is_method_entity p m = true →
          oo_get_method_is_final p m = false →
          ∀ o, get_class_member_by_name p klass (get_entity_ident p m) = some o →
            handed_over env1 o
  | 0, _, _, _, h => by simp [check_for_external_superclasses_recursive] at h
  | depth + 1, superclass, env, env1, h => by
    simp only [check_for_external_superclasses_recursive, bind_ok] at h
    obtain ⟨env2, h1, h2⟩ := h
    have e2 : env_ext env2 env1 :=
      foldlM_ext _ _ (fun s x s1 _ hf => cfesr_ext p klass depth x s s1 hf) _ _ h2
    intro S hS hext m hmem hm hf o ho
    rcases hS with rfl | hS
    · rw [if_pos hext] at h1
      have k := foldlM_forall _ (fun _ => True)
        (fun (m : EntId) (s : analyzer_env) => is_method_entity p m = true →
          oo_get_method_is_final p m = false →
          ∀ o, get_class_member_by_name p klass (get_entity_ident p m) = some o →
            handed_over s o)
        (get_class_members p S) ?_ ?_ env env2 trivial h1
      · exact handed_over_ext e2 o (k.2 m hmem hm hf o ho)
      · intro s x s1 _ _ hstep
        exact ⟨trivial, fun a b o1 c => cfesr_member_handed p klass x s s1 hstep a b o1 c⟩
      · intro s x s1 y _ _ hstep hy a b o1 c
        exact handed_over_ext (cfesr_member_ext p klass x s s1 hstep) o1 (hy a b o1 c)
    · obtain ⟨M, hM, hMS⟩ := super_reachable_cases p superclass S hS
      have k := foldlM_forall _ (fun _ => True)
        (fun (M : ClassId) (s : analyzer_env) =>
          ∀ S, (S = M ∨ super_reachable p M S) → oo_get_class_is_extern p S = true →
            ∀ m ∈ get_class_members p S, is_method_entity p m = true →
              oo_get_method_is_final p m = false →
              ∀ o, get_class_member_by_name p klass (get_entity_ident p m) = some o →
                handed_over s o)
        (get_class_supertypes p superclass) ?_ ?_ env2 env1 trivial h2
      · exact k.2 M hM S hMS hext m hmem hm hf o ho
      · intro s x s1 _ _ hstep
        exact ⟨trivial, cfesr_handed p klass depth x s s1 hstep⟩
      · intro s x s1 y _ _ hstep hy S1 a b m1 c d e o1 f
        exact handed_over_ext (cfesr_ext p klass depth x s s1 hstep) o1
          (hy S1 a b m1 c d e o1 f)

/-- What the recursive check adds to `live_methods` and to the work queue is an
override in `klass` of a method, not final, of an extern class at or above
`superclass`. -/
theorem cfesr_origin (p : ir_prog) (klass : ClassId) :
    ∀ (depth : Nat) (superclass : ClassId) (env env1 : analyzer_env),
      check_for_external_superclasses_recursive depth p klass superclass env = .ok env1 →
        added_only (extern_override_from p klass superclass) env env1
  | 0, _, _, _, h => by simp [check_for_external_superclasses_recursive] at h
  | depth + 1, superclass, env, env1, h => by
    simp only [check_for_external_superclasses_recursive, bind_ok] at h
    obtain ⟨env2, h1, h2⟩ := h
    have k1 : added_only (extern_override_from p klass superclass) env env2 := by
      split at h1
      · rename_i hext
        refine foldlM_inv _
          (fun (t : analyzer_env) => added_only (extern_override_from p klass superclass) env t)
          (get_class_members p superclass) ?_ env env2 (added_only_refl _ _) h1
        intro s x s1 hx hI hstep
        refine added_only_trans hI (added_only_mono (cfesr_member_origin p klass x s s1 hstep) ?_)
        rintro o ⟨a, b, c⟩
        exact ⟨superclass, x, Or.inl rfl, hext, hx, a, b, c⟩
      · rw [pure_ok] at h1
        exact h1 ▸ added_only_refl _ _
    refine foldlM_inv _
      (fun (t : analyzer_env) => added_only (extern_override_from p klass superclass) env t)
      (get_class_supertypes p superclass) ?_ env2 env1 k1 h2
    intro s x s1 hx hI hstep
    refine added_only_trans hI (added_only_mono (cfesr_origin p klass depth x s s1 hstep) ?_)
    rintro o ⟨S, m, a, b⟩
    exact ⟨S, m, Or.inr (super_reachable_of_supertype p superclass x S hx a), b⟩

theorem cfes_handed (depth : Nat) (p : ir_prog) (klass : ClassId) (env env1 : analyzer_env)
    (hne : oo_get_class_is_extern p klass = false)
    (h : check_for_external_superclasses depth p klass env = .ok env1) :
    ∀ o, extern_override p klass o → handed_over env1 o := by
  unfold check_for_external_superclasses at h
  rw [hne] at h
  simp only [Bool.false_eq_true, if_false] at h
  rintro o ⟨S, m, hS, hext, hmem, hm, hf, ho⟩
  obtain ⟨M, hM, hMS⟩ := super_reachable_cases p klass S hS
  have k := foldlM_forall _ (fun _ => True)
    (fun (M : ClassId) (s : analyzer_env) =>
      ∀ S, (S = M ∨ super_reachable p M S) → oo_get_class_is_extern p S = true →
        ∀ m ∈ get_class_members p S, is_method_entity p m = true →
          oo_get_method_is_final p m = false →
          ∀ o, get_class_member_by_name p klass (get_entity_ident p m) = some o →
            handed_over s o)
    (get_class_supertypes p klass) ?_ ?_ env env1 trivial h
  · exact k.2 M hM S hMS hext m hmem hm hf o ho
  · intro s x s1 _ _ hstep
    exact ⟨trivial, cfesr_handed p klass depth x s s1 hstep⟩
  · intro s x s1 y _ _ hstep hy S1 a b m1 c d e o1 f
    exact handed_over_ext (cfesr_ext p klass depth x s s1 hstep) o1 (hy S1 a b m1 c d e o1 f)

theorem cfes_origin (depth : Nat) (p : ir_prog) (klass : ClassId) (env env1 : analyzer_env)
    (h : check_for_external_superclasses depth p klass env = .ok env1) :
    added_only (extern_override p klass) env env1 := by
  unfold check_for_external_superclasses at h
  split at h
  · rw [pure_ok] at h
    exact h ▸ added_only_refl _ _
  · refine foldlM_inv _
      (fun (t : analyzer_env) => added_only (extern_override p klass) env t)
      (get_class_supertypes p klass) ?_ env env1 (added_only_refl _ _) h
    intro s x s1 hx hI hstep
    refine added_only_trans hI (added_only_mono (cfesr_origin p klass depth x s s1 hstep) ?_)
    rintro o ⟨S, m, a, b⟩
    exact ⟨S, m, super_reachable_of_supertype p klass x S hx a, b⟩

/-- C18 (the check for extern superclasses): when `add_new_live_class` returns
for a class `K` that was not live and is neither extern nor abstract, then for
every extern class `S` reachable from `K` by one or more supertype edges and
every method member `m` of `S` that is not final, the member of `K` with the
name of `m`, if there is one, is in `live_methods` and has been handed to the
work queue (it is queued or was done already).  The check itself adds nothing
else: an entity that is no such member of `K`, as a member of `K` that has the
name of final methods of the extern classes only, is in `live_methods` or in
the work queue after `check_for_external_superclasses` only if it was before. -/
theorem extern_super_check (depth : Nat) (p : ir_prog) (K : ClassId) (env env1 : analyzer_env)
    (hl : K ∉ env.live_classes) (he : oo_get_class_is_extern p K = false)
    (ha : oo_get_class_is_abstract p K = false)
    (h : add_new_live_class depth p K env = .ok env1) :
    (∀ S m o, super_reachable p K S → oo_get_class_is_extern p S = true →
        m ∈ get_class_members p S → is_method_entity p m = true →
        oo_get_method_is_final p m = false →
        get_class_member_by_name p K (get_entity_ident p m) = some o →
        o ∈ env1.live_methods ∧ (o ∈ env1.done_set ∨ o ∈ env1.workqueue))
      ∧ (∀ env2 env3 o, check_for_external_superclasses depth p K env2 = .ok env3 →
          (∀ S m, super_reachable p K S → oo_get_class_is_extern p S = true →
            m ∈ get_class_members p S → is_method_entity p m = true →
            get_class_member_by_name p K (get_entity_ident p m) = some o →
            oo_get_method_is_final p m = true) →
          (o ∈ env3.live_methods → o ∈ env2.live_methods)
            ∧ (o ∈ env3.workqueue → o ∈ env2.workqueue)) := by
  constructor
  · intro S m o hS hext hmem hm hf ho
    unfold add_new_live_class at h
    rw [if_pos ⟨hl, by simp [he], by simp [ha]⟩] at h
    simp only [bind_ok] at h
    obtain ⟨env2, _, h2⟩ := h
    exact cfes_handed depth p K env2 env1 he h2 o ⟨S, m, hS, hext, hmem, hm, hf, ho⟩
  · intro env2 env3 o h2 hfin
    have k := cfes_origin depth p K env2 env3 h2
    have hno : ¬ extern_override p K o := by
      rintro ⟨S, m, hS, hext, hmem, hm, hf, ho⟩
      rw [hfin S m hS hext hmem hm ho] at hf
      cases hf
    exact ⟨fun h3 => (k.1 o h3).resolve_right hno, fun h3 => (k.2 o h3).resolve_right hno⟩

theorem extern_super_check_witness :
    add_new_live_class 5 extern_super_prog 2 analyzer_env_init
        = .ok
          { workqueue := [3], done_set := [], live_classes := [2], live_methods := [3],
            dyncall_targets := [], unused_targets := [] }
      ∧ super_reachable extern_super_prog 2 0
      ∧ (3 : Nat) ∈ ([3] : List Nat)
      ∧ check_for_external_superclasses 5 extern_super_prog 2 analyzer_env_init
        = .ok
          { workqueue := [3], done_set := [], live_classes := [], live_methods := [3],
            dyncall_targets := [], unused_targets := [] }
      ∧ (4 : Nat) ∉ ([3] : List Nat) := by
  have r : super_reachable extern_super_prog 2 0 :=
    super_reachable.step 2 1 0 (by decide) (super_reachable.edge 1 0 (by decide))
  have k := extern_super_check 5 extern_super_prog 2 analyzer_env_init
    { workqueue := [3], done_set := [], live_classes := [2], live_methods := [3],
      dyncall_targets := [], unused_targets := [] }
    (by decide) rfl rfl rfl
  have k4 := (k.2 analyzer_env_init
    { workqueue := [3], done_set := [], live_classes := [], live_methods := [3],
      dyncall_targets := [], unused_targets := [] } 4 rfl
    (by
      intro S m _ hext hmem _ ho
      rcases S with _ | _ | _ | _ | S
      · have hm12 : m = 1 ∨ m = 2 := by simpa [get_class_members, get_type, extern_super_prog,
          example_class] using hmem
        rcases hm12 with rfl | rfl
        · exact absurd ho (by decide)
        · rfl
      · cases hext
      · cases hext
      · cases hext
      · cases hext)).1
  exact ⟨rfl, r, (k.1 0 1 3 r rfl (by decide) rfl rfl rfl).1, rfl, fun h4 => by
    have := k4 h4
    cases this⟩

/-! ### Calls through a `MethodSel` that are flagged statically bound -/

theorem analyzer_handle_static_call_handed (p : ir_prog) (g : GraphId) (call : NodeId)
    (e : EntId) (env env1 : analyzer_env)
    (h : analyzer_handle_static_call p g call e env = .ok env1) : handed_over env1 e := by
  unfold analyzer_handle_static_call at h
  simp only [bind_ok, exists_assert_ok] at h
  obtain ⟨_, env2, h1, h⟩ := h
  have k := live_enqueue_handed _ _ _ _ h1
  split at h
  · rw [pure_ok] at h
    exact h ▸ k
  · split at h
    · simp only [bind_ok, exists_assert_ok] at h
      exact handed_over_ext (live_enqueue_ext _ _ _ _ h.2) e k
    · rw [pure_ok] at h
      exact h ▸ k

theorem analyzer_handle_static_call_total (p : ir_prog) (g : GraphId) (call : NodeId)
    (e : EntId) (env : analyzer_env) (hm : is_method_entity p e = true)
    (hd : get_entity_irg p e = none → ∀ h, p.detect_call g call = some h →
      is_method_entity p h = true) :
    ∃ env1, analyzer_handle_static_call p g call e env = .ok env1 := by
  unfold analyzer_handle_static_call
  rw [hm, assert_true, bind_ok_eq]
  obtain ⟨env2, h2⟩ := live_enqueue_total p e env hm
  rw [h2, bind_ok_eq]
  cases hg : get_entity_irg p e with
  | some gr => exact ⟨env2, rfl⟩
  | none =>
    cases hdet : p.detect_call g call with
    | none => exact ⟨env2, rfl⟩
    | some h =>
      have hmh := hd hg h hdet
      obtain ⟨env3, h3⟩ := live_enqueue_total p h env2 hmh
      refine ⟨env3, ?_⟩
      simp only [hmh, assert_true, bind_ok_eq]
      exact h3

/-- C25 (statically bound `MethodSel` calls): for a `Call` node whose callee is a
`Proj` of a `MethodSel` on entity `e` and that is flagged statically bound, the
analyzer callback makes `e` live and hands it to the work queue, and leaves
`live_classes`, `dyncall_targets` and `unused_targets` as they were (no target
set is made for `e`); it returns when `e`, and the entity that the detection
callback reports in case `e` has no graph, are method entities.  The
devirtualizer callback on such a node returns the program it was given. -/
theorem statically_bound_methodsel (depth : Nat) (p : ir_prog) (g : GraphId)
    (n callee pred mem : NodeId) (e : EntId) (env : analyzer_env)
    (hn : get_irn p g n = .Call callee true) (hc : get_irn p g callee = .Proj pred)
    (hp : get_irn p g pred = .MethodSel mem e) :
    (∀ env1, walk_callgraph_and_analyze depth p g n env = .ok env1 →
        e ∈ env1.live_methods ∧ (e ∈ env1.done_set ∨ e ∈ env1.workqueue)
          ∧ env1.live_classes = env.live_classes
          ∧ env1.dyncall_targets = env.dyncall_targets
          ∧ env1.unused_targets = env.unused_targets)
      ∧ (is_method_entity p e = true →
          (get_entity_irg p e = none → ∀ h, p.detect_call g n = some h →
            is_method_entity p h = true) →
          ∃ env1, walk_callgraph_and_analyze depth p g n env = .ok env1)
      ∧ (∀ oenv st1, walk_callgraph_and_devirtualize g n (p, oenv) = .ok st1 →
          st1.1 = p ∧ st1.2.dyncall_targets = oenv.dyncall_targets) := by
  have hs : is_static_call p g n e := ⟨callee, true, hn, Or.inr ⟨rfl, pred, mem, hc, hp⟩⟩
  have hw := walk_callgraph_and_analyze_static depth p g n e env hs
  refine ⟨?_, ?_, ?_⟩
  · intro env1 h
    rw [hw] at h
    have k := analyzer_handle_static_call_handed _ _ _ _ _ _ h
    exact ⟨k.1, k.2, analyzer_handle_static_call_frame _ _ _ _ _ _ h⟩
  · intro hm hd
    rw [hw]
    exact analyzer_handle_static_call_total p g n e env hm hd
  · intro oenv st1 h
    obtain ⟨_, e1, _, _, _, k⟩ := walk_callgraph_and_devirtualize_spec g n (p, oenv) st1 h
    refine ⟨k ?_, e1.targets⟩
    intro e1
    apply not_dynamic_of_node
    intro c hcall
    have h2 : get_irn p g n = .Call c false := hcall
    rw [hn] at h2
    cases h2

theorem statically_bound_methodsel_witness :
    (∃ env1, walk_callgraph_and_analyze 1 bound_call_prog 0 3 analyzer_env_init = .ok env1
        ∧ (1 : Nat) ∈ env1.live_methods ∧ env1.dyncall_targets = [])
      ∧ ∀ st1, walk_callgraph_and_devirtualize 0 3 (bound_call_prog, ⟨[], [0], []⟩) = .ok st1 →
          st1.1 = bound_call_prog ∧ st1.2.dyncall_targets = [] := by
  have k := statically_bound_methodsel 1 bound_call_prog 0 3 2 1 0 1 analyzer_env_init
    rfl rfl rfl
  obtain ⟨env1, h1⟩ := k.2.1 rfl (fun hg => by cases hg)
  have k1 := k.1 env1 h1
  exact ⟨⟨env1, h1, k1.1, k1.2.2.2.1⟩, fun st1 h => k.2.2 _ st1 h⟩

/-! ### What the collection of the targets of a dynamic call leaves behind -/

/-- For every class that `collect_methods_recursive` visits, with the entity
resolved for it when that is not abstract: the entity is in the result set
when the class is live or extern, and the call entity is recorded in
`unused_targets` for the class and the entity otherwise. -/
theorem collect_methods_recursive_post (budget : Nat) (p : ir_prog) (c : EntId)
    (live : cpset) :
    ∀ (depth : Nat) (klass : ClassId) (entity : EntId) (st st1 : cpset × analyzer_env),
      collect_methods_recursive budget depth p c klass entity st = .ok st1 →
      st.2.live_classes = live →
      ∀ K m, resolves_from budget p c klass entity K m →
        oo_get_method_is_abstract p m = false →
          ((K ∈ live ∨ oo_get_class_is_extern p K = true) → m ∈ st1.1)
            ∧ (¬ (K ∈ live ∨ oo_get_class_is_extern p K = true) → unused_has st1.2 K m c)
  | 0, _, _, _, _, h, _ => by simp [collect_methods_recursive] at h
  | depth + 1, klass, entity, st, st1, h, hlive => by
    simp only [collect_methods_recursive, bind_ok, exists_assert_ok] at h
    obtain ⟨_, _, cur, hcur, st2, h2, h3⟩ := h
    have e2 : collect_ext st st2 ∧ (oo_get_method_is_abstract p cur = false →
        ((klass ∈ live ∨ oo_get_class_is_extern p klass = true) → cur ∈ st2.1)
          ∧ (¬ (klass ∈ live ∨ oo_get_class_is_extern p klass = true) →
            unused_has st2.2 klass cur c)) := by
      split at h2
      · split at h2
        · rename_i huse
          obtain ⟨t1, t2⟩ := take_entity_ext _ _ _ _ h2
          refine ⟨t1, fun _ => ⟨fun _ => t2, fun hno => ?_⟩⟩
          refine absurd ?_ hno
          rcases huse with h5 | h5 | h5
          · exact Or.inl (hlive ▸ h5)
          · exact Or.inr h5
          · cases h5
        · rename_i huse
          simp only [bind_ok, pure_ok] at h2
          obtain ⟨env1, h4, rfl⟩ := h2
          refine ⟨memorize_ext _ _ _ _ _ _ _ h4, fun _ => ⟨fun hyes => ?_, fun _ => ?_⟩⟩
          · refine absurd ?_ huse
            rcases hyes with h5 | h5
            · exact Or.inl (hlive ▸ h5)
            · exact Or.inr (Or.inl h5)
          · exact (memorize_unused_has _ _ _ _ _ _ h4).1
      · rename_i habs
        rw [pure_ok] at h2
        subst h2
        refine ⟨collect_ext_refl _, fun ha => ?_⟩
        rw [ha] at habs
        simp at habs
    have e3 := foldlM_forall _ (fun t => collect_ext st2 t)
      (fun x t => ∀ K m, resolves_from budget p c x cur K m →
        oo_get_method_is_abstract p m = false →
          ((K ∈ live ∨ oo_get_class_is_extern p K = true) → m ∈ t.1)
            ∧ (¬ (K ∈ live ∨ oo_get_class_is_extern p K = true) → unused_has t.2 K m c))
      (get_class_subtypes p klass) ?_ ?_ st2 st1 (collect_ext_refl _) h3
    · intro K m hres habs
      obtain ⟨steps, hpath, hend, hr⟩ := hres
      cases steps with
      | nil =>
        simp only [path_end] at hend
        subst hend
        simp only [resolve_along] at hr
        have := collect_current_entity_inj budget p c klass entity cur m hcur hr
        subst this
        exact ⟨fun hy => e3.1.result_sub ((e2.2 habs).1 hy),
          fun hn => e3.1.unused _ _ _ ((e2.2 habs).2 hn)⟩
      | cons s rest =>
        simp only [resolve_along, bind_ok] at hr
        obtain ⟨cur1, hc1, hr1⟩ := hr
        have := collect_current_entity_inj budget p c klass entity cur cur1 hcur hc1
        subst this
        exact e3.2 s hpath.1 K m ⟨rest, hpath.2, hend, hr1⟩ habs
    · intro s x s1 hx hs hf
      have ce := collect_methods_recursive_ext budget p c depth x cur s s1 hf
      refine ⟨collect_ext_trans hs ce, ?_⟩
      have hl : s.2.live_classes = live := by
        rw [hs.classes_eq, e2.1.classes_eq]
        exact hlive
      exact collect_methods_recursive_post budget p c live depth x cur s s1 hf hl
    · intro s x s1 y hx hs hf hy K m hres habs
      have ce := collect_methods_recursive_ext budget p c depth x cur s s1 hf
      exact ⟨fun hyes => ce.result_sub ((hy K m hres habs).1 hyes),
        fun hno => ce.unused _ _ _ ((hy K m hres habs).2 hno)⟩

/-- C21 (postcondition of the collection): when `analyzer_handle_dynamic_call`
returns for an entity `e` that had no entry in `dyncall_targets`, `e` has a
target set afterwards, `live_classes` is as before, and for every class `K` on
a subtype path from the owner of `e`, with the entity `m` resolved for `K`
along the path when `m` is not abstract: if `K` is live or extern, `m` is in
the target set of `e` and in `live_methods`; otherwise `e` is recorded in
`unused_targets[K][m]`. -/
theorem collect_down_postcondition (depth : Nat) (p : ir_prog) (e : EntId)
    (env env1 : analyzer_env) (hnone : cpmap_find env.dyncall_targets e = none)
    (h : analyzer_handle_dynamic_call depth p e env = .ok env1) :
    ∃ ts, cpmap_find env1.dyncall_targets e = some ts
      ∧ env1.live_classes = env.live_classes
      ∧ ∀ K m, resolves_to depth p e K m → oo_get_method_is_abstract p m = false →
          ((K ∈ env1.live_classes ∨ oo_get_class_is_extern p K = true) →
            m ∈ ts ∧ m ∈ env1.live_methods)
          ∧ (¬ (K ∈ env1.live_classes ∨ oo_get_class_is_extern p K = true) →
            unused_has env1 K m e) := by
  unfold analyzer_handle_dynamic_call at h
  simp only [bind_ok, exists_assert_ok, hnone, pure_ok] at h
  obtain ⟨_, res, h1, rfl⟩ := h
  have c1 := collect_methods_ext _ _ _ _ _ _ h1
  have k := collect_methods_recursive_post depth p e env.live_classes depth
    (get_entity_owner p e) e ([], env) res h1 rfl
  refine ⟨res.1, cpmap_find_set_self _ _ _, c1.classes_eq, ?_⟩
  intro K m hres habs
  have hl : res.2.live_classes = env.live_classes := c1.classes_eq
  constructor
  · intro hyes
    have hyes1 : K ∈ env.live_classes ∨ oo_get_class_is_extern p K = true :=
      hyes.imp (fun h5 => hl ▸ h5) id
    have hm := (k K m hres habs).1 hyes1
    refine ⟨hm, ?_⟩
    rcases c1.result_live m hm with h5 | h5
    · cases h5
    · exact h5
  · intro hno
    have hno1 : ¬ (K ∈ env.live_classes ∨ oo_get_class_is_extern p K = true) :=
      fun h5 => hno (h5.imp (fun h6 => hl.symm ▸ h6) id)
    exact (k K m hres habs).2 hno1

theorem collect_down_postcondition_witness :
    analyzer_handle_dynamic_call 5 two_class_prog 1
        { analyzer_env_init with live_classes := [1] }
      = .ok
        { workqueue := [2], done_set := [], live_classes := [1], live_methods := [2],
          dyncall_targets := [(1, [2])], unused_targets := [(0, [(1, [1])])] }
      ∧ resolves_to 5 two_class_prog 1 1 2 ∧ resolves_to 5 two_class_prog 1 0 1
      ∧ ((2 : Nat) ∈ ([2] : List Nat) ∧ (2 : Nat) ∈ ([2] : List Nat))
      ∧ unused_has
          { workqueue := [2], done_set := [], live_classes := [1], live_methods := [2],
            dyncall_targets := [(1, [2])], unused_targets := [(0, [(1, [1])])] } 0 1 1 := by
  have r1 : resolves_to 5 two_class_prog 1 1 2 := ⟨[1], ⟨by decide, trivial⟩, rfl, rfl⟩
  have r0 : resolves_to 5 two_class_prog 1 0 1 := ⟨[], trivial, rfl, rfl⟩
  obtain ⟨ts, hts, _, k⟩ := collect_down_postcondition 5 two_class_prog 1
    { analyzer_env_init with live_classes := [1] }
    { workqueue := [2], done_set := [], live_classes := [1], live_methods := [2],
      dyncall_targets := [(1, [2])], unused_targets := [(0, [(1, [1])])] } rfl rfl
  cases hts
  exact ⟨rfl, r1, r0, (k 1 2 r1 rfl).1 (Or.inl (by decide)),
    (k 0 1 r0 rfl).2 (by rintro (h | h) <;> revert h <;> decide)⟩

/-! ### The entity handed down by `collect_methods_recursive` -/

/-- C26 (the current entity belongs to the recursion frame): when
`collect_methods_recursive` returns for class `K` and the entity `e` handed to
it, there is one entity `cur`, resolved for `K` from `e`, that is handed to the
call for every direct subtype of `K`; and whatever the result set and the
analysis state were before (whatever subtrees were visited earlier), the
entity handled for a class at the end of a subtype path from `K` is the one
that `resolve_along` computes from the path alone: when it is not abstract it
is in the result set if the class is live or extern and recorded in
`unused_targets` otherwise, and every entity added to the result set is the
entity resolved along some path to a class that is live or extern. -/
theorem current_entity_per_frame (budget depth : Nat) (p : ir_prog) (c : EntId) (K : ClassId)
    (e : EntId) (st st1 : cpset × analyzer_env)
    (h : collect_methods_recursive budget (depth + 1) p c K e st = .ok st1) :
    (∃ cur st2, collect_current_entity budget p c K e = .ok cur
        ∧ (get_class_subtypes p K).foldlM
            (fun (st : cpset × analyzer_env) (S : ClassId) =>
              collect_methods_recursive budget depth p c S cur st) st2 = .ok st1)
      ∧ (∀ steps m, is_subtype_path p K steps →
          resolve_along budget p c e K steps = .ok m →
          oo_get_method_is_abstract p m = false →
          ((path_end K steps ∈ st.2.live_classes
              ∨ oo_get_class_is_extern p (path_end K steps) = true) → m ∈ st1.1)
            ∧ (¬ (path_end K steps ∈ st.2.live_classes
                ∨ oo_get_class_is_extern p (path_end K steps) = true) →
              unused_has st1.2 (path_end K steps) m c))
      ∧ (∀ x ∈ st1.1, x ∈ st.1
          ∨ ∃ steps, is_subtype_path p K steps
            ∧ resolve_along budget p c e K steps = .ok x
            ∧ (path_end K steps ∈ st.2.live_classes
              ∨ oo_get_class_is_extern p (path_end K steps) = true)) := by
  refine ⟨?_, ?_, ?_⟩
  · simp only [collect_methods_recursive, bind_ok, exists_assert_ok] at h
    obtain ⟨_, _, cur, hcur, st2, _, h3⟩ := h
    exact ⟨cur, st2, hcur, h3⟩
  · intro steps m hpath hr habs
    exact collect_methods_recursive_post budget p c st.2.live_classes (depth + 1) K e st st1 h
      rfl (path_end K steps) m ⟨steps, hpath, rfl, hr⟩ habs
  · have k := collect_methods_recursive_sound budget p c
      (fun x => x ∈ st.1
        ∨ ∃ steps, is_subtype_path p K steps
          ∧ resolve_along budget p c e K steps = .ok x
          ∧ (path_end K steps ∈ st.2.live_classes
            ∨ oo_get_class_is_extern p (path_end K steps) = true))
      (fun _ _ _ => True) st.2.live_classes (depth + 1) K e st st1 h rfl ?_
      (fun x hx => Or.inl hx) (fun _ _ _ _ => trivial)
    · exact k.1
    · rintro K1 m ⟨steps, hpath, rfl, hr⟩ _
      exact ⟨fun hlive => Or.inr ⟨steps, hpath, hr, hlive⟩, trivial⟩

theorem current_entity_per_frame_witness :
    collect_methods_recursive 5 5 sibling_prog 1 0 1
        ([], { analyzer_env_init with live_classes := [1, 2] })
      = .ok ([2, 1],
          { workqueue := [2, 1], done_set := [], live_classes := [1, 2], live_methods := [2, 1],
            dyncall_targets := [], unused_targets := [(0, [(1, [1])])] })
      ∧ resolve_along 5 sibling_prog 1 1 0 [1] = .ok 2
      ∧ resolve_along 5 sibling_prog 1 1 0 [2] = .ok 1
      ∧ (1 : Nat) ∈ ([2, 1] : List Nat) := by
  have k := current_entity_per_frame 5 4 sibling_prog 1 0 1
    ([], { analyzer_env_init with live_classes := [1, 2] })
    ([2, 1],
      { workqueue := [2, 1], done_set := [], live_classes := [1, 2], live_methods := [2, 1],
        dyncall_targets := [], unused_targets := [(0, [(1, [1])])] }) rfl
  exact ⟨rfl, rfl, rfl, (k.2.1 [2] 1 ⟨by decide, trivial⟩ rfl rfl).1 (Or.inl (by decide))⟩

/-! ### The classes and methods recorded in `unused_targets` -/

theorem cpmap_find_none_mem {β : Type} (m : cpmap β) (k : Nat)
    (h : cpmap_find m k = none) (e : Nat × β) (he : e ∈ m) : e.1 ≠ k := by
  intro hk
  have hkey : k ∈ cpmap_keys m := by
    unfold cpmap_keys
    exact hk ▸ List.mem_map_of_mem Prod.fst he
  obtain ⟨v, hv⟩ := (cpmap_find_isSome_iff m k).2 hkey
  rw [h] at hv
  cases hv

theorem unused_ok_of_frame (p : ir_prog) (env env1 : analyzer_env)
    (hc : env1.live_classes = env.live_classes)
    (hu : env1.unused_targets = env.unused_targets) (h : unused_ok p env) :
    unused_ok p env1 := by
  intro K methods hmem
  rw [hu] at hmem
  rw [hc]
  exact h K methods hmem

theorem memorize_unused_ok (p : ir_prog) (klass : ClassId) (entity call_entity : EntId)
    (env env1 : analyzer_env)
    (h : memorize_unused_target p klass entity call_entity env = .ok env1)
    (hk : klass ∉ env.live_classes) (hx : oo_get_class_is_extern p klass = false)
    (ha : oo_get_method_is_abstract p entity = false) (hs : unused_ok p env) :
    unused_ok p env1 := by
  rw [memorize_unused_target_ok] at h
  obtain ⟨_, _, rfl⟩ := h
  intro K methods hmem
  rcases cpmap_mem_set _ _ _ _ hmem with h1 | h1
  · exact hs K methods h1
  · cases h1
    refine ⟨⟨hk, hx⟩, ?_⟩
    intro m C hm
    rcases cpmap_mem_set _ _ _ _ hm with h2 | h2
    · cases hf : cpmap_find env.unused_targets klass with
      | none =>
        rw [hf] at h2
        simp at h2
      | some ms =>
        rw [hf] at h2
        exact (hs klass ms (cpmap_find_mem _ _ _ hf)).2 m C h2
    · cases h2
      exact ha

theorem collect_methods_recursive_unused_ok (budget : Nat) (p : ir_prog) (c : EntId) :
    ∀ (depth : Nat) (klass : ClassId) (entity : EntId) (st st1 : cpset × analyzer_env),
      collect_methods_recursive budget depth p c klass entity st = .ok st1 →
      unused_ok p st.2 → unused_ok p st1.2
  | 0, _, _, _, _, h, _ => by simp [collect_methods_recursive] at h
  | depth + 1, klass, entity, st, st1, h, hs => by
    simp only [collect_methods_recursive, bind_ok, exists_assert_ok] at h
    obtain ⟨_, _, cur, _, st2, h2, h3⟩ := h
    have e2 : unused_ok p st2.2 := by
      split at h2
      · rename_i hna
        have ha : oo_get_method_is_abstract p cur = false := by simpa using hna
        split at h2
        · have t1 := (take_entity_ext _ _ _ _ h2).1
          exact unused_ok_of_frame p st.2 st2.2 t1.classes_eq (take_entity_result _ _ _ _ _ h2).1 hs
        · rename_i huse
          simp only [bind_ok, pure_ok] at h2
          obtain ⟨env1, h4, rfl⟩ := h2
          refine memorize_unused_ok p klass cur c st.2 env1 h4 (fun hk => huse (Or.inl hk)) ?_ ha hs
          cases hx : oo_get_class_is_extern p klass with
          | false => rfl
          | true => exact absurd (Or.inr (Or.inl hx)) huse
      · rw [pure_ok] at h2
        exact h2 ▸ hs
    exact foldlM_inv _ (fun t => unused_ok p t.2) (get_class_subtypes p klass)
      (fun s x s1 _ hI hf => collect_methods_recursive_unused_ok budget p c depth x cur s s1 hf hI)
      st2 st1 e2 h3

theorem add_new_live_class_unused_ok (depth : Nat) (p : ir_prog) (klass : ClassId)
    (env env1 : analyzer_env) (h : add_new_live_class depth p klass env = .ok env1)
    (hs : unused_ok p env) : unused_ok p env1 := by
  by_cases hcond : klass ∉ env.live_classes ∧ (! oo_get_class_is_extern p klass) = true
      ∧ (!oo_get_class_is_abstract p klass) = true
  · have eff := add_new_live_class_effect depth p klass env env1 h hcond
    unfold add_new_live_class at h
    rw [if_pos hcond] at h
    simp only [bind_ok] at h
    obtain ⟨env2, h1, h2⟩ := h
    obtain ⟨_, _, f3⟩ := cfes_frame _ _ _ _ _ h2
    have hsub : ∀ entry ∈ env1.unused_targets,
        entry ∈ env.unused_targets ∧ entry.1 ≠ klass := by
      intro entry hmem
      rw [f3] at hmem
      split at h1
      · simp only [bind_ok, pure_ok] at h1
        obtain ⟨env3, h3, rfl⟩ := h1
        have e3 := foldlM_inv _ (fun t => t.unused_targets = env.unused_targets) _
          (fun s x s1 _ hI hf => (add_to_dyncalls_ext p x.1 x.2 s s1 hf).2.2.trans hI)
          { env with live_classes := cpset_insert env.live_classes klass } env3 rfl h3
        have h4 := cpmap_mem_remove _ _ _ hmem
        rw [e3] at h4
        exact h4
      · rename_i hnone
        rw [pure_ok] at h1
        subst h1
        have hnone1 : cpmap_find env.unused_targets klass = none := hnone
        exact ⟨hmem, cpmap_find_none_mem _ _ hnone1 entry hmem⟩
    intro K methods hmem
    obtain ⟨h5, h6⟩ := hsub (K, methods) hmem
    obtain ⟨⟨h7, h8⟩, h9⟩ := hs K methods h5
    refine ⟨⟨?_, h8⟩, h9⟩
    rw [eff.1]
    intro hin
    rcases (mem_cpset_insert _ _ _).1 hin with h10 | h10
    · exact h7 h10
    · exact h6 h10
  · unfold add_new_live_class at h
    rw [if_neg hcond, pure_ok] at h
    exact h ▸ hs

theorem analyzer_handle_dynamic_call_unused_ok (depth : Nat) (p : ir_prog) (e : EntId)
    (env env1 : analyzer_env) (h : analyzer_handle_dynamic_call depth p e env = .ok env1)
    (hs : unused_ok p env) : unused_ok p env1 := by
  unfold analyzer_handle_dynamic_call at h
  simp only [bind_ok, exists_assert_ok] at h
  obtain ⟨_, h⟩ := h
  split at h
  · rw [pure_ok] at h
    exact h ▸ hs
  · simp only [bind_ok, pure_ok] at h
    obtain ⟨res, h1, rfl⟩ := h
    exact collect_methods_recursive_unused_ok depth p e depth _ _ ([], env) res h1 hs

theorem walk_callgraph_and_analyze_unused_ok (depth : Nat) (p : ir_prog) (g : GraphId)
    (node : NodeId) (env env1 : analyzer_env)
    (h : walk_callgraph_and_analyze depth p g node env = .ok env1)
    (hs : unused_ok p env) : unused_ok p env1 := by
  have frame : (env1.live_classes = env.live_classes ∧ env1.dyncall_targets = env.dyncall_targets
      ∧ env1.unused_targets = env.unused_targets) → unused_ok p env1 :=
    fun f => unused_ok_of_frame p env env1 f.1 f.2.2 hs
  unfold walk_callgraph_and_analyze at h
  split at h
  · split at h
    · exact frame (live_enqueue_frame _ _ _ _ h)
    · rw [pure_ok] at h
      exact h ▸ hs
  · split at h
    · exact frame (analyzer_handle_static_call_frame _ _ _ _ _ _ h)
    · split at h
      · split at h
        · exact frame (analyzer_handle_static_call_frame _ _ _ _ _ _ h)
        · exact analyzer_handle_dynamic_call_unused_ok _ _ _ _ _ h hs
      · rw [pure_ok] at h
        exact h ▸ hs
    · rw [pure_ok] at h
      exact h ▸ hs
  · exact add_new_live_class_unused_ok _ _ _ _ _ h hs
  · rw [pure_ok] at h
    exact h ▸ hs

theorem analyzer_step_unused_ok (depth : Nat) (p : ir_prog) (env env1 : analyzer_env)
    (h : analyzer_step depth p env env1) (hs : unused_ok p env) : unused_ok p env1 := by
  cases h with
  | node g n _ _ h => exact walk_callgraph_and_analyze_unused_ok _ _ _ _ _ _ h hs
  | no_graph e _ _ h =>
    obtain ⟨f1, _, f3⟩ := analyzer_handle_no_graph_frame _ _ _ _ h
    exact unused_ok_of_frame p env env1 f1 f3 hs
  | live_class k _ _ h => exact add_new_live_class_unused_ok _ _ _ _ _ h hs
  | collect c rs rs1 _ _ h =>
    exact collect_methods_recursive_unused_ok depth p c depth _ _ (rs, env) (rs1, env1) h hs

/-- C29, amended to the points between two steps of the analyzer: at the start
of the work-queue loop, and at every state reached by taking an entity from the
queue, by marking it done, or by a completed step of the analyzer (the callback
on a node, the handling of a method without graph, a call of
`add_new_live_class` or a call of `collect_methods`), no key of
`unused_targets` is in `live_classes`, no key of `unused_targets` is an extern
class, and no method stored in `unused_targets` is abstract. -/
theorem pending_targets_not_in_use (depth : Nat) (p : ir_prog) (entry_points : List EntId)
    (initial_live_classes : Option (List ClassId)) (env : analyzer_env)
    (h : rta_point depth p entry_points initial_live_classes env) :
    ∀ K methods, (K, methods) ∈ env.unused_targets →
      K ∉ env.live_classes ∧ oo_get_class_is_extern p K = false
        ∧ ∀ m C, (m, C) ∈ methods → oo_get_method_is_abstract p m = false := by
  have k : unused_ok p env := by
    induction h with
    | start env1 env2 h1 h2 =>
      obtain ⟨_, e2⟩ := rta_run_start_empty depth p entry_points initial_live_classes _ _ h1 h2
      intro K methods hmem
      rw [e2] at hmem
      cases hmem
    | dequeue env entity rest _ _ ih => exact ih
    | mark_done env entity _ ih => exact ih
    | step env env1 _ hstep ih => exact analyzer_step_unused_ok depth p env env1 hstep ih
  intro K methods hmem
  exact ⟨(k K methods hmem).1.1, (k K methods hmem).1.2, (k K methods hmem).2⟩

theorem pending_targets_not_in_use_witness :
    rta_run 5 5 sibling_prog [0] none
      = .ok
        { workqueue := [], done_set := [0, 2, 1], live_classes := [1, 2],
          live_methods := [0, 2, 1], dyncall_targets := [(1, [2, 1])],
          unused_targets := [(0, [(1, [1])])] }
      ∧ (0 : Nat) ∉ ([1, 2] : List Nat) ∧ oo_get_class_is_extern sibling_prog 0 = false
      ∧ ∀ m C, (m, C) ∈ [((1 : Nat), ([1] : cpset))] →
          oo_get_method_is_abstract sibling_prog m = false :=
  ⟨rfl, pending_targets_not_in_use 5 sibling_prog [0] none
    { workqueue := [], done_set := [0, 2, 1], live_classes := [1, 2],
      live_methods := [0, 2, 1], dyncall_targets := [(1, [2, 1])],
      unused_targets := [(0, [(1, [1])])] }
    (rta_run_point 5 5 sibling_prog [0] none _ rfl) 0 [(1, [1])] (by decide)⟩

/-- C29 as stated fails inside `add_new_live_class`.  In the run on
`two_class_prog` the walk over the graph of `main` is `[0, 1, 2, 3, 4]`; the
callbacks on the nodes 0 to 3 lead from the state in which `main` is marked done
to `two_class_env`, which is a point of `rta_run`, and the callback on node 4
(`VptrIsSet B`) is `add_new_live_class` for `B` (class 1).  Its condition holds,
so it first inserts `B` into `live_classes` (rta.c:191) and then runs the update
of the existing results and the check for extern superclasses on that state.
In that state, and still after the loop over the pending methods of `B`
(rta.c:199-210), before the key is removed (rta.c:212), `B` is in `live_classes`
and is a key of `unused_targets`. -/
theorem live_class_still_pending :
    (get_irp_irg two_class_prog 0).walk = [0, 1, 2, 3] ++ [4]
      ∧ rta_run_entry_points two_class_prog [0] analyzer_env_init
          = .ok { analyzer_env_init with workqueue := [0], live_methods := [0] }
      ∧ [0, 1, 2, 3].foldlM
            (fun (env : analyzer_env) (node : NodeId) =>
              walk_callgraph_and_analyze 5 two_class_prog 0 node env)
            { analyzer_env_init with workqueue := [], done_set := [0], live_methods := [0] }
          = .ok two_class_env
      ∧ rta_point 5 two_class_prog [0] none two_class_env
      ∧ walk_callgraph_and_analyze 5 two_class_prog 0 4 two_class_env
          = add_new_live_class 5 two_class_prog 1 two_class_env
      ∧ ((1 : Nat) ∉ two_class_env.live_classes ∧ oo_get_class_is_extern two_class_prog 1 = false
          ∧ oo_get_class_is_abstract two_class_prog 1 = false)
      ∧ add_new_live_class 5 two_class_prog 1 two_class_env
          = (add_new_live_class_drain two_class_prog 1
              { two_class_env with live_classes := cpset_insert two_class_env.live_classes 1 }
            >>= check_for_external_superclasses 5 two_class_prog 1)
      ∧ (1 : Nat) ∈
          ({ two_class_env with
              live_classes := cpset_insert two_class_env.live_classes 1 }).live_classes
      ∧ cpmap_find
          ({ two_class_env with
              live_classes := cpset_insert two_class_env.live_classes 1 }).unused_targets 1
          = some [(2, [1])]
      ∧ ∃ env3,
          [((2 : Nat), ([1] : cpset))].foldlM
              (fun (env : analyzer_env) (entry : Nat × cpset) =>
                add_to_dyncalls two_class_prog entry.1 entry.2 env)
              { two_class_env with live_classes := cpset_insert two_class_env.live_classes 1 }
            = .ok env3
          ∧ (1 : Nat) ∈ env3.live_classes
          ∧ cpmap_find env3.unused_targets 1 = some [(2, [1])] := by
  have h0 : rta_point 5 two_class_prog [0] none
      { analyzer_env_init with workqueue := [0], live_methods := [0] } :=
    rta_point.start _ _ rfl rfl
  have h1 := rta_point.mark_done _ 0 (rta_point.dequeue _ 0 [] h0 rfl)
  have hp : rta_point 5 two_class_prog [0] none two_class_env :=
    rta_point.step _ _ h1 (analyzer_step.node 0 3 _ _ rfl)
  exact ⟨rfl, rfl, rfl, hp, rfl, ⟨by decide, rfl, rfl⟩, rfl, by decide, rfl,
    ⟨_, rfl, by decide, rfl⟩⟩

/-! ### The lookup in `add_to_dyncalls` -/

theorem add_new_live_class_eq (depth : Nat) (p : ir_prog) (klass : ClassId)
    (env : analyzer_env) :
    add_new_live_class depth p klass env
      = if klass ∉ env.live_classes ∧ ! oo_get_class_is_extern p klass
            ∧ !oo_get_class_is_abstract p klass then
          add_new_live_class_drain p klass
              { env with live_classes := cpset_insert env.live_classes klass }
            >>= check_for_external_superclasses depth p klass
        else pure env := by
  unfold add_new_live_class add_new_live_class_drain
  rfl

/-- A fold in the error monad returns when every step returns on the states
that satisfy an invariant of the fold. -/
theorem foldlM_total {σ α : Type} (f : σ → α → Except Err σ) (I : σ → Prop) :
    ∀ (l : List α), (∀ s x, x ∈ l → I s → ∃ s1, f s x = .ok s1 ∧ I s1) →
      ∀ s, I s → ∃ s1, l.foldlM f s = .ok s1 ∧ I s1
  | [], _, s, hs => ⟨s, rfl, hs⟩
  | x :: l, hstep, s, hs => by
    obtain ⟨s2, h1, h2⟩ := hstep s x (List.mem_cons_self _ _) hs
    obtain ⟨s1, h3, h4⟩ := foldlM_total f I l
      (fun s x hx => hstep s x (List.mem_cons_of_mem _ hx)) s2 h2
    refine ⟨s1, ?_, h4⟩
    rw [List.foldlM_cons, h1, bind_ok_eq]
    exact h3

theorem unused_keyed_in_mono (p : ir_prog) (keys keys1 : EntId → Prop) (env env1 : analyzer_env)
    (hsub : ∀ entry ∈ env1.unused_targets, entry ∈ env.unused_targets)
    (hk : ∀ c, keys c → keys1 c) (h : unused_keyed_in p keys env) :
    unused_keyed_in p keys1 env1 := by
  intro K methods hmem m C hm
  obtain ⟨h1, h2⟩ := h K methods (hsub _ hmem) m C hm
  exact ⟨h1, fun c hc => hk c (h2 c hc)⟩

theorem unused_keyed_ext (p : ir_prog) (env env1 : analyzer_env) (he : env_ext env env1)
    (hsub : ∀ entry ∈ env1.unused_targets, entry ∈ env.unused_targets)
    (h : unused_keyed p env) : unused_keyed p env1 :=
  unused_keyed_in_mono p _ _ env env1 hsub (fun c hc => key_ext he c hc) h

theorem memorize_unused_keyed (p : ir_prog) (keys : EntId → Prop) (klass : ClassId)
    (entity call_entity : EntId) (env env1 : analyzer_env)
    (h : memorize_unused_target p klass entity call_entity env = .ok env1)
    (hc : keys call_entity) (hs : unused_keyed_in p keys env) :
    unused_keyed_in p keys env1 := by
  rw [memorize_unused_target_ok] at h
  obtain ⟨hme, _, rfl⟩ := h
  intro K methods hmem m C hm
  rcases cpmap_mem_set _ _ _ _ hmem with h1 | h1
  · exact hs K methods h1 m C hm
  · cases h1
    have hold : ∀ m1 C1, (m1, C1) ∈ (cpmap_find env.unused_targets klass).getD [] →
        is_method_entity p m1 = true ∧ ∀ c ∈ C1, keys c := by
      intro m1 C1 h2
      cases hf : cpmap_find env.unused_targets klass with
      | none =>
        rw [hf] at h2
        simp at h2
      | some ms =>
        rw [hf] at h2
        exact hs klass ms (cpmap_find_mem _ _ _ hf) m1 C1 h2
    rcases cpmap_mem_set _ _ _ _ hm with h2 | h2
    · exact hold m C h2
    · cases h2
      refine ⟨hme, ?_⟩
      intro c1 hc1
      rcases (mem_cpset_insert _ _ _).1 hc1 with h3 | h3
      · cases hf : cpmap_find ((cpmap_find env.unused_targets klass).getD []) entity with
        | none =>
          rw [hf] at h3
          simp at h3
        | some C0 =>
          rw [hf] at h3
          exact (hold entity C0 (cpmap_find_mem _ _ _ hf)).2 c1 h3
      · exact h3 ▸ hc

theorem collect_methods_recursive_unused_keyed (budget : Nat) (p : ir_prog) (c : EntId)
    (keys : EntId → Prop) (hc : keys c) :
    ∀ (depth : Nat) (klass : ClassId) (entity : EntId) (st st1 : cpset × analyzer_env),
      collect_methods_recursive budget depth p c klass entity st = .ok st1 →
      unused_keyed_in p keys st.2 → unused_keyed_in p keys st1.2
  | 0, _, _, _, _, h, _ => by simp [collect_methods_recursive] at h
  | depth + 1, klass, entity, st, st1, h, hs => by
    simp only [collect_methods_recursive, bind_ok, exists_assert_ok] at h
    obtain ⟨_, _, cur, _, st2, h2, h3⟩ := h
    have e2 : unused_keyed_in p keys st2.2 := by
      split at h2
      · split at h2
        · have hu := (take_entity_result _ _ _ _ _ h2).1
          exact unused_keyed_in_mono p keys keys st.2 st2.2 (fun e he => hu ▸ he)
            (fun _ h => h) hs
        · simp only [bind_ok, pure_ok] at h2
          obtain ⟨env1, h4, rfl⟩ := h2
          exact memorize_unused_keyed p keys klass cur c st.2 env1 h4 hc hs
      · rw [pure_ok] at h2
        exact h2 ▸ hs
    exact foldlM_inv _ (fun t => unused_keyed_in p keys t.2) (get_class_subtypes p klass)
      (fun s x s1 _ hI hf =>
        collect_methods_recursive_unused_keyed budget p c keys hc depth x cur s s1 hf hI)
      st2 st1 e2 h3

theorem analyzer_handle_dynamic_call_unused_keyed (depth : Nat) (p : ir_prog) (e : EntId)
    (env env1 : analyzer_env) (h : analyzer_handle_dynamic_call depth p e env = .ok env1)
    (hs : unused_keyed p env) : unused_keyed p env1 := by
  unfold analyzer_handle_dynamic_call at h
  simp only [bind_ok, exists_assert_ok] at h
  obtain ⟨_, h⟩ := h
  split at h
  · rw [pure_ok] at h
    exact h ▸ hs
  · simp only [bind_ok, pure_ok] at h
    obtain ⟨res, h1, rfl⟩ := h
    have c1 := collect_methods_ext _ _ _ _ _ _ h1
    have k := collect_methods_recursive_unused_keyed depth p e
      (fun c => c = e ∨ ∃ ts, cpmap_find env.dyncall_targets c = some ts) (Or.inl rfl)
      depth _ _ ([], env) res h1
      (unused_keyed_in_mono p _ _ env env (fun _ h => h) (fun _ h => Or.inr h) hs)
    refine unused_keyed_in_mono p _ _ res.2 _ (fun _ h => h) ?_ k
    intro c hc
    by_cases hce : c = e
    · exact ⟨res.1, by rw [hce]; exact cpmap_find_set_self _ _ _⟩
    · rcases hc with hc | ⟨ts, hc⟩
      · exact absurd hc hce
      · refine ⟨ts, ?_⟩
        simp only [cpmap_find_set, hce, if_false, c1.targets_eq]
        exact hc

theorem add_new_live_class_unused_sub (depth : Nat) (p : ir_prog) (klass : ClassId)
    (env env1 : analyzer_env) (h : add_new_live_class depth p klass env = .ok env1) :
    ∀ entry ∈ env1.unused_targets, entry ∈ env.unused_targets := by
  unfold add_new_live_class at h
  split at h
  · simp only [bind_ok] at h
    obtain ⟨env2, h1, h2⟩ := h
    obtain ⟨_, _, f3⟩ := cfes_frame _ _ _ _ _ h2
    intro entry hmem
    rw [f3] at hmem
    split at h1
    · simp only [bind_ok, pure_ok] at h1
      obtain ⟨env3, h3, rfl⟩ := h1
      have e3 := foldlM_inv _ (fun t => t.unused_targets = env.unused_targets) _
        (fun s x s1 _ hI hf => (add_to_dyncalls_ext p x.1 x.2 s s1 hf).2.2.trans hI)
        { env with live_classes := cpset_insert env.live_classes klass } env3 rfl h3
      have h4 := (cpmap_mem_remove _ _ _ hmem).1
      rw [e3] at h4
      exact h4
    · rw [pure_ok] at h1
      subst h1
      exact hmem
  · rw [pure_ok] at h
    subst h
    exact fun _ h => h

theorem walk_callgraph_and_analyze_unused_keyed (depth : Nat) (p : ir_prog) (g : GraphId)
    (node : NodeId) (env env1 : analyzer_env)
    (h : walk_callgraph_and_analyze depth p g node env = .ok env1)
    (hs : unused_keyed p env) : unused_keyed p env1 := by
  have he := walk_callgraph_and_analyze_ext depth p g node env env1 h
  have frame : (env1.live_classes = env.live_classes ∧ env1.dyncall_targets = env.dyncall_targets
      ∧ env1.unused_targets = env.unused_targets) → unused_keyed p env1 :=
    fun f => unused_keyed_ext p env env1 he (fun e h1 => f.2.2 ▸ h1) hs
  unfold walk_callgraph_and_analyze at h
  split at h
  · split at h
    · exact frame (live_enqueue_frame _ _ _ _ h)
    · rw [pure_ok] at h
      exact h ▸ hs
  · split at h
    · exact frame (analyzer_handle_static_call_frame _ _ _ _ _ _ h)
    · split at h
      · split at h
        · exact frame (analyzer_handle_static_call_frame _ _ _ _ _ _ h)
        · exact analyzer_handle_dynamic_call_unused_keyed _ _ _ _ _ h hs
      · rw [pure_ok] at h
        exact h ▸ hs
    · rw [pure_ok] at h
      exact h ▸ hs
  · exact unused_keyed_ext p env env1 he (add_new_live_class_unused_sub _ _ _ _ _ h) hs
  · rw [pure_ok] at h
    exact h ▸ hs

theorem handler_point_unused_keyed (depth : Nat) (p : ir_prog) (entry_points : List EntId)
    (initial_live_classes : Option (List ClassId)) (env : analyzer_env)
    (h : handler_point depth p entry_points initial_live_classes env) :
    unused_keyed p env := by
  induction h with
  | start env1 env2 h1 h2 =>
    obtain ⟨_, e2⟩ := rta_run_start_empty depth p entry_points initial_live_classes _ _ h1 h2
    intro K methods hmem
    rw [e2] at hmem
    cases hmem
  | dequeue env entity rest _ _ ih => exact ih
  | mark_done env entity _ ih => exact ih
  | node g n env env1 _ hstep ih =>
    exact walk_callgraph_and_analyze_unused_keyed depth p g n env env1 hstep ih
  | no_graph entity env env1 _ hstep ih =>
    exact unused_keyed_ext p env env1 (analyzer_handle_no_graph_ext _ _ _ _ hstep)
      (fun e h1 => (analyzer_handle_no_graph_frame _ _ _ _ hstep).2.2 ▸ h1) ih

theorem add_to_dyncalls_total (p : ir_prog) (method : EntId) (call_entities : cpset)
    (env : analyzer_env) (hm : is_method_entity p method = true)
    (hk : ∀ c ∈ call_entities, ∃ ts, cpmap_find env.dyncall_targets c = some ts) :
    ∃ env1, add_to_dyncalls p method call_entities env = .ok env1 := by
  have key : ∀ (s : analyzer_env) (x : EntId), x ∈ call_entities → env_ext env s →
      ∃ s1, (match cpmap_find s.dyncall_targets x with
        | none => Except.error Err.AssertionFailed
        | some targets =>
          add_to_workqueue p method
            { s with
              dyncall_targets :=
                cpmap_set s.dyncall_targets x (cpset_insert targets method)
              live_methods := cpset_insert s.live_methods method }) = .ok s1
        ∧ env_ext env s1 := by
    intro s x hx hI
    obtain ⟨ts, hts⟩ := key_ext hI x (hk x hx)
    have hstep : ∃ s1, (match cpmap_find s.dyncall_targets x with
        | none => Except.error Err.AssertionFailed
        | some targets =>
          add_to_workqueue p method
            { s with
              dyncall_targets :=
                cpmap_set s.dyncall_targets x (cpset_insert targets method)
              live_methods := cpset_insert s.live_methods method }) = .ok s1 := by
      rw [hts]
      exact ⟨_, (add_to_workqueue_ok _ _ _ _).2 ⟨hm, rfl⟩⟩
    obtain ⟨s1, h2⟩ := hstep
    obtain ⟨_, _, he, _⟩ := add_to_dyncalls_step p method s s1 x h2
    exact ⟨s1, h2, env_ext_trans hI he⟩
  obtain ⟨env1, h1, _⟩ := foldlM_total _ (fun s => env_ext env s) call_entities key env
    (env_ext_refl env)
  refine ⟨env1, ?_⟩
  unfold add_to_dyncalls
  rw [hm, assert_true, bind_ok_eq]
  exact h1

theorem add_new_live_class_drain_total (p : ir_prog) (klass : ClassId) (env : analyzer_env)
    (hs : unused_keyed p env) :
    ∃ env2, add_new_live_class_drain p klass env = .ok env2 := by
  unfold add_new_live_class_drain
  cases hf : cpmap_find env.unused_targets klass with
  | none => exact ⟨env, rfl⟩
  | some methods =>
    have hmem := cpmap_find_mem _ _ _ hf
    have key : ∀ (s : analyzer_env) (x : Nat × cpset), x ∈ methods → env_ext env s →
        ∃ s1, add_to_dyncalls p x.1 x.2 s = .ok s1 ∧ env_ext env s1 := by
      intro s x hx hI
      obtain ⟨h1, h2⟩ := hs klass methods hmem x.1 x.2 hx
      obtain ⟨s1, h4⟩ := add_to_dyncalls_total p x.1 x.2 s h1
        (fun c hc => key_ext hI c (h2 c hc))
      exact ⟨s1, h4, env_ext_trans hI (add_to_dyncalls_ext p x.1 x.2 s s1 h4).1⟩
    obtain ⟨env3, h3, _⟩ := foldlM_total
      (fun (env : analyzer_env) (entry : Nat × cpset) => add_to_dyncalls p entry.1 entry.2 env)
      (fun s => env_ext env s) methods key env (env_ext_refl env)
    refine ⟨{ env3 with unused_targets := cpmap_remove env3.unused_targets klass }, ?_⟩
    simp only []
    rw [h3]
    rfl

/-! ### The states of `rta_run` between two handler steps -/

theorem analyzer_walk_graph_handler_point (depth : Nat) (p : ir_prog)
    (entry_points : List EntId) (initial_live_classes : Option (List ClassId)) (g : GraphId)
    (env env1 : analyzer_env) (h : analyzer_walk_graph depth p g env = .ok env1)
    (hp : handler_point depth p entry_points initial_live_classes env) :
    handler_point depth p entry_points initial_live_classes env1 :=
  foldlM_inv _ (fun t => handler_point depth p entry_points initial_live_classes t) _
    (fun s x s1 _ hs hf => handler_point.node g x s s1 hs hf) env env1 hp h

theorem rta_run_iteration_handler_point (depth : Nat) (p : ir_prog)
    (entry_points : List EntId) (initial_live_classes : Option (List ClassId))
    (entity : EntId) (env env1 : analyzer_env)
    (h : rta_run_iteration depth p entity env = .ok env1)
    (hp : handler_point depth p entry_points initial_live_classes env) :
    handler_point depth p entry_points initial_live_classes env1 := by
  unfold rta_run_iteration at h
  simp only [bind_ok, exists_assert_ok] at h
  obtain ⟨_, h⟩ := h
  split at h
  · rw [pure_ok] at h
    exact h ▸ hp
  · have hp1 := handler_point.mark_done env entity hp
    split at h
    · exact handler_point.no_graph entity _ _ hp1 h
    · exact analyzer_walk_graph_handler_point depth p entry_points initial_live_classes
        _ _ _ h hp1

theorem rta_run_handler_point (fuel depth : Nat) (p : ir_prog) (entry_points : List EntId)
    (initial_live_classes : Option (List ClassId)) (env : analyzer_env)
    (h : rta_run fuel depth p entry_points initial_live_classes = .ok env) :
    handler_point depth p entry_points initial_live_classes env := by
  unfold rta_run at h
  simp only [bind_ok] at h
  obtain ⟨env1, h1, env2, h2, h3⟩ := h
  exact (rta_run_loop_inv depth p
    (fun t => handler_point depth p entry_points initial_live_classes t)
    (fun s entity rest s1 hI hq hf =>
      rta_run_iteration_handler_point depth p entry_points initial_live_classes entity _ s1 hf
        (handler_point.dequeue s entity rest hI hq))
    fuel env2 env h3 (handler_point.start env1 env2 h1 h2)).1

/-- C28 (the lookup in `add_to_dyncalls` succeeds): at every state of `rta_run`
between two handler steps (the start of the work-queue loop, and the states
after an entity is taken from the queue, after it is marked done, after the
callback on a node and after the handling of a method without graph), every
call entity stored in a set of `unused_targets` is a key of `dyncall_targets`
and every method stored there is a method entity; so for every class the part
of `add_new_live_class` that drains `unused_targets` returns: no lookup of
`add_to_dyncalls` fails, and `add_new_live_class` is the check for extern
superclasses on the drained state. -/
theorem add_to_dyncalls_lookup_succeeds (depth : Nat) (p : ir_prog)
    (entry_points : List EntId) (initial_live_classes : Option (List ClassId))
    (env : analyzer_env) (h : handler_point depth p entry_points initial_live_classes env) :
    (∀ K methods, (K, methods) ∈ env.unused_targets → ∀ m C, (m, C) ∈ methods →
        is_method_entity p m = true
          ∧ ∀ c ∈ C, ∃ ts, cpmap_find env.dyncall_targets c = some ts)
      ∧ ∀ klass, klass ∉ env.live_classes → oo_get_class_is_extern p klass = false →
          oo_get_class_is_abstract p klass = false →
          ∃ env2, add_new_live_class_drain p klass
                { env with live_classes := cpset_insert env.live_classes klass } = .ok env2
            ∧ add_new_live_class depth p klass env
              = check_for_external_superclasses depth p klass env2 := by
  have k := handler_point_unused_keyed depth p entry_points initial_live_classes env h
  refine ⟨k, ?_⟩
  intro klass hl hx ha
  have k1 : unused_keyed p { env with live_classes := cpset_insert env.live_classes klass } := k
  obtain ⟨env2, h2⟩ := add_new_live_class_drain_total p klass _ k1
  refine ⟨env2, h2, ?_⟩
  rw [add_new_live_class_eq, if_pos ⟨hl, by simp [hx], by simp [ha]⟩, h2]
  rfl

theorem add_to_dyncalls_lookup_succeeds_witness :
    handler_point 5 two_class_prog [0] none two_class_env
      ∧ (∃ ts, cpmap_find two_class_env.dyncall_targets 1 = some ts)
      ∧ ∃ env2, add_new_live_class_drain two_class_prog 1
            { two_class_env with live_classes := cpset_insert two_class_env.live_classes 1 }
          = .ok env2
        ∧ add_new_live_class 5 two_class_prog 1 two_class_env
          = check_for_external_superclasses 5 two_class_prog 1 env2 := by
  have hp : handler_point 5 two_class_prog [0] none two_class_env := by
    have h0 : handler_point 5 two_class_prog [0] none
        { analyzer_env_init with workqueue := [0], live_methods := [0] } :=
      handler_point.start _ _ rfl rfl
    have h1 := handler_point.mark_done _ 0 (handler_point.dequeue _ 0 [] h0 rfl)
    exact handler_point.node 0 3 _ _ h1 rfl
  have k := add_to_dyncalls_lookup_succeeds 5 two_class_prog [0] none two_class_env hp
  exact ⟨hp, (k.1 1 [(2, [1])] (by decide) 2 [1] (by decide)).2 1 (by decide),
    k.2 1 (by decide) rfl rfl⟩

/-! ### Queued and analysed methods are live -/

theorem live_enqueue_queue_live (p : ir_prog) (e : EntId) (env env1 : analyzer_env)
    (h : add_to_workqueue p e { env with live_methods := cpset_insert env.live_methods e }
      = .ok env1) (hs : queue_live env) : queue_live env1 := by
  intro x hx
  have hl := (live_enqueue_ext _ _ _ _ h).methods
  rcases (live_enqueue_added _ _ _ _ h).2 x hx with h1 | h1
  · exact hl (hs x h1)
  · rw [h1]
    exact (live_enqueue_mem _ _ _ _ h).1

theorem queue_live_of_frame (env env1 : analyzer_env) (hq : env1.workqueue = env.workqueue)
    (hl : env.live_methods ⊆ env1.live_methods) (hs : queue_live env) : queue_live env1 := by
  intro x hx
  rw [hq] at hx
  exact hl (hs x hx)

theorem cfesr_queue_live (p : ir_prog) (klass : ClassId) :
    ∀ (depth : Nat) (superclass : ClassId) (env env1 : analyzer_env),
      check_for_external_superclasses_recursive depth p klass superclass env = .ok env1 →
        queue_live env → queue_live env1
  | 0, _, _, _, h, _ => by simp [check_for_external_superclasses_recursive] at h
  | depth + 1, superclass, env, env1, h, hs => by
    simp only [check_for_external_superclasses_recursive, bind_ok] at h
    obtain ⟨env2, h1, h2⟩ := h
    have e1 : queue_live env2 := by
      split at h1
      · refine foldlM_inv _ queue_live _ ?_ env env2 hs h1
        intro s x s1 _ hI hf
        split at hf
        · rw [pure_ok] at hf; exact hf ▸ hI
        · split at hf
          · rw [pure_ok] at hf; exact hf ▸ hI
          · split at hf
            · exact live_enqueue_queue_live _ _ _ _ hf hI
            · rw [pure_ok] at hf; exact hf ▸ hI
      · rw [pure_ok] at h1; exact h1 ▸ hs
    exact foldlM_inv _ queue_live _
      (fun s x s1 _ hI hf => cfesr_queue_live p klass depth x s s1 hf hI) env2 env1 e1 h2

theorem cfes_queue_live (depth : Nat) (p : ir_prog) (klass : ClassId) (env env1 : analyzer_env)
    (h : check_for_external_superclasses depth p klass env = .ok env1)
    (hs : queue_live env) : queue_live env1 := by
  unfold check_for_external_superclasses at h
  split at h
  · rw [pure_ok] at h; exact h ▸ hs
  · exact foldlM_inv _ queue_live _
      (fun s x s1 _ hI hf => cfesr_queue_live p klass depth x s s1 hf hI) env env1 hs h

theorem add_to_dyncalls_queue_live (p : ir_prog) (method : EntId) (call_entities : cpset)
    (env env1 : analyzer_env) (h : add_to_dyncalls p method call_entities env = .ok env1)
    (hs : queue_live env) : queue_live env1 := by
  unfold add_to_dyncalls at h
  simp only [bind_ok, exists_assert_ok] at h
  refine foldlM_inv _ queue_live call_entities ?_ env env1 hs h.2
  intro s x s1 _ hI hf
  split at hf
  · cases hf
  · rename_i targets _
    exact live_enqueue_queue_live p method
      { s with dyncall_targets := cpmap_set s.dyncall_targets x (cpset_insert targets method) }
      s1 hf hI

theorem add_new_live_class_queue_live (depth : Nat) (p : ir_prog) (klass : ClassId)
    (env env1 : analyzer_env) (h : add_new_live_class depth p klass env = .ok env1)
    (hs : queue_live env) : queue_live env1 := by
  unfold add_new_live_class at h
  split at h
  · simp only [bind_ok] at h
    obtain ⟨env2, h1, h2⟩ := h
    refine cfes_queue_live _ _ _ _ _ h2 ?_
    split at h1
    · simp only [bind_ok, pure_ok] at h1
      obtain ⟨env3, h3, rfl⟩ := h1
      exact foldlM_inv _ queue_live _
        (fun s x s1 _ hI hf => add_to_dyncalls_queue_live p x.1 x.2 s s1 hf hI)
        { env with live_classes := cpset_insert env.live_classes klass } env3 hs h3
    · rw [pure_ok] at h1
      exact h1 ▸ hs
  · rw [pure_ok] at h
    exact h ▸ hs

theorem collect_methods_recursive_queue_live (budget : Nat) (p : ir_prog) (c : EntId) :
    ∀ (depth : Nat) (klass : ClassId) (entity : EntId) (st st1 : cpset × analyzer_env),
      collect_methods_recursive budget depth p c klass entity st = .ok st1 →
      queue_live st.2 → queue_live st1.2
  | 0, _, _, _, _, h, _ => by simp [collect_methods_recursive] at h
  | depth + 1, klass, entity, st, st1, h, hs => by
    simp only [collect_methods_recursive, bind_ok, exists_assert_ok] at h
    obtain ⟨_, _, cur, _, st2, h2, h3⟩ := h
    have e2 : queue_live st2.2 := by
      split at h2
      · split at h2
        · unfold take_entity at h2
          simp only [assert_bind_ok] at h2
          obtain ⟨_, h2⟩ := h2
          split at h2
          · simp only [bind_ok, pure_ok] at h2
            obtain ⟨env1, h4, rfl⟩ := h2
            exact live_enqueue_queue_live _ _ _ _ h4 hs
          · rw [pure_ok] at h2
            exact h2 ▸ hs
        · simp only [bind_ok, pure_ok] at h2
          obtain ⟨env1, h4, rfl⟩ := h2
          rw [memorize_unused_target_ok] at h4
          obtain ⟨_, _, rfl⟩ := h4
          exact hs
      · rw [pure_ok] at h2
        exact h2 ▸ hs
    exact foldlM_inv _ (fun t => queue_live t.2) (get_class_subtypes p klass)
      (fun s x s1 _ hI hf => collect_methods_recursive_queue_live budget p c depth x cur s s1 hf hI)
      st2 st1 e2 h3

theorem analyzer_handle_static_call_queue_live (p : ir_prog) (g : GraphId) (call : NodeId)
    (e : EntId) (env env1 : analyzer_env)
    (h : analyzer_handle_static_call p g call e env = .ok env1) (hs : queue_live env) :
    queue_live env1 := by
  unfold analyzer_handle_static_call at h
  simp only [bind_ok, exists_assert_ok] at h
  obtain ⟨_, env2, h1, h⟩ := h
  have k := live_enqueue_queue_live _ _ _ _ h1 hs
  split at h
  · rw [pure_ok] at h
    exact h ▸ k
  · split at h
    · simp only [bind_ok, exists_assert_ok] at h
      exact live_enqueue_queue_live _ _ _ _ h.2 k
    · rw [pure_ok] at h
      exact h ▸ k

theorem analyzer_handle_no_graph_queue_live (p : ir_prog) (e : EntId) (env env1 : analyzer_env)
    (h : analyzer_handle_no_graph p e env = .ok env1) (hs : queue_live env) :
    queue_live env1 := by
  unfold analyzer_handle_no_graph at h
  simp only [bind_ok, exists_assert_ok] at h
  obtain ⟨_, _, target, _, h⟩ := h
  split at h
  · exact live_enqueue_queue_live _ _ _ _ h hs
  · rw [pure_ok] at h
    exact h ▸ hs

theorem walk_callgraph_and_analyze_queue_live (depth : Nat) (p : ir_prog) (g : GraphId)
    (node : NodeId) (env env1 : analyzer_env)
    (h : walk_callgraph_and_analyze depth p g node env = .ok env1) (hs : queue_live env) :
    queue_live env1 := by
  unfold walk_callgraph_and_analyze at h
  split at h
  · split at h
    · exact live_enqueue_queue_live _ _ _ _ h hs
    · rw [pure_ok] at h
      exact h ▸ hs
  · split at h
    · exact analyzer_handle_static_call_queue_live _ _ _ _ _ _ h hs
    · split at h
      · split at h
        · exact analyzer_handle_static_call_queue_live _ _ _ _ _ _ h hs
        · unfold analyzer_handle_dynamic_call at h
          simp only [bind_ok, exists_assert_ok] at h
          obtain ⟨_, h⟩ := h
          split at h
          · rw [pure_ok] at h
            exact h ▸ hs
          · simp only [bind_ok, pure_ok] at h
            obtain ⟨res, h1, rfl⟩ := h
            exact collect_methods_recursive_queue_live depth p _ depth _ _ ([], env) res h1 hs
      · rw [pure_ok] at h
        exact h ▸ hs
    · rw [pure_ok] at h
      exact h ▸ hs
  · exact add_new_live_class_queue_live _ _ _ _ _ h hs
  · rw [pure_ok] at h
    exact h ▸ hs

/-- An iteration of the work-queue loop: the entity is a method entity; when it is
done already the state is returned as it is, otherwise the entity is marked
done and the state is extended by the handlers. -/
theorem rta_run_iteration_spec (depth : Nat) (p : ir_prog) (entity : EntId)
    (env env1 : analyzer_env) (h : rta_run_iteration depth p entity env = .ok env1) :
    is_method_entity p entity = true
      ∧ ((entity ∈ env.done_set ∧ env1 = env)
        ∨ (entity ∉ env.done_set
          ∧ env_ext { env with done_set := cpset_insert env.done_set entity } env1)) := by
  unfold rta_run_iteration at h
  simp only [bind_ok, exists_assert_ok] at h
  obtain ⟨hm, h⟩ := h
  refine ⟨hm, ?_⟩
  split at h
  · rename_i hd
    rw [pure_ok] at h
    exact Or.inl ⟨hd, h.symm⟩
  · rename_i hd
    refine Or.inr ⟨hd, ?_⟩
    split at h
    · exact analyzer_handle_no_graph_ext _ _ _ _ h
    · exact analyzer_walk_graph_ext _ _ _ _ _ h

/-- An iteration of the work-queue loop keeps the queued and the done methods
live. -/
theorem rta_run_iteration_visited_live (depth : Nat) (p : ir_prog) (entity : EntId)
    (rest : List EntId) (env env1 : analyzer_env)
    (hq : env.workqueue = entity :: rest)
    (h : rta_run_iteration depth p entity { env with workqueue := rest } = .ok env1)
    (hs : queue_live env ∧ ∀ x ∈ env.done_set, x ∈ env.live_methods) :
    queue_live env1 ∧ ∀ x ∈ env1.done_set, x ∈ env1.live_methods := by
  have hent : entity ∈ env.live_methods := hs.1 entity (by rw [hq]; exact List.mem_cons_self _ _)
  have hrest : queue_live { env with workqueue := rest } := by
    intro x hx
    exact hs.1 x (by rw [hq]; exact List.mem_cons_of_mem _ hx)
  obtain ⟨_, hcase⟩ := rta_run_iteration_spec depth p entity _ env1 h
  rcases hcase with ⟨_, rfl⟩ | ⟨_, he⟩
  · exact ⟨hrest, hs.2⟩
  · have hq1 : queue_live
        { workqueue := rest, done_set := cpset_insert env.done_set entity,
          live_classes := env.live_classes, live_methods := env.live_methods,
          dyncall_targets := env.dyncall_targets, unused_targets := env.unused_targets } :=
      hrest
    have hdone : ∀ x ∈ env1.done_set, x ∈ env1.live_methods := by
      intro x hx
      have hd1 : env1.done_set = cpset_insert env.done_set entity := he.done
      have hx1 : x ∈ cpset_insert env.done_set entity := hd1 ▸ hx
      rcases (mem_cpset_insert _ _ _).1 hx1 with h1 | h1
      · exact he.methods (hs.2 x h1)
      · exact he.methods (h1 ▸ hent)
    refine ⟨?_, hdone⟩
    unfold rta_run_iteration at h
    simp only [bind_ok, exists_assert_ok] at h
    obtain ⟨_, h⟩ := h
    split at h
    · rename_i hd
      exact absurd hd (by assumption)
    · split at h
      · exact analyzer_handle_no_graph_queue_live _ _ _ _ h hq1
      · exact foldlM_inv _ queue_live _
          (fun s x s1 _ hI hf => walk_callgraph_and_analyze_queue_live _ _ _ _ _ _ hf hI)
          _ env1 hq1 h

/-- The work-queue loop starts with the entry points live and queued and nothing
done. -/
theorem rta_run_start_visited_live (depth : Nat) (p : ir_prog) (entry_points : List EntId)
    (initial_live_classes : Option (List ClassId)) (env1 env2 : analyzer_env)
    (h1 : rta_run_entry_points p entry_points analyzer_env_init = .ok env1)
    (h2 : rta_run_initial_live_classes depth p initial_live_classes env1 = .ok env2) :
    queue_live env2 ∧ env2.done_set = [] := by
  unfold rta_run_entry_points at h1
  simp only [bind_ok, exists_assert_ok, pure_ok] at h1
  obtain ⟨env0, h0, _, rfl⟩ := h1
  have k0 := foldlM_inv _ (fun t => queue_live t ∧ t.done_set = []) entry_points ?_
    analyzer_env_init env0 ⟨fun _ h => (by cases h), rfl⟩ h0
  · unfold rta_run_initial_live_classes at h2
    split at h2
    · rw [pure_ok] at h2
      exact h2 ▸ k0
    · refine foldlM_inv _ (fun t => queue_live t ∧ t.done_set = []) _ ?_ env0 env2 k0 h2
      intro s x s1 _ hI hf
      exact ⟨cfes_queue_live _ _ _ _ _ hf hI.1, (cfes_ext _ _ _ _ _ hf).done.trans hI.2⟩
  · intro s x s1 _ hI hf
    simp only [bind_ok, exists_assert_ok, pure_ok] at hf
    obtain ⟨_, _, rfl⟩ := hf
    refine ⟨?_, hI.2⟩
    intro y hy
    rcases List.mem_append.1 hy with h3 | h3
    · exact cpset_subset_insert _ _ (hI.1 y h3)
    · rw [List.mem_singleton.1 h3]
      exact cpset_insert_self _ _

/-- C27 (live methods and analysed methods): when `rta_run` returns, the work
queue is empty, every method in `live_methods` is in `done_set` (it was taken
from the queue and processed), and every method in `done_set` is in
`live_methods`. -/
theorem live_equals_analysed (fuel depth : Nat) (p : ir_prog) (entry_points : List EntId)
    (initial_live_classes : Option (List ClassId)) (env : analyzer_env)
    (h : rta_run fuel depth p entry_points initial_live_classes = .ok env) :
    env.workqueue = [] ∧ ∀ x, x ∈ env.live_methods ↔ x ∈ env.done_set := by
  have hld := rta_run_live_done fuel depth p entry_points initial_live_classes env h
  unfold rta_run at h
  simp only [bind_ok] at h
  obtain ⟨env1, h1, env2, h2, h3⟩ := h
  obtain ⟨q0, d0⟩ := rta_run_start_visited_live depth p entry_points initial_live_classes
    env1 env2 h1 h2
  have k := rta_run_loop_inv depth p
    (fun t => queue_live t ∧ ∀ x ∈ t.done_set, x ∈ t.live_methods)
    (fun s entity rest s1 hI hq hf =>
      rta_run_iteration_visited_live depth p entity rest s s1 hq hf hI)
    fuel env2 env h3 ⟨q0, fun x hx => by rw [d0] at hx; cases hx⟩
  exact ⟨k.2, fun x => ⟨hld x, k.1.2 x⟩⟩

theorem live_equals_analysed_witness :
    rta_run 5 5 sibling_prog [0] none
      = .ok
        { workqueue := [], done_set := [0, 2, 1], live_classes := [1, 2],
          live_methods := [0, 2, 1], dyncall_targets := [(1, [2, 1])],
          unused_targets := [(0, [(1, [1])])] }
      ∧ ∀ x, x ∈ ([0, 2, 1] : List Nat) ↔ x ∈ ([0, 2, 1] : List Nat) :=
  ⟨rfl, (live_equals_analysed 5 5 sibling_prog [0] none
    { workqueue := [], done_set := [0, 2, 1], live_classes := [1, 2],
      live_methods := [0, 2, 1], dyncall_targets := [(1, [2, 1])],
      unused_targets := [(0, [(1, [1])])] } rfl).2⟩

/-! ### Every method is processed at most once -/

theorem rta_run_loop_log_fst (depth : Nat) (p : ir_prog) :
    ∀ (fuel : Nat) (env : analyzer_env),
      (rta_run_loop_log depth p fuel env).map Prod.fst = rta_run_loop depth p fuel env := by
  intro fuel
  induction fuel with
  | zero =>
    intro env
    unfold rta_run_loop_log rta_run_loop
    cases env.workqueue <;> rfl
  | succ fuel ih =>
    intro env
    unfold rta_run_loop_log rta_run_loop
    cases hq : env.workqueue with
    | nil => rfl
    | cons entity rest =>
      simp only []
      cases h1 : rta_run_iteration depth p entity { env with workqueue := rest } with
      | error e => rfl
      | ok env1 =>
        simp only [bind_ok_eq]
        rw [← ih env1]
        cases rta_run_loop_log depth p fuel env1 <;> rfl

theorem rta_run_loop_log_ok (depth : Nat) (p : ir_prog) (fuel : Nat) (env env1 : analyzer_env)
    (h : rta_run_loop depth p fuel env = .ok env1) :
    ∃ log, rta_run_loop_log depth p fuel env = .ok (env1, log) := by
  rw [← rta_run_loop_log_fst] at h
  cases h2 : rta_run_loop_log depth p fuel env with
  | error e =>
    rw [h2] at h
    cases h
  | ok r =>
    rw [h2] at h
    cases h
    exact ⟨r.2, rfl⟩

/-- The record of the processed entities is what the loop appends to `done_set`,
and it has no repetition. -/
theorem rta_run_loop_log_spec (depth : Nat) (p : ir_prog) :
    ∀ (fuel : Nat) (env env1 : analyzer_env) (log : List EntId),
      rta_run_loop_log depth p fuel env = .ok (env1, log) →
        env1.done_set = env.done_set ++ log ∧ log.Nodup
          ∧ (∀ e ∈ log, e ∉ env.done_set ∧ is_method_entity p e = true) := by
  intro fuel
  induction fuel with
  | zero =>
    intro env env1 log h
    unfold rta_run_loop_log at h
    split at h
    · rw [pure_ok] at h
      cases h
      simp
    · simp at h
  | succ fuel ih =>
    intro env env1 log h
    unfold rta_run_loop_log at h
    split at h
    · rw [pure_ok] at h
      cases h
      simp
    · rename_i entity rest hq
      simp only [bind_ok, pure_ok] at h
      obtain ⟨env2, h1, r, h2, h3⟩ := h
      cases h3
      obtain ⟨k1, k2, k3⟩ := ih env2 r.1 r.2 h2
      obtain ⟨hm, hcase⟩ := rta_run_iteration_spec depth p entity _ env2 h1
      rcases hcase with ⟨hd, rfl⟩ | ⟨hd, he⟩
      · have hd1 : entity ∈ env.done_set := hd
        rw [if_pos hd1]
        exact ⟨k1, k2, k3⟩
      · have hd1 : entity ∉ env.done_set := hd
        have hdone : env2.done_set = env.done_set ++ [entity] := by
          have := he.done
          simp only [cpset_insert, if_neg hd1] at this
          exact this
        rw [if_neg hd1]
        refine ⟨?_, ?_, ?_⟩
        · rw [k1, hdone]
          simp
        · refine List.nodup_cons.2 ⟨?_, k2⟩
          intro hin
          exact (k3 entity hin).1 (by rw [hdone]; simp)
        · intro e he1
          rcases List.mem_cons.1 he1 with h4 | h4
          · exact ⟨h4 ▸ hd1, h4 ▸ hm⟩
          · refine ⟨fun h5 => (k3 e h4).1 ?_, (k3 e h4).2⟩
            rw [hdone]
            exact List.mem_append_left _ h5

/-! #### The devirtualizer -/

theorem rta_devirtualize_iteration_done (entity : EntId) (st st1 : ir_prog × optimizer_env)
    (h : rta_devirtualize_iteration entity st = .ok st1) :
    (entity ∈ st.2.done_set ∧ st1 = st)
      ∨ (entity ∉ st.2.done_set ∧ st1.2.done_set = cpset_insert st.2.done_set entity) := by
  unfold rta_devirtualize_iteration at h
  simp only [bind_ok, exists_assert_ok] at h
  obtain ⟨_, h⟩ := h
  split at h
  · rename_i hd
    rw [pure_ok] at h
    exact Or.inl ⟨hd, h.symm⟩
  · rename_i hd
    refine Or.inr ⟨hd, ?_⟩
    split at h
    · simp only [bind_ok, pure_ok] at h
      obtain ⟨env2, h1, rfl⟩ := h
      exact (optimizer_handle_no_graph_spec _ _ _ _ h1).1.done
    · unfold optimizer_walk_graph at h
      exact foldlM_inv _
        (fun (s : ir_prog × optimizer_env) =>
          s.2.done_set = cpset_insert st.2.done_set entity) _
        (fun s x s1 _ hI hf =>
          (walk_callgraph_and_devirtualize_spec _ x s s1 hf).2.1.done.trans hI)
        _ st1 rfl h

theorem rta_devirtualize_loop_log_fst :
    ∀ (fuel : Nat) (st : ir_prog × optimizer_env),
      (rta_devirtualize_loop_log fuel st).map Prod.fst = rta_devirtualize_loop fuel st := by
  intro fuel
  induction fuel with
  | zero =>
    intro st
    unfold rta_devirtualize_loop_log rta_devirtualize_loop
    cases st.2.workqueue <;> rfl
  | succ fuel ih =>
    intro st
    unfold rta_devirtualize_loop_log rta_devirtualize_loop
    cases hq : st.2.workqueue with
    | nil => rfl
    | cons entity rest =>
      simp only []
      cases h1 : rta_devirtualize_iteration entity (st.1, { st.2 with workqueue := rest }) with
      | error e => rfl
      | ok st1 =>
        simp only [bind_ok_eq]
        rw [← ih st1]
        cases rta_devirtualize_loop_log fuel st1 <;> rfl

theorem rta_devirtualize_loop_log_ok (fuel : Nat) (st st1 : ir_prog × optimizer_env)
    (h : rta_devirtualize_loop fuel st = .ok st1) :
    ∃ log, rta_devirtualize_loop_log fuel st = .ok (st1, log) := by
  rw [← rta_devirtualize_loop_log_fst] at h
  cases h2 : rta_devirtualize_loop_log fuel st with
  | error e =>
    rw [h2] at h
    cases h
  | ok r =>
    rw [h2] at h
    cases h
    exact ⟨r.2, rfl⟩

theorem rta_devirtualize_loop_log_spec :
    ∀ (fuel : Nat) (st st1 : ir_prog × optimizer_env) (log : List EntId),
      rta_devirtualize_loop_log fuel st = .ok (st1, log) →
        st1.2.done_set = st.2.done_set ++ log ∧ log.Nodup
          ∧ (∀ e ∈ log, e ∉ st.2.done_set) := by
  intro fuel
  induction fuel with
  | zero =>
    intro st st1 log h
    unfold rta_devirtualize_loop_log at h
    split at h
    · rw [pure_ok] at h
      cases h
      simp
    · simp at h
  | succ fuel ih =>
    intro st st1 log h
    unfold rta_devirtualize_loop_log at h
    split at h
    · rw [pure_ok] at h
      cases h
      simp
    · rename_i entity rest hq
      simp only [bind_ok, pure_ok] at h
      obtain ⟨st2, h1, r, h2, h3⟩ := h
      cases h3
      obtain ⟨k1, k2, k3⟩ := ih st2 r.1 r.2 h2
      rcases rta_devirtualize_iteration_done entity _ st2 h1 with ⟨hd, rfl⟩ | ⟨hd, he⟩
      · have hd1 : entity ∈ st.2.done_set := hd
        rw [if_pos hd1]
        exact ⟨k1, k2, k3⟩
      · have hd1 : entity ∉ st.2.done_set := hd
        have hdone : st2.2.done_set = st.2.done_set ++ [entity] := by
          have := he
          simp only [cpset_insert, if_neg hd1] at this
          exact this
        rw [if_neg hd1]
        refine ⟨?_, ?_, ?_⟩
        · rw [k1, hdone]
          simp
        · refine List.nodup_cons.2 ⟨?_, k2⟩
          intro hin
          exact k3 entity hin (by rw [hdone]; simp)
        · intro e he1
          rcases List.mem_cons.1 he1 with h4 | h4
          · exact h4 ▸ hd1
          · intro h5
            refine k3 e h4 ?_
            rw [hdone]
            exact List.mem_append_left _ h5

/-- C22 (the visit state of a method only advances): `add_to_workqueue` and
`optimizer_add_to_workqueue` on a method entity that is in `done_set` return
the state they were given, so the work queue is unchanged; an iteration of
either work-queue loop for an entity that is in `done_set` returns the state
it was given (the entity is not processed again), and no iteration removes
an entity from `done_set`; over a whole run of either loop the entities that
are processed (graph walked, or handled as a method without graph) form a list
without repetition, and `done_set` at the end is `done_set` at the start
followed by that list. -/
theorem visit_state_monotonic (depth : Nat) (p : ir_prog) :
    (∀ e env, is_method_entity p e = true → e ∈ env.done_set →
        add_to_workqueue p e env = .ok env)
      ∧ (∀ e oenv, is_method_entity p e = true → e ∈ oenv.done_set →
        optimizer_add_to_workqueue p e oenv = .ok oenv)
      ∧ (∀ e env, is_method_entity p e = true → e ∈ env.done_set →
        rta_run_iteration depth p e env = .ok env)
      ∧ (∀ e oenv, is_method_entity p e = true → e ∈ oenv.done_set →
        rta_devirtualize_iteration e (p, oenv) = .ok (p, oenv))
      ∧ (∀ e env env1, rta_run_iteration depth p e env = .ok env1 →
        env.done_set ⊆ env1.done_set)
      ∧ (∀ e oenv st1, rta_devirtualize_iteration e (p, oenv) = .ok st1 →
        oenv.done_set ⊆ st1.2.done_set)
      ∧ (∀ fuel env env1, rta_run_loop depth p fuel env = .ok env1 →
        ∃ log, rta_run_loop_log depth p fuel env = .ok (env1, log) ∧ log.Nodup
          ∧ env1.done_set = env.done_set ++ log)
      ∧ (∀ fuel oenv st1, rta_devirtualize_loop fuel (p, oenv) = .ok st1 →
        ∃ log, rta_devirtualize_loop_log fuel (p, oenv) = .ok (st1, log) ∧ log.Nodup
          ∧ st1.2.done_set = oenv.done_set ++ log) := by
  refine ⟨?_, ?_, ?_, ?_, ?_, ?_, ?_, ?_⟩
  · intro e env hm hd
    rw [add_to_workqueue_ok]
    exact ⟨hm, by rw [if_pos hd]⟩
  · intro e oenv hm hd
    rw [optimizer_add_to_workqueue_ok]
    exact ⟨hm, by rw [if_pos hd]⟩
  · intro e env hm hd
    unfold rta_run_iteration
    rw [hm, assert_true, bind_ok_eq, if_pos hd]
    rfl
  · intro e oenv hm hd
    unfold rta_devirtualize_iteration
    have hm1 : is_method_entity (p, oenv).1 e = true := hm
    have hd1 : e ∈ (p, oenv).2.done_set := hd
    rw [hm1, assert_true, bind_ok_eq, if_pos hd1]
    rfl
  · intro e env env1 h
    obtain ⟨_, hcase⟩ := rta_run_iteration_spec depth p e env env1 h
    rcases hcase with ⟨_, rfl⟩ | ⟨_, he⟩
    · exact fun _ h => h
    · intro x hx
      have hd1 : env1.done_set = cpset_insert env.done_set e := he.done
      rw [hd1]
      exact cpset_subset_insert _ _ hx
  · intro e oenv st1 h
    rcases rta_devirtualize_iteration_done e (p, oenv) st1 h with ⟨_, rfl⟩ | ⟨_, he⟩
    · exact fun _ h => h
    · intro x hx
      rw [he]
      exact cpset_subset_insert _ _ hx
  · intro fuel env env1 h
    obtain ⟨log, hlog⟩ := rta_run_loop_log_ok depth p fuel env env1 h
    obtain ⟨k1, k2, _⟩ := rta_run_loop_log_spec depth p fuel env env1 log hlog
    exact ⟨log, hlog, k2, k1⟩
  · intro fuel oenv st1 h
    obtain ⟨log, hlog⟩ := rta_devirtualize_loop_log_ok fuel (p, oenv) st1 h
    obtain ⟨k1, k2, _⟩ := rta_devirtualize_loop_log_spec fuel (p, oenv) st1 log hlog
    exact ⟨log, hlog, k2, k1⟩

theorem visit_state_monotonic_witness :
    add_to_workqueue two_class_prog 0 two_class_env = .ok two_class_env
      ∧ rta_run_iteration 5 two_class_prog 0 two_class_env = .ok two_class_env
      ∧ (rta_run_loop_log 5 two_class_prog 5
            { analyzer_env_init with workqueue := [0, 0], live_methods := [0] }).map Prod.snd
          = .ok [0, 2]
      ∧ (rta_devirtualize_loop_log 5
            (two_class_prog, ⟨[0, 0], [], [(1, [2])]⟩)).map Prod.snd = .ok [0, 2] := by
  have k := visit_state_monotonic 5 two_class_prog
  exact ⟨k.1 0 two_class_env rfl (by decide), k.2.2.1 0 two_class_env rfl (by decide),
    rfl, rfl⟩

/-! ### Programs without object creation and without dynamic calls -/

theorem walk_callgraph_and_analyze_no_object (depth : Nat) (p : ir_prog) (g : GraphId)
    (n : NodeId) (env env1 : analyzer_env) (hn : node_no_object p g n)
    (h : walk_callgraph_and_analyze depth p g n env = .ok env1) :
    env1.live_classes = env.live_classes ∧ env1.dyncall_targets = env.dyncall_targets
      ∧ env1.unused_targets = env.unused_targets := by
  unfold walk_callgraph_and_analyze at h
  split at h
  · split at h
    · exact live_enqueue_frame _ _ _ _ h
    · rw [pure_ok] at h
      exact h ▸ ⟨rfl, rfl, rfl⟩
  · rename_i callee sb hnode
    split at h
    · exact analyzer_handle_static_call_frame _ _ _ _ _ _ h
    · rename_i pred hcallee
      split at h
      · rename_i mem e hpred
        split at h
        · exact analyzer_handle_static_call_frame _ _ _ _ _ _ h
        · rename_i hsb
          have hsb1 : sb = false := by simpa using hsb
          subst hsb1
          exact absurd ⟨callee, pred, mem, hnode, hcallee, hpred⟩ (hn.2 e)
      · rw [pure_ok] at h
        exact h ▸ ⟨rfl, rfl, rfl⟩
    · rw [pure_ok] at h
      exact h ▸ ⟨rfl, rfl, rfl⟩
  · rename_i klass hnode
    exact absurd hnode (hn.1 klass)
  · rw [pure_ok] at h
    exact h ▸ ⟨rfl, rfl, rfl⟩

theorem rta_run_iteration_no_object (depth : Nat) (p : ir_prog) (entity : EntId)
    (env env1 : analyzer_env) (h : rta_run_iteration depth p entity env = .ok env1)
    (hc : entity ∉ env.done_set → ∀ g, get_entity_irg p entity = some g →
      ∀ n ∈ (get_irp_irg p g).walk, node_no_object p g n) :
    env1.live_classes = env.live_classes ∧ env1.dyncall_targets = env.dyncall_targets
      ∧ env1.unused_targets = env.unused_targets := by
  unfold rta_run_iteration at h
  simp only [bind_ok, exists_assert_ok] at h
  obtain ⟨_, h⟩ := h
  split at h
  · rw [pure_ok] at h
    exact h ▸ ⟨rfl, rfl, rfl⟩
  · rename_i hd
    split at h
    · have k := analyzer_handle_no_graph_frame _ _ _ _ h
      exact k
    · rename_i g hg
      unfold analyzer_walk_graph at h
      refine foldlM_inv _
        (fun t => t.live_classes = env.live_classes ∧ t.dyncall_targets = env.dyncall_targets
          ∧ t.unused_targets = env.unused_targets) _ ?_ _ env1 ⟨rfl, rfl, rfl⟩ h
      intro s x s1 hx hI hf
      obtain ⟨f1, f2, f3⟩ := walk_callgraph_and_analyze_no_object depth p g x s s1
        (hc hd g hg x hx) hf
      exact ⟨f1.trans hI.1, f2.trans hI.2.1, f3.trans hI.2.2⟩

theorem rta_run_loop_done_mono (depth : Nat) (p : ir_prog) (fuel : Nat)
    (env env1 : analyzer_env) (h : rta_run_loop depth p fuel env = .ok env1) :
    env.done_set ⊆ env1.done_set := by
  obtain ⟨log, hlog⟩ := rta_run_loop_log_ok depth p fuel env env1 h
  rw [(rta_run_loop_log_spec depth p fuel env env1 log hlog).1]
  exact List.subset_append_left _ _

theorem rta_run_loop_no_object (depth : Nat) (p : ir_prog) :
    ∀ (fuel : Nat) (env env1 : analyzer_env),
      rta_run_loop depth p fuel env = .ok env1 →
      (∀ M ∈ env1.done_set, M ∉ env.done_set → ∀ g, get_entity_irg p M = some g →
        ∀ n ∈ (get_irp_irg p g).walk, node_no_object p g n) →
      env1.live_classes = env.live_classes ∧ env1.dyncall_targets = env.dyncall_targets
        ∧ env1.unused_targets = env.unused_targets := by
  intro fuel
  induction fuel with
  | zero =>
    intro env env1 h _
    unfold rta_run_loop at h
    split at h
    · rw [pure_ok] at h
      exact h ▸ ⟨rfl, rfl, rfl⟩
    · simp at h
  | succ fuel ih =>
    intro env env1 h hc
    unfold rta_run_loop at h
    split at h
    · rw [pure_ok] at h
      exact h ▸ ⟨rfl, rfl, rfl⟩
    · rename_i entity rest hq
      simp only [bind_ok] at h
      obtain ⟨env2, h1, h2⟩ := h
      have hmono := rta_run_loop_done_mono depth p fuel env2 env1 h2
      obtain ⟨_, hcase⟩ := rta_run_iteration_spec depth p entity _ env2 h1
      have hsub : env.done_set ⊆ env2.done_set := by
        rcases hcase with ⟨_, rfl⟩ | ⟨_, he⟩
        · exact fun _ h => h
        · intro x hx
          have hd1 : env2.done_set = cpset_insert env.done_set entity := he.done
          rw [hd1]
          exact cpset_subset_insert _ _ hx
      have f1 := rta_run_iteration_no_object depth p entity _ env2 h1 (by
        intro hd
        have hd0 : entity ∉ env.done_set := hd
        rcases hcase with ⟨hd2, _⟩ | ⟨_, he⟩
        · exact absurd hd2 hd
        · have hd1 : env2.done_set = cpset_insert env.done_set entity := he.done
          exact hc entity (hmono (by rw [hd1]; exact cpset_insert_self _ _)) hd0)
      have f2 := ih env2 env1 h2 (fun M hM hM2 => hc M hM (fun h3 => hM2 (hsub h3)))
      exact ⟨f2.1.trans f1.1, f2.2.1.trans f1.2.1, f2.2.2.trans f1.2.2⟩

theorem rta_run_start_no_classes (depth : Nat) (p : ir_prog) (entry_points : List EntId)
    (initial_live_classes : Option (List ClassId)) (env1 env2 : analyzer_env)
    (hinit : initial_live_classes = none ∨ initial_live_classes = some [])
    (h1 : rta_run_entry_points p entry_points analyzer_env_init = .ok env1)
    (h2 : rta_run_initial_live_classes depth p initial_live_classes env1 = .ok env2) :
    env2.live_classes = [] ∧ env2 = env1 := by
  have e2 : env2 = env1 := by
    rcases hinit with rfl | rfl
    · exact ((pure_ok _ _).1 h2).symm
    · exact ((pure_ok _ _).1 h2).symm
  refine ⟨?_, e2⟩
  rw [e2]
  unfold rta_run_entry_points at h1
  simp only [bind_ok, exists_assert_ok, pure_ok] at h1
  obtain ⟨env0, h0, _, rfl⟩ := h1
  refine foldlM_inv _ (fun t => t.live_classes = []) entry_points ?_ analyzer_env_init env0 rfl h0
  intro s x s1 _ hI hf
  simp only [bind_ok, exists_assert_ok, pure_ok] at hf
  obtain ⟨_, _, rfl⟩ := hf
  exact hI

/-- Without object creation and dynamic calls in the analysed methods the analysis
finds no live class and no call entity. -/
theorem rta_run_no_object (fuel depth : Nat) (p : ir_prog) (entry_points : List EntId)
    (initial_live_classes : Option (List ClassId)) (env : analyzer_env)
    (hinit : initial_live_classes = none ∨ initial_live_classes = some [])
    (hc : ∀ M ∈ env.done_set, ∀ g, get_entity_irg p M = some g →
      ∀ n ∈ (get_irp_irg p g).walk, node_no_object p g n)
    (h : rta_run fuel depth p entry_points initial_live_classes = .ok env) :
    env.live_classes = [] ∧ env.dyncall_targets = [] ∧ env.unused_targets = [] := by
  unfold rta_run at h
  simp only [bind_ok] at h
  obtain ⟨env1, h1, env2, h2, h3⟩ := h
  obtain ⟨d1, d2⟩ := rta_run_start_empty depth p entry_points initial_live_classes _ _ h1 h2
  obtain ⟨c1, _⟩ := rta_run_start_no_classes depth p entry_points initial_live_classes _ _
    hinit h1 h2
  obtain ⟨f1, f2, f3⟩ := rta_run_loop_no_object depth p fuel env2 env h3
    (fun M hM _ => hc M hM)
  exact ⟨f1.trans c1, f2.trans d1, f3.trans d2⟩

/-- With an empty target map the devirtualizer rewrites nothing. -/
theorem rta_devirtualize_calls_no_targets (fuel : Nat) (p : ir_prog) (entry_points : List EntId)
    (st : ir_prog × optimizer_env)
    (h : rta_devirtualize_calls fuel p entry_points [] = .ok st) : st.1 = p := by
  unfold rta_devirtualize_calls at h
  simp only [bind_ok] at h
  obtain ⟨env0, h0, h1⟩ := h
  obtain ⟨_, t0, _, _⟩ := rta_devirtualize_entry_points_spec _ _ _ _ h0
  have k := rta_devirtualize_loop_inv
    (fun s => s.1 = p ∧ s.2.dyncall_targets = []) ?_ fuel (p, env0) st h1 ⟨rfl, t0⟩
  · exact k.1.1
  · intro s entity rest s1 hI _ hf
    unfold rta_devirtualize_iteration at hf
    simp only [bind_ok, exists_assert_ok] at hf
    obtain ⟨_, hf⟩ := hf
    split at hf
    · rw [pure_ok] at hf
      subst hf
      exact hI
    · split at hf
      · simp only [bind_ok, pure_ok] at hf
        obtain ⟨env2, h2, rfl⟩ := hf
        exact ⟨hI.1, (optimizer_handle_no_graph_spec _ _ _ _ h2).1.targets.trans hI.2⟩
      · unfold optimizer_walk_graph at hf
        refine foldlM_inv _
          (fun (t : ir_prog × optimizer_env) => t.1 = p ∧ t.2.dyncall_targets = []) _ ?_
          (s.1, ⟨rest, cpset_insert s.2.done_set entity, s.2.dyncall_targets⟩) s1
          ⟨hI.1, hI.2⟩ hf
        intro t x t1 _ hT hstep
        obtain ⟨_, e1, _, _, k5, k6⟩ := walk_callgraph_and_devirtualize_spec _ x t t1 hstep
        refine ⟨(k6 ?_).trans hT.1, e1.targets.trans hT.2⟩
        intro e hdyn
        obtain ⟨ts, hts, _⟩ := k5 e hdyn
        rw [hT.2] at hts
        cases hts

/-! ### An entry that calls one method by `Address` -/

theorem added_only_frame (X : EntId → Prop) (a b : analyzer_env) (h : b = a) :
    added_only X a b := h ▸ added_only_refl X a

theorem walk_callgraph_and_analyze_calls_only (depth : Nat) (p : ir_prog) (g : GraphId)
    (n : NodeId) (F : EntId) (gF : GraphId) (env env1 : analyzer_env)
    (hF : get_entity_irg p F = some gF) (hn : node_calls_only p g n F)
    (h : walk_callgraph_and_analyze depth p g n env = .ok env1) :
    added_only (fun o => o = F) env env1 := by
  unfold node_calls_only at hn
  unfold walk_callgraph_and_analyze at h
  cases hnode : get_irn p g n with
  | Address e =>
    simp only [hnode] at hn h
    split at h
    · rename_i hm
      rcases hn with rfl | hn
      · exact live_enqueue_added _ _ _ _ h
      · rw [hn] at hm
        cases hm
    · rw [pure_ok] at h
      exact added_only_frame _ _ _ h.symm
  | Call c sb =>
    simp only [hnode] at hn h
    simp only [hn] at h
    rw [analyzer_handle_static_call_graph p g n F gF env hF] at h
    simp only [bind_ok, exists_assert_ok] at h
    exact live_enqueue_added _ _ _ _ h.2
  | VptrIsSet k =>
    simp only [hnode] at hn
  | Proj pred =>
    simp only [hnode] at h
    rw [pure_ok] at h
    exact added_only_frame _ _ _ h.symm
  | MethodSel mem e =>
    simp only [hnode] at h
    rw [pure_ok] at h
    exact added_only_frame _ _ _ h.symm
  | Tuple ins =>
    simp only [hnode] at h
    rw [pure_ok] at h
    exact added_only_frame _ _ _ h.symm
  | Other =>
    simp only [hnode] at h
    rw [pure_ok] at h
    exact added_only_frame _ _ _ h.symm

theorem walk_callgraph_and_analyze_inert (depth : Nat) (p : ir_prog) (g : GraphId)
    (n : NodeId) (env env1 : analyzer_env) (hn : node_inert p g n)
    (h : walk_callgraph_and_analyze depth p g n env = .ok env1) : env1 = env := by
  unfold node_inert at hn
  unfold walk_callgraph_and_analyze at h
  cases hnode : get_irn p g n with
  | Address e =>
    simp only [hnode] at hn h
    rw [hn] at h
    simp only [Bool.false_eq_true, if_false, pure_ok] at h
    exact h.symm
  | Call c sb => simp only [hnode] at hn
  | VptrIsSet k => simp only [hnode] at hn
  | Proj pred =>
    simp only [hnode] at h
    rw [pure_ok] at h
    exact h.symm
  | MethodSel mem e =>
    simp only [hnode] at h
    rw [pure_ok] at h
    exact h.symm
  | Tuple ins =>
    simp only [hnode] at h
    rw [pure_ok] at h
    exact h.symm
  | Other =>
    simp only [hnode] at h
    rw [pure_ok] at h
    exact h.symm

/-- In the scenario of an entry `E` that only calls `F`, an iteration of the
work-queue loop keeps the live, queued and done methods within `E` and `F`. -/
theorem rta_run_iteration_two_methods (depth : Nat) (p : ir_prog) (E F : EntId)
    (gE gF : GraphId) (hE : get_entity_irg p E = some gE) (hF : get_entity_irg p F = some gF)
    (hwE : ∀ n ∈ (get_irp_irg p gE).walk, node_calls_only p gE n F)
    (hwF : ∀ n ∈ (get_irp_irg p gF).walk, node_inert p gF n)
    (entity : EntId) (rest : List EntId) (env env1 : analyzer_env)
    (hq : env.workqueue = entity :: rest)
    (h : rta_run_iteration depth p entity { env with workqueue := rest } = .ok env1)
    (hs : ∀ x, (x ∈ env.live_methods ∨ x ∈ env.workqueue ∨ x ∈ env.done_set) →
      x = E ∨ x = F) :
    ∀ x, (x ∈ env1.live_methods ∨ x ∈ env1.workqueue ∨ x ∈ env1.done_set) →
      x = E ∨ x = F := by
  have hent : entity = E ∨ entity = F :=
    hs entity (Or.inr (Or.inl (by rw [hq]; exact List.mem_cons_self _ _)))
  have hrest : ∀ x, x ∈ rest → x = E ∨ x = F := fun x hx =>
    hs x (Or.inr (Or.inl (by rw [hq]; exact List.mem_cons_of_mem _ hx)))
  unfold rta_run_iteration at h
  simp only [bind_ok, exists_assert_ok] at h
  obtain ⟨_, h⟩ := h
  split at h
  · rw [pure_ok] at h
    subst h
    rintro x (hx | hx | hx)
    · exact hs x (Or.inl hx)
    · exact hrest x hx
    · exact hs x (Or.inr (Or.inr hx))
  · have key : ∀ g, get_entity_irg p entity = some g →
        ∀ n ∈ (get_irp_irg p g).walk, ∀ s s1, walk_callgraph_and_analyze depth p g n s = .ok s1 →
          added_only (fun o => o = F) s s1 ∧ s1.done_set = s.done_set := by
      intro g hg n hn s s1 hstep
      refine ⟨?_, (walk_callgraph_and_analyze_ext depth p g n s s1 hstep).done⟩
      rcases hent with rfl | rfl
      · rw [hE] at hg
        cases hg
        exact walk_callgraph_and_analyze_calls_only depth p _ n F gF s s1 hF (hwE n hn) hstep
      · rw [hF] at hg
        cases hg
        exact added_only_frame _ _ _
          (walk_callgraph_and_analyze_inert depth p _ n s s1 (hwF n hn) hstep)
    split at h
    · rename_i hnone
      rcases hent with rfl | rfl
      · rw [hE] at hnone
        cases hnone
      · rw [hF] at hnone
        cases hnone
    · rename_i g hg
      unfold analyzer_walk_graph at h
      refine foldlM_inv _
        (fun t => ∀ x, (x ∈ t.live_methods ∨ x ∈ t.workqueue ∨ x ∈ t.done_set) →
          x = E ∨ x = F) _ ?_ _ env1 ?_ h
      · intro s n s1 hn hI hstep
        obtain ⟨ha, hd⟩ := key g hg n hn s s1 hstep
        rintro x (hx | hx | hx)
        · rcases ha.1 x hx with h1 | h1
          · exact hI x (Or.inl h1)
          · exact Or.inr h1
        · rcases ha.2 x hx with h1 | h1
          · exact hI x (Or.inr (Or.inl h1))
          · exact Or.inr h1
        · exact hI x (Or.inr (Or.inr (hd ▸ hx)))
      · rintro x (hx | hx | hx)
        · exact hs x (Or.inl hx)
        · exact hrest x hx
        · rcases (mem_cpset_insert _ _ _).1 hx with h1 | h1
          · exact hs x (Or.inr (Or.inr h1))
          · exact h1 ▸ hent

theorem rta_run_two_methods (fuel depth : Nat) (p : ir_prog) (E F : EntId)
    (gE gF : GraphId) (env : analyzer_env)
    (hE : get_entity_irg p E = some gE) (hF : get_entity_irg p F = some gF)
    (hwE : ∀ n ∈ (get_irp_irg p gE).walk, node_calls_only p gE n F)
    (hwF : ∀ n ∈ (get_irp_irg p gF).walk, node_inert p gF n)
    (hcall : ∃ n ∈ (get_irp_irg p gE).walk, ∃ c sb,
      get_irn p gE n = .Call c sb ∧ get_irn p gE c = .Address F)
    (h : rta_run fuel depth p [E] none = .ok env) :
    ∀ x, x ∈ env.live_methods ↔ x = E ∨ x = F := by
  obtain ⟨⟨_, _, hdone, hentry⟩, _⟩ := rta_run_closure fuel depth p [E] none env h
  have hld := rta_run_live_done fuel depth p [E] none env h
  have hEl : E ∈ env.live_methods := hentry E (List.mem_singleton_self _)
  have hFl : F ∈ env.live_methods := by
    obtain ⟨n, hn, c, sb, h1, h2⟩ := hcall
    exact (((hdone E (hld E hEl)).1 gE hE n hn).2 F ⟨c, sb, h1, Or.inl h2⟩).1
  intro x
  refine ⟨fun hx => ?_, fun hx => by rcases hx with rfl | rfl <;> assumption⟩
  unfold rta_run at h
  simp only [bind_ok] at h
  obtain ⟨env1, h1, env2, h2, h3⟩ := h
  have e2 : env2 = env1 := ((pure_ok _ _).1 h2).symm
  subst e2
  have hstart : ∀ x, (x ∈ env2.live_methods ∨ x ∈ env2.workqueue ∨ x ∈ env2.done_set) →
      x = E ∨ x = F := by
    unfold rta_run_entry_points at h1
    simp only [List.foldlM, bind_ok, exists_assert_ok, pure_ok] at h1
    obtain ⟨env0, ⟨env00, ⟨_, _, h0⟩, h5⟩, _, h4⟩ := h1
    subst h4
    subst h5
    subst h0
    rintro x (hx | hx | hx)
    · have hx1 : x ∈ cpset_insert analyzer_env_init.live_methods E := hx
      rcases (mem_cpset_insert _ _ _).1 hx1 with h5 | h5
      · cases h5
      · exact Or.inl h5
    · have hx1 : x ∈ analyzer_env_init.workqueue ++ [E] := hx
      rcases List.mem_append.1 hx1 with h5 | h5
      · cases h5
      · exact Or.inl (List.mem_singleton.1 h5)
    · have hx1 : x ∈ analyzer_env_init.done_set := hx
      cases hx1
  have k := rta_run_loop_inv depth p
    (fun t => ∀ x, (x ∈ t.live_methods ∨ x ∈ t.workqueue ∨ x ∈ t.done_set) → x = E ∨ x = F)
    (fun s entity rest s1 hI hq hf =>
      rta_run_iteration_two_methods depth p E F gE gF hE hF hwE hwF entity rest s s1 hq hf hI)
    fuel env2 env h3 hstart
  exact k.1 x (Or.inl hx)

theorem rta_run_some_nil (fuel depth : Nat) (p : ir_prog) (entry_points : List EntId) :
    rta_run fuel depth p entry_points (some []) = rta_run fuel depth p entry_points none := rfl

/-- C23 (programs without object creation and dynamic calls): when `rta_run`
returns for an empty list of initial live classes and no graph of an analysed
method has a `VptrIsSet` node or a dynamic call in its walk, `live_classes` is
empty and `dyncall_targets` has no keys, and a run of the devirtualizer on the
result returns the program unchanged; when moreover the one entry point `E`
has a graph whose nodes do nothing but call `F` by `Address`, at least once,
and `F` has a graph without calls, `live_methods` is exactly `E` and `F`. -/
theorem no_objects_no_dynamic_calls (fuel depth : Nat) (p : ir_prog) (entry_points : List EntId)
    (initial_live_classes : Option (List ClassId)) (env : analyzer_env)
    (hinit : initial_live_classes = none ∨ initial_live_classes = some [])
    (hc : ∀ M ∈ env.done_set, ∀ g, get_entity_irg p M = some g →
      ∀ n ∈ (get_irp_irg p g).walk, node_no_object p g n)
    (h : rta_run fuel depth p entry_points initial_live_classes = .ok env) :
    env.live_classes = [] ∧ env.dyncall_targets = []
      ∧ (∀ fuel2 st, rta_devirtualize_calls fuel2 p entry_points env.dyncall_targets = .ok st →
          st.1 = p)
      ∧ (∀ E F gE gF, entry_points = [E] → get_entity_irg p E = some gE →
          get_entity_irg p F = some gF →
          (∀ n ∈ (get_irp_irg p gE).walk, node_calls_only p gE n F) →
          (∀ n ∈ (get_irp_irg p gF).walk, node_inert p gF n) →
          (∃ n ∈ (get_irp_irg p gE).walk, ∃ c sb,
            get_irn p gE n = .Call c sb ∧ get_irn p gE c = .Address F) →
          ∀ x, x ∈ env.live_methods ↔ x = E ∨ x = F) := by
  obtain ⟨k1, k2, _⟩ := rta_run_no_object fuel depth p entry_points initial_live_classes env
    hinit hc h
  refine ⟨k1, k2, ?_, ?_⟩
  · intro fuel2 st hst
    rw [k2] at hst
    exact rta_devirtualize_calls_no_targets fuel2 p entry_points st hst
  · intro E F gE gF hep hE hF hwE hwF hcall
    subst hep
    have h0 : rta_run fuel depth p [E] none = .ok env := by
      rcases hinit with rfl | rfl
      · exact h
      · rw [← rta_run_some_nil]
        exact h
    exact rta_run_two_methods fuel depth p E F gE gF env hE hF hwE hwF hcall h0

theorem no_objects_no_dynamic_calls_witness :
    rta_run 5 5 static_prog [0] none
      = .ok
        { workqueue := [], done_set := [0, 1], live_classes := [], live_methods := [0, 1],
          dyncall_targets := [], unused_targets := [] }
      ∧ (∀ st, rta_devirtualize_calls 5 static_prog [0] [] = .ok st → st.1 = static_prog)
      ∧ ∀ x, x ∈ ([0, 1] : List Nat) ↔ x = 0 ∨ x = 1 := by
  have hwalk : ∀ M ∈ ([0, 1] : List Nat), ∀ g, get_entity_irg static_prog M = some g →
      ∀ n ∈ (get_irp_irg static_prog g).walk, node_no_object static_prog g n := by
    intro M hM g hg n hn
    have hM1 : M = 0 ∨ M = 1 := by simpa using hM
    rcases hM1 with rfl | rfl
    · cases hg
      have hn1 : n = 0 ∨ n = 1 := by simpa [get_irp_irg, static_prog] using hn
      rcases hn1 with rfl | rfl
      · refine ⟨fun k hk => (by cases hk), ?_⟩
        rintro c ⟨_, _, _, h1, _⟩
        cases h1
      · refine ⟨fun k hk => (by cases hk), ?_⟩
        rintro c ⟨callee, pred, mem, h1, h2, _⟩
        cases h1
        cases h2
    · cases hg
      have hn1 : n = 0 := by simpa [get_irp_irg, static_prog] using hn
      subst hn1
      refine ⟨fun k hk => (by cases hk), ?_⟩
      rintro c ⟨_, _, _, h1, _⟩
      cases h1
  have k := no_objects_no_dynamic_calls 5 5 static_prog [0] none
    { workqueue := [], done_set := [0, 1], live_classes := [], live_methods := [0, 1],
      dyncall_targets := [], unused_targets := [] } (Or.inl rfl) hwalk rfl
  refine ⟨rfl, fun st hst => k.2.2.1 5 st hst, ?_⟩
  refine k.2.2.2 0 1 0 1 rfl rfl rfl ?_ ?_ ⟨1, by decide, 0, false, rfl, rfl⟩
  · intro n hn
    have hn1 : n = 0 ∨ n = 1 := by simpa [get_irp_irg, static_prog] using hn
    rcases hn1 with rfl | rfl
    · exact Or.inl rfl
    · exact (rfl : get_irn static_prog 0 0 = .Address 1)
  · intro n hn
    have hn1 : n = 0 := by simpa [get_irp_irg, static_prog] using hn
    subst hn1
    trivial

/-! ### The two-class scenario -/

theorem two_class_walk_step (depth : Nat) (w : List NodeId) (n : NodeId) (a b : Bool) :
    walk_callgraph_and_analyze (depth + 2) (two_class_walk w) 0 n (two_class_state a b)
      = .ok (two_class_state (a || decide (n = 3)) (b || decide (n = 4))) := by
  rcases n with _ | _ | _ | _ | _ | n <;> cases a <;> cases b <;> rfl

theorem two_class_walk_fold (depth : Nat) (w : List NodeId) :
    ∀ (l : List NodeId) (a b : Bool),
      l.foldlM
          (fun (env : analyzer_env) (n : NodeId) =>
            walk_callgraph_and_analyze (depth + 2) (two_class_walk w) 0 n env)
          (two_class_state a b)
        = .ok (two_class_state (a || decide (3 ∈ l)) (b || decide (4 ∈ l)))
  | [], a, b => by simp [List.foldlM, pure, Except.pure]
  | n :: l, a, b => by
    rw [List.foldlM_cons, two_class_walk_step, bind_ok_eq, two_class_walk_fold depth w l]
    congr 2
    · by_cases h3 : n = 3 <;> simp [h3, eq_comm]
    · by_cases h4 : n = 4 <;> simp [h4, eq_comm]

theorem two_class_devirtualize_step (w : List NodeId) (n : NodeId) (r : Bool) :
    walk_callgraph_and_devirtualize 0 n (two_class_dstate w r)
      = .ok (two_class_dstate w (r || decide (n = 3))) := by
  rcases n with _ | _ | _ | _ | _ | _ | n <;> cases r <;> rfl

theorem two_class_devirtualize_fold (w : List NodeId) :
    ∀ (l : List NodeId) (r : Bool),
      l.foldlM
          (fun (st : ir_prog × optimizer_env) (n : NodeId) =>
            walk_callgraph_and_devirtualize 0 n st)
          (two_class_dstate w r)
        = .ok (two_class_dstate w (r || decide (3 ∈ l)))
  | [], r => by simp [List.foldlM, pure, Except.pure]
  | n :: l, r => by
    rw [List.foldlM_cons, two_class_devirtualize_step, bind_ok_eq,
      two_class_devirtualize_fold w l]
    congr 2
    by_cases h3 : n = 3 <;> simp [h3, eq_comm]

theorem two_class_walk_run (fuel depth : Nat) (w : List NodeId)
    (h3 : 3 ∈ w) (h4 : 4 ∈ w) :
    rta_run (fuel + 2) (depth + 2) (two_class_walk w) [0] none = .ok two_class_result := by
  have hw : analyzer_walk_graph (depth + 2) (two_class_walk w) 0 (two_class_state false false)
      = .ok (two_class_state true true) := by
    have k := two_class_walk_fold depth w w false false
    simp only [h3, h4, decide_True, Bool.or_true] at k
    exact k
  have h1 : rta_run (fuel + 2) (depth + 2) (two_class_walk w) [0] none
      = rta_run_loop (depth + 2) (two_class_walk w) (fuel + 2)
          { analyzer_env_init with workqueue := [0], live_methods := [0] } := rfl
  have h2 : rta_run_iteration (depth + 2) (two_class_walk w) 0
        { analyzer_env_init with workqueue := [], live_methods := [0] }
      = analyzer_walk_graph (depth + 2) (two_class_walk w) 0 (two_class_state false false) :=
    rfl
  have h5 : rta_run_iteration (depth + 2) (two_class_walk w) 2
        { two_class_state true true with workqueue := [] }
      = .ok two_class_result := rfl
  rw [h1, rta_run_loop]
  simp only []
  rw [h2, hw, bind_ok_eq, rta_run_loop]
  have h6 : (two_class_state true true).workqueue = [2] := rfl
  simp only [h6]
  rw [h5, bind_ok_eq, rta_run_loop]
  rfl

theorem two_class_walk_devirtualize (fuel : Nat) (w : List NodeId) (h3 : 3 ∈ w) :
    rta_devirtualize_calls (fuel + 2) (two_class_walk w) [0] [(1, [2])]
      = .ok (two_class_walk_rewritten w, ⟨[], [0, 2], [(1, [2])]⟩) := by
  have hw : optimizer_walk_graph 0 (two_class_dstate w false)
      = .ok (two_class_dstate w true) := by
    have k := two_class_devirtualize_fold w w false
    simp only [h3, decide_True, Bool.or_true] at k
    exact k
  have h1 : rta_devirtualize_calls (fuel + 2) (two_class_walk w) [0] [(1, [2])]
      = rta_devirtualize_loop (fuel + 2) (two_class_walk w, ⟨[0], [], [(1, [2])]⟩) := rfl
  have h2 : rta_devirtualize_iteration 0 (two_class_walk w, ⟨[], [], [(1, [2])]⟩)
      = optimizer_walk_graph 0 (two_class_dstate w false) := rfl
  have h5 : rta_devirtualize_iteration 2 (two_class_walk_rewritten w, ⟨[], [0], [(1, [2])]⟩)
      = .ok (two_class_walk_rewritten w, ⟨[], [0, 2], [(1, [2])]⟩) := rfl
  rw [h1, rta_devirtualize_loop]
  simp only []
  rw [h2, hw, bind_ok_eq, rta_devirtualize_loop]
  have h6 : (two_class_dstate w true).2.workqueue = [2] := rfl
  have h7 : (two_class_dstate w true).1 = two_class_walk_rewritten w := rfl
  simp only [h6, h7]
  have h8 : ({ (two_class_dstate w true).2 with workqueue := [] } : optimizer_env)
      = ⟨[], [0], [(1, [2])]⟩ := rfl
  rw [h8, h5, bind_ok_eq, rta_devirtualize_loop]
  rfl

/-- C24: in the two-class scenario (classes `A` with a concrete method `m` and `B`
extending `A` and overriding `m`, one entry point `main` whose graph has the node
`VptrIsSet B` and a dynamic call on `A.m`), for every order `w` in which the walker
meets the nodes of the graph of `main`, as long as it meets the `Call` node (3) and
the `VptrIsSet` node (4), `rta_run` returns one and the same state: the live classes
are `B`, the targets of `A.m` are `B.m` alone, `main` and `B.m` are live and `A.m` is
not; and the devirtualizer replaces the `MethodSel` of the call by a tuple whose
second entry is a new `Address` node of `B.m`. -/
theorem two_class_scenario_any_order (fuel depth : Nat) (w : List NodeId)
    (h3 : 3 ∈ w) (h4 : 4 ∈ w) :
    ∃ env st,
      rta_run (fuel + 2) (depth + 2) (two_class_walk w) [0] none = .ok env ∧
      env = two_class_result ∧
      env.live_classes = [1] ∧
      cpmap_find env.dyncall_targets 1 = some [2] ∧
      0 ∈ env.live_methods ∧ 2 ∈ env.live_methods ∧ 1 ∉ env.live_methods ∧
      get_irn (two_class_walk w) 0 1 = .MethodSel 0 1 ∧
      rta_devirtualize_calls (fuel + 2) (two_class_walk w) [0] env.dyncall_targets = .ok st ∧
      st.1 = two_class_walk_rewritten w ∧
      get_irn st.1 0 1 = .Tuple [0, 5] ∧
      get_irn st.1 0 5 = .Address 2 ∧
      get_irn st.1 0 3 = get_irn (two_class_walk w) 0 3 :=
  ⟨two_class_result, (two_class_walk_rewritten w, ⟨[], [0, 2], [(1, [2])]⟩),
    two_class_walk_run fuel depth w h3 h4, rfl, rfl, rfl, by decide, by decide, by decide, rfl,
    two_class_walk_devirtualize fuel w h3, rfl, rfl, rfl, rfl⟩

/-- The scenario with the `VptrIsSet` node met before the `Call` node. -/
theorem two_class_scenario_any_order_witness :
    3 ∈ [4, 0, 1, 2, 3] ∧ 4 ∈ [4, 0, 1, 2, 3] ∧
    ∃ env st,
      rta_run 2 2 (two_class_walk [4, 0, 1, 2, 3]) [0] none = .ok env ∧
      env = two_class_result ∧
      env.live_classes = [1] ∧
      cpmap_find env.dyncall_targets 1 = some [2] ∧
      0 ∈ env.live_methods ∧ 2 ∈ env.live_methods ∧ 1 ∉ env.live_methods ∧
      get_irn (two_class_walk [4, 0, 1, 2, 3]) 0 1 = .MethodSel 0 1 ∧
      rta_devirtualize_calls 2 (two_class_walk [4, 0, 1, 2, 3]) [0] env.dyncall_targets
        = .ok st ∧
      st.1 = two_class_walk_rewritten [4, 0, 1, 2, 3] ∧
      get_irn st.1 0 1 = .Tuple [0, 5] ∧
      get_irn st.1 0 5 = .Address 2 ∧
      get_irn st.1 0 3 = get_irn (two_class_walk [4, 0, 1, 2, 3]) 0 3 :=
  ⟨by decide, by decide, two_class_scenario_any_order 0 0 [4, 0, 1, 2, 3] (by decide) (by decide)⟩

/-! ### Termination: the building blocks -/

theorem terminates_ok {α : Type} (a : α) : terminates (Except.ok a : Except Err α) := rfl

theorem terminates_pure {α : Type} (a : α) : terminates (pure a : Except Err α) := rfl

theorem terminates_error {α : Type} (e : Err) (h : e ≠ .OutOfFuel) :
    terminates (Except.error e : Except Err α) := by
  cases e <;> first | rfl | exact absurd rfl h

theorem terminates_iff {α : Type} (r : Except Err α) :
    terminates r ↔ r ≠ .error .OutOfFuel := by
  cases r with
  | ok a => exact ⟨fun _ h => (by cases h), fun _ => rfl⟩
  | error e =>
    cases e <;> first
      | exact ⟨fun _ h => (by cases h), fun _ => rfl⟩
      | exact ⟨fun h => (by cases h), fun h => absurd rfl h⟩

theorem terminates_bind {α β : Type} (x : Except Err α) (f : α → Except Err β)
    (hx : terminates x) (hf : ∀ a, x = .ok a → terminates (f a)) : terminates (x >>= f) := by
  cases x with
  | ok a => exact hf a rfl
  | error e => cases e <;> first | rfl | exact hx

theorem terminates_assert (e : Err) (c : Bool) (h : e ≠ .OutOfFuel) :
    terminates (assert e c) := by
  cases c
  · exact terminates_error e h
  · rfl

theorem terminates_foldlM {σ α : Type} (f : σ → α → Except Err σ) :
    ∀ (l : List α), (∀ s x, x ∈ l → terminates (f s x)) → ∀ s, terminates (l.foldlM f s)
  | [], _, _ => rfl
  | x :: l, h, s => by
    rw [List.foldlM_cons]
    exact terminates_bind _ _ (h s x (List.mem_cons_self _ _))
      (fun s1 _ => terminates_foldlM f l (fun s x hx => h s x (List.mem_cons_of_mem _ hx)) s1)

/-! ### Termination: the functions without recursion -/

theorem add_to_workqueue_terminates (p : ir_prog) (entity : EntId) (env : analyzer_env) :
    terminates (add_to_workqueue p entity env) := by
  unfold add_to_workqueue
  refine terminates_bind _ _ (terminates_assert _ _ (by decide)) (fun _ _ => ?_)
  split <;> exact terminates_pure _

theorem add_to_dyncalls_terminates (p : ir_prog) (method : EntId) (call_entities : cpset)
    (env : analyzer_env) : terminates (add_to_dyncalls p method call_entities env) := by
  unfold add_to_dyncalls
  refine terminates_bind _ _ (terminates_assert _ _ (by decide)) (fun _ _ => ?_)
  refine terminates_foldlM _ _ (fun s x _ => ?_) _
  split
  · exact terminates_error _ (by decide)
  · exact add_to_workqueue_terminates _ _ _

theorem memorize_unused_target_terminates (p : ir_prog) (klass : ClassId) (entity : EntId)
    (call_entity : EntId) (env : analyzer_env) :
    terminates (memorize_unused_target p klass entity call_entity env) := by
  unfold memorize_unused_target
  refine terminates_bind _ _ (terminates_assert _ _ (by decide)) (fun _ _ => ?_)
  refine terminates_bind _ _ (terminates_assert _ _ (by decide)) (fun _ _ => ?_)
  exact terminates_pure _

theorem get_ldname_redirect_terminates (p : ir_prog) (entity : EntId) :
    terminates (get_ldname_redirect p entity) := by
  unfold get_ldname_redirect
  refine terminates_bind _ _ (terminates_assert _ _ (by decide)) (fun _ _ => ?_)
  refine terminates_bind _ _ (terminates_assert _ _ (by decide)) (fun _ _ => ?_)
  split <;> exact terminates_pure _

theorem analyzer_handle_no_graph_terminates (p : ir_prog) (entity : EntId)
    (env : analyzer_env) : terminates (analyzer_handle_no_graph p entity env) := by
  unfold analyzer_handle_no_graph
  refine terminates_bind _ _ (terminates_assert _ _ (by decide)) (fun _ _ => ?_)
  refine terminates_bind _ _ (terminates_assert _ _ (by decide)) (fun _ _ => ?_)
  refine terminates_bind _ _ (get_ldname_redirect_terminates _ _) (fun t _ => ?_)
  split
  · exact add_to_workqueue_terminates _ _ _
  · exact terminates_pure _

theorem take_entity_terminates (p : ir_prog) (entity : EntId) (result_set : cpset)
    (env : analyzer_env) : terminates (take_entity p entity result_set env) := by
  unfold take_entity
  refine terminates_bind _ _ (terminates_assert _ _ (by decide)) (fun _ _ => ?_)
  split
  · exact terminates_bind _ _ (add_to_workqueue_terminates _ _ _) (fun _ _ => terminates_pure _)
  · exact terminates_pure _

theorem analyzer_handle_static_call_terminates (p : ir_prog) (g : GraphId) (call : NodeId)
    (entity : EntId) (env : analyzer_env) :
    terminates (analyzer_handle_static_call p g call entity env) := by
  unfold analyzer_handle_static_call
  refine terminates_bind _ _ (terminates_assert _ _ (by decide)) (fun _ _ => ?_)
  refine terminates_bind _ _ (add_to_workqueue_terminates _ _ _) (fun env1 _ => ?_)
  split
  · exact terminates_pure _
  · split
    · exact terminates_bind _ _ (terminates_assert _ _ (by decide))
        (fun _ _ => add_to_workqueue_terminates _ _ _)
    · exact terminates_pure _

theorem rta_run_entry_points_terminates (p : ir_prog) (entry_points : List EntId)
    (env : analyzer_env) : terminates (rta_run_entry_points p entry_points env) := by
  unfold rta_run_entry_points
  refine terminates_bind _ _ (terminates_foldlM _ _ (fun s x _ => ?_) _) (fun _ _ => ?_)
  · refine terminates_bind _ _ (terminates_assert _ _ (by decide)) (fun _ _ => ?_)
    exact terminates_bind _ _ (terminates_assert _ _ (by decide)) (fun _ _ => terminates_pure _)
  · exact terminates_bind _ _ (terminates_assert _ _ (by decide)) (fun _ _ => terminates_pure _)

/-! ### Termination: the walks over the class hierarchy -/

theorem nodup_length_le (n : Nat) (path : List Nat) (hn : path.Nodup)
    (hr : ∀ x ∈ path, x < n) : path.length ≤ n := by
  have h := (List.Nodup.subperm hn (fun x hx => List.mem_range.2 (hr x hx))).length_le
  simpa using h

theorem get_type_out_of_range (p : ir_prog) (K : ClassId) (h : p.types.length ≤ K) :
    get_type p K = default_type := by
  unfold get_type
  exact List.getD_eq_default _ _ h

theorem subtype_in_range (p : ir_prog) (K S : ClassId) (h : S ∈ get_class_subtypes p K) :
    K < p.types.length := by
  by_contra hK
  rw [get_class_subtypes, get_type_out_of_range p K (Nat.le_of_not_lt hK)] at h
  cases h

theorem supertype_in_range (p : ir_prog) (K S : ClassId) (h : S ∈ get_class_supertypes p K) :
    K < p.types.length := by
  by_contra hK
  rw [get_class_supertypes, get_type_out_of_range p K (Nat.le_of_not_lt hK)] at h
  cases h

theorem sub_reachable_snoc (p : ir_prog) (x K S : ClassId) (h : sub_reachable p x K)
    (hS : S ∈ get_class_subtypes p K) : sub_reachable p x S := by
  induction h with
  | edge K1 S1 h1 => exact .step _ _ _ h1 (.edge _ _ hS)
  | step K1 M S1 h1 _ ih => exact .step _ _ _ h1 (ih hS)

theorem super_reachable_snoc (p : ir_prog) (x K S : ClassId) (h : super_reachable p x K)
    (hS : S ∈ get_class_supertypes p K) : super_reachable p x S := by
  induction h with
  | edge K1 S1 h1 => exact .step _ _ _ h1 (.edge _ _ hS)
  | step K1 M S1 h1 _ ih => exact .step _ _ _ h1 (ih hS)

theorem path_budget_start (p : ir_prog) (R : ClassId → ClassId → Prop) (depth : Nat)
    (K : ClassId) (h : p.types.length + 1 ≤ depth) : path_budget p R depth [] K :=
  ⟨List.nodup_nil, fun _ hx => (by cases hx), h⟩

theorem path_budget_pos (p : ir_prog) (R : ClassId → ClassId → Prop) (depth : Nat)
    (path : List ClassId) (K : ClassId) (h : path_budget p R depth path K) : 0 < depth := by
  have h1 := nodup_length_le p.types.length path h.1 (fun x hx => (h.2.1 x hx).1)
  have h2 := h.2.2
  omega

theorem path_budget_step (p : ir_prog) (R : ClassId → ClassId → Prop)
    (hirr : ∀ K, ¬ R K K) (depth : Nat) (path : List ClassId) (K S : ClassId)
    (hK : K < p.types.length) (hedge : R K S) (hsnoc : ∀ x, R x K → R x S)
    (h : path_budget p R (depth + 1) path K) : path_budget p R depth (K :: path) S := by
  refine ⟨List.nodup_cons.2 ⟨fun hm => hirr K (h.2.1 K hm).2, h.1⟩, ?_, ?_⟩
  · intro x hx
    rcases List.mem_cons.1 hx with hx | hx
    · subst hx
      exact ⟨hK, hedge⟩
    · exact ⟨(h.2.1 x hx).1, hsnoc x (h.2.1 x hx).2⟩
  · have h2 := h.2.2
    simp only [List.length_cons]
    omega

theorem find_implementation_recursive_terminates_path (p : ir_prog)
    (hsup : ∀ K, ¬ super_reachable p K K) :
    ∀ (depth : Nat) (path : List ClassId) (K : ClassId) (c : EntId),
      path_budget p (super_reachable p) depth path K →
        terminates (find_implementation_recursive depth p K c) := by
  intro depth
  induction depth with
  | zero =>
    intro path K c h
    exact absurd (path_budget_pos _ _ _ _ _ h) (by decide)
  | succ depth ih =>
    intro path K c h
    unfold find_implementation_recursive
    refine terminates_bind _ _ (terminates_assert _ _ (by decide)) (fun _ _ => ?_)
    split
    · split <;> exact terminates_pure _
    · refine terminates_foldlM _ _ (fun s S hS => ?_) _
      have hb := path_budget_step p (super_reachable p) hsup depth path K S
        (supertype_in_range p K S hS) (.edge _ _ hS)
        (fun x hx => super_reachable_snoc p x K S hx hS) h
      refine terminates_bind _ _ (ih _ _ _ hb) (fun r _ => ?_)
      split
      · exact terminates_pure _
      · exact terminates_pure _
      · dsimp only
        split
        · exact terminates_pure _
        · split
          · exact terminates_error _ (by decide)
          · exact terminates_pure _

theorem find_implementation_recursive_terminates (p : ir_prog)
    (hsup : ∀ K, ¬ super_reachable p K K) (depth : Nat) (hd : p.types.length + 1 ≤ depth)
    (K : ClassId) (c : EntId) : terminates (find_implementation_recursive depth p K c) :=
  find_implementation_recursive_terminates_path p hsup depth [] K c
    (path_budget_start p _ depth K hd)

theorem find_inherited_implementation_terminates (p : ir_prog)
    (hsup : ∀ K, ¬ super_reachable p K K) (depth : Nat) (hd : p.types.length + 1 ≤ depth)
    (K : ClassId) (c : EntId) : terminates (find_inherited_implementation depth p K c) := by
  unfold find_inherited_implementation fir_ascend_into_superclasses_and_merge
  refine terminates_bind _ _ (terminates_assert _ _ (by decide)) (fun _ _ => ?_)
  refine terminates_bind _ _ (terminates_assert _ _ (by decide)) (fun _ _ => ?_)
  refine terminates_bind _ _ (terminates_assert _ _ (by decide)) (fun _ _ => ?_)
  refine terminates_foldlM _ _ (fun s S _ => ?_) _
  refine terminates_bind _ _ (find_implementation_recursive_terminates p hsup depth hd S c)
    (fun r _ => ?_)
  split
  · exact terminates_pure _
  · exact terminates_pure _
  · dsimp only
    split
    · exact terminates_pure _
    · split
      · exact terminates_error _ (by decide)
      · exact terminates_pure _

theorem collect_current_entity_terminates (p : ir_prog)
    (hsup : ∀ K, ¬ super_reachable p K K) (depth : Nat) (hd : p.types.length + 1 ≤ depth)
    (c : EntId) (K : ClassId) (e : EntId) :
    terminates (collect_current_entity depth p c K e) := by
  unfold collect_current_entity
  dsimp only
  split
  · refine terminates_bind _ _ (find_inherited_implementation_terminates p hsup depth hd K c)
      (fun r _ => ?_)
    split <;> exact terminates_pure _
  · exact terminates_pure _

theorem collect_methods_recursive_terminates_path (p : ir_prog)
    (hsub : ∀ K, ¬ sub_reachable p K K) (hsup : ∀ K, ¬ super_reachable p K K)
    (budget : Nat) (hb : p.types.length + 1 ≤ budget) :
    ∀ (depth : Nat) (path : List ClassId) (c : EntId) (K : ClassId) (e : EntId)
      (st : cpset × analyzer_env),
      path_budget p (sub_reachable p) depth path K →
        terminates (collect_methods_recursive budget depth p c K e st) := by
  intro depth
  induction depth with
  | zero =>
    intro path c K e st h
    exact absurd (path_budget_pos _ _ _ _ _ h) (by decide)
  | succ depth ih =>
    intro path c K e st h
    unfold collect_methods_recursive
    refine terminates_bind _ _ (terminates_assert _ _ (by decide)) (fun _ _ => ?_)
    refine terminates_bind _ _ (terminates_assert _ _ (by decide)) (fun _ _ => ?_)
    refine terminates_bind _ _ (collect_current_entity_terminates p hsup budget hb c K e)
      (fun cur _ => ?_)
    refine terminates_bind _ _ ?_ (fun st1 _ => ?_)
    · split
      · split
        · exact take_entity_terminates _ _ _ _
        · exact terminates_bind _ _ (memorize_unused_target_terminates _ _ _ _ _)
            (fun _ _ => terminates_pure _)
      · exact terminates_pure _
    · refine terminates_foldlM _ _ (fun s S hS => ?_) _
      exact ih _ _ _ _ _ (path_budget_step p (sub_reachable p) hsub depth path K S
        (subtype_in_range p K S hS) (.edge _ _ hS)
        (fun x hx => sub_reachable_snoc p x K S hx hS) h)

theorem collect_methods_recursive_terminates (p : ir_prog) (h : hierarchy_acyclic p)
    (budget depth : Nat) (hb : p.types.length + 1 ≤ budget) (hd : p.types.length + 1 ≤ depth)
    (c : EntId) (K : ClassId) (e : EntId) (st : cpset × analyzer_env) :
    terminates (collect_methods_recursive budget depth p c K e st) :=
  collect_methods_recursive_terminates_path p h.1 h.2 budget hb depth [] c K e st
    (path_budget_start p _ depth K hd)

theorem cfesr_terminates_path (p : ir_prog) (hsup : ∀ K, ¬ super_reachable p K K) :
    ∀ (depth : Nat) (path : List ClassId) (klass K : ClassId) (env : analyzer_env),
      path_budget p (super_reachable p) depth path K →
        terminates (check_for_external_superclasses_recursive depth p klass K env) := by
  intro depth
  induction depth with
  | zero =>
    intro path klass K env h
    exact absurd (path_budget_pos _ _ _ _ _ h) (by decide)
  | succ depth ih =>
    intro path klass K env h
    unfold check_for_external_superclasses_recursive
    refine terminates_bind _ _ ?_ (fun env1 _ => ?_)
    · split
      · refine terminates_foldlM _ _ (fun s m _ => ?_) _
        dsimp only
        split
        · exact terminates_pure _
        · split
          · exact terminates_pure _
          · split
            · exact add_to_workqueue_terminates _ _ _
            · exact terminates_pure _
      · exact terminates_pure _
    · refine terminates_foldlM _ _ (fun s S hS => ?_) _
      exact ih _ _ _ _ (path_budget_step p (super_reachable p) hsup depth path K S
        (supertype_in_range p K S hS) (.edge _ _ hS)
        (fun x hx => super_reachable_snoc p x K S hx hS) h)

theorem cfesr_terminates (p : ir_prog) (hsup : ∀ K, ¬ super_reachable p K K) (depth : Nat)
    (hd : p.types.length + 1 ≤ depth) (klass K : ClassId) (env : analyzer_env) :
    terminates (check_for_external_superclasses_recursive depth p klass K env) :=
  cfesr_terminates_path p hsup depth [] klass K env (path_budget_start p _ depth K hd)

theorem cfes_terminates (p : ir_prog) (hsup : ∀ K, ¬ super_reachable p K K) (depth : Nat)
    (hd : p.types.length + 1 ≤ depth) (klass : ClassId) (env : analyzer_env) :
    terminates (check_for_external_superclasses depth p klass env) := by
  unfold check_for_external_superclasses
  split
  · exact terminates_pure _
  · exact terminates_foldlM _ _ (fun s S _ => cfesr_terminates p hsup depth hd klass S s) _

/-! ### Termination: the walk over a graph and the work-queue loop -/

theorem add_new_live_class_terminates (p : ir_prog) (h : hierarchy_acyclic p) (depth : Nat)
    (hd : p.types.length + 1 ≤ depth) (klass : ClassId) (env : analyzer_env) :
    terminates (add_new_live_class depth p klass env) := by
  unfold add_new_live_class
  split
  · refine terminates_bind _ _ ?_ (fun env2 _ => cfes_terminates p h.2 depth hd klass env2)
    dsimp only
    split
    · refine terminates_bind _ _ ?_ (fun _ _ => terminates_pure _)
      exact terminates_foldlM _ _ (fun s x _ => add_to_dyncalls_terminates _ _ _ _) _
    · exact terminates_pure _
  · exact terminates_pure _

theorem analyzer_handle_dynamic_call_terminates (p : ir_prog) (h : hierarchy_acyclic p)
    (depth : Nat) (hd : p.types.length + 1 ≤ depth) (entity : EntId) (env : analyzer_env) :
    terminates (analyzer_handle_dynamic_call depth p entity env) := by
  unfold analyzer_handle_dynamic_call
  refine terminates_bind _ _ (terminates_assert _ _ (by decide)) (fun _ _ => ?_)
  split
  · exact terminates_pure _
  · unfold collect_methods
    exact terminates_bind _ _
      (collect_methods_recursive_terminates p h depth depth hd hd _ _ _ _)
      (fun _ _ => terminates_pure _)

theorem walk_callgraph_and_analyze_terminates (p : ir_prog) (h : hierarchy_acyclic p)
    (depth : Nat) (hd : p.types.length + 1 ≤ depth) (g : GraphId) (node : NodeId)
    (env : analyzer_env) : terminates (walk_callgraph_and_analyze depth p g node env) := by
  unfold walk_callgraph_and_analyze
  split
  · split
    · exact add_to_workqueue_terminates _ _ _
    · exact terminates_pure _
  · split
    · exact analyzer_handle_static_call_terminates _ _ _ _ _
    · split
      · split
        · exact analyzer_handle_static_call_terminates _ _ _ _ _
        · exact analyzer_handle_dynamic_call_terminates p h depth hd _ _
      · exact terminates_pure _
    · exact terminates_pure _
  · exact add_new_live_class_terminates p h depth hd _ _
  · exact terminates_pure _

theorem analyzer_walk_graph_terminates (p : ir_prog) (h : hierarchy_acyclic p)
    (depth : Nat) (hd : p.types.length + 1 ≤ depth) (g : GraphId) (env : analyzer_env) :
    terminates (analyzer_walk_graph depth p g env) := by
  unfold analyzer_walk_graph
  exact terminates_foldlM _ _
    (fun s n _ => walk_callgraph_and_analyze_terminates p h depth hd g n s) _

theorem rta_run_iteration_terminates (p : ir_prog) (h : hierarchy_acyclic p)
    (depth : Nat) (hd : p.types.length + 1 ≤ depth) (entity : EntId) (env : analyzer_env) :
    terminates (rta_run_iteration depth p entity env) := by
  unfold rta_run_iteration
  refine terminates_bind _ _ (terminates_assert _ _ (by decide)) (fun _ _ => ?_)
  split
  · exact terminates_pure _
  · dsimp only
    split
    · exact analyzer_handle_no_graph_terminates _ _ _
    · exact analyzer_walk_graph_terminates p h depth hd _ _

theorem rta_run_initial_live_classes_terminates (p : ir_prog) (h : hierarchy_acyclic p)
    (depth : Nat) (hd : p.types.length + 1 ≤ depth) (initial : Option (List ClassId))
    (env : analyzer_env) : terminates (rta_run_initial_live_classes depth p initial env) := by
  unfold rta_run_initial_live_classes
  split
  · exact terminates_pure _
  · exact terminates_foldlM _ _ (fun s K _ => cfes_terminates p h.2 depth hd K _) _

/-! #### The work-queue loop -/

theorem method_entity_in_range (p : ir_prog) (e : EntId) (h : is_method_entity p e = true) :
    e < p.entities.length := by
  by_contra hK
  have h1 : get_entity p e = default_entity := by
    unfold get_entity
    exact List.getD_eq_default _ _ (Nat.le_of_not_lt hK)
  rw [is_method_entity, h1] at h
  cases h

theorem filter_length_lt (l : List Nat) (q r : Nat → Bool) (hqr : ∀ x, q x = true → r x = true)
    (e : Nat) (he : e ∈ l) (hr : r e = true) (hq : q e = false) :
    (l.filter q).length < (l.filter r).length := by
  induction l with
  | nil => cases he
  | cons x l ih =>
    have hle : (l.filter q).length ≤ (l.filter r).length := by
      rw [← List.countP_eq_length_filter, ← List.countP_eq_length_filter]
      exact List.countP_mono_left (fun x _ => hqr x)
    rcases List.mem_cons.1 he with hx | hx
    · subst hx
      simp only [List.filter_cons, hr, hq, if_true, List.length_cons, Bool.false_eq_true,
        if_false]
      omega
    · have h1 := ih hx
      simp only [List.filter_cons]
      cases hqx : q x
      · simp only [Bool.false_eq_true, if_false]
        cases hrx : r x
        · simpa using h1
        · simp only [if_true, List.length_cons]
          omega
      · simp only [hqr x hqx, if_true, List.length_cons]
        omega

theorem undone_count_lt (p : ir_prog) (env env1 : analyzer_env) (e : EntId)
    (hm : is_method_entity p e = true) (he : e ∉ env.done_set)
    (h1 : env1.done_set = cpset_insert env.done_set e) :
    undone_count p env1 < undone_count p env := by
  unfold undone_count
  have hd : env1.done_set = env.done_set ++ [e] := by
    rw [h1, cpset_insert, if_neg he]
  refine filter_length_lt _ _ _ ?_ e (List.mem_range.2 (method_entity_in_range p e hm)) ?_ ?_
  · intro x hx
    simp only [decide_eq_true_eq] at hx ⊢
    intro hx1
    exact hx (by rw [hd]; exact List.mem_append_left _ hx1)
  · simpa using he
  · simp [hd]

theorem rta_run_loop_terminates (p : ir_prog) (h : hierarchy_acyclic p) (depth : Nat)
    (hd : p.types.length + 1 ≤ depth) :
    ∀ (u q : Nat) (env : analyzer_env), undone_count p env ≤ u → env.workqueue.length ≤ q →
      ∃ fuel, terminates (rta_run_loop depth p fuel env) := by
  intro u
  induction u with
  | zero =>
    intro q
    induction q with
    | zero =>
      intro env _ hq
      refine ⟨0, ?_⟩
      unfold rta_run_loop
      have h0 : env.workqueue = [] := List.length_eq_zero.1 (Nat.le_zero.1 hq)
      simp only [h0]
      exact terminates_pure _
    | succ q ihq =>
      intro env hu hq
      cases hw : env.workqueue with
      | nil =>
        refine ⟨0, ?_⟩
        unfold rta_run_loop
        simp only [hw]
        exact terminates_pure _
      | cons entity rest =>
        cases hi : rta_run_iteration depth p entity { env with workqueue := rest } with
        | error x =>
          refine ⟨1, ?_⟩
          have ht := rta_run_iteration_terminates p h depth hd entity
            { env with workqueue := rest }
          unfold rta_run_loop
          simp only [hw]
          rw [hi] at ht ⊢
          exact terminates_bind _ _ ht (fun a ha => by cases ha)
        | ok env1 =>
          obtain ⟨hm, hs⟩ := rta_run_iteration_spec depth p entity _ env1 hi
          rcases hs with ⟨_, he⟩ | ⟨hnd, hext⟩
          · subst he
            obtain ⟨fuel, hf⟩ := ihq { env with workqueue := rest } hu (by
              have : rest.length + 1 ≤ q + 1 := by
                have h2 := hq
                rw [hw] at h2
                exact h2
              exact Nat.le_of_succ_le_succ this)
            refine ⟨fuel + 1, ?_⟩
            unfold rta_run_loop
            simp only [hw]
            rw [hi, bind_ok_eq]
            exact hf
          · have hlt := undone_count_lt p { env with workqueue := rest } env1 entity hm hnd
              hext.done
            have hu1 : undone_count p { env with workqueue := rest } = undone_count p env := rfl
            omega
  | succ u ihu =>
    intro q
    induction q with
    | zero =>
      intro env _ hq
      refine ⟨0, ?_⟩
      unfold rta_run_loop
      have h0 : env.workqueue = [] := List.length_eq_zero.1 (Nat.le_zero.1 hq)
      simp only [h0]
      exact terminates_pure _
    | succ q ihq =>
      intro env hu hq
      cases hw : env.workqueue with
      | nil =>
        refine ⟨0, ?_⟩
        unfold rta_run_loop
        simp only [hw]
        exact terminates_pure _
      | cons entity rest =>
        cases hi : rta_run_iteration depth p entity { env with workqueue := rest } with
        | error x =>
          refine ⟨1, ?_⟩
          have ht := rta_run_iteration_terminates p h depth hd entity
            { env with workqueue := rest }
          unfold rta_run_loop
          simp only [hw]
          rw [hi] at ht ⊢
          exact terminates_bind _ _ ht (fun a ha => by cases ha)
        | ok env1 =>
          obtain ⟨hm, hs⟩ := rta_run_iteration_spec depth p entity _ env1 hi
          rcases hs with ⟨_, he⟩ | ⟨hnd, hext⟩
          · subst he
            obtain ⟨fuel, hf⟩ := ihq { env with workqueue := rest } hu (by
              have : rest.length + 1 ≤ q + 1 := by
                have h2 := hq
                rw [hw] at h2
                exact h2
              exact Nat.le_of_succ_le_succ this)
            refine ⟨fuel + 1, ?_⟩
            unfold rta_run_loop
            simp only [hw]
            rw [hi, bind_ok_eq]
            exact hf
          · have hlt := undone_count_lt p { env with workqueue := rest } env1 entity hm hnd
              hext.done
            have hu1 : undone_count p { env with workqueue := rest } = undone_count p env := rfl
            obtain ⟨fuel, hf⟩ := ihu env1.workqueue.length env1 (by omega) (Nat.le_refl _)
            refine ⟨fuel + 1, ?_⟩
            unfold rta_run_loop
            simp only [hw]
            rw [hi, bind_ok_eq]
            exact hf

theorem rta_run_loop_fuel_succ (depth : Nat) (p : ir_prog) :
    ∀ (fuel : Nat) (env : analyzer_env), terminates (rta_run_loop depth p fuel env) →
      rta_run_loop depth p (fuel + 1) env = rta_run_loop depth p fuel env := by
  intro fuel
  induction fuel with
  | zero =>
    intro env ht
    cases hw : env.workqueue with
    | nil =>
      unfold rta_run_loop
      simp only [hw]
    | cons entity rest =>
      unfold rta_run_loop at ht
      simp only [hw] at ht
      cases ht
  | succ fuel ih =>
    intro env ht
    cases hw : env.workqueue with
    | nil =>
      unfold rta_run_loop
      simp only [hw]
    | cons entity rest =>
      have e1 : ∀ f, rta_run_loop depth p (f + 1) env
          = (rta_run_iteration depth p entity { env with workqueue := rest }
              >>= fun env1 => rta_run_loop depth p f env1) := by
        intro f
        rw [rta_run_loop]
        simp only [hw]
      rw [e1 (fuel + 1), e1 fuel]
      rw [e1 fuel] at ht
      cases hi : rta_run_iteration depth p entity { env with workqueue := rest } with
      | error x => rfl
      | ok env1 =>
        rw [hi, bind_ok_eq] at ht
        rw [bind_ok_eq, bind_ok_eq]
        exact ih env1 ht

theorem rta_run_loop_fuel_add (depth : Nat) (p : ir_prog) (fuel : Nat) (env : analyzer_env)
    (ht : terminates (rta_run_loop depth p fuel env)) :
    ∀ k, rta_run_loop depth p (fuel + k) env = rta_run_loop depth p fuel env
  | 0 => rfl
  | k + 1 => by
    have ih := rta_run_loop_fuel_add depth p fuel env ht k
    have h1 := rta_run_loop_fuel_succ depth p (fuel + k) env (by rw [ih]; exact ht)
    rw [← ih, ← h1]
    rfl

theorem rta_run_fuel_exists (p : ir_prog) (h : hierarchy_acyclic p) (depth : Nat)
    (hd : p.types.length + 1 ≤ depth) (entry_points : List EntId)
    (initial : Option (List ClassId)) :
    ∃ fuel, terminates (rta_run fuel depth p entry_points initial)
      ∧ ∀ k, rta_run (fuel + k) depth p entry_points initial
          = rta_run fuel depth p entry_points initial := by
  unfold rta_run
  have t1 := rta_run_entry_points_terminates p entry_points analyzer_env_init
  cases h1 : rta_run_entry_points p entry_points analyzer_env_init with
  | error x =>
    rw [h1] at t1
    exact ⟨0, terminates_bind _ _ t1 (fun a ha => by cases ha), fun _ => rfl⟩
  | ok env1 =>
    simp only [bind_ok_eq]
    have t2 := rta_run_initial_live_classes_terminates p h depth hd initial env1
    cases h2 : rta_run_initial_live_classes depth p initial env1 with
    | error x =>
      rw [h2] at t2
      exact ⟨0, terminates_bind _ _ t2 (fun a ha => by cases ha), fun _ => rfl⟩
    | ok env2 =>
      simp only [bind_ok_eq]
      obtain ⟨fuel, hf⟩ := rta_run_loop_terminates p h depth hd _ _ env2 (Nat.le_refl _)
        (Nat.le_refl _)
      exact ⟨fuel, hf, rta_run_loop_fuel_add depth p fuel env2 hf⟩

theorem rta_run_loop_log_bound (depth : Nat) (p : ir_prog) (fuel : Nat)
    (env env1 : analyzer_env) (log : List EntId)
    (h : rta_run_loop_log depth p fuel env = .ok (env1, log)) :
    log.Nodup ∧ (∀ e ∈ log, is_method_entity p e = true)
      ∧ log.length
          ≤ ((List.range p.entities.length).filter (fun e => is_method_entity p e)).length := by
  obtain ⟨_, hn, hm⟩ := rta_run_loop_log_spec depth p fuel env env1 log h
  refine ⟨hn, fun e he => (hm e he).2, ?_⟩
  refine (List.Nodup.subperm hn (fun x hx => ?_)).length_le
  exact List.mem_filter.2
    ⟨List.mem_range.2 (method_entity_in_range p x (hm x hx).2), (hm x hx).2⟩

theorem hierarchy_acyclic_of_rank (p : ir_prog) (rank : ClassId → Nat)
    (hsub : ∀ K S, S ∈ get_class_subtypes p K → rank S < rank K)
    (hsup : ∀ K S, S ∈ get_class_supertypes p K → rank K < rank S) : hierarchy_acyclic p := by
  have h1 : ∀ K S, sub_reachable p K S → rank S < rank K := by
    intro K S h
    induction h with
    | edge K S h => exact hsub K S h
    | step K M S h _ ih => exact Nat.lt_trans ih (hsub K M h)
  have h2 : ∀ K S, super_reachable p K S → rank K < rank S := by
    intro K S h
    induction h with
    | edge K S h => exact hsup K S h
    | step K M S h _ ih => exact Nat.lt_trans (hsup K M h) ih
  exact ⟨fun K hK => Nat.lt_irrefl _ (h1 K K hK), fun K hK => Nat.lt_irrefl _ (h2 K K hK)⟩

theorem two_class_prog_acyclic : hierarchy_acyclic two_class_prog := by
  refine hierarchy_acyclic_of_rank _ (fun K => if K = 0 then 1 else 0) ?_ ?_
  · intro K S h
    rcases K with _ | _ | _ | K
    · have h1 : S = 1 := by simpa [get_class_subtypes, get_type, two_class_prog] using h
      subst h1
      decide
    · simp [get_class_subtypes, get_type, two_class_prog] at h
    · simp [get_class_subtypes, get_type, two_class_prog] at h
    · simp [get_class_subtypes, get_type, two_class_prog, default_type] at h
  · intro K S h
    rcases K with _ | _ | _ | K
    · simp [get_class_supertypes, get_type, two_class_prog] at h
    · have h1 : S = 0 := by simpa [get_class_supertypes, get_type, two_class_prog] using h
      subst h1
      decide
    · simp [get_class_supertypes, get_type, two_class_prog] at h
    · simp [get_class_supertypes, get_type, two_class_prog, default_type] at h

/-- C30: for a program whose class hierarchy is acyclic, with a recursion budget
above the number of classes, the three walks over the class hierarchy
(`collect_methods_recursive`, `find_implementation_recursive`,
`check_for_external_superclasses_recursive`) come to an end on every input, and
so does `rta_run`: some amount of fuel is enough for its work-queue loop, every
larger amount gives the same result, and the loop processes every method entity
at most once (the entities whose graph it walks are distinct method entities, no
more than the program has). -/
theorem rta_run_terminates (p : ir_prog) (h : hierarchy_acyclic p) (budget depth : Nat)
    (hb : p.types.length + 1 ≤ budget) (hd : p.types.length + 1 ≤ depth)
    (entry_points : List EntId) (initial_live_classes : Option (List ClassId)) :
    (∀ c K e st, terminates (collect_methods_recursive budget depth p c K e st))
      ∧ (∀ K c, terminates (find_implementation_recursive depth p K c))
      ∧ (∀ klass K env,
          terminates (check_for_external_superclasses_recursive depth p klass K env))
      ∧ (∀ entity env, terminates (rta_run_iteration depth p entity env))
      ∧ (∃ fuel, terminates (rta_run fuel depth p entry_points initial_live_classes)
          ∧ ∀ k, rta_run (fuel + k) depth p entry_points initial_live_classes
              = rta_run fuel depth p entry_points initial_live_classes)
      ∧ (∀ fuel env, (rta_run_loop_log depth p fuel env).map Prod.fst
          = rta_run_loop depth p fuel env)
      ∧ (∀ fuel env env1 log, rta_run_loop_log depth p fuel env = .ok (env1, log) →
          log.Nodup ∧ (∀ e ∈ log, is_method_entity p e = true)
            ∧ log.length
                ≤ ((List.range p.entities.length).filter
                    (fun e => is_method_entity p e)).length) :=
  ⟨fun c K e st => collect_methods_recursive_terminates p h budget depth hb hd c K e st,
    fun K c => find_implementation_recursive_terminates p h.2 depth hd K c,
    fun klass K env => cfesr_terminates p h.2 depth hd klass K env,
    fun entity env => rta_run_iteration_terminates p h depth hd entity env,
    rta_run_fuel_exists p h depth hd entry_points initial_live_classes,
    fun fuel env => rta_run_loop_log_fst depth p fuel env,
    fun fuel env env1 log hl => rta_run_loop_log_bound depth p fuel env env1 log hl⟩

/-- The two-class program: three classes, budget 4. -/
theorem rta_run_terminates_witness :
    hierarchy_acyclic two_class_prog ∧ two_class_prog.types.length + 1 ≤ 4
      ∧ (∀ c K e st, terminates (collect_methods_recursive 4 4 two_class_prog c K e st))
      ∧ (∀ K c, terminates (find_implementation_recursive 4 two_class_prog K c))
      ∧ (∃ fuel, terminates (rta_run fuel 4 two_class_prog [0] none)
          ∧ ∀ k, rta_run (fuel + k) 4 two_class_prog [0] none
              = rta_run fuel 4 two_class_prog [0] none) :=
  have k := rta_run_terminates two_class_prog two_class_prog_acyclic 4 4 (by decide)
    (by decide) [0] none
  ⟨two_class_prog_acyclic, by decide, k.1, k.2.1, k.2.2.2.2.1⟩

/-! ## The default memory model -/

/-! ### The space in front of the elements of an array -/

theorem add_size_eq (e c : Nat) (hc : 1 ≤ c) (hno : e + c ≤ 2 ^ 32) :
    add_size e c = (e + (c - 1)) / c := by
  unfold add_size to_unsigned
  have h1 : (c + (2 ^ 32 - 1)) % 2 ^ 32 = c - 1 := by omega
  rw [h1]
  have h2 : (e + (c - 1)) % 2 ^ 32 = e + (c - 1) := by omega
  rw [h2]

theorem add_size_small (e c : Nat) (he : 1 ≤ e) (hec : e < c) (hno : e + c ≤ 2 ^ 32) :
    add_size e c = 1 := by
  rw [add_size_eq e c (by omega) hno]
  have h3 : e + (c - 1) = c + (e - 1) := by omega
  rw [h3, Nat.add_div_left _ (by omega : 0 < c)]
  have h4 : (e - 1) / c = 0 := Nat.div_eq_of_lt (by omega)
  omega

theorem add_size_pos (e c : Nat) (he : 1 ≤ e) (hc : 1 ≤ c) (hno : e + c ≤ 2 ^ 32) :
    1 ≤ add_size e c := by
  rw [add_size_eq e c hc hno]
  exact (Nat.one_le_div_iff (by omega)).2 (by omega)

theorem addr_delta_small (e c : Nat) (he : 1 ≤ e) (hec : e < c) (hno : e + c ≤ 2 ^ 32) :
    addr_delta e c = e := by
  unfold addr_delta to_unsigned
  rw [add_size_small e c he hec hno, Nat.one_mul]
  exact Nat.mod_eq_of_lt (by omega)

theorem addr_delta_large (e c : Nat) (hc : 1 ≤ c) (hce : c ≤ e) (hno : e + c ≤ 2 ^ 32)
    (hmul : add_size e c * e < 2 ^ 32) : c ≤ addr_delta e c := by
  unfold addr_delta to_unsigned
  rw [Nat.mod_eq_of_lt hmul]
  have h1 := add_size_pos e c (by omega) hc hno
  calc c ≤ e := hce
    _ = 1 * e := (Nat.one_mul e).symm
    _ ≤ add_size e c * e := Nat.mul_le_mul_right e h1

theorem to_int_small (x : Nat) (h : x < 2 ^ 31) : to_int x = (x : Int) := by
  unfold to_int to_unsigned
  rw [Nat.mod_eq_of_lt (by omega), if_pos h]

theorem int_sub_some (a b : Int) (h1 : - 2 ^ 31 ≤ a - b) (h2 : a - b < 2 ^ 31) :
    int_sub a b = some (a - b) := by
  unfold int_sub
  rw [if_pos ⟨h1, h2⟩]

/-- The store of the length by `default_alloc_array` for an element type of less
than four bytes that is no class: the address is the pointer that `calloc`
returns plus the negative offset `e - 4`, and the result is that pointer plus
`e`. -/
theorem small_element_store_offset (ptr_bytes e : Nat) (count mem : dm_node)
    (he : 1 ≤ e) (he4 : e < 4) :
    ∃ res mem1 base,
      default_alloc_array ptr_bytes dmemory_init_arraylength_mode
          { is_class := false, size_bytes := e } count mem = some (res, mem1)
        ∧ calloc_result ptr_bytes mem1 = some base
        ∧ stored_address mem1
            = some (.Add base (.Const_long (mode_P ptr_bytes) ((e : Int) - 4)) (mode_P ptr_bytes))
        ∧ res = .Add base (.Const_long (mode_P ptr_bytes) (e : Int)) (mode_P ptr_bytes) := by
  have hcs : get_mode_size_bytes dmemory_init_arraylength_mode = 4 := rfl
  have hes : element_size ptr_bytes { is_class := false, size_bytes := e } = e := by
    unfold element_size is_Class_type get_type_size_bytes to_unsigned
    simp only [Bool.false_eq_true, if_false]
    exact Nat.mod_eq_of_lt (by omega)
  have had : addr_delta e 4 = e := addr_delta_small e 4 he he4 (by omega)
  have hti : to_int e = (e : Int) := to_int_small e (by omega)
  have his : int_sub (e : Int) 4 = some ((e : Int) - 4) := int_sub_some _ _ (by omega) (by omega)
  unfold default_alloc_array
  simp only [hcs, hes, had, hti, his]
  rw [if_neg (by decide), if_pos (by omega : e > 0)]
  exact ⟨_, _, _, rfl, rfl, rfl, rfl⟩

/-- C33, what the code computes: when the sums and products do not overflow, the
header `addr_delta` of `default_alloc_array` has room for a length field of `c`
bytes if and only if an element is at least as large as the length field; for a
smaller element `add_size` is 1 and the header is one element, `e` bytes. -/
theorem addr_delta_covers_length_field (e c : Nat) (he : 1 ≤ e) (hc : 1 ≤ c)
    (hno : e + c ≤ 2 ^ 32) (hmul : add_size e c * e < 2 ^ 32) :
    (c ≤ addr_delta e c ↔ c ≤ e)
      ∧ (e < c → add_size e c = 1 ∧ addr_delta e c = e ∧ addr_delta e c < c) := by
  refine ⟨⟨fun h => ?_, fun h => addr_delta_large e c hc h hno hmul⟩, fun h => ?_⟩
  · by_contra hlt
    have h1 := addr_delta_small e c he (by omega) hno
    omega
  · have h1 := addr_delta_small e c he h hno
    exact ⟨add_size_small e c he h hno, h1, by omega⟩

/-- An array of bytes with the length field of `dmemory_init` (four bytes): the
header is one byte. -/
theorem addr_delta_covers_length_field_witness :
    ((4 ≤ addr_delta 1 4 ↔ 4 ≤ 1)
      ∧ (1 < 4 → add_size 1 4 = 1 ∧ addr_delta 1 4 = 1 ∧ addr_delta 1 4 < 4))
      ∧ get_mode_size_bytes dmemory_init_arraylength_mode = 4 :=
  ⟨addr_delta_covers_length_field 1 4 (by decide) (by decide) (by decide) (by decide), rfl⟩

/-! ### The length of an array: where it is stored and where it is read -/

/-- A class without a member of the name of `c` whose one supertype has a member
of that name that is not abstract yields that member. -/
theorem find_implementation_recursive_inherits (depth : Nat) (p : ir_prog) (S T : ClassId)
    (c r : EntId) (hm : is_method_entity p c = true)
    (hS : get_class_member_by_name p S (get_entity_ident p c) = none)
    (hsup : get_class_supertypes p S = [T])
    (hT : get_class_member_by_name p T (get_entity_ident p c) = some r)
    (hr : oo_get_method_is_abstract p r = false) :
    find_implementation_recursive (depth + 2) p S c = .ok (some r) := by
  have h1 : find_implementation_recursive (depth + 1) p T c = .ok (some r) := by
    rw [find_implementation_recursive_succ, hm, assert_true, bind_ok_eq]
    simp only [hT, hr]
    rfl
  rw [find_implementation_recursive_succ, hm, assert_true, bind_ok_eq]
  simp only [hS, hsup]
  rw [fir_merge_loop_cons, h1, bind_ok_eq]
  rfl

/-- C31 (the merge compares provenance, not identity): when two supertypes `S1`
and `S2` of a class `K`, at different places of its list of supertypes, both
yield the same entity `r` for the call entity `c`, and the supertypes before
`S2` other than `S1` yield nothing, `fir_ascend_into_superclasses_and_merge`
fails with `AmbiguousImplementation`, and with it
`find_inherited_implementation` for an abstract `c` and
`find_implementation_recursive` for a `K` without a member of that name.  This
is the case in a diamond: `S1` and `S2` have no member of the name of `c` and
the one supertype `T` of each has the member `r`, which is not abstract. -/
theorem ambiguity_by_provenance (depth : Nat) (p : ir_prog) (K : ClassId) (c : EntId)
    (pre mid post : List ClassId) (S1 S2 : ClassId) (r : EntId)
    (hm : is_method_entity p c = true)
    (hs : get_class_supertypes p K = pre ++ S1 :: (mid ++ S2 :: post))
    (hpre : ∀ S ∈ pre, find_implementation_recursive depth p S c = .ok none)
    (hmid : ∀ S ∈ mid, find_implementation_recursive depth p S c = .ok none)
    (h1 : find_implementation_recursive depth p S1 c = .ok (some r))
    (h2 : find_implementation_recursive depth p S2 c = .ok (some r)) :
    fir_ascend_into_superclasses_and_merge depth p K c none = .error .AmbiguousImplementation
      ∧ (oo_get_method_is_abstract p c = true →
          find_inherited_implementation depth p K c = .error .AmbiguousImplementation)
      ∧ (get_class_member_by_name p K (get_entity_ident p c) = none →
          find_implementation_recursive (depth + 1) p K c = .error .AmbiguousImplementation) := by
  have hloop : fir_merge_loop depth p c (pre ++ S1 :: mid) none = .ok (some r) := by
    rw [fir_merge_loop_append, fir_merge_loop_skip depth p c pre none hpre, bind_ok_eq,
      fir_merge_loop_cons, h1, bind_ok_eq]
    have h3 : fir_merge p none (some r) = .ok (some r) := rfl
    rw [h3, bind_ok_eq]
    exact fir_merge_loop_skip depth p c mid (some r) hmid
  have hs1 : get_class_supertypes p K = (pre ++ S1 :: mid) ++ S2 :: post := by
    rw [hs]
    simp
  have k := fir_merge_loop_ambiguous depth p c (pre ++ S1 :: mid) post S2 r r hloop h2 rfl
  rw [← hs1] at k
  refine ⟨?_, fun ha => ?_, fun hn => ?_⟩
  · rw [fir_ascend_eq, hm, assert_true, bind_ok_eq]
    exact k
  · rw [find_inherited_implementation_eq depth p K c hm ha]
    exact k
  · rw [find_implementation_recursive_succ, hm, assert_true, bind_ok_eq]
    simp only [hn]
    exact k

/-- The diamond of interfaces: `I1` and `I2` both inherit `I0.m`, the only
implementation of `m`, and the analysis of a program that calls `A.m` fails. -/
theorem ambiguity_by_provenance_witness :
    (fir_ascend_into_superclasses_and_merge 3 diamond_prog 4 2 none
        = .error .AmbiguousImplementation
      ∧ (oo_get_method_is_abstract diamond_prog 2 = true →
          find_inherited_implementation 3 diamond_prog 4 2 = .error .AmbiguousImplementation)
      ∧ (get_class_member_by_name diamond_prog 4 (get_entity_ident diamond_prog 2) = none →
          find_implementation_recursive (3 + 1) diamond_prog 4 2
            = .error .AmbiguousImplementation))
      ∧ find_implementation_recursive 3 diamond_prog 1 2 = .ok (some 1)
      ∧ find_implementation_recursive 3 diamond_prog 2 2 = .ok (some 1)
      ∧ rta_run 10 10 diamond_prog [0] none = .error .AmbiguousImplementation :=
  ⟨ambiguity_by_provenance 3 diamond_prog 4 2 [3] [] [] 1 2 1 rfl rfl
      (by intro S h; simp at h; subst h; rfl) (by intro S h; cases h)
      (find_implementation_recursive_inherits 1 diamond_prog 1 0 2 1 rfl rfl rfl rfl rfl)
      (find_implementation_recursive_inherits 1 diamond_prog 2 0 2 1 rfl rfl rfl rfl rfl),
    rfl, rfl, rfl⟩

/-! ## The result of the analysis does not depend on the order of discovery -/

/-! ### What a step adds to the live methods and to the queue -/

theorem foldlM_added {α : Type} (X : EntId → Prop)
    (f : analyzer_env → α → Except Err analyzer_env) (l : List α)
    (hstep : ∀ s x s1, x ∈ l → f s x = .ok s1 → added_only X s s1)
    (s s1 : analyzer_env) (h : l.foldlM f s = .ok s1) : added_only X s s1 :=
  foldlM_inv f (fun t => added_only X s t) l
    (fun t x t1 hx hI hf => added_only_trans hI (hstep t x t1 hx hf)) s s1
    (added_only_refl X s) h

theorem add_to_dyncalls_added (p : ir_prog) (method : EntId) (call_entities : cpset)
    (env env1 : analyzer_env) (h : add_to_dyncalls p method call_entities env = .ok env1) :
    added_only (fun o => o = method ∧ ∃ c, c ∈ call_entities) env env1 := by
  unfold add_to_dyncalls at h
  simp only [bind_ok, exists_assert_ok] at h
  refine foldlM_added _ _ call_entities ?_ env env1 h.2
  intro s x s1 hx hf
  split at hf
  · cases hf
  · rename_i targets _
    have k := live_enqueue_added p method
      { s with dyncall_targets := cpmap_set s.dyncall_targets x (cpset_insert targets method) }
      s1 hf
    exact added_only_mono k (fun o ho => ⟨ho, x, hx⟩)

theorem add_new_live_class_drain_added (p : ir_prog) (klass : ClassId)
    (env env1 : analyzer_env) (h : add_new_live_class_drain p klass env = .ok env1) :
    added_only (fun o => ∃ c, unused_mem env klass o c) env env1 := by
  unfold add_new_live_class_drain at h
  split at h
  · rename_i methods hfind
    simp only [bind_ok, pure_ok] at h
    obtain ⟨env3, h3, rfl⟩ := h
    have k := foldlM_added (fun o => ∃ c, unused_mem env klass o c) _ methods
      (fun s x s1 hx hf => by
        have k1 := add_to_dyncalls_added p x.1 x.2 s s1 hf
        refine added_only_mono k1 ?_
        rintro o ⟨rfl, c, hc⟩
        exact ⟨c, methods, x.2, cpmap_find_mem _ _ _ hfind, hx, hc⟩) env env3 h3
    exact k
  · rw [pure_ok] at h
    exact h ▸ added_only_refl _ _

theorem add_new_live_class_added (depth : Nat) (p : ir_prog) (klass : ClassId)
    (env env1 : analyzer_env) (h : add_new_live_class depth p klass env = .ok env1) :
    added_only
        (fun o => oo_get_class_is_extern p klass = false
          ∧ oo_get_class_is_abstract p klass = false
          ∧ ((∃ c, unused_mem env klass o c) ∨ extern_override p klass o)) env env1
      ∧ (∀ K ∈ env1.live_classes, K ∈ env.live_classes
          ∨ (K = klass ∧ oo_get_class_is_extern p klass = false
            ∧ oo_get_class_is_abstract p klass = false)) := by
  by_cases hcond : klass ∉ env.live_classes ∧ (! oo_get_class_is_extern p klass) = true
      ∧ (!oo_get_class_is_abstract p klass) = true
  · have hx : oo_get_class_is_extern p klass = false := by simpa using hcond.2.1
    have ha : oo_get_class_is_abstract p klass = false := by simpa using hcond.2.2
    obtain ⟨hcl, _, _⟩ := add_new_live_class_effect depth p klass env env1 h hcond
    rw [add_new_live_class_eq, if_pos hcond, bind_ok] at h
    obtain ⟨env2, h1, h2⟩ := h
    have k1 := add_new_live_class_drain_added p klass _ env2 h1
    have k2 := cfes_origin depth p klass env2 env1 h2
    refine ⟨?_, ?_⟩
    · have k3 : added_only
          (fun o => oo_get_class_is_extern p klass = false
            ∧ oo_get_class_is_abstract p klass = false
            ∧ ((∃ c, unused_mem env klass o c) ∨ extern_override p klass o))
          { env with live_classes := cpset_insert env.live_classes klass } env1 :=
        added_only_trans (added_only_mono k1 (fun o ho => ⟨hx, ha, Or.inl ho⟩))
          (added_only_mono k2 (fun o ho => ⟨hx, ha, Or.inr ho⟩))
      exact k3
    · intro K hK
      rw [hcl] at hK
      rcases (mem_cpset_insert _ _ _).1 hK with hK | hK
      · exact Or.inl hK
      · exact Or.inr ⟨hK, hx, ha⟩
  · rw [add_new_live_class_eq, if_neg hcond, pure_ok] at h
    subst h
    exact ⟨added_only_refl _ _, fun K hK => Or.inl hK⟩

theorem collect_methods_recursive_added (budget : Nat) (p : ir_prog) (c : EntId)
    (a : analyzer_env) :
    ∀ (depth : Nat) (klass : ClassId) (entity : EntId) (st st1 : cpset × analyzer_env),
      collect_methods_recursive budget depth p c klass entity st = .ok st1 →
      added_only (fun o => o ∈ st.1) a st.2 → added_only (fun o => o ∈ st1.1) a st1.2
  | 0, _, _, _, _, h, _ => by simp [collect_methods_recursive] at h
  | depth + 1, klass, entity, st, st1, h, hs => by
    simp only [collect_methods_recursive, bind_ok, exists_assert_ok] at h
    obtain ⟨_, _, cur, _, st2, h2, h3⟩ := h
    have e2 : added_only (fun o => o ∈ st2.1) a st2.2 := by
      split at h2
      · split at h2
        · unfold take_entity at h2
          simp only [assert_bind_ok] at h2
          obtain ⟨_, h2⟩ := h2
          split at h2
          · simp only [bind_ok, pure_ok] at h2
            obtain ⟨env1, h4, rfl⟩ := h2
            have k := live_enqueue_added _ _ _ _ h4
            refine added_only_trans (added_only_mono hs ?_) (added_only_mono k ?_)
            · intro o ho
              exact (mem_cpset_insert _ _ _).2 (Or.inl ho)
            · intro o ho
              exact (mem_cpset_insert _ _ _).2 (Or.inr ho)
          · rw [pure_ok] at h2
            exact h2 ▸ hs
        · simp only [bind_ok, pure_ok] at h2
          obtain ⟨env1, h4, rfl⟩ := h2
          rw [memorize_unused_target_ok] at h4
          obtain ⟨_, _, rfl⟩ := h4
          exact hs
      · rw [pure_ok] at h2
        exact h2 ▸ hs
    exact foldlM_inv _ (fun t => added_only (fun o => o ∈ t.1) a t.2)
      (get_class_subtypes p klass)
      (fun s x s1 _ hI hf => collect_methods_recursive_added budget p c a depth x cur s s1 hf hI)
      st2 st1 e2 h3

theorem analyzer_handle_dynamic_call_added (depth : Nat) (p : ir_prog) (c : EntId)
    (env env1 : analyzer_env) (h : analyzer_handle_dynamic_call depth p c env = .ok env1) :
    (unused_sound depth p env →
      added_only
        (fun o => cpmap_find env.dyncall_targets c = none
          ∧ ∃ K, (K ∈ env.live_classes ∨ oo_get_class_is_extern p K = true)
            ∧ resolves_to depth p c K o ∧ oo_get_method_is_abstract p o = false) env env1)
      ∧ env1.live_classes = env.live_classes
      ∧ (∀ c1, has_key env1 c1 → has_key env c1 ∨ c1 = c) := by
  unfold analyzer_handle_dynamic_call at h
  simp only [bind_ok, exists_assert_ok] at h
  obtain ⟨_, h⟩ := h
  split at h
  · rw [pure_ok] at h
    subst h
    exact ⟨fun _ => added_only_refl _ _, rfl, fun c1 h1 => Or.inl h1⟩
  · rename_i hnone
    simp only [bind_ok, pure_ok] at h
    obtain ⟨res, h1, rfl⟩ := h
    have c1 := collect_methods_ext _ _ _ _ _ _ h1
    have k3 : added_only (fun o => o ∈ res.1) env res.2 := by
      have h2 := h1
      unfold collect_methods at h2
      exact collect_methods_recursive_added depth p c env depth _ _ ([], env) res h2
        (added_only_refl _ _)
    refine ⟨fun hs => ?_, c1.classes_eq, ?_⟩
    · obtain ⟨_, k2⟩ := collect_methods_sound depth p c [] env res h1 hs
      have k4 : added_only
          (fun o => cpmap_find env.dyncall_targets c = none
            ∧ ∃ K, (K ∈ env.live_classes ∨ oo_get_class_is_extern p K = true)
              ∧ resolves_to depth p c K o ∧ oo_get_method_is_abstract p o = false)
          env res.2 := by
        refine added_only_mono k3 ?_
        intro o ho
        rcases k2 o ho with h5 | ⟨h5, K, h6, h7⟩
        · cases h5
        · exact ⟨hnone, K, h6, h7, h5⟩
      exact k4
    · rintro c2 ⟨ts, hts⟩
      simp only [cpmap_find_set] at hts
      by_cases hc : c2 = c
      · exact Or.inr hc
      · simp only [hc, if_false, c1.targets_eq] at hts
        exact Or.inl ⟨ts, hts⟩

theorem analyzer_handle_static_call_added (p : ir_prog) (g : GraphId) (call : NodeId)
    (e : EntId) (env env1 : analyzer_env)
    (h : analyzer_handle_static_call p g call e env = .ok env1) :
    added_only (fun o => o = e ∨ (get_entity_irg p e = none ∧ p.detect_call g call = some o))
      env env1 := by
  unfold analyzer_handle_static_call at h
  simp only [bind_ok, exists_assert_ok] at h
  obtain ⟨_, env2, h1, h⟩ := h
  have k1 := added_only_mono (live_enqueue_added _ _ _ _ h1)
    (fun o (ho : o = e) =>
      (Or.inl ho : o = e ∨ (get_entity_irg p e = none ∧ p.detect_call g call = some o)))
  split at h
  · rw [pure_ok] at h
    exact h ▸ k1
  · rename_i hnone
    split at h
    · rename_i called hdet
      simp only [bind_ok, exists_assert_ok] at h
      have k2 := live_enqueue_added _ _ _ _ h.2
      exact added_only_trans k1 (added_only_mono k2 (fun o ho => Or.inr ⟨hnone, ho ▸ hdet⟩))
    · rw [pure_ok] at h
      exact h ▸ k1

theorem analyzer_handle_no_graph_added (p : ir_prog) (entity : EntId)
    (env env1 : analyzer_env) (h : analyzer_handle_no_graph p entity env = .ok env1) :
    added_only (fun o => get_ldname_redirect p entity = .ok (some o)) env env1 := by
  unfold analyzer_handle_no_graph at h
  simp only [bind_ok, exists_assert_ok] at h
  obtain ⟨_, _, target, ht, h⟩ := h
  split at h
  · exact added_only_mono (live_enqueue_added _ _ _ _ h) (fun o ho => ho ▸ ht)
  · rw [pure_ok] at h
    exact h ▸ added_only_refl _ _

theorem walk_callgraph_and_analyze_added (depth : Nat) (p : ir_prog) (g : GraphId)
    (node : NodeId) (env env1 : analyzer_env)
    (h : walk_callgraph_and_analyze depth p g node env = .ok env1) :
    (unused_sound depth p env → added_only (node_adds depth p g node env) env env1)
      ∧ (∀ K ∈ env1.live_classes, K ∈ env.live_classes
          ∨ (get_irn p g node = .VptrIsSet K ∧ oo_get_class_is_extern p K = false
            ∧ oo_get_class_is_abstract p K = false))
      ∧ (∀ c, has_key env1 c → has_key env c ∨ is_dynamic_call p g node c) := by
  have frame : (env1.live_classes = env.live_classes ∧ env1.dyncall_targets = env.dyncall_targets
      ∧ env1.unused_targets = env.unused_targets) →
      (∀ K ∈ env1.live_classes, K ∈ env.live_classes
          ∨ (get_irn p g node = .VptrIsSet K ∧ oo_get_class_is_extern p K = false
            ∧ oo_get_class_is_abstract p K = false))
        ∧ (∀ c, has_key env1 c → has_key env c ∨ is_dynamic_call p g node c) := by
    rintro ⟨f1, f2, _⟩
    refine ⟨fun K hK => Or.inl (f1 ▸ hK), fun c hc => Or.inl ?_⟩
    unfold has_key at hc ⊢
    rw [← f2]
    exact hc
  have same : env = env1 →
      (unused_sound depth p env → added_only (node_adds depth p g node env) env env1)
        ∧ (∀ K ∈ env1.live_classes, K ∈ env.live_classes
            ∨ (get_irn p g node = .VptrIsSet K ∧ oo_get_class_is_extern p K = false
              ∧ oo_get_class_is_abstract p K = false))
        ∧ (∀ c, has_key env1 c → has_key env c ∨ is_dynamic_call p g node c) := by
    intro he
    subst he
    exact ⟨fun _ => added_only_refl _ _, fun K hK => Or.inl hK, fun c hc => Or.inl hc⟩
  unfold walk_callgraph_and_analyze at h
  split at h
  · rename_i e hnode
    split at h
    · rename_i hm
      refine ⟨fun _ => ?_, frame (live_enqueue_frame _ _ _ _ h)⟩
      exact added_only_mono (live_enqueue_added _ _ _ _ h)
        (fun o ho => Or.inl ⟨ho ▸ hnode, ho ▸ hm⟩)
    · rw [pure_ok] at h
      exact same h
  · rename_i callee sb hnode
    split at h
    · rename_i e hcallee
      refine ⟨fun _ => ?_, frame (analyzer_handle_static_call_frame _ _ _ _ _ _ h)⟩
      have hst : is_static_call p g node e := ⟨callee, sb, hnode, Or.inl hcallee⟩
      refine added_only_mono (analyzer_handle_static_call_added _ _ _ _ _ _ h) ?_
      rintro o (ho | ⟨h1, h2⟩)
      · exact Or.inr (Or.inl (ho ▸ hst))
      · exact Or.inr (Or.inr (Or.inl ⟨e, hst, h1, h2⟩))
    · rename_i pred hcallee
      split at h
      · rename_i mem e hpred
        split at h
        · rename_i hsb
          refine ⟨fun _ => ?_, frame (analyzer_handle_static_call_frame _ _ _ _ _ _ h)⟩
          have hst : is_static_call p g node e :=
            ⟨callee, sb, hnode, Or.inr ⟨hsb, pred, mem, hcallee, hpred⟩⟩
          refine added_only_mono (analyzer_handle_static_call_added _ _ _ _ _ _ h) ?_
          rintro o (ho | ⟨h1, h2⟩)
          · exact Or.inr (Or.inl (ho ▸ hst))
          · exact Or.inr (Or.inr (Or.inl ⟨e, hst, h1, h2⟩))
        · rename_i hsb
          have hsb1 : sb = false := by simpa using hsb
          subst hsb1
          have hdyn : is_dynamic_call p g node e := ⟨callee, pred, mem, hnode, hcallee, hpred⟩
          obtain ⟨k1, k2, k3⟩ := analyzer_handle_dynamic_call_added depth p e env env1 h
          refine ⟨fun hs => ?_, fun K hK => Or.inl (k2 ▸ hK), fun c hc => ?_⟩
          · refine added_only_mono (k1 hs) ?_
            rintro o ⟨h1, K, h2, h3, h4⟩
            exact Or.inr (Or.inr (Or.inr (Or.inl ⟨e, K, hdyn, h1, h2, h3, h4⟩)))
          · rcases k3 c hc with h5 | h5
            · exact Or.inl h5
            · exact Or.inr (h5 ▸ hdyn)
      · rw [pure_ok] at h
        exact same h
    · rw [pure_ok] at h
      exact same h
  · rename_i k hnode
    obtain ⟨k1, k2⟩ := add_new_live_class_added depth p k env env1 h
    refine ⟨fun _ => ?_, ?_, ?_⟩
    · refine added_only_mono k1 ?_
      rintro o ⟨h1, h2, h3⟩
      exact Or.inr (Or.inr (Or.inr (Or.inr ⟨k, hnode, h1, h2, h3⟩)))
    · intro K hK
      rcases k2 K hK with h1 | ⟨h1, h2, h3⟩
      · exact Or.inl h1
      · subst h1
        exact Or.inr ⟨hnode, h2, h3⟩
    · intro c hc
      exact Or.inl (add_new_live_class_keys depth p k env env1 h c hc)
  · rw [pure_ok] at h
    exact same h

/-! ### The result of a run is closed -/

theorem add_new_live_class_live (depth : Nat) (p : ir_prog) (klass : ClassId)
    (env env1 : analyzer_env) (h : add_new_live_class depth p klass env = .ok env1)
    (hx : oo_get_class_is_extern p klass = false)
    (ha : oo_get_class_is_abstract p klass = false) : klass ∈ env1.live_classes := by
  by_cases hl : klass ∈ env.live_classes
  · exact (add_new_live_class_ext depth p klass env env1 h).classes hl
  · have hcond : klass ∉ env.live_classes ∧ (! oo_get_class_is_extern p klass) = true
        ∧ (!oo_get_class_is_abstract p klass) = true := ⟨hl, by simp [hx], by simp [ha]⟩
    rw [(add_new_live_class_effect depth p klass env env1 h hcond).1]
    exact cpset_insert_self _ _

theorem walk_callgraph_and_analyze_vptr (depth : Nat) (p : ir_prog) (g : GraphId)
    (node : NodeId) (env env1 : analyzer_env)
    (h : walk_callgraph_and_analyze depth p g node env = .ok env1) (K : ClassId)
    (hn : get_irn p g node = .VptrIsSet K) (hx : oo_get_class_is_extern p K = false)
    (ha : oo_get_class_is_abstract p K = false) : K ∈ env1.live_classes := by
  unfold walk_callgraph_and_analyze at h
  rw [hn] at h
  exact add_new_live_class_live depth p K env env1 h hx ha

theorem classes_checked_of_ext (p : ir_prog) (env env1 : analyzer_env)
    (hm : env.live_methods ⊆ env1.live_methods)
    (hc : ∀ K ∈ env1.live_classes, K ∈ env.live_classes
      ∨ ( oo_get_class_is_extern p K = false → ∀ o, extern_override p K o → o ∈ env1.live_methods))
    (hs : classes_checked p env) : classes_checked p env1 := by
  intro K hK hx o ho
  rcases hc K hK with h1 | h1
  · exact hm (hs K h1 hx o ho)
  · exact h1 hx o ho

theorem add_new_live_class_checked (depth : Nat) (p : ir_prog) (klass : ClassId)
    (env env1 : analyzer_env) (h : add_new_live_class depth p klass env = .ok env1)
    (hs : classes_checked p env) : classes_checked p env1 := by
  have e := add_new_live_class_ext depth p klass env env1 h
  refine classes_checked_of_ext p env env1 e.methods ?_ hs
  intro K hK
  rcases (add_new_live_class_added depth p klass env env1 h).2 K hK with h1 | ⟨h1, hx, _⟩
  · exact Or.inl h1
  · subst h1
    by_cases hl : K ∈ env.live_classes
    · exact Or.inl hl
    · right
      have hcond : K ∉ env.live_classes ∧ (! oo_get_class_is_extern p K) = true
          ∧ (!oo_get_class_is_abstract p K) = true := by
        by_contra hcon
        have h2 := h
        rw [add_new_live_class_eq, if_neg hcon, pure_ok] at h2
        subst h2
        exact hl hK
      have h2 := h
      rw [add_new_live_class_eq, if_pos hcond, bind_ok] at h2
      obtain ⟨env2, _, h3⟩ := h2
      intro _ o ho
      exact (cfes_handed depth p K env2 env1 hx h3 o ho).1

theorem walk_callgraph_and_analyze_checked (depth : Nat) (p : ir_prog) (g : GraphId)
    (node : NodeId) (env env1 : analyzer_env)
    (h : walk_callgraph_and_analyze depth p g node env = .ok env1)
    (hs : classes_checked p env) : classes_checked p env1 := by
  have e := walk_callgraph_and_analyze_ext depth p g node env env1 h
  by_cases hv : ∃ K, get_irn p g node = .VptrIsSet K
  · obtain ⟨K, hK⟩ := hv
    have h2 := h
    unfold walk_callgraph_and_analyze at h2
    rw [hK] at h2
    exact add_new_live_class_checked depth p K env env1 h2 hs
  · refine classes_checked_of_ext p env env1 e.methods ?_ hs
    intro K hK
    rcases (walk_callgraph_and_analyze_added depth p g node env env1 h).2.1 K hK with h1 | h1
    · exact Or.inl h1
    · exact absurd ⟨K, h1.1⟩ hv

theorem rta_run_start_checked (depth : Nat) (p : ir_prog) (entry_points : List EntId)
    (initial_live_classes : Option (List ClassId)) (env1 env2 : analyzer_env)
    (h1 : rta_run_entry_points p entry_points analyzer_env_init = .ok env1)
    (h2 : rta_run_initial_live_classes depth p initial_live_classes env1 = .ok env2) :
    classes_checked p env2 ∧ ∀ K ∈ initial_live_classes.getD [], K ∈ env2.live_classes := by
  have hc1 : env1.live_classes = [] := by
    unfold rta_run_entry_points at h1
    simp only [bind_ok, exists_assert_ok, pure_ok] at h1
    obtain ⟨env0, h0, _, rfl⟩ := h1
    exact foldlM_inv _ (fun t => t.live_classes = []) entry_points
      (fun s x s1 _ hs hf => by
        simp only [bind_ok, exists_assert_ok, pure_ok] at hf
        obtain ⟨_, _, rfl⟩ := hf
        exact hs) analyzer_env_init env0 rfl h0
  have hk1 : classes_checked p env1 := by
    intro K hK
    rw [hc1] at hK
    cases hK
  unfold rta_run_initial_live_classes at h2
  split at h2
  · rw [pure_ok] at h2
    subst h2
    exact ⟨hk1, fun K hK => by cases hK⟩
  · rename_i classes
    refine foldlM_forall _ (classes_checked p) (fun K t => K ∈ t.live_classes) classes ?_ ?_
      env1 env2 hk1 h2
    · intro s x s1 _ hI hf
      have e := cfes_ext _ _ _ _ _ hf
      have f1 : s1.live_classes = cpset_insert s.live_classes x := (cfes_frame _ _ _ _ _ hf).1
      refine ⟨classes_checked_of_ext p s s1 e.methods ?_ hI, ?_⟩
      · intro K hK
        rw [f1] at hK
        rcases (mem_cpset_insert _ _ _).1 hK with h3 | h3
        · exact Or.inl h3
        · subst h3
          right
          intro hx o ho
          exact (cfes_handed depth p K _ s1 hx hf o ho).1
      · show x ∈ s1.live_classes
        rw [f1]
        exact cpset_insert_self _ _
    · intro s x s1 y _ _ hf hy
      have f1 : s1.live_classes = cpset_insert s.live_classes x := (cfes_frame _ _ _ _ _ hf).1
      show y ∈ s1.live_classes
      rw [f1]
      exact cpset_subset_insert _ _ hy

theorem rta_run_iteration_vptr (depth : Nat) (p : ir_prog) (L : List ClassId)
    (entity : EntId) (env env1 : analyzer_env) (rest : List EntId)
    (h : rta_run_iteration depth p entity { env with workqueue := rest } = .ok env1)
    (hs : done_vptr p env ∧ classes_checked p env ∧ ∀ K ∈ L, K ∈ env.live_classes) :
    done_vptr p env1 ∧ classes_checked p env1 ∧ ∀ K ∈ L, K ∈ env1.live_classes := by
  unfold rta_run_iteration at h
  simp only [bind_ok, exists_assert_ok] at h
  obtain ⟨_, h⟩ := h
  split at h
  · rw [pure_ok] at h
    subst h
    exact hs
  · split at h
    · rename_i hnone
      obtain ⟨f1, _, _⟩ := analyzer_handle_no_graph_frame _ _ _ _ h
      have e := analyzer_handle_no_graph_ext _ _ _ _ h
      have f1a : env1.live_classes = env.live_classes := f1
      refine ⟨?_, ?_, fun K hK => f1a ▸ hs.2.2 K hK⟩
      · intro M hM g hg n hn K hK hx ha
        rw [e.done] at hM
        rcases (mem_cpset_insert _ _ _).1 hM with hM | hM
        · rw [f1a]
          exact hs.1 M hM g hg n hn K hK hx ha
        · subst hM
          rw [hnone] at hg
          cases hg
      · exact classes_checked_of_ext p env env1 e.methods
          (fun K hK => Or.inl (f1a ▸ hK)) hs.2.1
    · rename_i g0 hsome
      have e := analyzer_walk_graph_ext _ _ _ _ _ h
      unfold analyzer_walk_graph at h
      have k := foldlM_forall _ (fun t => classes_checked p t)
        (fun n t => ∀ K, get_irn p g0 n = .VptrIsSet K → oo_get_class_is_extern p K = false →
          oo_get_class_is_abstract p K = false → K ∈ t.live_classes)
        (get_irp_irg p g0).walk
        (fun s x s1 _ hI hf =>
          ⟨walk_callgraph_and_analyze_checked depth p g0 x s s1 hf hI,
            fun K hK hx ha => walk_callgraph_and_analyze_vptr depth p g0 x s s1 hf K hK hx ha⟩)
        (fun s x s1 y _ _ hf hy K hK hx ha =>
          (walk_callgraph_and_analyze_ext depth p g0 x s s1 hf).classes (hy K hK hx ha))
        { env with workqueue := rest, done_set := cpset_insert env.done_set entity } env1
        hs.2.1 h
      refine ⟨?_, k.1, fun K hK => e.classes (hs.2.2 K hK)⟩
      intro M hM g hg n hn K hK hx ha
      rw [e.done] at hM
      rcases (mem_cpset_insert _ _ _).1 hM with hM | hM
      · exact e.classes (hs.1 M hM g hg n hn K hK hx ha)
      · subst hM
        rw [hsome] at hg
        cases hg
        exact k.2 n hn K hK hx ha

theorem rta_run_start_done (depth : Nat) (p : ir_prog) (entry_points : List EntId)
    (initial_live_classes : Option (List ClassId)) (env1 env2 : analyzer_env)
    (h1 : rta_run_entry_points p entry_points analyzer_env_init = .ok env1)
    (h2 : rta_run_initial_live_classes depth p initial_live_classes env1 = .ok env2) :
    env2.done_set = [] := by
  unfold rta_run_entry_points at h1
  simp only [bind_ok, exists_assert_ok, pure_ok] at h1
  obtain ⟨env0, h0, _, rfl⟩ := h1
  have d0 := foldlM_inv _ (fun t => t.done_set = []) entry_points
    (fun s x s1 _ hs hf => by
      simp only [bind_ok, exists_assert_ok, pure_ok] at hf
      obtain ⟨_, _, rfl⟩ := hf
      exact hs) analyzer_env_init env0 rfl h0
  unfold rta_run_initial_live_classes at h2
  split at h2
  · rw [pure_ok] at h2
    exact h2 ▸ d0
  · exact foldlM_inv _ (fun t => t.done_set = []) _
      (fun s x s1 _ hs hf => ((cfes_ext _ _ _ _ _ hf).done).trans hs) env0 env2 d0 h2

theorem rta_point_unused_ok (depth : Nat) (p : ir_prog) (entry_points : List EntId)
    (initial_live_classes : Option (List ClassId)) (env : analyzer_env)
    (h : rta_point depth p entry_points initial_live_classes env) : unused_ok p env := by
  induction h with
  | start env1 env2 h1 h2 =>
    obtain ⟨_, e2⟩ := rta_run_start_empty depth p entry_points initial_live_classes _ _ h1 h2
    intro K methods hmem
    rw [e2] at hmem
    cases hmem
  | dequeue env entity rest _ _ ih => exact ih
  | mark_done env entity _ ih => exact ih
  | step env env1 _ hstep ih => exact analyzer_step_unused_ok depth p env env1 hstep ih

/-- The result of `rta_run` is closed under the rules of the analysis. -/
theorem rta_run_closed (fuel depth : Nat) (p : ir_prog) (entry_points : List EntId)
    (initial_live_classes : Option (List ClassId)) (F : analyzer_env)
    (h : rta_run fuel depth p entry_points initial_live_classes = .ok F) :
    run_closed depth p initial_live_classes F ∧ ∀ e ∈ entry_points, e ∈ F.live_methods := by
  obtain ⟨⟨_, c2, c3, c4⟩, _⟩ := rta_run_closure fuel depth p entry_points initial_live_classes F h
  obtain ⟨k1, k2⟩ := rta_run_complete fuel depth p entry_points initial_live_classes F h
  have hld := rta_run_live_done fuel depth p entry_points initial_live_classes F h
  have hok := rta_point_unused_ok depth p entry_points initial_live_classes F
    (rta_run_point fuel depth p entry_points initial_live_classes F h)
  have hv : done_vptr p F ∧ classes_checked p F
      ∧ ∀ K ∈ initial_live_classes.getD [], K ∈ F.live_classes := by
    unfold rta_run at h
    simp only [bind_ok] at h
    obtain ⟨env1, h1, env2, h2, h3⟩ := h
    have hd := rta_run_start_done depth p entry_points initial_live_classes _ _ h1 h2
    obtain ⟨s1, s2⟩ := rta_run_start_checked depth p entry_points initial_live_classes _ _ h1 h2
    have hinit : done_vptr p env2 ∧ classes_checked p env2
        ∧ ∀ K ∈ initial_live_classes.getD [], K ∈ env2.live_classes := by
      refine ⟨?_, s1, s2⟩
      intro M hM
      rw [hd] at hM
      cases hM
    exact (rta_run_loop_inv depth p
      (fun t => done_vptr p t ∧ classes_checked p t
        ∧ ∀ K ∈ initial_live_classes.getD [], K ∈ t.live_classes)
      (fun s entity rest s1 hI _ hf =>
        rta_run_iteration_vptr depth p _ entity s s1 rest hf hI)
      fuel env2 F h3 hinit).1
  refine ⟨⟨?_, ?_, ?_, hv.2.1, hv.2.2⟩, c4⟩
  · intro M hM g hg n hn
    have hMd := hld M hM
    exact ⟨(c3 M hMd).1 g hg n hn, fun c hc => k2 M hMd g hg n hn c hc,
      fun K hK hx ha => hv.1 M hMd g hg n hn K hK hx ha⟩
  · intro M hM hg t ht
    exact (c3 M (hld M hM)).2 hg t ht
  · intro c hc K m hres habs hK
    have ht : has_target F c m := by
      rcases k1 c hc K m hres habs with h1 | ⟨h1, methods, C, h2, _, _⟩
      · exact h1
      · rcases hK with hK | hK
        · exact absurd hK h1
        · have h3 := (hok K methods (cpmap_find_mem _ _ _ h2)).1.2
          rw [hK] at h3
          cases h3
    exact ⟨ht, c2 c m ht⟩

/-! ### Every run stays below a closed state -/

theorem env_below_added (F s s1 : analyzer_env) (X : EntId → Prop) (hb : env_below F s)
    (ha : added_only X s s1) (hX : ∀ o, X o → o ∈ F.live_methods)
    (hc : ∀ K ∈ s1.live_classes, K ∈ F.live_classes)
    (hk : ∀ c, has_key s1 c → has_key F c) : env_below F s1 :=
  ⟨fun x hx => (ha.1 x hx).elim (hb.methods x) (hX x),
    fun x hx => (ha.2 x hx).elim (hb.queue x) (hX x), hc, hk⟩

theorem walk_callgraph_and_analyze_below (depth : Nat) (p : ir_prog)
    (initial_live_classes : Option (List ClassId)) (F : analyzer_env)
    (hF : run_closed depth p initial_live_classes F) (M : EntId) (g : GraphId) (n : NodeId)
    (hM : M ∈ F.live_methods) (hg : get_entity_irg p M = some g)
    (hn : n ∈ (get_irp_irg p g).walk) (s s1 : analyzer_env)
    (h : walk_callgraph_and_analyze depth p g n s = .ok s1)
    (hsound : unused_sound depth p s) (hkeyed : unused_keyed p s) (hb : env_below F s) :
    env_below F s1 := by
  obtain ⟨⟨a1, a2⟩, a3, a4⟩ := hF.nodes M hM g hg n hn
  obtain ⟨k1, k2, k3⟩ := walk_callgraph_and_analyze_added depth p g n s s1 h
  refine env_below_added F s s1 _ hb (k1 hsound) ?_ ?_ ?_
  · rintro o (⟨h1, h2⟩ | h1 | ⟨e, h1, h2, h3⟩ | ⟨c, K, h1, _, h3, h4, h5⟩
      | ⟨K, h1, h2, h3, h4⟩)
    · exact a1 o h1 h2
    · exact (a2 o h1).1
    · exact (a2 e h1).2 h2 o h3
    · exact (hF.targets c (a3 c h1) K o h4 h5 (h3.imp (hb.classes K) id)).2
    · have hK : K ∈ F.live_classes := a4 K h1 h2 h3
      rcases h4 with ⟨c, methods, C, h5, h6, h7⟩ | h4
      · obtain ⟨h8, h9⟩ := hsound K o c ⟨methods, C, h5, h6, h7⟩
        have hkey : has_key F c := hb.keys c ((hkeyed K methods h5 o C h6).2 c h7)
        exact (hF.targets c hkey K o h9 h8 (Or.inl hK)).2
      · exact hF.overrides K hK h2 o h4
  · intro K hK
    rcases k2 K hK with h1 | ⟨h1, h2, h3⟩
    · exact hb.classes K h1
    · exact a4 K h1 h2 h3
  · intro c hc
    rcases k3 c hc with h1 | h1
    · exact hb.keys c h1
    · exact a3 c h1

theorem rta_run_iteration_below (depth : Nat) (p : ir_prog) (entry_points : List EntId)
    (initial_live_classes : Option (List ClassId)) (F : analyzer_env)
    (hF : run_closed depth p initial_live_classes F)
    (entity : EntId) (rest : List EntId) (env env1 : analyzer_env)
    (hq : env.workqueue = entity :: rest)
    (h : rta_run_iteration depth p entity { env with workqueue := rest } = .ok env1)
    (hs : rta_point depth p entry_points initial_live_classes env
      ∧ handler_point depth p entry_points initial_live_classes env ∧ env_below F env) :
    rta_point depth p entry_points initial_live_classes env1
      ∧ handler_point depth p entry_points initial_live_classes env1 ∧ env_below F env1 := by
  obtain ⟨hp, hh, hb⟩ := hs
  have hp0 := rta_point.dequeue env entity rest hp hq
  have hh0 := handler_point.dequeue env entity rest hh hq
  have hM : entity ∈ F.live_methods := hb.queue entity (by rw [hq]; exact List.mem_cons_self _ _)
  have hb0 : env_below F { env with workqueue := rest } :=
    ⟨hb.methods, fun x hx => hb.queue x (by rw [hq]; exact List.mem_cons_of_mem _ hx),
      hb.classes, hb.keys⟩
  refine ⟨rta_run_iteration_point depth p entry_points initial_live_classes entity _ env1 h hp0,
    rta_run_iteration_handler_point depth p entry_points initial_live_classes entity _ env1 h hh0,
    ?_⟩
  unfold rta_run_iteration at h
  simp only [bind_ok, exists_assert_ok] at h
  obtain ⟨_, h⟩ := h
  split at h
  · rw [pure_ok] at h
    exact h ▸ hb0
  · have hp1 := rta_point.mark_done _ entity hp0
    have hh1 := handler_point.mark_done _ entity hh0
    have hb1 : env_below F
        { env with workqueue := rest, done_set := cpset_insert env.done_set entity } :=
      ⟨hb0.methods, hb0.queue, hb0.classes, hb0.keys⟩
    split at h
    · rename_i hnone
      obtain ⟨f1, f2, _⟩ := analyzer_handle_no_graph_frame _ _ _ _ h
      refine env_below_added F _ env1 _ hb1 (analyzer_handle_no_graph_added _ _ _ _ h)
        (fun o ho => hF.redirect entity hM hnone o ho) ?_ ?_
      · intro K hK
        rw [f1] at hK
        exact hb.classes K hK
      · intro c hc
        unfold has_key at hc
        rw [f2] at hc
        exact hb.keys c hc
    · rename_i g0 hsome
      unfold analyzer_walk_graph at h
      have k := foldlM_inv _
        (fun t => rta_point depth p entry_points initial_live_classes t
          ∧ handler_point depth p entry_points initial_live_classes t ∧ env_below F t)
        (get_irp_irg p g0).walk
        (fun s x s1 hx hI hf =>
          ⟨rta_point.step s s1 hI.1 (analyzer_step.node g0 x s s1 hf),
            handler_point.node g0 x s s1 hI.2.1 hf,
            walk_callgraph_and_analyze_below depth p initial_live_classes F hF entity g0 x hM
              hsome hx s s1 hf
              (rta_point_sound depth p entry_points initial_live_classes s hI.1).2
              (handler_point_unused_keyed depth p entry_points initial_live_classes s hI.2.1)
              hI.2.2⟩)
        _ env1 ⟨hp1, hh1, hb1⟩ h
      exact k.2.2

theorem cfes_added (depth : Nat) (p : ir_prog) (klass : ClassId) (env env1 : analyzer_env)
    (h : check_for_external_superclasses depth p klass env = .ok env1) :
    added_only (fun o => oo_get_class_is_extern p klass = false ∧ extern_override p klass o)
      env env1 := by
  by_cases hx : oo_get_class_is_extern p klass = true
  · unfold check_for_external_superclasses at h
    rw [if_pos hx, pure_ok] at h
    exact h ▸ added_only_refl _ _
  · exact added_only_mono (cfes_origin depth p klass env env1 h)
      (fun o ho => ⟨by simpa using hx, ho⟩)

theorem rta_run_start_below (depth : Nat) (p : ir_prog) (entry_points : List EntId)
    (initial_live_classes : Option (List ClassId)) (F : analyzer_env)
    (hF : run_closed depth p initial_live_classes F)
    (he : ∀ e ∈ entry_points, e ∈ F.live_methods) (env1 env2 : analyzer_env)
    (h1 : rta_run_entry_points p entry_points analyzer_env_init = .ok env1)
    (h2 : rta_run_initial_live_classes depth p initial_live_classes env1 = .ok env2) :
    env_below F env2 := by
  obtain ⟨d1, _⟩ := rta_run_start_empty depth p entry_points initial_live_classes _ _ h1 h2
  have hkeys : ∀ c, has_key env2 c → has_key F c := by
    rintro c ⟨ts, hts⟩
    rw [d1] at hts
    simp [cpmap_find] at hts
  have hb1 : env_below F env1 ∧ env1.live_classes = [] := by
    unfold rta_run_entry_points at h1
    simp only [bind_ok, exists_assert_ok, pure_ok] at h1
    obtain ⟨env0, h0, _, rfl⟩ := h1
    have k := foldlM_inv _
      (fun t => ((∀ x ∈ t.live_methods, x ∈ F.live_methods)
        ∧ (∀ x ∈ t.workqueue, x ∈ F.live_methods)) ∧ t.live_classes = []
        ∧ t.dyncall_targets = [])
      entry_points
      (fun s x s1 hx hs hf => by
        simp only [bind_ok, exists_assert_ok, pure_ok] at hf
        obtain ⟨_, _, rfl⟩ := hf
        refine ⟨⟨?_, ?_⟩, hs.2.1, hs.2.2⟩
        · intro y hy
          rcases (mem_cpset_insert _ _ _).1 hy with h3 | h3
          · exact hs.1.1 y h3
          · exact h3 ▸ he x hx
        · intro y hy
          rcases List.mem_append.1 hy with h3 | h3
          · exact hs.1.2 y h3
          · rw [List.mem_singleton] at h3
            exact h3 ▸ he x hx)
      analyzer_env_init env0
      ⟨⟨fun x hx => (by cases hx), fun x hx => (by cases hx)⟩, rfl, rfl⟩ h0
    refine ⟨⟨k.1.1, k.1.2, ?_, ?_⟩, k.2.1⟩
    · intro K hK
      rw [k.2.1] at hK
      cases hK
    · rintro c ⟨ts, hts⟩
      rw [k.2.2] at hts
      simp [cpmap_find] at hts
  unfold rta_run_initial_live_classes at h2
  split at h2
  · rw [pure_ok] at h2
    exact h2 ▸ hb1.1
  · rename_i classes
    have k := foldlM_forall _
      (fun t => (∀ x ∈ t.live_methods, x ∈ F.live_methods)
        ∧ (∀ x ∈ t.workqueue, x ∈ F.live_methods)
        ∧ ∀ K ∈ t.live_classes, K ∈ F.live_classes)
      (fun (_ : ClassId) (_ : analyzer_env) => True) classes
      (fun s x s1 hx hs hf => by
        have ka := cfes_added depth p x _ s1 hf
        have f1 : s1.live_classes = cpset_insert s.live_classes x := (cfes_frame _ _ _ _ _ hf).1
        have hxF : x ∈ F.live_classes := hF.initial x hx
        refine ⟨⟨?_, ?_, ?_⟩, trivial⟩
        · intro y hy
          rcases ka.1 y hy with h3 | ⟨h3, h4⟩
          · exact hs.1 y h3
          · exact hF.overrides x hxF h3 y h4
        · intro y hy
          rcases ka.2 y hy with h3 | ⟨h3, h4⟩
          · exact hs.2.1 y h3
          · exact hF.overrides x hxF h3 y h4
        · intro K hK
          rw [f1] at hK
          rcases (mem_cpset_insert _ _ _).1 hK with h3 | h3
          · exact hs.2.2 K h3
          · exact h3 ▸ hxF)
      (fun _ _ _ _ _ _ _ _ => trivial)
      env1 env2 ⟨hb1.1.methods, hb1.1.queue, hb1.1.classes⟩ h2
    exact ⟨k.1.1, k.1.2.1, k.1.2.2, hkeys⟩

/-- A run from entry points that are live in a closed state stays below it. -/
theorem rta_run_below (fuel depth : Nat) (p : ir_prog) (entry_points : List EntId)
    (initial_live_classes : Option (List ClassId)) (F E : analyzer_env)
    (hF : run_closed depth p initial_live_classes F)
    (he : ∀ e ∈ entry_points, e ∈ F.live_methods)
    (h : rta_run fuel depth p entry_points initial_live_classes = .ok E) :
    env_below F E ∧ ∀ c m, has_target E c m → has_target F c m := by
  have hsound := (rta_point_sound depth p entry_points initial_live_classes E
    (rta_run_point fuel depth p entry_points initial_live_classes E h)).1
  have hb : env_below F E := by
    unfold rta_run at h
    simp only [bind_ok] at h
    obtain ⟨env1, h1, env2, h2, h3⟩ := h
    exact (rta_run_loop_inv depth p
      (fun t => rta_point depth p entry_points initial_live_classes t
        ∧ handler_point depth p entry_points initial_live_classes t ∧ env_below F t)
      (fun s entity rest s1 hI hq hf =>
        rta_run_iteration_below depth p entry_points initial_live_classes F hF entity rest s s1
          hq hf hI)
      fuel env2 E h3
      ⟨rta_point.start env1 env2 h1 h2, handler_point.start env1 env2 h1 h2,
        rta_run_start_below depth p entry_points initial_live_classes F hF he env1 env2 h1
          h2⟩).1.2.2
  refine ⟨hb, ?_⟩
  intro c m ht
  obtain ⟨habs, K, hK, hres⟩ := hsound c m ht
  have hkey : has_key F c := hb.keys c (by
    obtain ⟨ts, h1, _⟩ := ht
    exact ⟨ts, h1⟩)
  exact (hF.targets c hkey K m hres habs (hK.imp (hb.classes K) id)).1

/-! ### Whether a step returns does not depend on the state -/

theorem foldlM_total_of {σ α : Type} (f : σ → α → Except Err σ) :
    ∀ (l : List α) (s s1 : σ), l.foldlM f s = .ok s1 →
      (∀ x ∈ l, ∀ t t1, f t x = .ok t1 → ∀ u, ∃ u1, f u x = .ok u1) →
      ∀ u, ∃ u1, l.foldlM f u = .ok u1
  | [], _, _, _, _, u => ⟨u, rfl⟩
  | x :: l, s, s1, h, hind, u => by
    simp only [List.foldlM, bind_ok] at h
    obtain ⟨s2, h1, h2⟩ := h
    obtain ⟨u2, hu2⟩ := hind x (List.mem_cons_self _ _) s s2 h1 u
    obtain ⟨u1, hu1⟩ := foldlM_total_of f l s2 s1 h2
      (fun y hy => hind y (List.mem_cons_of_mem _ hy)) u2
    refine ⟨u1, ?_⟩
    rw [List.foldlM_cons, hu2, bind_ok_eq]
    exact hu1

theorem take_entity_total (p : ir_prog) (entity : EntId) (rs : cpset) (env : analyzer_env)
    (hm : is_method_entity p entity = true) : ∃ st1, take_entity p entity rs env = .ok st1 := by
  unfold take_entity
  rw [hm, assert_true, bind_ok_eq]
  split
  · obtain ⟨env1, h1⟩ := live_enqueue_total p entity env hm
    rw [h1, bind_ok_eq]
    exact ⟨_, rfl⟩
  · exact ⟨_, rfl⟩

theorem collect_methods_recursive_total_of (budget : Nat) (p : ir_prog) (c : EntId) :
    ∀ (depth : Nat) (klass : ClassId) (entity : EntId) (st st1 : cpset × analyzer_env),
      collect_methods_recursive budget depth p c klass entity st = .ok st1 →
      ∀ u, ∃ u1, collect_methods_recursive budget depth p c klass entity u = .ok u1
  | 0, _, _, _, _, h, _ => by simp [collect_methods_recursive] at h
  | depth + 1, klass, entity, st, st1, h, u => by
    simp only [collect_methods_recursive, bind_ok, exists_assert_ok] at h
    obtain ⟨hc, he, cur, hcur, st2, h2, h3⟩ := h
    have hmcur : oo_get_method_is_abstract p cur = false → is_method_entity p cur = true := by
      intro habs
      simp only [habs, Bool.not_false, if_true] at h2
      split at h2
      · unfold take_entity at h2
        simp only [assert_bind_ok] at h2
        exact h2.1
      · simp only [bind_ok, pure_ok] at h2
        obtain ⟨env1, h4, _⟩ := h2
        rw [memorize_unused_target_ok] at h4
        exact h4.1
    have hstep : ∃ u2, (if !oo_get_method_is_abstract p cur then
          if klass ∈ u.2.live_classes ∨ oo_get_class_is_extern p klass ∨ JUST_CHA then
            take_entity p cur u.1 u.2
          else do
            let env1 ← memorize_unused_target p klass cur c u.2
            pure (u.1, env1)
        else pure u) = .ok u2 := by
      cases habs : oo_get_method_is_abstract p cur
      · simp only [Bool.not_false, if_true]
        split
        · exact take_entity_total p cur u.1 u.2 (hmcur habs)
        · have hmem : ∃ env1, memorize_unused_target p klass cur c u.2 = .ok env1 :=
            ⟨_, (memorize_unused_target_ok p klass cur c u.2 _).2 ⟨hmcur habs, hc, rfl⟩⟩
          obtain ⟨env1, h5⟩ := hmem
          rw [h5, bind_ok_eq]
          exact ⟨_, rfl⟩
      · simp only [Bool.not_true, Bool.false_eq_true, if_false]
        exact ⟨_, rfl⟩
    obtain ⟨u2, hu2⟩ := hstep
    obtain ⟨u1, hu1⟩ := foldlM_total_of _ (get_class_subtypes p klass) st2 st1 h3
      (fun x _ t t1 ht v =>
        collect_methods_recursive_total_of budget p c depth x cur t t1 ht v) u2
    refine ⟨u1, ?_⟩
    simp only [collect_methods_recursive]
    rw [hc, he, assert_true, bind_ok_eq, bind_ok_eq, hcur, bind_ok_eq, hu2, bind_ok_eq]
    exact hu1

theorem collect_methods_total_of (depth : Nat) (p : ir_prog) (c : EntId) (rs : cpset)
    (s : analyzer_env) (r : cpset × analyzer_env)
    (h : collect_methods depth p c rs s = .ok r) (rs1 : cpset) (u : analyzer_env) :
    ∃ r1, collect_methods depth p c rs1 u = .ok r1 := by
  unfold collect_methods at h ⊢
  exact collect_methods_recursive_total_of depth p c depth _ _ _ r h (rs1, u)

theorem cfesr_total_of (p : ir_prog) (klass : ClassId) :
    ∀ (depth : Nat) (superclass : ClassId) (env env1 : analyzer_env),
      check_for_external_superclasses_recursive depth p klass superclass env = .ok env1 →
      ∀ u, ∃ u1, check_for_external_superclasses_recursive depth p klass superclass u = .ok u1
  | 0, _, _, _, h, _ => by simp [check_for_external_superclasses_recursive] at h
  | depth + 1, superclass, env, env1, h, u => by
    simp only [check_for_external_superclasses_recursive, bind_ok] at h
    obtain ⟨env2, h1, h2⟩ := h
    have hstep : ∃ u2,
        (if oo_get_class_is_extern p superclass then
          (get_class_members p superclass).foldlM
            (fun (env : analyzer_env) (member : EntId) =>
              if !is_method_entity p member then pure env
              else if oo_get_method_is_final p member then pure env
              else
                match get_class_member_by_name p klass (get_entity_ident p member) with
                | some overwriting =>
                  add_to_workqueue p overwriting
                    { env with live_methods := cpset_insert env.live_methods overwriting }
                | none => pure env)
            u
        else pure u) = .ok u2 := by
      split at h1
      · rename_i hx
        rw [if_pos hx]
        refine foldlM_total_of _ _ env env2 h1 ?_ u
        intro m _ t t1 ht v
        dsimp only at ht ⊢
        by_cases hnm : (!is_method_entity p m) = true
        · rw [if_pos hnm]
          exact ⟨_, rfl⟩
        · rw [if_neg hnm] at ht ⊢
          by_cases hnf : oo_get_method_is_final p m = true
          · rw [if_pos hnf]
            exact ⟨_, rfl⟩
          · rw [if_neg hnf] at ht ⊢
            cases ho : get_class_member_by_name p klass (get_entity_ident p m) with
            | none => exact ⟨_, rfl⟩
            | some o =>
              simp only [ho] at ht ⊢
              exact live_enqueue_total p o v (live_enqueue_mem p o t t1 ht).2
      · rename_i hx
        rw [if_neg hx]
        exact ⟨_, rfl⟩
    obtain ⟨u2, hu2⟩ := hstep
    obtain ⟨u1, hu1⟩ := foldlM_total_of _ (get_class_supertypes p superclass) env2 env1 h2
      (fun x _ t t1 ht v => cfesr_total_of p klass depth x t t1 ht v) u2
    refine ⟨u1, ?_⟩
    simp only [check_for_external_superclasses_recursive, bind_ok]
    exact ⟨u2, hu2, hu1⟩

theorem cfes_total_of (depth : Nat) (p : ir_prog) (klass : ClassId) (env env1 : analyzer_env)
    (h : check_for_external_superclasses depth p klass env = .ok env1) (u : analyzer_env) :
    ∃ u1, check_for_external_superclasses depth p klass u = .ok u1 := by
  unfold check_for_external_superclasses at h ⊢
  split
  · exact ⟨_, rfl⟩
  · rename_i hx
    rw [if_neg hx] at h
    exact foldlM_total_of _ _ env env1 h
      (fun x _ t t1 ht v => cfesr_total_of p klass depth x t t1 ht v) u

/-! ### What a run that has returned tells about a later run -/

theorem walk_callgraph_and_analyze_dynamic (depth : Nat) (p : ir_prog) (g : GraphId)
    (n : NodeId) (c : EntId) (env : analyzer_env) (h : is_dynamic_call p g n c) :
    walk_callgraph_and_analyze depth p g n env = analyzer_handle_dynamic_call depth p c env := by
  obtain ⟨callee, pred, mem, h1, h2, h3⟩ := h
  unfold walk_callgraph_and_analyze
  simp only [h1, h2, h3]
  rfl

theorem walk_callgraph_and_analyze_vptr_eq (depth : Nat) (p : ir_prog) (g : GraphId)
    (n : NodeId) (K : ClassId) (env : analyzer_env) (h : get_irn p g n = .VptrIsSet K) :
    walk_callgraph_and_analyze depth p g n env = add_new_live_class depth p K env := by
  unfold walk_callgraph_and_analyze
  rw [h]

theorem analyzer_handle_dynamic_call_collected (depth : Nat) (p : ir_prog) (c : EntId)
    (env env1 : analyzer_env) (h : analyzer_handle_dynamic_call depth p c env = .ok env1) :
    is_method_entity p c = true
      ∧ (has_key env c ∨ ∃ r, collect_methods depth p c [] env = .ok r) := by
  unfold analyzer_handle_dynamic_call at h
  simp only [bind_ok, exists_assert_ok] at h
  obtain ⟨hm, h⟩ := h
  refine ⟨hm, ?_⟩
  split at h
  · rename_i ts hts
    exact Or.inl ⟨ts, hts⟩
  · simp only [bind_ok, pure_ok] at h
    obtain ⟨res, h1, _⟩ := h
    exact Or.inr ⟨res, h1⟩

theorem walk_callgraph_and_analyze_safe (depth : Nat) (p : ir_prog) (g : GraphId)
    (n : NodeId) (env env1 : analyzer_env)
    (h : walk_callgraph_and_analyze depth p g n env = .ok env1)
    (hs : keys_collected depth p env ∧ classes_examined depth p env) :
    keys_collected depth p env1 ∧ classes_examined depth p env1 := by
  obtain ⟨_, k2, k3⟩ := walk_callgraph_and_analyze_added depth p g n env env1 h
  refine ⟨?_, ?_⟩
  · intro c hc
    rcases k3 c hc with h1 | h1
    · exact hs.1 c h1
    · have h2 := h
      rw [walk_callgraph_and_analyze_dynamic depth p g n c env h1] at h2
      obtain ⟨hm, h3⟩ := analyzer_handle_dynamic_call_collected depth p c env env1 h2
      rcases h3 with h3 | ⟨r, h3⟩
      · exact hs.1 c h3
      · exact ⟨hm, env, r, h3⟩
  · intro K hK
    rcases k2 K hK with h1 | ⟨h1, _, _⟩
    · exact hs.2 K h1
    · by_cases hl : K ∈ env.live_classes
      · exact hs.2 K hl
      · have h2 := h
        rw [walk_callgraph_and_analyze_vptr_eq depth p g n K env h1,
          add_new_live_class_eq] at h2
        split at h2
        · rw [bind_ok] at h2
          obtain ⟨env2, _, h3⟩ := h2
          exact ⟨env2, env1, h3⟩
        · rw [pure_ok] at h2
          subst h2
          exact absurd hK hl

theorem rta_run_start_safe (depth : Nat) (p : ir_prog) (entry_points : List EntId)
    (initial_live_classes : Option (List ClassId)) (env1 env2 : analyzer_env)
    (h1 : rta_run_entry_points p entry_points analyzer_env_init = .ok env1)
    (h2 : rta_run_initial_live_classes depth p initial_live_classes env1 = .ok env2) :
    keys_collected depth p env2 ∧ classes_examined depth p env2 := by
  obtain ⟨d1, _⟩ := rta_run_start_empty depth p entry_points initial_live_classes _ _ h1 h2
  refine ⟨?_, ?_⟩
  · rintro c ⟨ts, hts⟩
    rw [d1] at hts
    simp [cpmap_find] at hts
  · have hc1 : env1.live_classes = [] := by
      unfold rta_run_entry_points at h1
      simp only [bind_ok, exists_assert_ok, pure_ok] at h1
      obtain ⟨env0, h0, _, rfl⟩ := h1
      exact foldlM_inv _ (fun t => t.live_classes = []) entry_points
        (fun s x s1 _ hs hf => by
          simp only [bind_ok, exists_assert_ok, pure_ok] at hf
          obtain ⟨_, _, rfl⟩ := hf
          exact hs) analyzer_env_init env0 rfl h0
    have hk1 : classes_examined depth p env1 := by
      intro K hK
      rw [hc1] at hK
      cases hK
    unfold rta_run_initial_live_classes at h2
    split at h2
    · rw [pure_ok] at h2
      exact h2 ▸ hk1
    · rename_i classes
      refine foldlM_inv _ (classes_examined depth p) classes ?_ env1 env2 hk1 h2
      intro s x s1 _ hI hf K hK
      have f1 : s1.live_classes = cpset_insert s.live_classes x := (cfes_frame _ _ _ _ _ hf).1
      rw [f1] at hK
      rcases (mem_cpset_insert _ _ _).1 hK with h3 | h3
      · exact hI K h3
      · subst h3
        exact ⟨_, s1, hf⟩

theorem handler_point_safe (depth : Nat) (p : ir_prog) (entry_points : List EntId)
    (initial_live_classes : Option (List ClassId)) (env : analyzer_env)
    (h : handler_point depth p entry_points initial_live_classes env) :
    keys_collected depth p env ∧ classes_examined depth p env := by
  induction h with
  | start env1 env2 h1 h2 =>
    exact rta_run_start_safe depth p entry_points initial_live_classes env1 env2 h1 h2
  | dequeue env entity rest _ _ ih => exact ih
  | mark_done env entity _ ih => exact ih
  | node g n env env1 _ hf ih => exact walk_callgraph_and_analyze_safe depth p g n env env1 hf ih
  | no_graph entity env env1 _ hf ih =>
    obtain ⟨f1, f2, _⟩ := analyzer_handle_no_graph_frame _ _ _ _ hf
    refine ⟨?_, ?_⟩
    · intro c hc
      unfold has_key at hc
      rw [f2] at hc
      exact ih.1 c hc
    · intro K hK
      rw [f1] at hK
      exact ih.2 K hK

/-- The result of `rta_run` is safe for a later run. -/
theorem rta_run_safe (fuel depth : Nat) (p : ir_prog) (entry_points : List EntId)
    (initial_live_classes : Option (List ClassId)) (F : analyzer_env)
    (h : rta_run fuel depth p entry_points initial_live_classes = .ok F) :
    run_safe depth p F := by
  obtain ⟨k1, k2⟩ := handler_point_safe depth p entry_points initial_live_classes F
    (rta_run_handler_point fuel depth p entry_points initial_live_classes F h)
  refine ⟨?_, k1, k2⟩
  have hld := rta_run_live_done fuel depth p entry_points initial_live_classes F h
  unfold rta_run at h
  simp only [bind_ok] at h
  obtain ⟨env1, h1, env2, h2, h3⟩ := h
  have hd := rta_run_start_done depth p entry_points initial_live_classes _ _ h1 h2
  obtain ⟨log, hlog⟩ := rta_run_loop_log_ok depth p fuel env2 F h3
  obtain ⟨hdone, _, hm⟩ := rta_run_loop_log_spec depth p fuel env2 F log hlog
  intro m hmem
  have h4 := hld m hmem
  rw [hdone, hd, List.nil_append] at h4
  exact (hm m h4).2

theorem rta_run_entry_points_pre (p : ir_prog) (entry_points : List EntId)
    (env env1 : analyzer_env) (h : rta_run_entry_points p entry_points env = .ok env1) :
    (∀ e ∈ entry_points, is_method_entity p e = true ∧ (get_entity_irg p e).isSome = true)
      ∧ 0 < entry_points.length := by
  unfold rta_run_entry_points at h
  simp only [bind_ok, exists_assert_ok, pure_ok] at h
  obtain ⟨env0, h0, hlen, _⟩ := h
  refine ⟨?_, by simpa using hlen⟩
  exact (foldlM_forall _ (fun _ => True)
    (fun e (_ : analyzer_env) =>
      is_method_entity p e = true ∧ (get_entity_irg p e).isSome = true)
    entry_points
    (fun s x s1 _ _ hf => by
      simp only [bind_ok, exists_assert_ok, pure_ok] at hf
      exact ⟨trivial, hf.1, hf.2.1⟩)
    (fun _ _ _ _ _ _ _ hy => hy) env env0 trivial h0).2

/-! ### A run from entry points of a closed state returns -/

theorem analyzer_handle_dynamic_call_total (depth : Nat) (p : ir_prog) (c : EntId)
    (env : analyzer_env) (hm : is_method_entity p c = true)
    (hc : ∃ s r, collect_methods depth p c [] s = .ok r) :
    ∃ env1, analyzer_handle_dynamic_call depth p c env = .ok env1 := by
  unfold analyzer_handle_dynamic_call
  rw [hm, assert_true, bind_ok_eq]
  split
  · exact ⟨_, rfl⟩
  · obtain ⟨s, r, hr⟩ := hc
    obtain ⟨r1, hr1⟩ := collect_methods_total_of depth p c [] s r hr [] env
    rw [hr1, bind_ok_eq]
    exact ⟨_, rfl⟩

theorem add_new_live_class_total (depth : Nat) (p : ir_prog) (klass : ClassId)
    (env : analyzer_env) (hs : unused_keyed p env)
    (hc : oo_get_class_is_extern p klass = false → oo_get_class_is_abstract p klass = false →
      ∃ s s1, check_for_external_superclasses depth p klass s = .ok s1) :
    ∃ env1, add_new_live_class depth p klass env = .ok env1 := by
  rw [add_new_live_class_eq]
  split
  · rename_i hcond
    have hs1 : unused_keyed p { env with live_classes := cpset_insert env.live_classes klass } :=
      hs
    obtain ⟨env2, h2⟩ := add_new_live_class_drain_total p klass _ hs1
    obtain ⟨s, s1, h3⟩ := hc (by simpa using hcond.2.1) (by simpa using hcond.2.2)
    obtain ⟨env1, h1⟩ := cfes_total_of depth p klass s s1 h3 env2
    rw [h2, bind_ok_eq]
    exact ⟨env1, h1⟩
  · exact ⟨_, rfl⟩

theorem walk_callgraph_and_analyze_total (depth : Nat) (p : ir_prog)
    (initial_live_classes : Option (List ClassId)) (F : analyzer_env)
    (hF : run_closed depth p initial_live_classes F) (hS : run_safe depth p F)
    (M : EntId) (g : GraphId) (n : NodeId)
    (hM : M ∈ F.live_methods) (hg : get_entity_irg p M = some g)
    (hn : n ∈ (get_irp_irg p g).walk) (s : analyzer_env) (hkeyed : unused_keyed p s) :
    ∃ s1, walk_callgraph_and_analyze depth p g n s = .ok s1 := by
  obtain ⟨⟨a1, a2⟩, a3, a4⟩ := hF.nodes M hM g hg n hn
  have hstatic : ∀ e, is_static_call p g n e →
      ∃ s1, walk_callgraph_and_analyze depth p g n s = .ok s1 := by
    intro e he
    rw [walk_callgraph_and_analyze_static depth p g n e s he]
    exact analyzer_handle_static_call_total p g n e s (hS.methods e (a2 e he).1)
      (fun hnone h hdet => hS.methods h ((a2 e he).2 hnone h hdet))
  cases hnode : get_irn p g n with
  | Address e =>
    unfold walk_callgraph_and_analyze
    simp only [hnode]
    split
    · rename_i hm
      exact live_enqueue_total p e s hm
    · exact ⟨_, rfl⟩
  | Call callee sb =>
    cases hcallee : get_irn p g callee with
    | Address e => exact hstatic e ⟨callee, sb, hnode, Or.inl hcallee⟩
    | Proj pred =>
      cases hpred : get_irn p g pred with
      | MethodSel mem e =>
        cases sb with
        | true =>
          exact hstatic e ⟨callee, true, hnode, Or.inr ⟨rfl, pred, mem, hcallee, hpred⟩⟩
        | false =>
          have hdyn : is_dynamic_call p g n e := ⟨callee, pred, mem, hnode, hcallee, hpred⟩
          rw [walk_callgraph_and_analyze_dynamic depth p g n e s hdyn]
          obtain ⟨hm, hc⟩ := hS.keys e (a3 e hdyn)
          exact analyzer_handle_dynamic_call_total depth p e s hm hc
      | _ =>
        unfold walk_callgraph_and_analyze
        simp only [hnode, hcallee, hpred]
        exact ⟨_, rfl⟩
    | _ =>
      unfold walk_callgraph_and_analyze
      simp only [hnode, hcallee]
      exact ⟨_, rfl⟩
  | VptrIsSet K =>
    rw [walk_callgraph_and_analyze_vptr_eq depth p g n K s hnode]
    exact add_new_live_class_total depth p K s hkeyed
      (fun hx ha => hS.classes K (a4 K hnode hx ha))
  | _ =>
    unfold walk_callgraph_and_analyze
    simp only [hnode]
    exact ⟨_, rfl⟩

theorem analyzer_handle_no_graph_total (p : ir_prog) (entity : EntId) (env : analyzer_env)
    (hm : is_method_entity p entity = true) (hg : get_entity_irg p entity = none)
    (ht : ∀ t, get_ldname_redirect p entity = .ok (some t) → is_method_entity p t = true) :
    ∃ env1, analyzer_handle_no_graph p entity env = .ok env1 := by
  rw [analyzer_handle_no_graph_eq p entity env hm hg]
  rw [get_ldname_redirect_eq p entity hm hg] at ht
  split
  · rename_i target htarget
    exact live_enqueue_total p target env (ht target (by rw [htarget]))
  · exact ⟨_, rfl⟩

theorem rta_run_iteration_total (depth : Nat) (p : ir_prog) (entry_points : List EntId)
    (initial_live_classes : Option (List ClassId)) (F : analyzer_env)
    (hF : run_closed depth p initial_live_classes F) (hS : run_safe depth p F)
    (entity : EntId) (env : analyzer_env) (hM : entity ∈ F.live_methods)
    (hh : handler_point depth p entry_points initial_live_classes env) :
    ∃ env1, rta_run_iteration depth p entity env = .ok env1 := by
  have hm := hS.methods entity hM
  unfold rta_run_iteration
  rw [hm, assert_true, bind_ok_eq]
  split
  · exact ⟨_, rfl⟩
  · have hh1 := handler_point.mark_done env entity hh
    split
    · rename_i hnone
      exact analyzer_handle_no_graph_total p entity _ hm hnone
        (fun t ht => hS.methods t (hF.redirect entity hM hnone t ht))
    · rename_i g0 hsome
      unfold analyzer_walk_graph
      obtain ⟨s1, h1, _⟩ := foldlM_total _
        (fun t => handler_point depth p entry_points initial_live_classes t)
        (get_irp_irg p g0).walk
        (fun s x hx hI => by
          obtain ⟨s1, h1⟩ := walk_callgraph_and_analyze_total depth p initial_live_classes F hF hS
            entity g0 x hM hsome hx s
            (handler_point_unused_keyed depth p entry_points initial_live_classes s hI)
          exact ⟨s1, h1, handler_point.node g0 x s s1 hI h1⟩)
        _ hh1
      exact ⟨s1, h1⟩

theorem rta_run_loop_total (depth : Nat) (p : ir_prog) (entry_points : List EntId)
    (initial_live_classes : Option (List ClassId)) (F : analyzer_env)
    (hF : run_closed depth p initial_live_classes F) (hS : run_safe depth p F) :
    ∀ (u q : Nat) (env : analyzer_env), undone_count p env ≤ u → env.workqueue.length ≤ q →
      rta_point depth p entry_points initial_live_classes env
        ∧ handler_point depth p entry_points initial_live_classes env ∧ env_below F env →
      ∃ fuel E, rta_run_loop depth p fuel env = .ok E := by
  have key : ∀ (env : analyzer_env) (entity : EntId) (rest : List EntId),
      env.workqueue = entity :: rest →
      rta_point depth p entry_points initial_live_classes env
        ∧ handler_point depth p entry_points initial_live_classes env ∧ env_below F env →
      ∃ env1, rta_run_iteration depth p entity { env with workqueue := rest } = .ok env1
        ∧ (rta_point depth p entry_points initial_live_classes env1
          ∧ handler_point depth p entry_points initial_live_classes env1 ∧ env_below F env1)
        ∧ ((env1.workqueue = rest ∧ undone_count p env1 = undone_count p env)
          ∨ undone_count p env1 < undone_count p env) := by
    intro env entity rest hq hJ
    have hM : entity ∈ F.live_methods :=
      hJ.2.2.queue entity (by rw [hq]; exact List.mem_cons_self _ _)
    obtain ⟨env1, h1⟩ := rta_run_iteration_total depth p entry_points initial_live_classes F hF hS
      entity { env with workqueue := rest } hM (handler_point.dequeue env entity rest hJ.2.1 hq)
    refine ⟨env1, h1,
      rta_run_iteration_below depth p entry_points initial_live_classes F hF entity rest env env1
        hq h1 hJ, ?_⟩
    obtain ⟨hm, hs⟩ := rta_run_iteration_spec depth p entity _ env1 h1
    rcases hs with ⟨_, he⟩ | ⟨hnd, hext⟩
    · subst he
      exact Or.inl ⟨rfl, rfl⟩
    · exact Or.inr (undone_count_lt p { env with workqueue := rest } env1 entity hm hnd hext.done)
  have step : ∀ (env : analyzer_env) (entity : EntId) (rest : List EntId) (env1 : analyzer_env),
      env.workqueue = entity :: rest →
      rta_run_iteration depth p entity { env with workqueue := rest } = .ok env1 →
      (∃ fuel E, rta_run_loop depth p fuel env1 = .ok E) →
      ∃ fuel E, rta_run_loop depth p fuel env = .ok E := by
    intro env entity rest env1 hq h1 ⟨fuel, E, hE⟩
    refine ⟨fuel + 1, E, ?_⟩
    unfold rta_run_loop
    simp only [hq]
    rw [h1, bind_ok_eq]
    exact hE
  have empty : ∀ (env : analyzer_env), env.workqueue = [] →
      ∃ fuel E, rta_run_loop depth p fuel env = .ok E := by
    intro env hq
    refine ⟨0, env, ?_⟩
    unfold rta_run_loop
    simp only [hq]
    rfl
  intro u
  induction u with
  | zero =>
    intro q
    induction q with
    | zero =>
      intro env _ hq _
      exact empty env (List.length_eq_zero.1 (Nat.le_zero.1 hq))
    | succ q ihq =>
      intro env hu hq hJ
      cases hw : env.workqueue with
      | nil => exact empty env hw
      | cons entity rest =>
        obtain ⟨env1, h1, hJ1, hdec⟩ := key env entity rest hw hJ
        rcases hdec with ⟨hq1, hu1⟩ | hlt
        · refine step env entity rest env1 hw h1 (ihq env1 (by omega) ?_ hJ1)
          rw [hw] at hq
          rw [hq1]
          exact Nat.le_of_succ_le_succ hq
        · omega
  | succ u ihu =>
    intro q
    induction q with
    | zero =>
      intro env _ hq _
      exact empty env (List.length_eq_zero.1 (Nat.le_zero.1 hq))
    | succ q ihq =>
      intro env hu hq hJ
      cases hw : env.workqueue with
      | nil => exact empty env hw
      | cons entity rest =>
        obtain ⟨env1, h1, hJ1, hdec⟩ := key env entity rest hw hJ
        rcases hdec with ⟨hq1, hu1⟩ | hlt
        · refine step env entity rest env1 hw h1 (ihq env1 (by omega) ?_ hJ1)
          rw [hw] at hq
          rw [hq1]
          exact Nat.le_of_succ_le_succ hq
        · exact step env entity rest env1 hw h1
            (ihu env1.workqueue.length env1 (by omega) (Nat.le_refl _) hJ1)

theorem rta_run_start_total (depth : Nat) (p : ir_prog) (entry_points : List EntId)
    (initial_live_classes : Option (List ClassId)) (F : analyzer_env)
    (hS : run_safe depth p F)
    (hinit : ∀ K ∈ initial_live_classes.getD [], K ∈ F.live_classes)
    (hpre : (∀ e ∈ entry_points,
        is_method_entity p e = true ∧ (get_entity_irg p e).isSome = true)
      ∧ 0 < entry_points.length) :
    ∃ env1 env2, rta_run_entry_points p entry_points analyzer_env_init = .ok env1
      ∧ rta_run_initial_live_classes depth p initial_live_classes env1 = .ok env2 := by
  obtain ⟨env0, h0⟩ := (entry_points_loop_graphs p entry_points analyzer_env_init
    (fun e he => (hpre.1 e he).2)).2 (fun e he => (hpre.1 e he).1)
  have h1 : rta_run_entry_points p entry_points analyzer_env_init = .ok env0 := by
    unfold rta_run_entry_points
    rw [h0, bind_ok_eq, decide_eq_true hpre.2, assert_true]
    rfl
  refine ⟨env0, ?_⟩
  unfold rta_run_initial_live_classes
  cases initial_live_classes with
  | none => exact ⟨env0, h1, rfl⟩
  | some classes =>
    obtain ⟨env2, h2, _⟩ := foldlM_total _ (fun _ => True) classes
      (fun s x hx _ => by
        obtain ⟨t, t1, ht⟩ := hS.classes x (hinit x hx)
        obtain ⟨s1, hs1⟩ := cfes_total_of depth p x t t1 ht
          { s with live_classes := cpset_insert s.live_classes x }
        exact ⟨s1, hs1, trivial⟩)
      env0 trivial
    exact ⟨env2, h1, h2⟩

/-- A run from entry points of a program for which a run has returned returns
as well, when its entry points are entry points of that run. -/
theorem rta_run_total (fuel depth : Nat) (p : ir_prog) (entry_points entry_points2 : List EntId)
    (initial_live_classes : Option (List ClassId)) (F : analyzer_env)
    (h : rta_run fuel depth p entry_points initial_live_classes = .ok F)
    (hsub : ∀ e ∈ entry_points2, e ∈ entry_points) (hne : 0 < entry_points2.length) :
    ∃ fuel2 E, rta_run fuel2 depth p entry_points2 initial_live_classes = .ok E := by
  obtain ⟨hF, he⟩ := rta_run_closed fuel depth p entry_points initial_live_classes F h
  have hS := rta_run_safe fuel depth p entry_points initial_live_classes F h
  have hpre : (∀ e ∈ entry_points,
      is_method_entity p e = true ∧ (get_entity_irg p e).isSome = true)
      ∧ 0 < entry_points.length := by
    unfold rta_run at h
    simp only [bind_ok] at h
    obtain ⟨env1, h1, _⟩ := h
    exact rta_run_entry_points_pre p entry_points _ env1 h1
  obtain ⟨env1, env2, h1, h2⟩ := rta_run_start_total depth p entry_points2 initial_live_classes
    F hS hF.initial ⟨fun e he => hpre.1 e (hsub e he), hne⟩
  have hb := rta_run_start_below depth p entry_points2 initial_live_classes F hF
    (fun e he2 => he e (hsub e he2)) env1 env2 h1 h2
  obtain ⟨fuel2, E, hE⟩ := rta_run_loop_total depth p entry_points2 initial_live_classes F hF hS
    _ _ env2 (Nat.le_refl _) (Nat.le_refl _)
    ⟨rta_point.start env1 env2 h1 h2, handler_point.start env1 env2 h1 h2, hb⟩
  refine ⟨fuel2, E, ?_⟩
  unfold rta_run
  rw [h1, bind_ok_eq, h2, bind_ok_eq]
  exact hE

theorem same_analysis_of_below (F E : analyzer_env)
    (h1 : env_below F E ∧ ∀ c m, has_target E c m → has_target F c m)
    (h2 : env_below E F ∧ ∀ c m, has_target F c m → has_target E c m) : same_analysis F E :=
  ⟨fun K => ⟨h2.1.classes K, h1.1.classes K⟩, fun m => ⟨h2.1.methods m, h1.1.methods m⟩,
    fun c => ⟨h2.1.keys c, h1.1.keys c⟩, fun c m => ⟨h2.2 c m, h1.2 c m⟩⟩

/-- C32 (the result does not depend on the order of discovery): when `rta_run`
has returned the state `F` for a list of entry points, then for every
permutation of the list `rta_run` returns as well, given enough fuel, and
every state `E` that it returns has the same live classes, the same live
methods, the same keys of `dyncall_targets` and the same targets of every key
as `F`, as sets.  (A run that returns has a non-empty list of entry points that
are method entities with graphs.) -/
theorem analysis_order_independent (fuel depth : Nat) (p : ir_prog)
    (entry_points entry_points2 : List EntId) (initial_live_classes : Option (List ClassId))
    (F : analyzer_env) (hperm : entry_points2.Perm entry_points)
    (h : rta_run fuel depth p entry_points initial_live_classes = .ok F) :
    (entry_points ≠ []
        ∧ ∀ e ∈ entry_points, is_method_entity p e = true ∧ (get_entity_irg p e).isSome = true)
      ∧ (∃ fuel2 E, rta_run fuel2 depth p entry_points2 initial_live_classes = .ok E)
      ∧ ∀ fuel2 E, rta_run fuel2 depth p entry_points2 initial_live_classes = .ok E →
          (∀ K, K ∈ F.live_classes ↔ K ∈ E.live_classes)
            ∧ (∀ m, m ∈ F.live_methods ↔ m ∈ E.live_methods)
            ∧ (∀ c, (∃ ts, cpmap_find F.dyncall_targets c = some ts)
                ↔ ∃ ts, cpmap_find E.dyncall_targets c = some ts)
            ∧ (∀ c m, (∃ ts, cpmap_find F.dyncall_targets c = some ts ∧ m ∈ ts)
                ↔ ∃ ts, cpmap_find E.dyncall_targets c = some ts ∧ m ∈ ts) := by
  have hpre : (∀ e ∈ entry_points,
      is_method_entity p e = true ∧ (get_entity_irg p e).isSome = true)
      ∧ 0 < entry_points.length := by
    have h0 := h
    unfold rta_run at h0
    simp only [bind_ok] at h0
    obtain ⟨env1, h1, _⟩ := h0
    exact rta_run_entry_points_pre p entry_points _ env1 h1
  refine ⟨⟨List.length_pos.1 hpre.2, hpre.1⟩, ?_, ?_⟩
  · exact rta_run_total fuel depth p entry_points entry_points2 initial_live_classes F h
      (fun e he => hperm.mem_iff.1 he) (by rw [hperm.length_eq]; exact hpre.2)
  · intro fuel2 E hE
    obtain ⟨hF, heF⟩ := rta_run_closed fuel depth p entry_points initial_live_classes F h
    obtain ⟨hE1, heE⟩ := rta_run_closed fuel2 depth p entry_points2 initial_live_classes E hE
    have k1 := rta_run_below fuel2 depth p entry_points2 initial_live_classes F E hF
      (fun e he => heF e (hperm.mem_iff.1 he)) hE
    have k2 := rta_run_below fuel depth p entry_points initial_live_classes E F hE1
      (fun e he => heE e (hperm.mem_iff.2 he)) h
    exact same_analysis_of_below F E k1 k2

/-- The two entry points of `two_entry_prog` in both orders: the class is created
before the dynamic call is seen, or after it. -/
theorem analysis_order_independent_witness :
    List.Perm [1, 0] [0, 1]
      ∧ rta_run 5 5 two_entry_prog [0, 1] none
        = .ok
          { workqueue := [], done_set := [0, 1, 3], live_classes := [1],
            live_methods := [0, 1, 3], dyncall_targets := [(2, [3])],
            unused_targets := [(0, [(2, [2])])] }
      ∧ rta_run 5 5 two_entry_prog [1, 0] none
        = .ok
          { workqueue := [], done_set := [1, 0, 3], live_classes := [1],
            live_methods := [1, 0, 3], dyncall_targets := [(2, [3])],
            unused_targets := [(0, [(2, [2])])] }
      ∧ (∃ fuel2 E, rta_run fuel2 5 two_entry_prog [1, 0] none = .ok E)
      ∧ ∀ m, m ∈ ([0, 1, 3] : List Nat) ↔ m ∈ ([1, 0, 3] : List Nat) := by
  have k := analysis_order_independent 5 5 two_entry_prog [0, 1] [1, 0] none
    { workqueue := [], done_set := [0, 1, 3], live_classes := [1],
      live_methods := [0, 1, 3], dyncall_targets := [(2, [3])],
      unused_targets := [(0, [(2, [2])])] }
    (List.Perm.swap 0 1 []) rfl
  have k2 := (k.2.2 5
    { workqueue := [], done_set := [1, 0, 3], live_classes := [1],
      live_methods := [1, 0, 3], dyncall_targets := [(2, [3])],
      unused_targets := [(0, [(2, [2])])] } rfl).2.1
  exact ⟨List.Perm.swap 0 1 [], rfl, rfl, k.2.1, k2⟩

end Rta
